import Mathlib

/-! # rss-feed-to-csv: a verification development

Shallow embedding of `internal/middleware/ratelimit.go` (token-bucket rate
limiter, idle sweep, client identity derivation, the `Limit` middleware),
`internal/validator/validator.go` (`ValidateURL`, `SanitizeInput`),
`internal/errors/errors.go`, `internal/utils/sanitizer.go` (`StripHTML`),
`internal/models/rss.go` (`IsImage`, `GetImageURL`),
`internal/services/csv_exporter.go` (`Export`),
`internal/services/rss_fetcher.go` (`FetchRSS`) and
`internal/handlers/handlers.go` with the route of `cmd/server/main.go`
(`HandleExport` behind `Limit`), and theorems about them.

Modelling conventions.

* `time.Time` values are readings of the process's monotonic clock, counted in
  nanoseconds (`Int`); `time.Duration` is a number of nanoseconds (`Int`).
  Every `time.Now()` of the source becomes an explicit argument.  In
  `allowRequest`, `now.Sub(v.lastVisit)` is `Sub`: the difference as an int64,
  and the longest or shortest `time.Duration` when it does not fit.  In the
  sweep of the sequential model (`cleanupTick`) the difference is compared with
  the cleanup interval as it is; `Sub_gt_iff` shows that for two readings of the
  clock this is the comparison of the source.
* Go's `int` has 64 bits, as on every 64-bit platform: the sum
  `v.tokens += tokensToAdd` is wrapped into the range from `-2^63` to
  `2^63 - 1` (`wrapInt64`).  The rate of a limiter and the token counts are
  `Int`; the theorems that need them in the range of `int` say so.
* `int(elapsed.Seconds())` is computed as the source computes it, in float64:
  `float64(sec) + float64(nsec)/1e9` with the division and the sum rounded to
  53 significant bits, ties to even, then the fraction discarded
  (`wholeSeconds`).  A float64 that is not negative is kept as a natural number
  in units of `2^-82`.  The result is the number of whole seconds for every
  duration of less than `2^24` seconds (`wholeSeconds_of_nonneg`); from there on
  the rounding can reach the next second.
* `map[string]*visitor` is an association list with pairwise distinct keys; the
  order of the list stands for the (unspecified) iteration order of the map.
  Writing through the `*visitor` pointer is modelled by replacing the value
  stored under the key.
* Go strings are modelled by Lean strings (sequences of code points); indices
  are byte offsets, as in Go.
* In the namespaces other than `concurrent`, locks are not modelled and every
  operation is one atomic step.  The namespace `concurrent` cuts `getVisitor`,
  `allowRequest` and `cleanupVisitors` into one step for each lock operation and
  each access to shared memory, models `sync.Mutex` and `sync.RWMutex`, and
  takes a run to be an interleaving of the steps of the goroutines that call
  `Limit`, of the steps of the sweep goroutine and of advances of the clock.
* Calls that act on the outside (`next(w, r)`, the header fields and the status
  of `http.Error`, the response headers) are recorded as effects; the message
  that `http.Error` writes to the body goes to the response writer, which is an
  `io.Writer`.
* Bytes are natural numbers below 256.  An `io.Writer` is a state machine that
  keeps the contract of `io.Writer`; `bufio.Writer` (buffer of 4096 bytes) and
  `encoding/csv.Writer` (comma, `\n` line ends) are modelled after their Go
  implementation, with the calls made to the underlying writer kept in a log.
* Library functions whose code is not part of the repository are either
  modelled after their Go implementation (`html.UnescapeString`,
  `strings.TrimSpace`, the regular expressions, `url.Parse` of Go 1.21 in the
  namespace `url`, with the decoding of a text that holds `%` as an argument)
  or taken as an argument (the tables of named HTML entities, the HTTP client
  and the XML decoder of `FetchRSS`).  `ValidateURL` takes `url.Parse` as an
  argument, so that what does not depend on the parser is proved for every
  parser; claim C19 is proved for `url.Parse`.
-/

namespace middleware

/-! ## Definitions -/

/-- Go constant `time.Second`, in nanoseconds. -/
def Second : Int := 1000000000

/-- Go constant `time.Minute`, in nanoseconds. -/
def Minute : Int := 60 * Second

/-- Struct `visitor` of ratelimit.go (the mutex is not modelled): the token count
and the instant of the last refill. -/
structure visitor where
  tokens : Int
  lastVisit : Int
deriving DecidableEq, Repr

/-- Struct `RateLimiter` of ratelimit.go (the RWMutex is not modelled). -/
structure RateLimiter where
  visitors : List (String × visitor)
  rate : Int
  cleanup : Int
deriving DecidableEq, Repr

/-- Map read `rl.visitors[ip]`: the value stored under `ip`, if any. -/
def mapGet : List (String × visitor) → String → Option visitor
  | [], _ => none
  | (k, v) :: rest, ip => if k = ip then some v else mapGet rest ip

/-- Map write `rl.visitors[ip] = v` for a key that is not yet present. -/
def mapInsert (m : List (String × visitor)) (ip : String) (v : visitor) :
    List (String × visitor) :=
  (ip, v) :: m

/-- Write through the pointer stored under `ip`: the visitor under that key is
replaced, every other entry is untouched. -/
def mapStore (m : List (String × visitor)) (ip : String) (v : visitor) :
    List (String × visitor) :=
  m.map (fun e => if e.1 = ip then (e.1, v) else e)

/-- Go builtin `delete(rl.visitors, ip)`. -/
def mapDelete (m : List (String × visitor)) (ip : String) : List (String × visitor) :=
  m.filter (fun e => decide (e.1 ≠ ip))

/-- Keys of the map are pairwise distinct (a Go map holds one value per key). -/
def keysDistinct (m : List (String × visitor)) : Prop :=
  (m.map Prod.fst).Nodup

instance (m : List (String × visitor)) : Decidable (keysDistinct m) := by
  unfold keysDistinct; infer_instance

/-- Function `NewRateLimiter`: an empty visitor map, the given rate and a cleanup
interval of five minutes.  The sweep goroutine it starts is modelled separately,
by `cleanupVisitors` and, step by step, in the namespace `concurrent`. -/
def NewRateLimiter (ratePerMinute : Int) : RateLimiter :=
  { visitors := [], rate := ratePerMinute, cleanup := 5 * Minute }

/-- Method `getVisitor`: the visitor stored under `ip`, created with
`tokens = rl.rate` and `lastVisit = now` when absent (the second lookup is the
double check under the write lock). -/
def getVisitor (rl : RateLimiter) (ip : String) (now : Int) : visitor × RateLimiter :=
  match mapGet rl.visitors ip with
  | some v => (v, rl)
  | none =>
    match mapGet rl.visitors ip with
    | some v => (v, rl)
    | none =>
      let v : visitor := { tokens := rl.rate, lastVisit := now }
      (v, { rl with visitors := mapInsert rl.visitors ip v })

/-- Go's `int` on a 64-bit platform: the value of an integer expression, wrapped
into the range from `-2^63` to `2^63 - 1`. -/
def wrapInt64 (x : Int) : Int :=
  (x + 9223372036854775808) % 18446744073709551616 - 9223372036854775808

/-- Go constant `maxDuration` of package time, `1<<63 - 1` nanoseconds. -/
def maxDuration : Int := 9223372036854775807

/-- Go constant `minDuration` of package time, `-1 << 63` nanoseconds. -/
def minDuration : Int := -9223372036854775808

/-- Method `Time.Sub` on two readings of the monotonic clock: the difference as
an int64, and the longest or the shortest `time.Duration` when the difference
does not fit. -/
def Sub (t u : Int) : Int :=
  let d := wrapInt64 (t - u)
  if d < 0 ∧ t > u then maxDuration
  else if d > 0 ∧ t < u then minDuration
  else d

/-- One step of the search of `bitLog`: when `2 ^ k` fits, divide by it and count
`k` bits. -/
def bitLogStep (k : Nat) (p : Nat × Nat) : Nat × Nat :=
  if 2 ^ k ≤ p.1 then (p.1 / 2 ^ k, p.2 + k) else p

/-- The position of the highest bit of `n`, that is the `e` with
`2 ^ e ≤ n < 2 ^ (e + 1)`, for `0 < n < 2 ^ 256`; zero for `n = 0`. -/
def bitLog (n : Nat) : Nat :=
  (bitLogStep 1 (bitLogStep 2 (bitLogStep 4 (bitLogStep 8 (bitLogStep 16 (bitLogStep 32
    (bitLogStep 64 (bitLogStep 128 (n, 0))))))))).2

/-- The quotient `a / b` rounded to the nearest natural number, a tie going to
the even one (the rounding of IEEE 754 arithmetic). -/
def roundHalfEven (a b : Nat) : Nat :=
  if 2 * (a % b) < b then a / b
  else if b < 2 * (a % b) then a / b + 1
  else if (a / b) % 2 = 0 then a / b else a / b + 1

/-- A float64 that is not negative is kept as a natural number, in units of
`2 ^ -82`.  The float64 nearest to `n` units: `n` rounded to 53 significant
bits. -/
def round53 (n : Nat) : Nat :=
  roundHalfEven n (2 ^ (bitLog n - 52)) * 2 ^ (bitLog n - 52)

/-- Float64 division of the natural numbers `a` by `b` (both exact as float64):
the quotient rounded to 53 significant bits, in units of `2 ^ -82`.  The quotient
is zero or at least `2 ^ -30`, as it is for a number of nanoseconds divided by
`1e9`. -/
def float64Quot (a b : Nat) : Nat :=
  roundHalfEven (a * 2 ^ 82) (b * 2 ^ (bitLog (a * 2 ^ 82 / b) - 52))
    * 2 ^ (bitLog (a * 2 ^ 82 / b) - 52)

/-- Method `Duration.Seconds` on a duration of `d ≥ 0` nanoseconds, in units of
`2 ^ -82`: `sec := d / Second; nsec := d % Second;
return float64(sec) + float64(nsec)/1e9`.  Both conversions are exact (a
`time.Duration` has less than `2 ^ 34` seconds); the division and the addition
round. -/
def secondsMagnitude (d : Nat) : Nat :=
  round53 (d / 1000000000 * 2 ^ 82 + float64Quot (d % 1000000000) 1000000000)

/-- Go expression `int(elapsed.Seconds())`: the float64 number of seconds, with
its fraction discarded.  For a negative duration `sec` and `nsec` are negative
and every operation gives the negative of what it gives for `-elapsed`. -/
def wholeSeconds (elapsed : Int) : Int :=
  if 0 ≤ elapsed then ((secondsMagnitude elapsed.toNat / 2 ^ 82 : Nat) : Int)
  else -((secondsMagnitude (-elapsed).toNat / 2 ^ 82 : Nat) : Int)

/-- Lines 84-96 of `allowRequest`: the lazy refill at instant `now`.  The sum
`v.tokens += tokensToAdd` is taken in Go's `int`. -/
def refill (v : visitor) (now : Int) : visitor :=
  let elapsed := Sub now v.lastVisit
  let tokensToAdd := wholeSeconds elapsed
  if tokensToAdd > 0 then
    let tokens := wrapInt64 (v.tokens + tokensToAdd)
    { tokens := if tokens > 60 then 60 else tokens, lastVisit := now }
  else
    v

/-- Method `allowRequest` at instant `now`: the refill, then the admission
decision (`v.tokens--` is taken from a positive count and does not wrap).
Returns the verdict and the visitor as the call leaves it. -/
def allowRequest (v : visitor) (now : Int) : Bool × visitor :=
  let v1 := refill v now
  if v1.tokens > 0 then
    (true, { v1 with tokens := v1.tokens - 1 })
  else
    (false, v1)

/-- The admission check made by the `Limit` middleware for identity `ip`:
`getVisitor` (clock read `tGet`, used only when the bucket is created) followed
by `allowRequest` (clock read `tAllow`) on the visitor it returned. -/
def admissionCheck (rl : RateLimiter) (ip : String) (tGet tAllow : Int) : Bool × RateLimiter :=
  let (v, rl1) := getVisitor rl ip tGet
  let (ok, v1) := allowRequest v tAllow
  (ok, { rl1 with visitors := mapStore rl1.visitors ip v1 })

/-- A run of admission checks for one identity, one pair of clock reads per
check; returns the verdicts in order and the final limiter. -/
def checkRun (rl : RateLimiter) (ip : String) : List (Int × Int) → List Bool × RateLimiter
  | [] => ([], rl)
  | (tGet, tAllow) :: ts =>
    let (ok, rl1) := admissionCheck rl ip tGet tAllow
    let (oks, rl2) := checkRun rl1 ip ts
    (ok :: oks, rl2)

/-- A run of `allowRequest` calls on one bucket, one clock read per call. -/
def allowRun (v : visitor) : List Int → List Bool × visitor
  | [] => ([], v)
  | now :: ts =>
    let (ok, v1) := allowRequest v now
    let (oks, v2) := allowRun v1 ts
    (ok :: oks, v2)

/-- Body of the loop of `cleanupVisitors` for one tick at instant `now`: every
entry of the map is visited once and deleted when it has been idle for more than
`rl.cleanup`.  The difference `now - lastVisit` stands for `now.Sub(v.lastVisit)`:
for two readings of the clock and a cleanup interval below the longest
`time.Duration` the comparison is the same (`Sub_gt_iff`). -/
def cleanupTick (rl : RateLimiter) (now : Int) : RateLimiter :=
  { rl with
    visitors := rl.visitors.foldl
      (fun m e => if now - e.2.lastVisit > rl.cleanup then mapDelete m e.1 else m)
      rl.visitors }

/-- Method `cleanupVisitors`: one sweep per tick of the ticker. -/
def cleanupVisitors (rl : RateLimiter) (ticks : List Int) : RateLimiter :=
  ticks.foldl cleanupTick rl

/-- The parts of `*http.Request` read by `getClientIP`: the values returned by
`r.Header.Get("X-Forwarded-For")` and `r.Header.Get("X-Real-IP")` (the empty
string when the header is absent) and the field `r.RemoteAddr`. -/
structure Request where
  xForwardedFor : String
  xRealIP : String
  RemoteAddr : String
deriving DecidableEq, Repr

/-- Loop of `indexOf` from byte offset `i` on: the offset of the first rune equal
to `sep`, or `-1`. -/
def indexOfFrom (sep : Char) : List Char → Nat → Int
  | [], _ => -1
  | r :: rs, i => if r = sep then (i : Int) else indexOfFrom sep rs (i + r.utf8Size)

/-- Function `indexOf`: byte offset of the first occurrence of `sep` in `s`, or `-1`. -/
def indexOf (s : String) (sep : Char) : Int :=
  indexOfFrom sep s.data 0

/-- Loop of `lastIndexOf` from byte offset `i` on, `lastIdx` being the value of
the variable of that name so far. -/
def lastIndexOfFrom (sep : Char) : List Char → Nat → Int → Int
  | [], _, lastIdx => lastIdx
  | r :: rs, i, lastIdx =>
    lastIndexOfFrom sep rs (i + r.utf8Size) (if r = sep then (i : Int) else lastIdx)

/-- Function `lastIndexOf`: byte offset of the last occurrence of `sep` in `s`, or `-1`. -/
def lastIndexOf (s : String) (sep : Char) : Int :=
  lastIndexOfFrom sep s.data 0 (-1)

/-- The runes that lie wholly inside the first `n` bytes. -/
def takeBytes : List Char → Nat → List Char
  | [], _ => []
  | c :: cs, n => if n < c.utf8Size then [] else c :: takeBytes cs (n - c.utf8Size)

/-- Go slice expression `s[:idx]` for a byte offset `idx` (in `getClientIP` it is
always the offset at which a rune starts). -/
def sliceTo (s : String) (idx : Int) : String :=
  String.mk (takeBytes s.data idx.toNat)

/-- Length in bytes of the UTF-8 encoding of a sequence of runes (Go `len`). -/
def byteLen : List Char → Nat
  | [] => 0
  | c :: cs => c.utf8Size + byteLen cs

/-- Function `getClientIP`. -/
def getClientIP (r : Request) : String :=
  let ip := r.xForwardedFor
  if ip ≠ "" then
    let idx := indexOf ip ','
    if idx ≠ -1 then sliceTo ip idx else ip
  else
    let ip := r.xRealIP
    if ip ≠ "" then
      ip
    else
      let idx := lastIndexOf r.RemoteAddr ':'
      if idx ≠ -1 then sliceTo r.RemoteAddr idx else r.RemoteAddr

/-- The first comma-separated value of `s`: everything before the first comma,
all of `s` when it has none. -/
def firstCommaValue (s : String) : String :=
  String.mk (s.data.takeWhile (fun c => decide (c ≠ ',')))

/-- Removal of leading and trailing whitespace (space, tab, CR, LF). -/
def trimSpace (s : String) : String :=
  String.mk ((s.data.dropWhile Char.isWhitespace).reverse.dropWhile Char.isWhitespace).reverse

/-- The identity the specification derives from a forwarded-for header: its
first comma-separated value, trimmed. -/
def forwardedIdentitySpec (s : String) : String :=
  trimSpace (firstCommaValue s)

/-- What a call of the handler returned by `Limit` does to the outside: it
invokes the wrapped handler `next(w, r)`, or it answers through
`http.Error(w, msg, code)`. -/
inductive Effect where
  | next (r : Request)
  | httpError (msg : String) (code : Nat)
deriving DecidableEq, Repr

/-- Go constant `http.StatusTooManyRequests`. -/
def StatusTooManyRequests : Nat := 429

/-- Method `Limit`: the handler it returns, run on request `r`.  Returns the
effects of the call in order and the limiter as the call leaves it. -/
def Limit (rl : RateLimiter) (r : Request) (tGet tAllow : Int) : List Effect × RateLimiter :=
  let ip := getClientIP r
  let (v, rl1) := getVisitor rl ip tGet
  let (ok, v1) := allowRequest v tAllow
  let rl2 : RateLimiter := { rl1 with visitors := mapStore rl1.visitors ip v1 }
  if !ok then
    ([Effect.httpError "Rate limit exceeded. Please try again later." StatusTooManyRequests], rl2)
  else
    ([Effect.next r], rl2)

end middleware

namespace errors

/-- Struct `ValidationError` of errors.go. -/
structure ValidationError where
  Field : String
  Message : String
deriving DecidableEq, Repr

/-- The values of Go's `error` interface met in this program: a sentinel of
errors.go made by `errors.New(msg)`, a `*ValidationError`, a `*FetchError` (struct
`FetchError` of errors.go: `URL`, `StatusCode`, `Err`), the value of
`fmt.Errorf(text + "%w", err)`, and an error made outside the repository (by the
network, the XML decoder or the writer of the response) with its message. -/
inductive GoError where
  | sentinel (msg : String)
  | validation (e : ValidationError)
  | fetch (URL : String) (StatusCode : Int) (Err : GoError)
  | wrapped (text : String) (err : GoError)
  | external (msg : String)
deriving DecidableEq, Repr

/-- Variable `ErrEmptyURL`. -/
def ErrEmptyURL : GoError := GoError.sentinel "URL cannot be empty"

/-- Variable `ErrInvalidURL`. -/
def ErrInvalidURL : GoError := GoError.sentinel "invalid URL format"

/-- Variable `ErrNoRSSItems`. -/
def ErrNoRSSItems : GoError := GoError.sentinel "no items found in RSS feed"

/-- Method `Error()` of the error values: the text of a sentinel, the `Sprintf`
formats of `ValidationError.Error` and `FetchError.Error`, and for
`fmt.Errorf(text + "%w", err)` the text followed by the message of `err`. -/
def GoError.Error : GoError → String
  | GoError.sentinel msg => msg
  | GoError.validation e => "validation error on field \x27" ++ e.Field ++ "\x27: " ++ e.Message
  | GoError.fetch URL StatusCode Err =>
    if StatusCode > 0 then
      "failed to fetch RSS from " ++ URL ++ " (status: " ++ toString StatusCode ++ "): " ++ Err.Error
    else
      "failed to fetch RSS from " ++ URL ++ ": " ++ Err.Error
  | GoError.wrapped text err => text ++ err.Error
  | GoError.external msg => msg

end errors

namespace validator

/-- The fields of `url.URL` that `ValidateURL` reads. -/
structure URL where
  Scheme : String
  Host : String
deriving DecidableEq, Repr

/-- Struct `URLValidator` of validator.go. -/
structure URLValidator where
  allowedSchemes : List (String × Bool)
  maxURLLength : Int
deriving DecidableEq, Repr

/-- Function `NewURLValidator`. -/
def NewURLValidator (maxURLLength : Int) : URLValidator :=
  { allowedSchemes := [("http", true), ("https", true)], maxURLLength := maxURLLength }

/-- Map read `v.allowedSchemes[scheme]` on a `map[string]bool`: `false` for a
missing key. -/
def schemeAllowed (m : List (String × Bool)) (scheme : String) : Bool :=
  match m with
  | [] => false
  | (k, b) :: rest => if k = scheme then b else schemeAllowed rest scheme

/-- Method `ValidateURL`; `none` is the `nil` error.  The library function
`url.Parse` is the argument `Parse` (`none` when it returns an error; the model
of Go's function is `url.Parse` below), so that what does not depend on the
parser holds for every parser; `len(rawURL)` is the length in bytes. -/
def ValidateURL (Parse : String → Option URL) (v : URLValidator) (rawURL : String) :
    Option errors.GoError :=
  if rawURL = "" then
    some errors.ErrEmptyURL
  else if (rawURL.utf8ByteSize : Int) > v.maxURLLength then
    some (errors.GoError.validation { Field := "url", Message := "URL is too long" })
  else
    match Parse rawURL with
    | none =>
      some (errors.GoError.validation { Field := "url", Message := "invalid URL format" })
    | some parsedURL =>
      if !(schemeAllowed v.allowedSchemes parsedURL.Scheme) then
        some (errors.GoError.validation
          { Field := "url", Message := "URL scheme must be http or https" })
      else if parsedURL.Host = "" then
        some (errors.GoError.validation { Field := "url", Message := "URL must have a host" })
      else
        none

end validator

namespace url

/-! ## The URL parser: `url.Parse` of Go's package net/url -/

/-- The escaping modes of net/url that `Parse` uses. -/
inductive encoding where
  | encodePath
  | encodeHost
  | encodeZone
  | encodeUserPassword
  | encodeFragment
deriving DecidableEq, Repr

/-- Function `stringContainsCTLByte`: a byte below 0x20 or the byte 0x7f (every
byte of a rune that is not ASCII is 0x80 or more). -/
def stringContainsCTLByte (s : List Char) : Bool :=
  s.any fun b => decide (b.toNat < 0x20 ∨ b.toNat = 0x7f)

/-- Function `strings.Cut` with a separator of one ASCII byte: the text before
the first separator, the text after it, and whether it was found. -/
def Cut (s : List Char) (sep : Char) : List Char × List Char × Bool :=
  match s.dropWhile (fun c => decide (c ≠ sep)) with
  | [] => (s, [], false)
  | _ :: after => (s.takeWhile (fun c => decide (c ≠ sep)), after, true)

/-- Function `strings.Index` with a separator of one ASCII byte, as an index into
the list of runes; `none` for `-1`. -/
def Index (s : List Char) (sep : Char) : Option Nat :=
  if sep ∈ s then some (s.takeWhile (fun c => decide (c ≠ sep))).length else none

/-- Function `strings.LastIndex` with a separator of one ASCII byte, as an index
into the list of runes; `none` for `-1`. -/
def LastIndex (s : List Char) (sep : Char) : Option Nat :=
  if sep ∈ s then
    some (s.length - 1 - (s.reverse.takeWhile (fun c => decide (c ≠ sep))).length)
  else none

/-- Function `strings.Index` for the separator "%25". -/
def IndexPercent25 : List Char → Option Nat
  | [] => none
  | c :: cs =>
    if c = '%' ∧ cs.take 2 = ['2', '5'] then some 0
    else (IndexPercent25 cs).map (· + 1)

/-- The loop of `getScheme` from index `i` on: `none` for the error "missing
protocol scheme", else the scheme and the rest. -/
def getSchemeLoop (rawURL : List Char) : List Char → Nat → Option (List Char × List Char)
  | [], _ => some ([], rawURL)
  | c :: cs, i =>
    if ('a' ≤ c ∧ c ≤ 'z') ∨ ('A' ≤ c ∧ c ≤ 'Z') then
      getSchemeLoop rawURL cs (i + 1)
    else if ('0' ≤ c ∧ c ≤ '9') ∨ c = '+' ∨ c = '-' ∨ c = '.' then
      if i = 0 then some ([], rawURL) else getSchemeLoop rawURL cs (i + 1)
    else if c = ':' then
      if i = 0 then none else some (rawURL.take i, cs)
    else
      some ([], rawURL)

/-- Function `getScheme`. -/
def getScheme (rawURL : List Char) : Option (List Char × List Char) :=
  getSchemeLoop rawURL rawURL 0

/-- Function `ishex`. -/
def ishex (c : Char) : Bool :=
  ('0' ≤ c ∧ c ≤ '9') ∨ ('a' ≤ c ∧ c ≤ 'f') ∨ ('A' ≤ c ∧ c ≤ 'F')

/-- Function `unhex`. -/
def unhex (c : Char) : Nat :=
  if '0' ≤ c ∧ c ≤ '9' then c.toNat - '0'.toNat
  else if 'a' ≤ c ∧ c ≤ 'f' then c.toNat - 'a'.toNat + 10
  else if 'A' ≤ c ∧ c ≤ 'F' then c.toNat - 'A'.toNat + 10
  else 0

/-- Function `shouldEscape(c, encodeHost)`, the one mode in which `unescape`
calls it: letters, digits, the runes that a host may hold and the unreserved
marks need no escape; everything else does. -/
def shouldEscapeHost (c : Char) : Bool :=
  if ('a' ≤ c ∧ c ≤ 'z') ∨ ('A' ≤ c ∧ c ≤ 'Z') ∨ ('0' ≤ c ∧ c ≤ '9') then false
  else if c ∈ ['!', '$', '&', Char.ofNat 39, '(', ')', '*', '+', ',', ';', '=', ':', '[', ']',
      '<', '>', '"'] then false
  else if c ∈ ['-', '_', '.', '~'] then false
  else true

/-- The first loop of `unescape(s, mode)`, which checks the text: `false` when
`unescape` returns an error. -/
def unescapeOk (mode : encoding) : List Char → Bool
  | [] => true
  | c :: rest =>
    if c = '%' then
      match rest with
      | h1 :: h2 :: rest2 =>
        if !(ishex h1 && ishex h2) then false
        else if mode = encoding.encodeHost ∧ unhex h1 < 8 ∧ ¬ (h1 = '2' ∧ h2 = '5') then false
        else if mode = encoding.encodeZone ∧ ¬ (h1 = '2' ∧ h2 = '5') ∧
            unhex h1 * 16 + unhex h2 ≠ 32 ∧
            shouldEscapeHost (Char.ofNat (unhex h1 * 16 + unhex h2)) then false
        else unescapeOk mode rest2
      | _ => false
    else if (mode = encoding.encodeHost ∨ mode = encoding.encodeZone) ∧ c.toNat < 0x80 ∧
        shouldEscapeHost c then false
    else unescapeOk mode rest

/-- Function `unescape(s, mode)` for the modes of `Parse`; `none` is an error.  A
text without `%` is returned as it is; the decoding of a text with `%` is the
argument `decode`. -/
def unescape (decode : List Char → List Char) (s : List Char) (mode : encoding) :
    Option (List Char) :=
  if unescapeOk mode s then some (if '%' ∈ s then decode s else s) else none

/-- Function `validOptionalPort`. -/
def validOptionalPort (port : List Char) : Bool :=
  match port with
  | [] => true
  | c :: digits => c = ':' && digits.all fun b => decide ('0' ≤ b ∧ b ≤ '9')

/-- Function `validUserinfo`. -/
def validUserinfo (s : List Char) : Bool :=
  s.all fun r =>
    decide (('A' ≤ r ∧ r ≤ 'Z') ∨ ('a' ≤ r ∧ r ≤ 'z') ∨ ('0' ≤ r ∧ r ≤ '9') ∨
      r ∈ ['-', '.', '_', ':', '~', '!', '$', '&', Char.ofNat 39, '(', ')', '*', '+', ',', ';',
        '=', '%', '@'])

/-- Function `parseHost`; `none` is an error. -/
def parseHost (decode : List Char → List Char) (host : List Char) : Option (List Char) :=
  if host.head? = some '[' then
    match LastIndex host ']' with
    | none => none
    | some i =>
      if !validOptionalPort (host.drop (i + 1)) then none
      else
        match IndexPercent25 (host.take i) with
        | some zone =>
          (unescape decode (host.take zone) encoding.encodeHost).bind fun host1 =>
            (unescape decode ((host.take i).drop zone) encoding.encodeZone).bind fun host2 =>
              (unescape decode (host.drop i) encoding.encodeHost).bind fun host3 =>
                some (host1 ++ host2 ++ host3)
        | none => unescape decode host encoding.encodeHost
  else
    match LastIndex host ':' with
    | some i =>
      if !validOptionalPort (host.drop i) then none
      else unescape decode host encoding.encodeHost
    | none => unescape decode host encoding.encodeHost

/-- Function `parseAuthority`: the host; `none` is an error.  The user
information is checked and decoded, and not kept. -/
def parseAuthority (decode : List Char → List Char) (authority : List Char) :
    Option (List Char) :=
  match LastIndex authority '@' with
  | none => parseHost decode authority
  | some i =>
    (parseHost decode (authority.drop (i + 1))).bind fun host =>
      let userinfo := authority.take i
      if !validUserinfo userinfo then none
      else if ':' ∉ userinfo then
        (unescape decode userinfo encoding.encodeUserPassword).bind fun _ => some host
      else
        (unescape decode (Cut userinfo ':').1 encoding.encodeUserPassword).bind fun _ =>
          (unescape decode (Cut userinfo ':').2.1 encoding.encodeUserPassword).bind fun _ =>
            some host

/-- Function `parse(rawURL, false)`: the fields `Scheme` and `Host` of the URL;
`none` is an error. -/
def parse (decode : List Char → List Char) (rawURL : List Char) : Option validator.URL :=
  if stringContainsCTLByte rawURL then none
  else if rawURL = ['*'] then some { Scheme := "", Host := "" }
  else
    match getScheme rawURL with
    | none => none
    | some (scheme0, rest0) =>
      let scheme := scheme0.map Char.toLower
      let rest :=
        if rest0.getLast? = some '?' ∧ rest0.count '?' = 1 then rest0.dropLast
        else (Cut rest0 '?').1
      if rest.head? ≠ some '/' ∧ scheme ≠ [] then
        some { Scheme := String.mk scheme, Host := "" }
      else if rest.head? ≠ some '/' ∧ ':' ∈ (Cut rest '/').1 then
        none
      else if (scheme ≠ [] ∨ rest.take 3 ≠ ['/', '/', '/']) ∧ rest.take 2 = ['/', '/'] then
        let authority := rest.drop 2
        let split :=
          match Index authority '/' with
          | some i => (authority.take i, authority.drop i)
          | none => (authority, [])
        match parseAuthority decode split.1 with
        | none => none
        | some host =>
          match unescape decode split.2 encoding.encodePath with
          | none => none
          | some _ => some { Scheme := String.mk scheme, Host := String.mk host }
      else
        match unescape decode rest encoding.encodePath with
        | none => none
        | some _ => some { Scheme := String.mk scheme, Host := "" }

/-- Function `url.Parse`: the fields `Scheme` and `Host` of the URL; `none` is an
error. -/
def Parse (decode : List Char → List Char) (rawURL : String) : Option validator.URL :=
  match parse decode (Cut rawURL.data '#').1 with
  | none => none
  | some u =>
    if (Cut rawURL.data '#').2.1 = [] then some u
    else
      match unescape decode (Cut rawURL.data '#').2.1 encoding.encodeFragment with
      | none => none
      | some _ => some u

end url

/-! ## The sanitizer: `internal/utils/sanitizer.go`

`StripHTML` is a composition of library calls.  They are modelled as follows.

* `html.UnescapeString` follows the algorithm of Go's `html` package; its two
  tables of named entities (`entity`, `entity2`, some 2200 names) are an argument
  of the model, so that every theorem holds for Go's tables.
* A compiled `*regexp.Regexp` is represented by its matcher: for each of the six
  expressions of `NewHTMLSanitizer`, the function that returns, for a text, what
  follows the leftmost-first match starting at its first rune.  `(?i)` matches a
  letter with the runes of its case-folding orbit, which for `s` includes the
  long s (U+017F).
* `strings.TrimSpace` trims the runes of `unicode.IsSpace`.
-/

namespace html

/-- Go's maps `entity` (names decoding to one rune) and `entity2` (names decoding
to two runes); a name carries its final semicolon when it has one. -/
structure EntityTables where
  entity : String → Option Char
  entity2 : String → Option (Char × Char)

/-- A table with the entries of Go's `entity` map for the five predefined XML
entities; the concrete table of the evaluations below. -/
def xmlEntities : EntityTables where
  entity := fun name =>
    if name = "amp;" ∨ name = "amp" then some '&'
    else if name = "lt;" ∨ name = "lt" then some '<'
    else if name = "gt;" ∨ name = "gt" then some '>'
    else if name = "quot;" ∨ name = "quot" then some '"'
    else if name = "apos;" then some (Char.ofNat 39)
    else none
  entity2 := fun _ => none

/-- Go variable `replacementTable`: the runes for the numeric references 0x80 to
0x9F (Windows-1252). -/
def replacementTable : List Nat :=
  [0x20AC, 0x0081, 0x201A, 0x0192, 0x201E, 0x2026, 0x2020, 0x2021,
   0x02C6, 0x2030, 0x0160, 0x2039, 0x0152, 0x008D, 0x017D, 0x008F,
   0x0090, 0x2018, 0x2019, 0x201C, 0x201D, 0x2022, 0x2013, 0x2014,
   0x02DC, 0x2122, 0x0161, 0x203A, 0x0153, 0x009D, 0x017E, 0x0178]

/-- Go constant `longestEntityWithoutSemicolon`. -/
def longestEntityWithoutSemicolon : Nat := 6

/-- Arithmetic on Go's `rune` (int32) wraps around. -/
def wrapInt32 (x : Int) : Int :=
  (x + 2147483648) % 4294967296 - 2147483648

/-- The rune that `utf8.EncodeRune` writes for `x`: `x` itself when it is a valid
code point, U+FFFD otherwise. -/
def encodeRune (x : Int) : Char :=
  if 0 ≤ x ∧ (x < 0xD800 ∨ (0xDFFF < x ∧ x ≤ 0x10FFFF)) then Char.ofNat x.toNat
  else Char.ofNat 0xFFFD

/-- The loop of `unescapeEntity` over the digits of a numeric reference: `x` is
the value so far, `i` the index of the next byte; a final semicolon is consumed. -/
def numLoop (hex : Bool) : List Char → Int → Nat → Int × Nat
  | [], x, i => (x, i)
  | c :: cs, x, i =>
    if hex then
      if '0' ≤ c ∧ c ≤ '9' then
        numLoop hex cs (wrapInt32 (16 * x + (c.toNat : Int) - ('0'.toNat : Int))) (i + 1)
      else if 'a' ≤ c ∧ c ≤ 'f' then
        numLoop hex cs (wrapInt32 (16 * x + (c.toNat : Int) - ('a'.toNat : Int) + 10)) (i + 1)
      else if 'A' ≤ c ∧ c ≤ 'F' then
        numLoop hex cs (wrapInt32 (16 * x + (c.toNat : Int) - ('A'.toNat : Int) + 10)) (i + 1)
      else
        (x, if c = ';' then i + 1 else i)
    else if '0' ≤ c ∧ c ≤ '9' then
      numLoop hex cs (wrapInt32 (10 * x + (c.toNat : Int) - ('0'.toNat : Int))) (i + 1)
    else
      (x, if c = ';' then i + 1 else i)

/-- The loop of `unescapeEntity` over the letters and digits of a named
reference, from index `i` on; a final semicolon is consumed. -/
def nameLoop : List Char → Nat → Nat
  | [], i => i
  | c :: cs, i =>
    if c.isAlphanum then nameLoop cs (i + 1)
    else if c = ';' then i + 1
    else i

/-- The loop `for j := maxLen; j > 1; j--` of `unescapeEntity`: the longest
initial part of the name, of at most `j` bytes, that is an entity without
semicolon, with the number of bytes it consumes. -/
def legacyLoop (T : EntityTables) (entityName : List Char) : Nat → Option (Char × Nat)
  | 0 => none
  | j + 1 =>
    if j + 1 > 1 then
      match T.entity (String.mk (entityName.take (j + 1))) with
      | some x => some (x, j + 2)
      | none => legacyLoop T entityName j
    else
      none

/-- Go function `unescapeEntity` on the text `s` that starts with the ampersand:
the runes written and the number of runes of `s` consumed (all ASCII). -/
def unescapeEntity (T : EntityTables) (s : List Char) : List Char × Nat :=
  if middleware.byteLen s ≤ 1 then
    (s.take 1, 1)
  else if s.tail.head? = some '#' then
    if middleware.byteLen s ≤ 3 then
      (s.take 1, 1)
    else
      let hex : Bool := s.tail.tail.head? = some 'x' ∨ s.tail.tail.head? = some 'X'
      let res := numLoop hex (if hex then s.drop 3 else s.drop 2) 0 (if hex then 3 else 2)
      let x := res.1
      let i := res.2
      if i ≤ 3 then
        (s.take 1, 1)
      else if 0x80 ≤ x ∧ x ≤ 0x9F then
        ([Char.ofNat (replacementTable.getD (x - 0x80).toNat 0)], i)
      else if x = 0 ∨ (0xD800 ≤ x ∧ x ≤ 0xDFFF) ∨ x > 0x10FFFF then
        ([Char.ofNat 0xFFFD], i)
      else
        ([encodeRune x], i)
  else
    let i := nameLoop s.tail 1
    let entityName := (s.take i).drop 1
    if entityName.length = 0 then
      (s.take i, i)
    else
      match T.entity (String.mk entityName) with
      | some x => ([x], i)
      | none =>
        match T.entity2 (String.mk entityName) with
        | some (x0, x1) => ([x0, x1], i)
        | none =>
          match legacyLoop T entityName
              (min (entityName.length - 1) longestEntityWithoutSemicolon) with
          | some (x, n) => ([x], n)
          | none => (s.take i, i)

/-- The loop of `UnescapeString`: text outside entities is copied, an ampersand
starts `unescapeEntity`.  The first argument counts the runes still to skip,
those consumed by the entity decoded last. -/
def unescapeLoop (T : EntityTables) : Nat → List Char → List Char
  | _, [] => []
  | k + 1, _ :: cs => unescapeLoop T k cs
  | 0, c :: cs =>
    if c = '&' then
      (unescapeEntity T (c :: cs)).1 ++ unescapeLoop T ((unescapeEntity T (c :: cs)).2 - 1) cs
    else
      c :: unescapeLoop T 0 cs

/-- Go function `html.UnescapeString`. -/
def UnescapeString (T : EntityTables) (s : String) : String :=
  String.mk (unescapeLoop T 0 s.data)

end html

namespace unicode

/-- Go function `unicode.IsSpace`: the runes with the property White_Space. -/
def IsSpace (c : Char) : Bool :=
  let n := c.toNat
  (9 ≤ n && n ≤ 13) || n = 32 || n = 0x85 || n = 0xA0 || n = 0x1680 ||
    (0x2000 ≤ n && n ≤ 0x200A) || n = 0x2028 || n = 0x2029 || n = 0x202F ||
    n = 0x205F || n = 0x3000

end unicode

namespace strings

/-- Go function `strings.TrimSpace`: the text without its leading and trailing
white space. -/
def TrimSpace (s : String) : String :=
  String.mk (List.rdropWhile unicode.IsSpace (s.data.dropWhile unicode.IsSpace))

end strings

namespace regexp

/-- A compiled regular expression, given by its matcher: `matchAt l` is what
follows, in `l`, the leftmost-first match that starts at the first rune of `l`,
and `none` when no match starts there.  No expression of this program matches
the empty text. -/
structure Regexp where
  matchAt : List Char → Option (List Char)

/-- The scan of `ReplaceAllString`: at each rune the expression is tried; a match
is replaced by `repl` and the scan resumes after it, otherwise the rune is
copied.  The first argument counts the runes of the last match still to skip. -/
def replaceLoop (re : Regexp) (repl : List Char) : Nat → List Char → List Char
  | _, [] => []
  | k + 1, _ :: cs => replaceLoop re repl k cs
  | 0, c :: cs =>
    match re.matchAt (c :: cs) with
    | some rest => repl ++ replaceLoop re repl ((c :: cs).length - rest.length - 1) cs
    | none => c :: replaceLoop re repl 0 cs

/-- Method `ReplaceAllString` (no replacement text of this program contains `$`). -/
def ReplaceAllString (re : Regexp) (src repl : String) : String :=
  String.mk (replaceLoop re repl.data 0 src.data)

/-- Under `(?i)` the pattern rune `p` (ASCII) matches `c`: the two runes are in
the same case-folding orbit. -/
def foldEq (p c : Char) : Bool :=
  c = p || c = p.toUpper || c = p.toLower ||
    ((p = 's' || p = 'S') && c = Char.ofNat 0x17F) ||
    ((p = 'k' || p = 'K') && c = Char.ofNat 0x212A)

/-- A literal under `(?i)`: the rest of the text after it. -/
def litFold : List Char → List Char → Option (List Char)
  | [], l => some l
  | _ :: _, [] => none
  | p :: ps, c :: cs => if foldEq p c then litFold ps cs else none

/-- Expression `[^>]*>`: the rest of the text after its first `>`. -/
def afterGt : List Char → Option (List Char)
  | [] => none
  | c :: cs => if c = '>' then some cs else afterGt cs

/-- Expression `[\s\S]*?` followed by a literal under `(?i)`: the rest of the text
after the first occurrence of the literal. -/
def afterLit (pat : List Char) : List Char → Option (List Char)
  | [] => litFold pat []
  | c :: cs =>
    match litFold pat (c :: cs) with
    | some rest => some rest
    | none => afterLit pat cs

/-- Class `\s` of Go's regexp: tab, newline, form feed, carriage return, space. -/
def perlSpace (c : Char) : Bool :=
  c = '\t' || c = '\n' || c = Char.ofNat 12 || c = '\r' || c = ' '

/-- Expression `h[1-6]` under `(?i)`. -/
def litHeading (l : List Char) : Option (List Char) :=
  match litFold ['h'] l with
  | some (c :: cs) => if '1' ≤ c ∧ c ≤ '6' then some cs else none
  | _ => none

/-- The alternatives of `(p|div|h[1-6]|ul|ol|li)` under `(?i)`, in order. -/
def blockNames : List (List Char → Option (List Char)) :=
  [litFold ['p'], litFold ['d', 'i', 'v'], litHeading, litFold ['u', 'l'],
    litFold ['o', 'l'], litFold ['l', 'i']]

/-- Expression `(p|div|h[1-6]|ul|ol|li)[^>]*>` under `(?i)`: the alternatives are
tried in order, each followed by the rest of the expression. -/
def blockNameThenGt (l : List Char) : Option (List Char) :=
  blockNames.findSome? (fun alt => (alt l).bind afterGt)

/-- Every match of the expression starts with the rune `ch`. -/
def StartsWith (re : Regexp) (ch : Char) : Prop :=
  ∀ (c : Char) (cs : List Char), c ≠ ch → re.matchAt (c :: cs) = none

/-- The expression matches at no rune of the segment `seg`, whatever follows it. -/
def FailsAlong (re : Regexp) : List Char → Prop
  | [] => True
  | c :: cs => (∀ rest, re.matchAt (c :: (cs ++ rest)) = none) ∧ FailsAlong re cs

end regexp

namespace utils

/-- Struct `HTMLSanitizer` of sanitizer.go. -/
structure HTMLSanitizer where
  scriptRegex : regexp.Regexp
  styleRegex : regexp.Regexp
  brRegex : regexp.Regexp
  blockRegex : regexp.Regexp
  tagRegex : regexp.Regexp
  multiLineRegex : regexp.Regexp

/-- Function `NewHTMLSanitizer`; each field is the matcher of the expression
quoted in its comment. -/
def NewHTMLSanitizer : HTMLSanitizer where
  -- (?i)<script[^>]*>[\s\S]*?</script>
  scriptRegex :=
    { matchAt := fun l =>
        (regexp.litFold ['<', 's', 'c', 'r', 'i', 'p', 't'] l).bind fun r =>
          (regexp.afterGt r).bind
            (regexp.afterLit ['<', '/', 's', 'c', 'r', 'i', 'p', 't', '>']) }
  -- (?i)<style[^>]*>[\s\S]*?</style>
  styleRegex :=
    { matchAt := fun l =>
        (regexp.litFold ['<', 's', 't', 'y', 'l', 'e'] l).bind fun r =>
          (regexp.afterGt r).bind (regexp.afterLit ['<', '/', 's', 't', 'y', 'l', 'e', '>']) }
  -- (?i)<br\s*/?>
  brRegex :=
    { matchAt := fun l =>
        (regexp.litFold ['<', 'b', 'r'] l).bind fun r =>
          match r.dropWhile regexp.perlSpace with
          | '/' :: '>' :: rest => some rest
          | '>' :: rest => some rest
          | _ => none }
  -- (?i)</?(p|div|h[1-6]|ul|ol|li)[^>]*>
  blockRegex :=
    { matchAt := fun l =>
        match l with
        | '<' :: '/' :: r =>
          (regexp.blockNameThenGt r).orElse fun _ => regexp.blockNameThenGt ('/' :: r)
        | '<' :: r => regexp.blockNameThenGt r
        | _ => none }
  -- <[^>]+>
  tagRegex :=
    { matchAt := fun l =>
        match l with
        | '<' :: c :: cs => if c = '>' then none else regexp.afterGt (c :: cs)
        | _ => none }
  -- \n{3,}
  multiLineRegex :=
    { matchAt := fun l =>
        match l with
        | '\n' :: '\n' :: '\n' :: cs => some (cs.dropWhile (fun c => c = '\n'))
        | _ => none }

/-- Method `StripHTML`. -/
def StripHTML (T : html.EntityTables) (s : HTMLSanitizer) (htmlStr : String) : String :=
  if htmlStr = "" then
    ""
  else
    let htmlStr := html.UnescapeString T htmlStr
    let htmlStr := regexp.ReplaceAllString s.scriptRegex htmlStr ""
    let htmlStr := regexp.ReplaceAllString s.styleRegex htmlStr ""
    let htmlStr := regexp.ReplaceAllString s.brRegex htmlStr "\n"
    let htmlStr := regexp.ReplaceAllString s.blockRegex htmlStr "\n"
    let htmlStr := regexp.ReplaceAllString s.tagRegex htmlStr ""
    let htmlStr := regexp.ReplaceAllString s.multiLineRegex htmlStr "\n\n"
    let htmlStr := strings.TrimSpace htmlStr
    htmlStr

/-- The stages of `StripHTML` after the entity decoding, on the decoded text. -/
def afterUnescape (s : HTMLSanitizer) (l : List Char) : List Char :=
  List.rdropWhile unicode.IsSpace (List.dropWhile unicode.IsSpace
    (regexp.replaceLoop s.multiLineRegex ['\n', '\n'] 0
      (regexp.replaceLoop s.tagRegex [] 0
        (regexp.replaceLoop s.blockRegex ['\n'] 0
          (regexp.replaceLoop s.brRegex ['\n'] 0
            (regexp.replaceLoop s.styleRegex [] 0
              (regexp.replaceLoop s.scriptRegex [] 0 l)))))))

/-- The text holds a tag: a `<`, then one or more runes other than `>`, then a `>`. -/
def HasTag (l : List Char) : Prop :=
  ∃ pre mid post : List Char, l = pre ++ '<' :: (mid ++ '>' :: post) ∧ mid ≠ [] ∧ '>' ∉ mid

/-- No `<` of the text opens a tag: it is followed at once by `>`, or by no `>`
at all. -/
def TagFree (l : List Char) : Prop :=
  ∀ pre rest : List Char, l = pre ++ '<' :: rest → rest.head? = some '>' ∨ '>' ∉ rest

/-- A text free of `<`, `>`, `&` and white space. -/
def PlainWord (l : List Char) : Prop :=
  ∀ c ∈ l, c ≠ '<' ∧ c ≠ '>' ∧ c ≠ '&' ∧ unicode.IsSpace c = false

instance (l : List Char) : Decidable (PlainWord l) := by
  unfold PlainWord; infer_instance

/-- The spellings of the line-break element: `<br>`, `<br/>` and `<br />` in
every letter case. -/
def brSpellings : List String :=
  ["<br>", "<bR>", "<Br>", "<BR>", "<br/>", "<bR/>", "<Br/>", "<BR/>",
   "<br />", "<bR />", "<Br />", "<BR />"]

/-- The tag names that claim C15 sets apart, in lower case. -/
def namedTags : List String :=
  ["p", "div", "h1", "h2", "h3", "h4", "h5", "h6", "ul", "ol", "li", "br", "script", "style"]

/-- The text holds three consecutive newlines. -/
def HasTripleNewline (l : List Char) : Prop :=
  ∃ pre post : List Char, l = pre ++ '\n' :: '\n' :: '\n' :: post

end utils

namespace validator

/-- The expression `<[^>]*>` that `SanitizeInput` compiles, by its matcher. -/
def inputTagExpr : regexp.Regexp :=
  { matchAt := fun l =>
      match l with
      | '<' :: r => regexp.afterGt r
      | _ => none }

/-- Method `SanitizeInput`. -/
def SanitizeInput (_v : URLValidator) (input : String) : String :=
  let re := inputTagExpr
  let sanitized := regexp.ReplaceAllString re input ""
  let sanitized := strings.TrimSpace sanitized
  sanitized

/-- No `<` of the text is followed, anywhere later, by a `>`. -/
def NoTagOpen (l : List Char) : Prop :=
  ∀ pre rest : List Char, l = pre ++ '<' :: rest → '>' ∉ rest

/-- The text `t1 <b1> t2 <b2> ... tn <bn> last` built from the pieces `(ti, bi)`. -/
def withTags : List (List Char × List Char) → List Char → List Char
  | [], last => last
  | (t, b) :: rest, last => t ++ '<' :: (b ++ '>' :: withTags rest last)

/-- The text `t1 t2 ... tn last` of the pieces `(ti, bi)`. -/
def textBetween : List (List Char × List Char) → List Char → List Char
  | [], last => last
  | (t, _) :: rest, last => t ++ textBetween rest last

end validator

namespace models

/-- Struct `MediaContent` of rss.go; the field `Type` is written `Type_`. -/
structure MediaContent where
  URL : String
  Type_ : String
  Medium : String
deriving DecidableEq, Repr

/-- Struct `Item` of rss.go. -/
structure Item where
  Title : String
  Link : String
  Description : String
  PubDate : String
  ContentEncoded : String
  MediaContent : List MediaContent
deriving DecidableEq, Repr

/-- Struct `Channel` of rss.go. -/
structure Channel where
  Items : List Item
deriving DecidableEq, Repr

/-- Struct `RSS` of rss.go (the field `XMLName` is not read by the program). -/
structure RSS where
  Channel : Channel
deriving DecidableEq, Repr

/-- Method `IsImage`.  `len(mc.Type)` is the length in bytes; `mc.Type[:6]` is cut
at a byte offset, and its comparison with the six ASCII bytes of "image/" holds
exactly when the first six runes of `mc.Type` are those of "image/". -/
def MediaContent.IsImage (mc : MediaContent) : Bool :=
  if mc.Medium = "image" then
    true
  else if mc.Type_ ≠ "" ∧ mc.Type_.utf8ByteSize > 6 ∧ middleware.sliceTo mc.Type_ 6 = "image/" then
    true
  else
    false

/-- The loop of `GetImageURL` over the media entries still to visit. -/
def firstImageURL : List MediaContent → String
  | [] => ""
  | media :: rest => if media.IsImage then media.URL else firstImageURL rest

/-- Method `GetImageURL`. -/
def Item.GetImageURL (item : Item) : String :=
  firstImageURL item.MediaContent

/-- Go function `strings.HasPrefix`, on runes: the text `s` starts with `p`. -/
def startsWith (s p : String) : Prop :=
  p.data <+: s.data

instance (s p : String) : Decidable (startsWith s p) := by
  unfold startsWith; infer_instance

end models

namespace services

/-! ## The CSV exporter: `internal/services/csv_exporter.go`

`Export` writes through `encoding/csv`, which writes through a `bufio.Writer` of
4096 bytes onto the `io.Writer` it is given.  The two library types are modelled
after their Go implementation (Go 1.21), for the settings of `csv.NewWriter`
(`Comma` is `,`, `UseCRLF` is false); the `io.Writer` is an argument: a state
machine that keeps the contract of `io.Writer` (a call either takes all the
bytes and returns a nil error, or returns a non-nil error with the number of
bytes it took).  Bytes are numbers below 256. -/

/-- Outcome of one call of `Write` (or `WriteString`) on the underlying writer:
`ok` stands for `(len(p), nil)`, `failed n err` for `(n, err)` with `err != nil`. -/
inductive WriteResult where
  | ok
  | failed (n : Nat) (err : errors.GoError)
deriving DecidableEq, Repr

/-- An `io.Writer` with states `σ`: its method `Write` and, when it also
implements `io.StringWriter`, its method `WriteString`. -/
structure ioWriter (σ : Type) where
  Write : σ → List Nat → WriteResult × σ
  WriteString : Option (σ → List Nat → WriteResult × σ)

/-- The UTF-8 encoding of a rune (Go `utf8.AppendRune`). -/
def encodeRune (c : Char) : List Nat :=
  let n := c.toNat
  if n < 0x80 then [n]
  else if n < 0x800 then [0xC0 + n / 64, 0x80 + n % 64]
  else if n < 0x10000 then [0xE0 + n / 4096, 0x80 + n / 64 % 64, 0x80 + n % 64]
  else [0xF0 + n / 262144, 0x80 + n / 4096 % 64, 0x80 + n / 64 % 64, 0x80 + n % 64]

/-- The bytes of a Go string. -/
def bytesOf (l : List Char) : List Nat :=
  l.flatMap encodeRune

/-- Go constant `defaultBufSize` of package bufio. -/
def defaultBufSize : Nat := 4096

/-- Struct `bufio.Writer`: the sticky error `err`, the buffered bytes
`buf[0:n]`, and the underlying writer `wr` (its state).  The field `calls` is
not in the source: it records every call made on the underlying writer, with
the bytes passed and the outcome, so that theorems can speak of them. -/
structure bufioWriter (σ : Type) where
  err : Option errors.GoError
  buf : List Nat
  wr : σ
  calls : List (List Nat × WriteResult)

/-- Method `Available` of `bufio.Writer`. -/
def bufioWriter.Available {σ : Type} (b : bufioWriter σ) : Nat :=
  defaultBufSize - b.buf.length

/-- Method `Flush` of `bufio.Writer`: the returned error and the writer after
the call.  After a failed write that took `n` bytes the buffer keeps the rest. -/
def bufioWriter.Flush {σ : Type} (W : ioWriter σ) (b : bufioWriter σ) :
    Option errors.GoError × bufioWriter σ :=
  match b.err with
  | some e => (some e, b)
  | none =>
    if b.buf.length = 0 then
      (none, b)
    else
      match W.Write b.wr b.buf with
      | (WriteResult.ok, s) =>
        (none, { b with buf := [], wr := s, calls := b.calls ++ [(b.buf, WriteResult.ok)] })
      | (WriteResult.failed n err, s) =>
        (some err, { err := some err, buf := b.buf.drop n, wr := s,
                     calls := b.calls ++ [(b.buf, WriteResult.failed n err)] })

/-- Method `WriteByte` of `bufio.Writer`. -/
def bufioWriter.WriteByte {σ : Type} (W : ioWriter σ) (b : bufioWriter σ) (c : Nat) :
    Option errors.GoError × bufioWriter σ :=
  match b.err with
  | some e => (some e, b)
  | none =>
    if b.Available ≤ 0 then
      match bufioWriter.Flush W b with
      | (some _, b1) => (b1.err, b1)
      | (none, b1) => (none, { b1 with buf := b1.buf ++ [c] })
    else
      (none, { b with buf := b.buf ++ [c] })

/-- The loop of method `WriteString` of `bufio.Writer`, run while
`len(s) > b.Available() && b.err == nil`: the writer and the rest of `s` when the
loop is left.  With an empty buffer and an underlying `io.StringWriter` the text
is handed to it directly; otherwise the buffer is filled and flushed.  Every
round but the first takes at least one byte of `s` or sets the error, so the
loop ends within `len(s) + 1` rounds; the first argument bounds the rounds. -/
def bufioWriter.writeStringLoop {σ : Type} (W : ioWriter σ) :
    Nat → bufioWriter σ → List Nat → bufioWriter σ × List Nat
  | 0, b, s => (b, s)
  | k + 1, b, s =>
    if s.length > b.Available ∧ b.err = none then
      match (if b.buf.length = 0 then W.WriteString else none) with
      | some writeString =>
        match writeString b.wr s with
        | (WriteResult.ok, st) =>
          bufioWriter.writeStringLoop W k
            { b with wr := st, calls := b.calls ++ [(s, WriteResult.ok)] } []
        | (WriteResult.failed n err, st) =>
          bufioWriter.writeStringLoop W k
            { b with err := some err, wr := st,
                     calls := b.calls ++ [(s, WriteResult.failed n err)] } (s.drop n)
      | none =>
        let n := b.Available
        let b1 := (bufioWriter.Flush W { b with buf := b.buf ++ s.take n }).2
        bufioWriter.writeStringLoop W k b1 (s.drop n)
    else
      (b, s)

/-- Method `WriteString` of `bufio.Writer`. -/
def bufioWriter.WriteString {σ : Type} (W : ioWriter σ) (b : bufioWriter σ) (s : List Nat) :
    Option errors.GoError × bufioWriter σ :=
  match bufioWriter.writeStringLoop W (s.length + 2) b s with
  | (b1, s1) =>
    match b1.err with
    | some e => (some e, b1)
    | none => (none, { b1 with buf := b1.buf ++ s1 })

/-- Sequencing with Go's `if err != nil { return err }`. -/
def andThen {σ : Type} (r : Option errors.GoError × bufioWriter σ)
    (k : bufioWriter σ → Option errors.GoError × bufioWriter σ) :
    Option errors.GoError × bufioWriter σ :=
  match r with
  | (some e, b) => (some e, b)
  | (none, b) => k b

/-- Method `fieldNeedsQuotes` of `csv.Writer` for the comma `,`.  The source
scans the bytes of the field for `\n`, `\r`, `"` and the comma; these are ASCII,
so the scan of the runes finds the same. -/
def fieldNeedsQuotes (field : String) : Bool :=
  if field = "" then
    false
  else if field = "\\." then
    true
  else if field.data.any (fun c => c = '\n' || c = '\r' || c = '"' || c = ',') then
    true
  else
    match field.data with
    | r1 :: _ => unicode.IsSpace r1
    | [] => false

/-- The loop of `csv.Writer.Write` over a quoted field: the text up to the next
`"`, `\r` or `\n` is written with `WriteString`, then the special rune is
written (`"` doubled, `\r` and `\n` as they are); `piece` is the text read since
the last special rune. -/
def quotedLoop {σ : Type} (W : ioWriter σ) :
    List Char → List Char → bufioWriter σ → Option errors.GoError × bufioWriter σ
  | piece, [], b =>
    if piece = [] then (none, b) else bufioWriter.WriteString W b (bytesOf piece)
  | piece, c :: cs, b =>
    if c = '"' ∨ c = '\r' ∨ c = '\n' then
      andThen (bufioWriter.WriteString W b (bytesOf piece)) fun b1 =>
        andThen
          (if c = '"' then bufioWriter.WriteString W b1 [34, 34]
           else bufioWriter.WriteByte W b1 c.toNat) fun b2 =>
          quotedLoop W [] cs b2
    else
      quotedLoop W (piece ++ [c]) cs b

/-- The body of the loop of `csv.Writer.Write` for field number `n`. -/
def writeField {σ : Type} (W : ioWriter σ) (b : bufioWriter σ) (n : Nat) (field : String) :
    Option errors.GoError × bufioWriter σ :=
  andThen (if n > 0 then bufioWriter.WriteByte W b 44 else (none, b)) fun b1 =>
    if !fieldNeedsQuotes field then
      bufioWriter.WriteString W b1 (bytesOf field.data)
    else
      andThen (bufioWriter.WriteByte W b1 34) fun b2 =>
        andThen (quotedLoop W [] field.data b2) fun b3 =>
          bufioWriter.WriteByte W b3 34

/-- The loop of `csv.Writer.Write` over the fields from number `n` on. -/
def writeFields {σ : Type} (W : ioWriter σ) :
    Nat → List String → bufioWriter σ → Option errors.GoError × bufioWriter σ
  | _, [], b => (none, b)
  | n, field :: rest, b => andThen (writeField W b n field) fun b1 => writeFields W (n + 1) rest b1

/-- Struct `csv.Writer` as `csv.NewWriter` makes it. -/
structure csvWriter (σ : Type) where
  w : bufioWriter σ

/-- Function `csv.NewWriter` on a writer in state `w`. -/
def csvNewWriter {σ : Type} (w : σ) : csvWriter σ :=
  { w := { err := none, buf := [], wr := w, calls := [] } }

/-- Method `Write` of `csv.Writer`: the fields, then the line end `\n`. -/
def csvWriter.Write {σ : Type} (W : ioWriter σ) (w : csvWriter σ) (record : List String) :
    Option errors.GoError × csvWriter σ :=
  match andThen (writeFields W 0 record w.w) (fun b => bufioWriter.WriteByte W b 10) with
  | (e, b) => (e, { w := b })

/-- Method `Flush` of `csv.Writer`. -/
def csvWriter.Flush {σ : Type} (W : ioWriter σ) (w : csvWriter σ) : csvWriter σ :=
  { w := (bufioWriter.Flush W w.w).2 }

/-- Method `Error` of `csv.Writer`: `w.w.Write(nil)`, which writes nothing and
returns the sticky error of the `bufio.Writer`. -/
def csvWriter.Error {σ : Type} (w : csvWriter σ) : Option errors.GoError :=
  w.w.err

/-- Struct `CSVExporter`. -/
structure CSVExporter where
  sanitizer : utils.HTMLSanitizer

/-- Function `NewCSVExporter`. -/
def NewCSVExporter : CSVExporter :=
  { sanitizer := utils.NewHTMLSanitizer }

/-- The record that the loop of `Export` builds for `item`. -/
def itemRecord (T : html.EntityTables) (e : CSVExporter) (sanitizeHTML : Bool)
    (item : models.Item) : List String :=
  let description := item.Description
  let content := item.ContentEncoded
  let description := if sanitizeHTML then utils.StripHTML T e.sanitizer description else description
  let content := if sanitizeHTML then utils.StripHTML T e.sanitizer content else content
  [item.Title, item.Link, description, item.PubDate, item.GetImageURL, content]

/-- The loop of `Export` over the items still to write. -/
def exportRows {σ : Type} (W : ioWriter σ) (T : html.EntityTables) (e : CSVExporter)
    (sanitizeHTML : Bool) : List models.Item → csvWriter σ → Option errors.GoError × csvWriter σ
  | [], writer => (none, writer)
  | item :: rest, writer =>
    match writer.Write W (itemRecord T e sanitizeHTML item) with
    | (some err, writer1) => (some err, writer1)
    | (none, writer1) => exportRows W T e sanitizeHTML rest writer1

/-- The body of `Export` up to its `return`: the returned error and the
`csv.Writer` at that point. -/
def exportBody {σ : Type} (W : ioWriter σ) (T : html.EntityTables) (e : CSVExporter)
    (w : σ) (rss : models.RSS) (sanitizeHTML : Bool) : Option errors.GoError × csvWriter σ :=
  let writer := csvNewWriter w
  let headers := ["Title", "Link", "Description", "PubDate", "ImageURL", "Content"]
  match writer.Write W headers with
  | (some err, writer1) => (some err, writer1)
  | (none, writer1) =>
    let writer2 := writer1.Flush W
    match writer2.Error with
    | some err => (some err, writer2)
    | none => exportRows W T e sanitizeHTML rss.Channel.Items writer2

/-- Method `Export`: the returned error, and the `csv.Writer` after the deferred
`writer.Flush()`, which runs when the returned value is already fixed.  The
argument `ctx` is not read by the source. -/
def Export {σ : Type} (W : ioWriter σ) (T : html.EntityTables) (e : CSVExporter)
    (w : σ) (rss : models.RSS) (sanitizeHTML : Bool) : Option errors.GoError × csvWriter σ :=
  match exportBody W T e w rss sanitizeHTML with
  | (err, writer) => (err, writer.Flush W)

/-- The bytes that the underlying writer took in the recorded calls. -/
def accepted : List (List Nat × WriteResult) → List Nat
  | [] => []
  | (p, WriteResult.ok) :: rest => p ++ accepted rest
  | (p, WriteResult.failed n _) :: rest => p.take n ++ accepted rest

/-- Some recorded call failed. -/
def someCallFailed (calls : List (List Nat × WriteResult)) : Prop :=
  ∃ call ∈ calls, call.2 ≠ WriteResult.ok

instance (calls : List (List Nat × WriteResult)) : Decidable (someCallFailed calls) := by
  unfold someCallFailed; infer_instance

/-- The number of records that a reader of CSV finds in a text: the newlines
outside quoted fields; the first argument tells whether the scan is inside a
quoted field. -/
def recordEnds : Bool → List Char → Nat
  | _, [] => 0
  | inQuotes, c :: cs =>
    if c = '"' then recordEnds (!inQuotes) cs
    else if c = '\n' ∧ inQuotes = false then 1 + recordEnds inQuotes cs
    else recordEnds inQuotes cs

/-- The item of the repository's test of a failing writer. -/
def testItem : models.Item :=
  { Title := "Item 1", Link := "", Description := "", PubDate := "", ContentEncoded := "",
    MediaContent := [] }

/-- The sticky error of the buffered writer is set exactly when a recorded call
failed. -/
def bufioWriter.sticky {σ : Type} (b : bufioWriter σ) : Prop :=
  b.err ≠ none ↔ someCallFailed b.calls

/-- The text of a field in the output: as it is, or between quotes with each
quote doubled. -/
def fieldText (field : String) : List Char :=
  if fieldNeedsQuotes field then
    '"' :: (field.data.flatMap fun c => if c = '"' then ['"', '"'] else [c]) ++ ['"']
  else
    field.data

/-- The text of a record in the output: its first field, every further field
after a comma, then a newline. -/
def recordText (record : List String) : List Char :=
  (match record with
    | [] => []
    | field :: rest => fieldText field ++ rest.flatMap fun g => ',' :: fieldText g) ++ ['\n']

/-- The bytes taken by the underlying writer and those still in the buffer. -/
def bufioWriter.written {σ : Type} (b : bufioWriter σ) : List Nat :=
  accepted b.calls ++ b.buf

/-- A writer that never fails: every call takes all the bytes. -/
def neverFails {σ : Type} (W : ioWriter σ) : Prop :=
  (∀ s p, (W.Write s p).1 = WriteResult.ok) ∧
    ∀ writeString, W.WriteString = some writeString → ∀ s p, (writeString s p).1 = WriteResult.ok

/-- Go's `bytes.Buffer` as a writer: the state is the content, both methods
append to it. -/
def bytesBuffer : ioWriter (List Nat) :=
  { Write := fun s p => (WriteResult.ok, s ++ p),
    WriteString := some fun s p => (WriteResult.ok, s ++ p) }

/-- Variable `testWriteError` of csv_exporter_test.go. -/
def testWriteError : errors.GoError := errors.GoError.sentinel "test write error"

/-- Type `failingWriter` of csv_exporter_test.go: the state is the field
`writes`; the writer fails from call number `failAfter` on. -/
def failingWriter (failAfter : Nat) : ioWriter Nat :=
  { Write := fun writes _ =>
      if writes ≥ failAfter then (WriteResult.failed 0 testWriteError, writes)
      else (WriteResult.ok, writes + 1),
    WriteString := none }

end services

namespace services

/-! ## The fetcher: `internal/services/rss_fetcher.go`

The network and the XML decoder are arguments of the model. -/

/-- The parts of `*http.Response` that `FetchRSS` reads: `StatusCode`, `Status`,
and the outcome of `io.ReadAll(resp.Body)`. -/
structure Response where
  StatusCode : Int
  Status : String
  Body : Except errors.GoError (List Nat)

/-- The library calls of `FetchRSS`: `http.NewRequestWithContext(ctx, "GET", url, nil)`
(its error, or `none`), `f.client.Do(req)` for the request to `url` with the two
headers set, and `xml.Unmarshal(body, &rss)`. -/
structure Outside where
  NewRequestWithContext : String → Option errors.GoError
  Do : String → List (String × String) → Except errors.GoError Response
  Unmarshal : List Nat → Except errors.GoError models.RSS

/-- Struct `RSSFetcher`: the timeout of its client (nanoseconds) and the
user agent. -/
structure RSSFetcher where
  timeout : Int
  userAgent : String
deriving DecidableEq, Repr

/-- Function `NewRSSFetcher`. -/
def NewRSSFetcher (timeout : Int) (userAgent : String) : RSSFetcher :=
  { timeout := timeout, userAgent := userAgent }

/-- Go constant `http.StatusOK`. -/
def StatusOK : Int := 200

/-- Method `FetchRSS`: the returned feed (`none` is the nil pointer) and the
returned error (`none` is nil). -/
def FetchRSS (out : Outside) (f : RSSFetcher) (url : String) :
    Option models.RSS × Option errors.GoError :=
  match out.NewRequestWithContext url with
  | some err => (none, some (errors.GoError.wrapped "failed to create request: " err))
  | none =>
    match out.Do url [("User-Agent", f.userAgent),
        ("Accept", "application/rss+xml, application/xml, text/xml, */*")] with
    | Except.error err => (none, some (errors.GoError.wrapped "failed to fetch RSS feed: " err))
    | Except.ok resp =>
      if resp.StatusCode ≠ StatusOK then
        (none, some (errors.GoError.fetch url resp.StatusCode
          (errors.GoError.external ("unexpected status: " ++ resp.Status))))
      else
        match resp.Body with
        | Except.error err =>
          (none, some (errors.GoError.wrapped "failed to read RSS feed: " err))
        | Except.ok body =>
          match out.Unmarshal body with
          | Except.error err =>
            (none, some (errors.GoError.wrapped "failed to parse RSS XML: " err))
          | Except.ok rss =>
            if rss.Channel.Items.length = 0 then
              (none, some errors.ErrNoRSSItems)
            else
              (some rss, none)

end services

namespace handlers

/-! ## The export handler and its route: `internal/handlers/handlers.go`, `cmd/server/main.go`

The calls of `log.Printf` are not modelled. -/

/-- Struct `Handler`. -/
structure Handler where
  rssFetcher : services.RSSFetcher
  csvExporter : services.CSVExporter
  validator : validator.URLValidator

/-- The parts of `*http.Request` that the export route reads: those read by
`getClientIP`, and the values `r.URL.Query().Get("url")` and
`r.URL.Query().Get("sanitize")`. -/
structure Request extends middleware.Request where
  queryURL : String
  querySanitize : String
deriving DecidableEq, Repr

/-- What a handler does to its `http.ResponseWriter`, besides writing the body:
`http.Error(w, msg, code)` (its header fields and its `w.WriteHeader(code)`) and
`w.Header().Set(key, value)`. -/
inductive Effect where
  | httpError (msg : String) (code : Nat)
  | setHeader (key value : String)
deriving DecidableEq, Repr

/-- Go constant `http.StatusBadRequest`. -/
def StatusBadRequest : Nat := 400

/-- Function `http.Error(w, msg, code)`: it sets the header fields of a plain
text answer and the status `code`, recorded as one effect, and ends with
`fmt.Fprintln(w, msg)`, which writes the message and a line feed to the body in
one call of `w.Write`.  Returns the effect and the state of the response writer
after the call. -/
def httpError {σ : Type} (W : services.ioWriter σ) (w : σ) (msg : String) (code : Nat) :
    List Effect × σ :=
  ([Effect.httpError msg code], (W.Write w (services.bytesOf (msg ++ "\n").data)).2)

/-- Method `HandleExport`: the effects on the response writer in order, and the
state of the response writer as an `io.Writer` after the call (the messages of
`http.Error` and the CSV are written through it). -/
def HandleExport {σ : Type} (Parse : String → Option validator.URL) (out : services.Outside)
    (T : html.EntityTables) (W : services.ioWriter σ) (h : Handler) (w : σ) (r : Request) :
    List Effect × σ :=
  let rssURL := r.queryURL
  let rssURL := validator.SanitizeInput h.validator rssURL
  match validator.ValidateURL Parse h.validator rssURL with
  | some err => httpError W w ("Invalid URL: " ++ err.Error) StatusBadRequest
  | none =>
    let sanitize := decide (r.querySanitize = "true")
    match services.FetchRSS out h.rssFetcher rssURL with
    | (_, some err) => httpError W w err.Error StatusBadRequest
    | (none, none) => ([], w)
    | (some rss, none) =>
      match services.Export W T h.csvExporter w rss sanitize with
      | (_, writer) =>
        ([Effect.setHeader "Content-Type" "text/csv",
          Effect.setHeader "Content-Disposition" "attachment; filename=feed.csv"], writer.w.wr)

/-- The handler that `main` registers for "/export":
`rateLimiter.Limit(handler.HandleExport)`.  The effects of `Limit` are carried
out on the response writer: `next(w, r)` is the call of `HandleExport` on the
same request, and `http.Error` writes its message.  Returns the effects on the
response writer, its state, and the limiter after the call. -/
def exportRoute {σ : Type} (Parse : String → Option validator.URL) (out : services.Outside)
    (T : html.EntityTables) (W : services.ioWriter σ) (h : Handler)
    (rl : middleware.RateLimiter) (w : σ) (r : Request) (tGet tAllow : Int) :
    List Effect × σ × middleware.RateLimiter :=
  match middleware.Limit rl r.toRequest tGet tAllow with
  | (effects, rl1) =>
    let run := effects.foldl
      (fun (acc : List Effect × σ) (eff : middleware.Effect) =>
        match eff with
        | middleware.Effect.next _ =>
          match HandleExport Parse out T W h acc.2 r with
          | (es, w1) => (acc.1 ++ es, w1)
        | middleware.Effect.httpError msg code =>
          match httpError W acc.2 msg code with
          | (es, w1) => (acc.1 ++ es, w1))
      ([], w)
    (run.1, run.2, rl1)

/-- A handler with the default configuration of config.go. -/
def defaultHandler : Handler :=
  { rssFetcher := services.NewRSSFetcher (30 * middleware.Second) "RSS-to-CSV-Exporter/1.0",
    csvExporter := services.NewCSVExporter,
    validator := validator.NewURLValidator 2048 }

/-- A network on which every call fails. -/
def noNetwork : services.Outside :=
  { NewRequestWithContext := fun _ => none,
    Do := fun _ _ => Except.error (errors.GoError.external "no network"),
    Unmarshal := fun _ => Except.error (errors.GoError.external "no input") }

end handlers

namespace concurrent

/-! ## Concurrent admission checks: `Limit` called from several goroutines

The bodies of `getVisitor`, `allowRequest` and `cleanupVisitors` are cut into
steps, one for each lock operation and each access to shared memory (the map
entry of the identity, the fields of a visitor, the clock, the ticker); what a
goroutine computes on its own variables belongs to the step of the access before
it.  A state holds the shared memory, the locks and, for each goroutine, its
place in the code and its variables; a run is an interleaving of steps of the
goroutines that call `Limit`, of steps of the sweep goroutine that
`NewRateLimiter` starts, and of advances of the clock.  A `sync.Mutex` is free or
held; a held lock records who holds it.  A `sync.RWMutex` records the goroutines
that hold it for reading and the one that holds it for writing; `RLock` waits
while it is held for writing, `Lock` while it is held at all.  All the calls
present the same identity. -/

/-- Who holds a lock: the goroutine of call `i`, or the sweep goroutine. -/
inductive Owner where
  | call (i : Nat)
  | sweeper
deriving DecidableEq, Repr

/-- The places of a goroutine in `getVisitor` followed by `allowRequest`; each
names the step to take next. -/
inductive PC where
  | rlock        -- rl.mu.RLock()
  | lookup       -- v, exists := rl.visitors[ip]
  | runlock      -- rl.mu.RUnlock(); if !exists
  | lock         -- rl.mu.Lock()
  | recheck      -- v, exists = rl.visitors[ip]; if !exists
  | create       -- v = &visitor{tokens: rl.rate, lastVisit: time.Now()}
  | store        -- rl.visitors[ip] = v
  | unlock       -- rl.mu.Unlock()
  | vlock        -- v.mu.Lock()
  | readNow      -- now := time.Now()
  | readLast     -- elapsed := now.Sub(v.lastVisit); tokensToAdd := ...; if tokensToAdd > 0
  | addTokens    -- v.tokens += tokensToAdd
  | capTokens    -- if v.tokens > 60 { v.tokens = 60 }
  | setLast      -- v.lastVisit = now
  | checkTokens  -- if v.tokens > 0
  | loadTokens   -- v.tokens--, the read
  | storeTokens  -- v.tokens--, the write; return true
  | vunlock      -- deferred v.mu.Unlock()
  | done
deriving DecidableEq, Repr

/-- The places of the sweep goroutine in `cleanupVisitors`. -/
inductive SweepPC where
  | wait         -- for range ticker.C
  | lock         -- rl.mu.Lock()
  | readNow      -- now := time.Now()
  | next         -- for ip, v := range rl.visitors
  | vlock        -- v.mu.Lock()
  | check        -- if now.Sub(v.lastVisit) > rl.cleanup
  | delete       -- delete(rl.visitors, ip)
  | vunlock      -- v.mu.Unlock()
  | unlock       -- rl.mu.Unlock()
deriving DecidableEq, Repr

/-- The variables of a goroutine that calls `Limit`: its place, the pointer `v`
(an index into the heap of visitors), the variable `exists`, the variables `now`
and `tokensToAdd`, the value read by `v.tokens--`, and the value returned by
`allowRequest`. -/
structure Thread where
  pc : PC
  v : Nat
  found : Bool
  now : Int
  tokensToAdd : Int
  loaded : Int
  result : Bool
deriving DecidableEq, Repr

/-- The variables of the sweep goroutine: its place, the variable `now` and the
pointer `v` of the loop over the map. -/
structure Sweeper where
  pc : SweepPC
  now : Int
  v : Nat
deriving DecidableEq, Repr

/-- A visitor in memory: its fields `tokens` and `lastVisit`, and its mutex `mu`
(`none` when free, else who holds it). -/
structure Cell where
  tokens : Int
  lastVisit : Int
  mu : Option Owner
deriving DecidableEq, Repr

/-- The shared state: the fields `rate` and `cleanup` of the limiter, the clock,
the instant of the next tick of the ticker, the entry `rl.visitors[ip]` of the
map for the identity (a pointer, `none` when the key is absent), the visitors
allocated so far, the goroutines holding `rl.mu` for reading and who holds it
for writing, the goroutines that call `Limit`, and the sweep goroutine. -/
structure World where
  rate : Int
  cleanup : Int
  clock : Int
  ticker : Int
  entry : Option Nat
  heap : List Cell
  readers : List Nat
  writer : Option Owner
  threads : List Thread
  sweeper : Sweeper
deriving DecidableEq, Repr

/-- Goroutine `i` continues as `t`. -/
def World.resume (s : World) (i : Nat) (t : Thread) : World :=
  { s with threads := s.threads.set i t }

/-- One step of goroutine `i`; `none` when there is no such goroutine, when it has
returned, or when it waits for a lock. -/
def step (s : World) (i : Nat) : Option World :=
  match s.threads[i]? with
  | none => none
  | some t =>
    match t.pc with
    | PC.rlock =>
      if s.writer = none then
        some ({ s with readers := i :: s.readers }.resume i { t with pc := PC.lookup })
      else none
    | PC.lookup =>
      some (s.resume i { t with v := s.entry.getD 0, found := s.entry.isSome, pc := PC.runlock })
    | PC.runlock =>
      some ({ s with readers := s.readers.filter (fun j => j ≠ i) }.resume i
        { t with pc := if t.found then PC.vlock else PC.lock })
    | PC.lock =>
      if s.writer = none ∧ s.readers = [] then
        some ({ s with writer := some (Owner.call i) }.resume i { t with pc := PC.recheck })
      else none
    | PC.recheck =>
      some (s.resume i { t with v := s.entry.getD 0, found := s.entry.isSome,
                                  pc := if s.entry.isSome then PC.unlock else PC.create })
    | PC.create =>
      let visitor : Cell := { tokens := s.rate, lastVisit := s.clock, mu := none }
      some ({ s with heap := s.heap ++ [visitor] }.resume i
        { t with v := s.heap.length, pc := PC.store })
    | PC.store =>
      some ({ s with entry := some t.v }.resume i { t with pc := PC.unlock })
    | PC.unlock =>
      some ({ s with writer := none }.resume i { t with pc := PC.vlock })
    | PC.vlock =>
      match s.heap[t.v]? with
      | none => none
      | some cell =>
        if cell.mu = none then
          some ({ s with heap := s.heap.set t.v { cell with mu := some (Owner.call i) } }.resume i
            { t with pc := PC.readNow })
        else none
    | PC.readNow =>
      some (s.resume i { t with now := s.clock, pc := PC.readLast })
    | PC.readLast =>
      match s.heap[t.v]? with
      | none => none
      | some cell =>
        let tokensToAdd := middleware.wholeSeconds (middleware.Sub t.now cell.lastVisit)
        some (s.resume i { t with tokensToAdd := tokensToAdd,
                                    pc := if tokensToAdd > 0 then PC.addTokens else PC.checkTokens })
    | PC.addTokens =>
      match s.heap[t.v]? with
      | none => none
      | some cell =>
        let tokens := middleware.wrapInt64 (cell.tokens + t.tokensToAdd)
        some ({ s with heap := s.heap.set t.v { cell with tokens := tokens } }.resume
          i { t with pc := PC.capTokens })
    | PC.capTokens =>
      match s.heap[t.v]? with
      | none => none
      | some cell =>
        let capped : Int := if cell.tokens > 60 then 60 else cell.tokens
        some ({ s with heap := s.heap.set t.v { cell with tokens := capped } }.resume
          i { t with pc := PC.setLast })
    | PC.setLast =>
      match s.heap[t.v]? with
      | none => none
      | some cell =>
        some ({ s with heap := s.heap.set t.v { cell with lastVisit := t.now } }.resume
          i { t with pc := PC.checkTokens })
    | PC.checkTokens =>
      match s.heap[t.v]? with
      | none => none
      | some cell =>
        some (s.resume i
          (if cell.tokens > 0 then ({ t with pc := PC.loadTokens } : Thread)
           else ({ t with result := false, pc := PC.vunlock } : Thread)))
    | PC.loadTokens =>
      match s.heap[t.v]? with
      | none => none
      | some cell => some (s.resume i { t with loaded := cell.tokens, pc := PC.storeTokens })
    | PC.storeTokens =>
      match s.heap[t.v]? with
      | none => none
      | some cell =>
        some ({ s with heap := s.heap.set t.v { cell with tokens := t.loaded - 1 } }.resume
          i { t with result := true, pc := PC.vunlock })
    | PC.vunlock =>
      match s.heap[t.v]? with
      | none => none
      | some cell =>
        some ({ s with heap := s.heap.set t.v { cell with mu := none } }.resume
          i { t with pc := PC.done })
    | PC.done => none

/-- One step of the sweep goroutine; `none` when it waits for the ticker or for a
lock.  The map holds at most the entry of the one identity, so the loop over the
map has at most one round. -/
def sweepStep (s : World) : Option World :=
  match s.sweeper.pc with
  | SweepPC.wait =>
    if s.ticker ≤ s.clock then
      some { s with ticker := s.ticker + s.cleanup,
                    sweeper := { s.sweeper with pc := SweepPC.lock } }
    else none
  | SweepPC.lock =>
    if s.writer = none ∧ s.readers = [] then
      some { s with writer := some Owner.sweeper,
                    sweeper := { s.sweeper with pc := SweepPC.readNow } }
    else none
  | SweepPC.readNow =>
    some { s with sweeper := { s.sweeper with now := s.clock, pc := SweepPC.next } }
  | SweepPC.next =>
    match s.entry with
    | none => some { s with sweeper := { s.sweeper with pc := SweepPC.unlock } }
    | some p => some { s with sweeper := { s.sweeper with v := p, pc := SweepPC.vlock } }
  | SweepPC.vlock =>
    match s.heap[s.sweeper.v]? with
    | none => none
    | some cell =>
      if cell.mu = none then
        some { s with heap := s.heap.set s.sweeper.v { cell with mu := some Owner.sweeper },
                      sweeper := { s.sweeper with pc := SweepPC.check } }
      else none
  | SweepPC.check =>
    match s.heap[s.sweeper.v]? with
    | none => none
    | some cell =>
      some { s with sweeper := { s.sweeper with
        pc := if middleware.Sub s.sweeper.now cell.lastVisit > s.cleanup then SweepPC.delete
              else SweepPC.vunlock } }
  | SweepPC.delete =>
    some { s with entry := none, sweeper := { s.sweeper with pc := SweepPC.vunlock } }
  | SweepPC.vunlock =>
    match s.heap[s.sweeper.v]? with
    | none => none
    | some cell =>
      some { s with heap := s.heap.set s.sweeper.v { cell with mu := none },
                    sweeper := { s.sweeper with pc := SweepPC.unlock } }
  | SweepPC.unlock =>
    some { s with writer := none, sweeper := { s.sweeper with pc := SweepPC.wait } }

/-- What the scheduler does next: goroutine `i` takes a step, the sweep goroutine
takes a step, or the clock advances by `d` nanoseconds. -/
inductive Action where
  | run (i : Nat)
  | sweep
  | tick (d : Nat)
deriving DecidableEq, Repr

/-- The effect of one action; `none` when the goroutine cannot take its step. -/
def act (s : World) : Action → Option World
  | Action.run i => step s i
  | Action.sweep => sweepStep s
  | Action.tick d => some { s with clock := s.clock + d }

/-- The state after a run; `none` when one of its actions cannot be taken. -/
def exec (s : World) : List Action → Option World
  | [] => some s
  | a :: rest =>
    match act s a with
    | none => none
    | some s1 => exec s1 rest

/-- A goroutine about to call `getVisitor`. -/
def newThread : Thread :=
  { pc := PC.rlock, v := 0, found := false, now := 0, tokensToAdd := 0, loaded := 0,
    result := false }

/-- The start: a limiter just made by `NewRateLimiter(C)` at instant `t0`, its
ticker set to the cleanup interval, the sweep goroutine waiting for the first
tick, and `n` goroutines about to call `getVisitor`. -/
def start (C t0 : Int) (n : Nat) : World :=
  { rate := (middleware.NewRateLimiter C).rate, cleanup := (middleware.NewRateLimiter C).cleanup,
    clock := t0, ticker := t0 + (middleware.NewRateLimiter C).cleanup,
    entry := none, heap := [], readers := [], writer := none,
    threads := List.replicate n newThread,
    sweeper := { pc := SweepPC.wait, now := 0, v := 0 } }

/-- The number of calls that read the clock in `allowRequest` at instant `t`
and have returned true. -/
def admittedAt (s : World) (t : Int) : Nat :=
  s.threads.countP fun th => th.pc = PC.done ∧ th.result = true ∧ th.now = t

/-- The run of the failing input of claim C28, for `n` calls at the instant of
the second tick.  Goroutine 0 is admitted at the start and leaves the visitor
with 59 tokens.  After 300 seconds the sweep finds the visitor idle for no more
than the cleanup interval and keeps it.  After 300 seconds more, goroutine 1
leaves `getVisitor` with the pointer to that visitor; the sweep takes both locks,
finds the visitor idle for 600 seconds and deletes the entry; goroutine 2 finds
no entry and makes a second visitor, on which it and the goroutines 3 to `n`
are admitted; goroutine 1 then refills and decrements the visitor that the map
no longer holds. -/
def sweepRace (n : Nat) : List Action :=
  List.replicate 15 (Action.run 0) ++ [Action.tick 300000000000]
    ++ List.replicate 8 Action.sweep ++ [Action.tick 300000000000]
    ++ List.replicate 3 (Action.run 1) ++ List.replicate 9 Action.sweep
    ++ List.replicate 15 (Action.run 2)
    ++ ((List.range (n - 2)).flatMap fun k => List.replicate 10 (Action.run (k + 3)))
    ++ List.replicate 10 (Action.run 1)

end concurrent

namespace errors

/-- Struct `FetchError` of errors.go.  The field `Err` is an `error`: `none` is
the nil value of the interface. -/
structure FetchError where
  URL : String
  StatusCode : Int
  Err : Option GoError
deriving DecidableEq, Repr

/-- The verb `%v` of `fmt.Sprintf` on a value of type `error`: the text returned
by its method `Error()`, and `<nil>` for the nil value. -/
def formatError : Option GoError → String
  | some err => err.Error
  | none => "<nil>"

/-- Method `FetchError.Error`: `%s` copies the string and `%d` writes the
decimal digits of the integer, after a minus sign when it is negative. -/
def FetchError.Error (e : FetchError) : String :=
  if e.StatusCode > 0 then
    "failed to fetch RSS from " ++ e.URL ++ " (status: " ++ toString e.StatusCode ++ "): "
      ++ formatError e.Err
  else
    "failed to fetch RSS from " ++ e.URL ++ ": " ++ formatError e.Err

/-- Method `FetchError.Unwrap`. -/
def FetchError.Unwrap (e : FetchError) : Option GoError :=
  e.Err

/-- The decimal digits of a natural number, most significant first. -/
def decimal (n : Nat) : String :=
  String.mk (Nat.toDigits 10 n)

end errors

namespace middleware

/-- A run of admission checks for any identities, each with its identity and
its two clock reads; returns the limiter as the last check leaves it. -/
def checks (rl : RateLimiter) : List (String × Int × Int) → RateLimiter
  | [] => rl
  | (ip, tGet, tAllow) :: rest => checks (admissionCheck rl ip tGet tAllow).2 rest

end middleware

namespace regexp

/-- Every match of the expression is the start of a tag: it begins with `<`, the
rune after it is not `>`, and a `>` comes later in the text. -/
def OpensTag (re : Regexp) : Prop :=
  ∀ (c : Char) (cs rest : List Char), re.matchAt (c :: cs) = some rest →
    c = '<' ∧ cs.head? ≠ some '>' ∧ '>' ∈ cs

end regexp

namespace middleware

/-! ## Auxiliary lemmas: clock arithmetic and the refill step -/

theorem Second_pos : 0 < Second := by decide

theorem wrapInt64_of_range {x : Int} (h0 : -9223372036854775808 ≤ x) (h1 : x < 9223372036854775808) :
    wrapInt64 x = x := by
  unfold wrapInt64; omega

theorem wrapInt64_range (x : Int) :
    -9223372036854775808 ≤ wrapInt64 x ∧ wrapInt64 x < 9223372036854775808 := by
  unfold wrapInt64; omega

theorem Sub_of_range {t u : Int} (h0 : -9223372036854775808 ≤ t - u)
    (h1 : t - u < 9223372036854775808) : Sub t u = t - u := by
  have hw := wrapInt64_of_range h0 h1
  simp only [Sub, hw, maxDuration, minDuration]
  split_ifs <;> omega

theorem Sub_range (t u : Int) :
    -9223372036854775808 ≤ Sub t u ∧ Sub t u < 9223372036854775808 := by
  have hw := wrapInt64_range (t - u)
  simp only [Sub, maxDuration, minDuration]
  split_ifs <;> omega

theorem Sub_lt_Second {t u : Int} (h : t - u < Second) : Sub t u < Second := by
  have hS : Second = 1000000000 := rfl
  rw [hS] at h ⊢
  by_cases h0 : -9223372036854775808 ≤ t - u
  · rw [Sub_of_range h0 (by omega)]; exact h
  · have hw := wrapInt64_range (t - u)
    simp only [Sub, maxDuration, minDuration]
    split_ifs <;> omega

/-- What a step of `bitLog` keeps: the number left is below `2 ^ a'` for some
`a'` that, added to the count so far, does not exceed `a`. -/
def bitLogInv (a : Nat) (p : Nat × Nat) : Prop :=
  (p.1 = 0 ∧ p.2 = 0) ∨ (1 ≤ p.1 ∧ ∃ a', p.1 < 2 ^ a' ∧ p.2 + a' ≤ a)

theorem bitLogStep_inv (k a : Nat) (p : Nat × Nat) (h : bitLogInv a p) :
    bitLogInv a (bitLogStep k p) := by
  unfold bitLogStep
  by_cases hk : 2 ^ k ≤ p.1
  · rw [if_pos hk]
    rcases h with ⟨h0, _⟩ | ⟨h1, a', ha, hs⟩
    · have := Nat.two_pow_pos k
      omega
    · right
      have hka : k < a' := by
        by_contra hc
        have : 2 ^ a' ≤ 2 ^ k := Nat.pow_le_pow_right (by decide) (by omega)
        omega
      refine ⟨Nat.div_pos hk (Nat.two_pow_pos k), a' - k, ?_, ?_⟩
      · show p.1 / 2 ^ k < 2 ^ (a' - k)
        apply Nat.div_lt_of_lt_mul
        rw [← Nat.pow_add]
        have : k + (a' - k) = a' := by omega
        rw [this]
        exact ha
      · show p.2 + k + (a' - k) ≤ a
        omega
  · rw [if_neg hk]
    exact h

theorem bitLog_lt {n a : Nat} (h : n < 2 ^ a) (ha : 1 ≤ a) : bitLog n < a := by
  have h0 : bitLogInv a (n, 0) := by
    by_cases hn : n = 0
    · left; exact ⟨hn, rfl⟩
    · right; exact ⟨by omega, a, h, by simp⟩
  have h8 := bitLogStep_inv 1 a _ (bitLogStep_inv 2 a _ (bitLogStep_inv 4 a _
    (bitLogStep_inv 8 a _ (bitLogStep_inv 16 a _ (bitLogStep_inv 32 a _
      (bitLogStep_inv 64 a _ (bitLogStep_inv 128 a _ h0)))))))
  unfold bitLog
  rcases h8 with ⟨_, h2⟩ | ⟨h1, a', ha', hs⟩
  · omega
  · have : 1 ≤ a' := by
      by_contra hc
      have : a' = 0 := by omega
      subst this
      simp at ha'
      omega
    omega

theorem roundHalfEven_ge (a b : Nat) : a / b ≤ roundHalfEven a b := by
  unfold roundHalfEven
  split_ifs <;> omega

theorem roundHalfEven_le_succ (a b : Nat) : roundHalfEven a b ≤ a / b + 1 := by
  unfold roundHalfEven
  split_ifs <;> omega

theorem roundHalfEven_le (a b : Nat) : 2 * (roundHalfEven a b * b) ≤ 2 * a + b := by
  have h := Nat.div_add_mod a b
  have hm : (a / b + 1) * b = b * (a / b) + b := by ring
  have hm0 : (a / b) * b = b * (a / b) := by ring
  unfold roundHalfEven
  split_ifs
  · rw [hm0]; omega
  · rw [hm]; omega
  · rw [hm0]; omega
  · rw [hm]; omega

/-- Rounding to 53 bits stays below a bound that lies more than half a unit in
the last place above the number. -/
theorem round53_lt {y N e : Nat} (hy : y < 2 ^ (e + 53)) (h : 2 * y + 2 ^ e < 2 * N) :
    round53 y < N := by
  have hb := bitLog_lt (a := e + 53) hy (by omega)
  have hp : 2 ^ (bitLog y - 52) ≤ 2 ^ e := Nat.pow_le_pow_right (by decide) (by omega)
  have hr := roundHalfEven_le y (2 ^ (bitLog y - 52))
  unfold round53
  omega

/-- Rounding to 53 bits does not fall below a whole number of seconds that the
number has reached. -/
theorem round53_ge {y c : Nat} (hy : y < 2 ^ 135) (h : c * 2 ^ 82 ≤ y) :
    c * 2 ^ 82 ≤ round53 y := by
  have hb := bitLog_lt (a := 135) hy (by omega)
  have hs : bitLog y - 52 ≤ 82 := by omega
  obtain ⟨m, hm⟩ : ∃ m, (2 : Nat) ^ 82 = m * 2 ^ (bitLog y - 52) := by
    obtain ⟨m, hm⟩ := Nat.pow_dvd_pow 2 hs
    exact ⟨m, by rw [hm, Nat.mul_comm]⟩
  have hpos : 0 < 2 ^ (bitLog y - 52) := Nat.two_pow_pos _
  have h1 : c * m ≤ y / 2 ^ (bitLog y - 52) := by
    rw [Nat.le_div_iff_mul_le hpos, Nat.mul_assoc, ← hm]
    exact h
  have h2 := roundHalfEven_ge y (2 ^ (bitLog y - 52))
  unfold round53
  calc c * 2 ^ 82 = c * m * 2 ^ (bitLog y - 52) := by rw [hm, Nat.mul_assoc]
    _ ≤ roundHalfEven y (2 ^ (bitLog y - 52)) * 2 ^ (bitLog y - 52) :=
      Nat.mul_le_mul_right _ (le_trans h1 h2)

/-- The float64 quotient of a number of nanoseconds below one second by `1e9`
is at most `2^29` units above the exact quotient. -/
theorem float64Quot_le {n : Nat} (h : n < 1000000000) :
    float64Quot n 1000000000 ≤ n * 2 ^ 82 / 1000000000 + 2 ^ 29 := by
  have hq : n * 2 ^ 82 / 1000000000 < 2 ^ 82 := by
    apply Nat.div_lt_of_lt_mul
    have : n * 2 ^ 82 < 1000000000 * 2 ^ 82 := Nat.mul_lt_mul_of_pos_right h (by decide)
    exact this
  have hb := bitLog_lt (a := 82) hq (by omega)
  have hp : 2 ^ (bitLog (n * 2 ^ 82 / 1000000000) - 52) ≤ 2 ^ 29 :=
    Nat.pow_le_pow_right (by decide) (by omega)
  have hr := roundHalfEven_le_succ (n * 2 ^ 82)
    (1000000000 * 2 ^ (bitLog (n * 2 ^ 82 / 1000000000) - 52))
  have hd : n * 2 ^ 82 / (1000000000 * 2 ^ (bitLog (n * 2 ^ 82 / 1000000000) - 52))
      * 2 ^ (bitLog (n * 2 ^ 82 / 1000000000) - 52) ≤ n * 2 ^ 82 / 1000000000 := by
    rw [← Nat.div_div_eq_div_mul]
    exact Nat.div_mul_le_self _ _
  unfold float64Quot
  generalize 2 ^ (bitLog (n * 2 ^ 82 / 1000000000) - 52) = p at *
  calc roundHalfEven (n * 2 ^ 82) (1000000000 * p) * p
      ≤ (n * 2 ^ 82 / (1000000000 * p) + 1) * p := Nat.mul_le_mul_right _ hr
    _ = n * 2 ^ 82 / (1000000000 * p) * p + p := by ring
    _ ≤ n * 2 ^ 82 / 1000000000 + 2 ^ 29 := Nat.add_le_add hd hp

theorem secondsMagnitude_exact {d : Nat} (h : d / 1000000000 < 2 ^ 24) :
    secondsMagnitude d / 2 ^ 82 = d / 1000000000 := by
  have hn : d % 1000000000 < 1000000000 := Nat.mod_lt _ (by decide)
  have hf := float64Quot_le hn
  have hq : d % 1000000000 * 2 ^ 82 / 1000000000 ≤ 4835703273622813420366187 := by
    have : d % 1000000000 * 2 ^ 82 ≤ 999999999 * 2 ^ 82 :=
      Nat.mul_le_mul_right _ (by omega)
    calc d % 1000000000 * 2 ^ 82 / 1000000000 ≤ 999999999 * 2 ^ 82 / 1000000000 :=
        Nat.div_le_div_right this
      _ = 4835703273622813420366187 := by norm_num
  unfold secondsMagnitude
  generalize float64Quot (d % 1000000000) 1000000000 = f at *
  generalize d / 1000000000 = sec at *
  have e82 : (2 : Nat) ^ 82 = 4835703278458516698824704 := by norm_num
  have e29 : (2 : Nat) ^ 29 = 536870912 := by norm_num
  have e24 : (2 : Nat) ^ 24 = 16777216 := by norm_num
  rw [e29] at hf
  rw [e24] at h
  apply Nat.div_eq_of_lt_le
  · apply round53_ge
    · have : (2 : Nat) ^ 135 = 43556142965880123323311949751266331066368 := by norm_num
      rw [this, e82]; omega
    · omega
  · apply round53_lt (e := 53)
    · have : (2 : Nat) ^ (53 + 53) = 81129638414606681695789005144064 := by norm_num
      rw [this, e82]; omega
    · have : (2 : Nat) ^ 53 = 9007199254740992 := by norm_num
      rw [this, e82]; omega

theorem secondsMagnitude_le {d : Nat} (h : d < 9223372036854775808) :
    secondsMagnitude d / 2 ^ 82 ≤ 9223372036 := by
  have hn : d % 1000000000 < 1000000000 := Nat.mod_lt _ (by decide)
  have hf := float64Quot_le hn
  have hsec : d / 1000000000 ≤ 9223372036 := by omega
  have hq : d % 1000000000 * 2 ^ 82 / 1000000000 ≤ 4835703273622813420366187 := by
    have : d % 1000000000 * 2 ^ 82 ≤ 999999999 * 2 ^ 82 :=
      Nat.mul_le_mul_right _ (by omega)
    calc d % 1000000000 * 2 ^ 82 / 1000000000 ≤ 999999999 * 2 ^ 82 / 1000000000 :=
        Nat.div_le_div_right this
      _ = 4835703273622813420366187 := by norm_num
  have hq2 : d / 1000000000 = 9223372036 →
      d % 1000000000 * 2 ^ 82 / 1000000000 ≤ 4133442172256924327260862 := by
    intro hs
    have : d % 1000000000 * 2 ^ 82 ≤ 854775807 * 2 ^ 82 :=
      Nat.mul_le_mul_right _ (by omega)
    calc d % 1000000000 * 2 ^ 82 / 1000000000 ≤ 854775807 * 2 ^ 82 / 1000000000 :=
        Nat.div_le_div_right this
      _ = 4133442172256924327260862 := by norm_num
  unfold secondsMagnitude
  generalize float64Quot (d % 1000000000) 1000000000 = f at *
  generalize d % 1000000000 * 2 ^ 82 / 1000000000 = q at *
  generalize d / 1000000000 = sec at *
  have e82 : (2 : Nat) ^ 82 = 4835703278458516698824704 := by norm_num
  have e29 : (2 : Nat) ^ 29 = 536870912 := by norm_num
  rw [e29] at hf
  have e116 : (2 : Nat) ^ (63 + 53) = 83076749736557242056487941267521536 := by norm_num
  have e63 : (2 : Nat) ^ 63 = 9223372036854775808 := by norm_num
  by_cases hs : sec = 9223372036
  · have hq3 := hq2 hs
    have hlt : round53 (sec * 2 ^ 82 + f) < (sec + 1) * 2 ^ 82 := by
      apply round53_lt (e := 63)
      · rw [e116, e82]; omega
      · rw [e63, e82]; omega
    have := (Nat.div_lt_iff_lt_mul (by decide : 0 < 2 ^ 82)).mpr hlt
    omega
  · have hlt : round53 (sec * 2 ^ 82 + f) < (sec + 2) * 2 ^ 82 := by
      apply round53_lt (e := 63)
      · rw [e116, e82]; omega
      · rw [e63, e82]; omega
    have := (Nat.div_lt_iff_lt_mul (by decide : 0 < 2 ^ 82)).mpr hlt
    omega

theorem wholeSeconds_of_nonneg {d : Int} (h : 0 ≤ d) (hd : d / Second < 16777216) :
    wholeSeconds d = d / Second := by
  have hS : Second = 1000000000 := rfl
  rw [hS] at hd ⊢
  unfold wholeSeconds
  rw [if_pos h]
  obtain ⟨n, rfl⟩ := Int.eq_ofNat_of_zero_le h
  simp only [Int.toNat_ofNat]
  have e24 : (2 : Nat) ^ 24 = 16777216 := by norm_num
  rw [secondsMagnitude_exact (by rw [e24]; omega)]
  omega

theorem wholeSeconds_nonpos {d : Int} (h : d < Second) : wholeSeconds d ≤ 0 := by
  have hS : Second = 1000000000 := rfl
  rw [hS] at h
  by_cases h0 : 0 ≤ d
  · rw [wholeSeconds_of_nonneg h0 (by rw [hS]; omega), hS]
    omega
  · unfold wholeSeconds
    rw [if_neg h0]
    omega

theorem wholeSeconds_mul {n : Int} (h0 : 0 ≤ n) (h1 : n < 16777216) :
    wholeSeconds (n * Second) = n := by
  have hS : Second = 1000000000 := rfl
  rw [wholeSeconds_of_nonneg (by rw [hS]; omega) (by rw [hS]; omega), hS]
  omega

/-- The whole seconds of a duration are at most 9223372036, the whole seconds of
the longest `time.Duration`. -/
theorem wholeSeconds_le {d : Int} (h : d < 9223372036854775808) :
    wholeSeconds d ≤ 9223372036 := by
  unfold wholeSeconds
  by_cases h0 : 0 ≤ d
  · rw [if_pos h0]
    obtain ⟨n, rfl⟩ := Int.eq_ofNat_of_zero_le h0
    simp only [Int.toNat_ofNat]
    have := secondsMagnitude_le (d := n) (by omega)
    omega
  · rw [if_neg h0]
    omega

theorem refill_eq (v : visitor) (now : Int) :
    refill v now =
      if 0 < wholeSeconds (Sub now v.lastVisit) then
        { tokens := min 60 (wrapInt64 (v.tokens + wholeSeconds (Sub now v.lastVisit))),
          lastVisit := now }
      else v := by
  simp only [refill, gt_iff_lt]
  by_cases h : 0 < wholeSeconds (Sub now v.lastVisit)
  · rw [if_pos h, if_pos h]
    congr 1
    by_cases h2 : 60 < wrapInt64 (v.tokens + wholeSeconds (Sub now v.lastVisit))
    · rw [if_pos h2]; omega
    · rw [if_neg h2]; omega
  · rw [if_neg h, if_neg h]

theorem refill_of_lt {v : visitor} {now : Int} (h : now - v.lastVisit < Second) :
    refill v now = v := by
  have h1 := wholeSeconds_nonpos (Sub_lt_Second h)
  rw [refill_eq, if_neg (by omega)]

theorem allowRequest_of_lt_pos {v : visitor} {now : Int} (h : now - v.lastVisit < Second)
    (hpos : 0 < v.tokens) :
    allowRequest v now = (true, { tokens := v.tokens - 1, lastVisit := v.lastVisit }) := by
  simp only [allowRequest, refill_of_lt h, gt_iff_lt, if_pos hpos]

theorem allowRequest_of_lt_nonpos {v : visitor} {now : Int} (h : now - v.lastVisit < Second)
    (hpos : v.tokens ≤ 0) : allowRequest v now = (false, v) := by
  simp only [allowRequest, refill_of_lt h, gt_iff_lt, if_neg (not_lt.mpr hpos)]

theorem allowRequest_of_refill_pos {v : visitor} {now : Int} (h : 0 < (refill v now).tokens) :
    allowRequest v now
      = (true, { tokens := (refill v now).tokens - 1, lastVisit := (refill v now).lastVisit }) := by
  simp only [allowRequest, gt_iff_lt, if_pos h]

theorem allowRequest_of_refill_nonpos {v : visitor} {now : Int}
    (h : ¬ 0 < (refill v now).tokens) : allowRequest v now = (false, refill v now) := by
  simp only [allowRequest, gt_iff_lt, if_neg h]

/-- Calls that all fall less than one second after `lastVisit` never refill: a
bucket of `k` tokens admits the first `k` of them and rejects the rest. -/
theorem allowRun_no_refill (t0 : Int) (ts : List Int) :
    ∀ k : Nat, (∀ t ∈ ts, t - t0 < Second) →
      allowRun { tokens := (k : Int), lastVisit := t0 } ts =
        (List.replicate (min ts.length k) true ++ List.replicate (ts.length - k) false,
         { tokens := ((k - min ts.length k : Nat) : Int), lastVisit := t0 }) := by
  induction ts with
  | nil => intro k _; simp [allowRun]
  | cons t ts ih =>
    intro k h
    have ht : t - t0 < Second := h t (List.mem_cons_self t ts)
    have hts : ∀ u ∈ ts, u - t0 < Second := fun u hu => h u (List.mem_cons_of_mem t hu)
    cases k with
    | zero =>
      have h0 := ih 0 hts
      simp only [Nat.cast_zero] at h0
      have hr : allowRequest { tokens := ((0 : Nat) : Int), lastVisit := t0 } t
          = (false, { tokens := 0, lastVisit := t0 }) :=
        allowRequest_of_lt_nonpos (v := ⟨((0 : Nat) : Int), t0⟩) ht (by simp)
      simp only [allowRun, hr, h0]
      simp [List.replicate_succ]
    | succ k =>
      have hk := ih k hts
      have hr : allowRequest { tokens := ((k + 1 : Nat) : Int), lastVisit := t0 } t
          = (true, { tokens := (k : Int), lastVisit := t0 }) := by
        rw [allowRequest_of_lt_pos (v := ⟨((k + 1 : Nat) : Int), t0⟩) ht (by simp)]
        simp
      simp only [allowRun, hr, hk]
      simp [List.replicate_succ, Nat.succ_min_succ]

/-! ## Auxiliary lemmas: the visitor map -/

theorem mapGet_cons (k : String) (w : visitor) (m : List (String × visitor)) (ip : String) :
    mapGet ((k, w) :: m) ip = if k = ip then some w else mapGet m ip := rfl

theorem mapStore_cons (k : String) (w : visitor) (m : List (String × visitor)) (ip : String)
    (v : visitor) :
    mapStore ((k, w) :: m) ip v = (if k = ip then (k, v) else (k, w)) :: mapStore m ip v := rfl

theorem mapGet_mapStore_same (m : List (String × visitor)) (ip : String) (v : visitor) :
    mapGet (mapStore m ip v) ip = (mapGet m ip).map (fun _ => v) := by
  induction m with
  | nil => rfl
  | cons e m ih =>
    obtain ⟨k, w⟩ := e
    rw [mapStore_cons, mapGet_cons]
    by_cases hk : k = ip
    · rw [if_pos hk, if_pos hk, mapGet_cons, if_pos hk]; rfl
    · rw [if_neg hk, if_neg hk, mapGet_cons, if_neg hk, ih]

theorem mapGet_mapStore_other (m : List (String × visitor)) {a b : String} (v : visitor)
    (hab : a ≠ b) : mapGet (mapStore m a v) b = mapGet m b := by
  induction m with
  | nil => rfl
  | cons e m ih =>
    obtain ⟨k, w⟩ := e
    rw [mapStore_cons, mapGet_cons]
    by_cases hk : k = a
    · have hkb : k ≠ b := fun h => hab (hk.symm.trans h)
      rw [if_pos hk, mapGet_cons, if_neg hkb, if_neg hkb, ih]
    · rw [if_neg hk, mapGet_cons, ih]

theorem mapGet_mapInsert_same (m : List (String × visitor)) (ip : String) (v : visitor) :
    mapGet (mapInsert m ip v) ip = some v := by
  simp [mapInsert, mapGet]

theorem mapGet_mapInsert_other (m : List (String × visitor)) {a b : String} (v : visitor)
    (hab : a ≠ b) : mapGet (mapInsert m a v) b = mapGet m b := by
  simp [mapInsert, mapGet, hab]

theorem getVisitor_some {rl : RateLimiter} {ip : String} {v : visitor} (now : Int)
    (h : mapGet rl.visitors ip = some v) : getVisitor rl ip now = (v, rl) := by
  simp only [getVisitor, h]

theorem getVisitor_none {rl : RateLimiter} {ip : String} (now : Int)
    (h : mapGet rl.visitors ip = none) :
    getVisitor rl ip now =
      ({ tokens := rl.rate, lastVisit := now },
       { rl with visitors := mapInsert rl.visitors ip { tokens := rl.rate, lastVisit := now } }) := by
  simp only [getVisitor, h]

theorem admissionCheck_eq (rl : RateLimiter) (ip : String) (tGet tAllow : Int) :
    admissionCheck rl ip tGet tAllow =
      ((allowRequest (getVisitor rl ip tGet).1 tAllow).1,
       { (getVisitor rl ip tGet).2 with
         visitors := mapStore (getVisitor rl ip tGet).2.visitors ip
           (allowRequest (getVisitor rl ip tGet).1 tAllow).2 }) := rfl

theorem checkRun_cons (rl : RateLimiter) (ip : String) (tGet tAllow : Int)
    (ts : List (Int × Int)) :
    checkRun rl ip ((tGet, tAllow) :: ts) =
      ((admissionCheck rl ip tGet tAllow).1 :: (checkRun (admissionCheck rl ip tGet tAllow).2 ip ts).1,
       (checkRun (admissionCheck rl ip tGet tAllow).2 ip ts).2) := rfl

theorem allowRun_cons (v : visitor) (now : Int) (ts : List Int) :
    allowRun v (now :: ts) =
      ((allowRequest v now).1 :: (allowRun (allowRequest v now).2 ts).1,
       (allowRun (allowRequest v now).2 ts).2) := rfl

theorem admissionCheck_present {rl : RateLimiter} {ip : String} {v : visitor} (tGet tAllow : Int)
    (h : mapGet rl.visitors ip = some v) :
    (admissionCheck rl ip tGet tAllow).1 = (allowRequest v tAllow).1 ∧
      mapGet (admissionCheck rl ip tGet tAllow).2.visitors ip = some (allowRequest v tAllow).2 := by
  rw [admissionCheck_eq, getVisitor_some tGet h]
  refine ⟨rfl, ?_⟩
  show mapGet (mapStore rl.visitors ip (allowRequest v tAllow).2) ip = _
  rw [mapGet_mapStore_same, h]
  rfl

theorem admissionCheck_fresh {rl : RateLimiter} {ip : String} (tGet tAllow : Int)
    (h : mapGet rl.visitors ip = none) :
    (admissionCheck rl ip tGet tAllow).1
        = (allowRequest { tokens := rl.rate, lastVisit := tGet } tAllow).1 ∧
      mapGet (admissionCheck rl ip tGet tAllow).2.visitors ip
        = some (allowRequest { tokens := rl.rate, lastVisit := tGet } tAllow).2 := by
  rw [admissionCheck_eq, getVisitor_none tGet h]
  refine ⟨rfl, ?_⟩
  show mapGet (mapStore (mapInsert rl.visitors ip _) ip _) ip = _
  rw [mapGet_mapStore_same, mapGet_mapInsert_same]
  rfl

/-- Once the bucket of `ip` exists, a run of admission checks is a run of
`allowRequest` calls on that bucket. -/
theorem checkRun_present (ip : String) (ts : List (Int × Int)) :
    ∀ (rl : RateLimiter) (v : visitor), mapGet rl.visitors ip = some v →
      (checkRun rl ip ts).1 = (allowRun v (ts.map Prod.snd)).1 ∧
        mapGet (checkRun rl ip ts).2.visitors ip = some (allowRun v (ts.map Prod.snd)).2 := by
  induction ts with
  | nil => intro rl v h; exact ⟨rfl, h⟩
  | cons p ts ih =>
    intro rl v h
    obtain ⟨tGet, tAllow⟩ := p
    obtain ⟨h1, h2⟩ := admissionCheck_present tGet tAllow h
    obtain ⟨h3, h4⟩ := ih (admissionCheck rl ip tGet tAllow).2 (allowRequest v tAllow).2 h2
    rw [checkRun_cons, List.map_cons, allowRun_cons]
    exact ⟨by rw [h1, h3], h4⟩

/-- The first check of a never-seen identity creates the bucket with `rl.rate`
tokens at the instant `getVisitor` reads the clock; the run then proceeds on it. -/
theorem checkRun_fresh (rl : RateLimiter) (ip : String) (tGet tAllow : Int)
    (ts : List (Int × Int)) (h : mapGet rl.visitors ip = none) :
    (checkRun rl ip ((tGet, tAllow) :: ts)).1
        = (allowRun { tokens := rl.rate, lastVisit := tGet } (tAllow :: ts.map Prod.snd)).1 ∧
      mapGet (checkRun rl ip ((tGet, tAllow) :: ts)).2.visitors ip
        = some (allowRun { tokens := rl.rate, lastVisit := tGet }
            (tAllow :: ts.map Prod.snd)).2 := by
  obtain ⟨h1, h2⟩ := admissionCheck_fresh tGet tAllow h
  obtain ⟨h3, h4⟩ := checkRun_present ip ts (admissionCheck rl ip tGet tAllow).2 _ h2
  rw [checkRun_cons, allowRun_cons]
  exact ⟨by rw [h1, h3], h4⟩

theorem admissionCheck_frame (rl : RateLimiter) {a b : String} (hab : a ≠ b) (tGet tAllow : Int) :
    mapGet (admissionCheck rl a tGet tAllow).2.visitors b = mapGet rl.visitors b ∧
      (admissionCheck rl a tGet tAllow).2.rate = rl.rate := by
  rw [admissionCheck_eq]
  cases h : mapGet rl.visitors a with
  | some v =>
    rw [getVisitor_some tGet h]
    exact ⟨mapGet_mapStore_other _ _ hab, rfl⟩
  | none =>
    rw [getVisitor_none tGet h]
    refine ⟨?_, rfl⟩
    show mapGet (mapStore (mapInsert rl.visitors a _) a _) b = _
    rw [mapGet_mapStore_other _ _ hab, mapGet_mapInsert_other _ _ hab]

theorem checkRun_frame {a b : String} (hab : a ≠ b) (ts : List (Int × Int)) :
    ∀ rl : RateLimiter,
      mapGet (checkRun rl a ts).2.visitors b = mapGet rl.visitors b ∧
        (checkRun rl a ts).2.rate = rl.rate := by
  induction ts with
  | nil => intro rl; exact ⟨rfl, rfl⟩
  | cons p ts ih =>
    intro rl
    obtain ⟨tGet, tAllow⟩ := p
    obtain ⟨h1, h2⟩ := admissionCheck_frame rl hab tGet tAllow
    obtain ⟨h3, h4⟩ := ih (admissionCheck rl a tGet tAllow).2
    rw [checkRun_cons]
    exact ⟨h3.trans h1, h4.trans h2⟩

/-- The verdicts of a run for `b` depend on the limiter only through its rate and
the map entry of `b`. -/
theorem checkRun_congr (b : String) (us : List (Int × Int)) :
    ∀ rl rl' : RateLimiter, rl.rate = rl'.rate →
      mapGet rl.visitors b = mapGet rl'.visitors b →
      (checkRun rl b us).1 = (checkRun rl' b us).1 := by
  cases us with
  | nil => intro rl rl' _ _; rfl
  | cons p us =>
    intro rl rl' hr hm
    obtain ⟨tGet, tAllow⟩ := p
    cases h : mapGet rl.visitors b with
    | some v =>
      rw [(checkRun_present b _ rl v h).1, (checkRun_present b _ rl' v (hm ▸ h)).1]
    | none =>
      rw [(checkRun_fresh rl b tGet tAllow us h).1,
        (checkRun_fresh rl' b tGet tAllow us (hm ▸ h)).1, hr]

/-! ## Claims C1 to C7: the token bucket -/

/-- C1: for a limiter of rate `C` and an identity without a bucket, `C + 1`
admission checks whose `allowRequest` clock reads all fall less than one second
after the creation of the bucket give `C` admissions followed by one rejection. -/
theorem c1_fresh_identity_burst (C : Nat) (rl : RateLimiter) (ip : String) (t0 a0 : Int)
    (ts : List (Int × Int)) (hrate : rl.rate = (C : Int))
    (hnew : mapGet rl.visitors ip = none) (hlen : ts.length = C)
    (h0 : a0 - t0 < Second) (hts : ∀ p ∈ ts, p.2 - t0 < Second) :
    (checkRun rl ip ((t0, a0) :: ts)).1 = List.replicate C true ++ [false] := by
  rw [(checkRun_fresh rl ip t0 a0 ts hnew).1, hrate, allowRun_no_refill t0 _ C]
  · simp [hlen]
  · intro t ht
    rcases List.mem_cons.mp ht with rfl | ht
    · exact h0
    · obtain ⟨p, hp, rfl⟩ := List.mem_map.mp ht
      exact hts p hp

/-- Witness of C1: a limiter of rate 2 and three checks within the first second. -/
theorem c1_fresh_identity_burst_witness :
    (checkRun (NewRateLimiter 2) "192.168.1.1" [(0, 1), (2, 3), (4, 5)]).1
      = [true, true, false] :=
  c1_fresh_identity_burst 2 (NewRateLimiter 2) "192.168.1.1" 0 1 [(2, 3), (4, 5)]
    rfl rfl rfl (by decide) (by decide)

/-- C2: `allowRequest` admits exactly when the refilled bucket holds at least one
token; an admitted call leaves the refilled count minus one, a rejected call
leaves the refilled count (and, in both cases, the refilled `lastVisit`). -/
theorem c2_allow_iff_token_after_refill (v : visitor) (now : Int) :
    ((allowRequest v now).1 = true ↔ 1 ≤ (refill v now).tokens) ∧
    ((allowRequest v now).1 = true →
      (allowRequest v now).2 =
        { tokens := (refill v now).tokens - 1, lastVisit := (refill v now).lastVisit }) ∧
    ((allowRequest v now).1 = false → (allowRequest v now).2 = refill v now) := by
  by_cases h : 0 < (refill v now).tokens
  · rw [allowRequest_of_refill_pos h]
    exact ⟨⟨fun _ => h, fun _ => rfl⟩, fun _ => rfl, fun hf => (by cases hf)⟩
  · rw [allowRequest_of_refill_nonpos h]
    exact ⟨⟨fun hf => (by cases hf), fun h1 => (by omega)⟩, fun hf => (by cases hf),
      fun _ => rfl⟩

/-- C3, evaluation at the failing input: in a limiter of rate 10, the bucket left
by the first admission (9 tokens, created at instant 0) is refilled 20 seconds
later to 29 tokens, whereas the cap at the capacity would give `min 10 (9 + 20) = 10`. -/
theorem c3_refill_cap_ignores_rate :
    mapGet (admissionCheck (NewRateLimiter 10) "192.168.1.1" 0 0).2.visitors "192.168.1.1"
        = some { tokens := 9, lastVisit := 0 } ∧
      wholeSeconds (20 * Second - 0) = 20 ∧
      refill { tokens := 9, lastVisit := 0 } (20 * Second)
        = { tokens := 29, lastVisit := 20 * Second } ∧
      (29 : Int) ≠ min 10 (9 + 20) := by
  decide

/-- C4, evaluation at the failing input: a limiter of rate 10 checked at instant 0
and again 20 seconds later holds a bucket of 28 tokens, more than its capacity. -/
theorem c4_tokens_exceed_capacity :
    (checkRun (NewRateLimiter 10) "192.168.1.1" [(0, 0), (20 * Second, 20 * Second)]).2.visitors
        = [("192.168.1.1", { tokens := 28, lastVisit := 20 * Second })] ∧
      ¬ ((28 : Int) ≤ 10) := by
  decide

/-- C5, evaluation at the failing input: an empty bucket of a rate-100 limiter
whose `lastVisit` lies 70 seconds back admits 60 checks issued at `now`, not 70. -/
theorem c5_refill_after_wait_capped_at_sixty :
    (allowRun { tokens := 0, lastVisit := 0 } (List.replicate 71 (70 * Second))).1
        = List.replicate 60 true ++ List.replicate 11 false ∧
      List.replicate 60 true ++ List.replicate 11 false
        ≠ List.replicate 70 true ++ [false] := by
  decide

/-- C6, the claim at a bucket with `tokens ≥ 0` whose refill overflows: a limiter
made by `NewRateLimiter(MaxInt64)` leaves, after its first admission, a bucket of
`2^63 - 2` tokens; the call two seconds later adds 2 tokens in Go's `int`, which
wraps to `-2^63`: the call is rejected and has rewritten `tokens` and
`lastVisit`. -/
theorem c6_rejected_refill_overflows :
    mapGet (admissionCheck (NewRateLimiter 9223372036854775807) "192.168.1.1" 0 0).2.visitors
        "192.168.1.1" = some { tokens := 9223372036854775806, lastVisit := 0 } ∧
      (0 : Int) ≤ 9223372036854775806 ∧
      allowRequest { tokens := 9223372036854775806, lastVisit := 0 } (2 * Second)
        = (false, { tokens := -9223372036854775808, lastVisit := 2 * Second }) ∧
      ({ tokens := -9223372036854775808, lastVisit := 2 * Second } : visitor)
        ≠ { tokens := 9223372036854775806, lastVisit := 0 } := by
  decide

/-- C6, amended: a call of `allowRequest` on a bucket with `tokens ≥ 0` whose
refill does not overflow Go's `int` (the tokens and the whole seconds elapsed
are together at most `2^63 - 1`, as they are whenever the tokens are at most
`2^63 - 1 - 9223372036`) and that is rejected leaves the bucket exactly as it
was. -/
theorem c6_rejection_leaves_bucket (v : visitor) (now : Int) (h0 : 0 ≤ v.tokens)
    (hsum : v.tokens ≤ 9223372036854775807 - 9223372036 ∨
      v.tokens + wholeSeconds (Sub now v.lastVisit) ≤ 9223372036854775807)
    (hrej : (allowRequest v now).1 = false) : (allowRequest v now).2 = v := by
  have hsum' : v.tokens + wholeSeconds (Sub now v.lastVisit) < 9223372036854775808 := by
    rcases hsum with h | h
    · have := wholeSeconds_le (Sub_range now v.lastVisit).2
      omega
    · omega
  by_cases h : 0 < (refill v now).tokens
  · rw [allowRequest_of_refill_pos h] at hrej
    cases hrej
  · rw [allowRequest_of_refill_nonpos h]
    show refill v now = v
    rw [refill_eq] at h ⊢
    by_cases hs : 0 < wholeSeconds (Sub now v.lastVisit)
    · rw [if_pos hs] at h
      have hw := wrapInt64_of_range (x := v.tokens + wholeSeconds (Sub now v.lastVisit))
        (by omega) hsum'
      have h1 : ¬ 0 < min 60 (wrapInt64 (v.tokens + wholeSeconds (Sub now v.lastVisit))) := h
      rw [hw] at h1
      omega
    · rw [if_neg hs]

/-- Witness of C6: an empty bucket asked again half a second after its last refill. -/
theorem c6_rejection_leaves_bucket_witness :
    (allowRequest { tokens := 0, lastVisit := 0 } 500000000).1 = false ∧
      (allowRequest { tokens := 0, lastVisit := 0 } 500000000).2
        = { tokens := 0, lastVisit := 0 } :=
  ⟨by decide, c6_rejection_leaves_bucket { tokens := 0, lastVisit := 0 } 500000000
    (by decide) (Or.inl (by decide)) (by decide)⟩

/-- C7: admission checks for `a` leave the map entry of every other identity `b`
as it was (present or absent, same tokens, same `lastVisit`), and the verdicts of
any later run of checks for `b` are those it would have got without them. -/
theorem c7_identities_independent (rl : RateLimiter) (a b : String) (hab : a ≠ b)
    (ts us : List (Int × Int)) :
    mapGet (checkRun rl a ts).2.visitors b = mapGet rl.visitors b ∧
      (checkRun (checkRun rl a ts).2 b us).1 = (checkRun rl b us).1 := by
  obtain ⟨h1, h2⟩ := checkRun_frame hab ts rl
  exact ⟨h1, checkRun_congr b us _ _ h2 h1⟩

/-- Witness of C7: identity "a" exhausts its bucket; "b" is still admitted twice. -/
theorem c7_identities_independent_witness :
    mapGet (checkRun (NewRateLimiter 2) "a" [(0, 0), (1, 1), (2, 2)]).2.visitors "b"
        = mapGet (NewRateLimiter 2).visitors "b" ∧
      (checkRun (checkRun (NewRateLimiter 2) "a" [(0, 0), (1, 1), (2, 2)]).2 "b"
          [(3, 3), (4, 4), (5, 5)]).1
        = (checkRun (NewRateLimiter 2) "b" [(3, 3), (4, 4), (5, 5)]).1 :=
  c7_identities_independent (NewRateLimiter 2) "a" "b" (by decide)
    [(0, 0), (1, 1), (2, 2)] [(3, 3), (4, 4), (5, 5)]


/-! ## Auxiliary lemmas: searching and slicing strings -/

theorem indexOfFrom_not_mem (sep : Char) (l : List Char) :
    ∀ i : Nat, sep ∉ l → indexOfFrom sep l i = -1 := by
  induction l with
  | nil => intro i _; rfl
  | cons c cs ih =>
    intro i h
    have hc : c ≠ sep := fun e => h (e ▸ List.mem_cons_self c cs)
    have hcs : sep ∉ cs := fun e => h (List.mem_cons_of_mem c e)
    simp only [indexOfFrom, if_neg hc]
    exact ih _ hcs

theorem indexOfFrom_split (sep : Char) (pre rest : List Char) :
    ∀ i : Nat, sep ∉ pre → indexOfFrom sep (pre ++ sep :: rest) i = ((i + byteLen pre : Nat) : Int) := by
  induction pre with
  | nil => intro i _; simp [indexOfFrom, byteLen]
  | cons c cs ih =>
    intro i h
    have hc : c ≠ sep := fun e => h (e ▸ List.mem_cons_self c cs)
    have hcs : sep ∉ cs := fun e => h (List.mem_cons_of_mem c e)
    simp only [List.cons_append, indexOfFrom, if_neg hc, byteLen, List.append_eq]
    rw [ih _ hcs, Nat.add_assoc]

theorem lastIndexOfFrom_not_mem (sep : Char) (l : List Char) :
    ∀ (i : Nat) (lastIdx : Int), sep ∉ l → lastIndexOfFrom sep l i lastIdx = lastIdx := by
  induction l with
  | nil => intro i lastIdx _; rfl
  | cons c cs ih =>
    intro i lastIdx h
    have hc : c ≠ sep := fun e => h (e ▸ List.mem_cons_self c cs)
    have hcs : sep ∉ cs := fun e => h (List.mem_cons_of_mem c e)
    simp only [lastIndexOfFrom, if_neg hc]
    exact ih _ _ hcs

theorem lastIndexOfFrom_split (sep : Char) (host port : List Char) (hport : sep ∉ port) :
    ∀ (i : Nat) (lastIdx : Int),
      lastIndexOfFrom sep (host ++ sep :: port) i lastIdx = ((i + byteLen host : Nat) : Int) := by
  induction host with
  | nil =>
    intro i lastIdx
    simp only [List.nil_append, lastIndexOfFrom, if_true, byteLen, Nat.add_zero]
    exact lastIndexOfFrom_not_mem sep port _ _ hport
  | cons c cs ih =>
    intro i lastIdx
    simp only [List.cons_append, lastIndexOfFrom, byteLen, List.append_eq]
    rw [ih, Nat.add_assoc]

theorem utf8Size_pos (c : Char) : 0 < c.utf8Size := by
  simp only [Char.utf8Size]
  split_ifs <;> decide

theorem takeBytes_split (pre : List Char) (c : Char) (rest : List Char) :
    takeBytes (pre ++ c :: rest) (byteLen pre) = pre := by
  induction pre with
  | nil =>
    simp only [List.nil_append, byteLen, takeBytes, if_pos (utf8Size_pos c)]
  | cons p ps ih =>
    simp only [List.cons_append, byteLen, takeBytes, List.append_eq]
    rw [if_neg (by omega), Nat.add_sub_cancel_left, ih]

/-- Every list either lacks `sep` or splits at its first occurrence. -/
theorem split_at_first (sep : Char) (l : List Char) :
    sep ∉ l ∨ ∃ pre rest, l = pre ++ sep :: rest ∧ sep ∉ pre := by
  induction l with
  | nil => exact Or.inl (List.not_mem_nil sep)
  | cons c cs ih =>
    by_cases hc : c = sep
    · exact Or.inr ⟨[], cs, by rw [hc]; rfl, List.not_mem_nil sep⟩
    · rcases ih with h | ⟨pre, rest, h1, h2⟩
      · refine Or.inl (fun hm => ?_)
        rcases List.mem_cons.mp hm with e | e
        · exact hc e.symm
        · exact h e
      · refine Or.inr ⟨c :: pre, rest, by rw [h1]; rfl, fun hm => ?_⟩
        rcases List.mem_cons.mp hm with e | e
        · exact hc e.symm
        · exact h2 e

theorem takeWhile_ne_not_mem (sep : Char) (l : List Char) (h : sep ∉ l) :
    l.takeWhile (fun c => decide (c ≠ sep)) = l := by
  apply List.takeWhile_eq_self_iff.mpr
  intro c hc
  simp only [decide_eq_true_eq]
  exact fun e => h (e ▸ hc)

theorem takeWhile_ne_split (sep : Char) (pre rest : List Char) (h : sep ∉ pre) :
    (pre ++ sep :: rest).takeWhile (fun c => decide (c ≠ sep)) = pre := by
  induction pre with
  | nil => simp [List.takeWhile]
  | cons c cs ih =>
    have hc : c ≠ sep := fun e => h (e ▸ List.mem_cons_self c cs)
    have hcs : sep ∉ cs := fun e => h (List.mem_cons_of_mem c e)
    rw [List.cons_append, List.takeWhile_cons, if_pos (decide_eq_true hc), ih hcs]

theorem sliceTo_indexOf_split (sep : Char) (pre rest : List Char) (h : sep ∉ pre) :
    indexOf (String.mk (pre ++ sep :: rest)) sep ≠ -1 ∧
      sliceTo (String.mk (pre ++ sep :: rest)) (indexOf (String.mk (pre ++ sep :: rest)) sep)
        = String.mk pre := by
  have hi : indexOf (String.mk (pre ++ sep :: rest)) sep = ((0 + byteLen pre : Nat) : Int) :=
    indexOfFrom_split sep pre rest 0 h
  rw [hi]
  refine ⟨by omega, ?_⟩
  simp only [sliceTo, Int.toNat_ofNat, Nat.zero_add]
  rw [takeBytes_split]

theorem sliceTo_lastIndexOf_split (sep : Char) (host port : List Char) (h : sep ∉ port) :
    lastIndexOf (String.mk (host ++ sep :: port)) sep ≠ -1 ∧
      sliceTo (String.mk (host ++ sep :: port))
          (lastIndexOf (String.mk (host ++ sep :: port)) sep)
        = String.mk host := by
  have hi : lastIndexOf (String.mk (host ++ sep :: port)) sep
      = ((0 + byteLen host : Nat) : Int) :=
    lastIndexOfFrom_split sep host port h 0 (-1)
  rw [hi]
  refine ⟨by omega, ?_⟩
  simp only [sliceTo, Int.toNat_ofNat, Nat.zero_add]
  rw [takeBytes_split]

/-- With a non-empty forwarded-for value, `getClientIP` is that value up to its
first comma. -/
theorem getClientIP_forwarded (r : Request) (h : r.xForwardedFor ≠ "") :
    getClientIP r = firstCommaValue r.xForwardedFor := by
  have hg : getClientIP r =
      if indexOf r.xForwardedFor ',' ≠ -1 then
        sliceTo r.xForwardedFor (indexOf r.xForwardedFor ',')
      else r.xForwardedFor := by
    simp only [getClientIP, if_pos h]
  rw [hg]
  obtain ⟨l⟩ := r.xForwardedFor
  rcases split_at_first ',' l with hn | ⟨pre, rest, rfl, hpre⟩
  · have hi : indexOf (String.mk l) ',' = -1 := indexOfFrom_not_mem ',' l 0 hn
    rw [if_neg (not_not.mpr hi)]
    simp only [firstCommaValue, takeWhile_ne_not_mem ',' l hn]
  · obtain ⟨h1, h2⟩ := sliceTo_indexOf_split ',' pre rest hpre
    rw [if_pos h1, h2]
    simp only [firstCommaValue, takeWhile_ne_split ',' pre rest hpre]


/-! ## Claims C8 and C9: the client identity -/

/-- C8: `getClientIP` follows a strict precedence.  A non-empty forwarded-for
value decides the result whatever the other two sources are; failing that, a
non-empty real-IP value is returned as it is; failing both, the result is
`RemoteAddr` cut before its last colon, or `RemoteAddr` itself when it has none. -/
theorem c8_client_identity_precedence (r : Request) :
    (r.xForwardedFor ≠ "" →
      ∀ r' : Request, r'.xForwardedFor = r.xForwardedFor → getClientIP r' = getClientIP r) ∧
    (r.xForwardedFor = "" → r.xRealIP ≠ "" → getClientIP r = r.xRealIP) ∧
    (r.xForwardedFor = "" → r.xRealIP = "" →
      (∀ host port : List Char, r.RemoteAddr = String.mk (host ++ ':' :: port) →
          ':' ∉ port → getClientIP r = String.mk host) ∧
      (':' ∉ r.RemoteAddr.data → getClientIP r = r.RemoteAddr)) := by
  refine ⟨?_, ?_, ?_⟩
  · intro h r' hr'
    rw [getClientIP_forwarded r h, getClientIP_forwarded r' (hr' ▸ h), hr']
  · intro h1 h2
    simp only [getClientIP, h1, ne_eq, not_true_eq_false, if_false, h2, not_false_eq_true,
      if_true]
  · intro h1 h2
    have hg : getClientIP r =
        if lastIndexOf r.RemoteAddr ':' ≠ -1 then
          sliceTo r.RemoteAddr (lastIndexOf r.RemoteAddr ':')
        else r.RemoteAddr := by
      simp only [getClientIP, h1, h2, ne_eq, not_true_eq_false, if_false]
    refine ⟨?_, ?_⟩
    · intro host port haddr hport
      obtain ⟨h3, h4⟩ := sliceTo_lastIndexOf_split ':' host port hport
      rw [hg, haddr, if_pos h3, h4]
    · intro hno
      have hi : lastIndexOf r.RemoteAddr ':' = -1 :=
        lastIndexOfFrom_not_mem ':' r.RemoteAddr.data 0 (-1) hno
      rw [hg, if_neg (not_not.mpr hi)]

/-- C9, the claim fails: the value before the first comma is returned with its
surrounding whitespace.  For "10.0.0.1 , 10.0.0.2" the code gives "10.0.0.1 "
(trailing space kept), the trimmed first value is "10.0.0.1". -/
theorem c9_first_value_not_trimmed :
    ¬ ∀ r : Request, r.xForwardedFor ≠ "" →
        getClientIP r = forwardedIdentitySpec r.xForwardedFor := by
  intro h
  have h1 := h ⟨"10.0.0.1 , 10.0.0.2", "", "192.168.1.1:1234"⟩ (by decide)
  revert h1
  decide

/-- C9 as amended: with a non-empty forwarded-for value, `getClientIP` returns its
first comma-separated value exactly as it stands; this is the trimmed value
whenever that first value carries no leading or trailing whitespace. -/
theorem c9_forwarded_first_value_verbatim (r : Request) (h : r.xForwardedFor ≠ "") :
    getClientIP r = firstCommaValue r.xForwardedFor ∧
      (trimSpace (firstCommaValue r.xForwardedFor) = firstCommaValue r.xForwardedFor →
        getClientIP r = forwardedIdentitySpec r.xForwardedFor) := by
  refine ⟨getClientIP_forwarded r h, fun ht => ?_⟩
  rw [getClientIP_forwarded r h, forwardedIdentitySpec, ht]

/-- Witness of the amended C9: the header of the repository's test. -/
theorem c9_forwarded_first_value_verbatim_witness :
    getClientIP ⟨"10.0.0.1, 10.0.0.2, 10.0.0.3", "", "192.168.1.1:1234"⟩ = "10.0.0.1" :=
  (c9_forwarded_first_value_verbatim ⟨"10.0.0.1, 10.0.0.2, 10.0.0.3", "", "192.168.1.1:1234"⟩
    (by decide)).2 (by decide)

/-! ## Claim C10: the idle sweep -/

theorem mapGet_mapDelete (m : List (String × visitor)) (k ip : String) :
    mapGet (mapDelete m k) ip = if k = ip then none else mapGet m ip := by
  induction m with
  | nil => simp [mapDelete, mapGet]
  | cons e m ih =>
    obtain ⟨k', w⟩ := e
    have ih1 : mapGet (List.filter (fun e => decide (e.1 ≠ k)) m) ip
        = if k = ip then none else mapGet m ip := ih
    by_cases h1 : k' = k
    · have hf : List.filter (fun e => decide (e.1 ≠ k)) ((k', w) :: m)
          = List.filter (fun e => decide (e.1 ≠ k)) m :=
        List.filter_cons_of_neg (by simp [h1])
      rw [mapDelete, hf, ih1, mapGet_cons]
      by_cases h2 : k = ip
      · simp only [if_pos h2]
      · have h3 : ¬ k' = ip := by rw [h1]; exact h2
        simp only [if_neg h2, if_neg h3]
    · have hf : List.filter (fun e => decide (e.1 ≠ k)) ((k', w) :: m)
          = (k', w) :: List.filter (fun e => decide (e.1 ≠ k)) m :=
        List.filter_cons_of_pos (by simp [h1])
      rw [mapDelete, hf, mapGet_cons, ih1, mapGet_cons]
      by_cases h2 : k' = ip
      · have h3 : ¬ k = ip := fun e => h1 (h2.trans e.symm)
        simp only [if_pos h2, if_neg h3]
      · simp only [if_neg h2]

/-- The sweep over the entries `es`, started on map `m`: the entry of `ip`
disappears when some visited entry of that key is stale, and is untouched otherwise. -/
theorem mapGet_sweep (now cleanup : Int) (ip : String) (es : List (String × visitor)) :
    ∀ m : List (String × visitor),
      mapGet (es.foldl
          (fun m e => if now - e.2.lastVisit > cleanup then mapDelete m e.1 else m) m) ip =
        if ∃ e ∈ es, e.1 = ip ∧ now - e.2.lastVisit > cleanup then none else mapGet m ip := by
  induction es with
  | nil => intro m; simp
  | cons e es ih =>
    intro m
    rw [List.foldl_cons, ih]
    by_cases hex : ∃ e' ∈ es, e'.1 = ip ∧ now - e'.2.lastVisit > cleanup
    · obtain ⟨e', he', hp⟩ := hex
      rw [if_pos ⟨e', he', hp⟩, if_pos ⟨e', List.mem_cons_of_mem e he', hp⟩]
    · rw [if_neg hex]
      by_cases hs : now - e.2.lastVisit > cleanup
      · rw [if_pos hs, mapGet_mapDelete]
        by_cases hk : e.1 = ip
        · rw [if_pos hk, if_pos ⟨e, List.mem_cons_self e es, hk, hs⟩]
        · rw [if_neg hk, if_neg]
          rintro ⟨e', he', hp⟩
          rcases List.mem_cons.mp he' with rfl | he'
          · exact hk hp.1
          · exact hex ⟨e', he', hp⟩
      · rw [if_neg hs, if_neg]
        rintro ⟨e', he', hp⟩
        rcases List.mem_cons.mp he' with rfl | he'
        · exact hs hp.2
        · exact hex ⟨e', he', hp⟩

theorem mem_keys_of_mem {m : List (String × visitor)} {ip : String} {v : visitor}
    (h : (ip, v) ∈ m) : ip ∈ m.map Prod.fst :=
  List.mem_map.mpr ⟨(ip, v), h, rfl⟩

theorem mem_iff_mapGet (m : List (String × visitor)) (hk : keysDistinct m) (ip : String)
    (v : visitor) : (ip, v) ∈ m ↔ mapGet m ip = some v := by
  induction m with
  | nil => simp [mapGet]
  | cons e m ih =>
    obtain ⟨k, w⟩ := e
    have hn : k ∉ m.map Prod.fst ∧ (m.map Prod.fst).Nodup := List.nodup_cons.mp hk
    rw [mapGet_cons, List.mem_cons]
    by_cases h : k = ip
    · subst h
      rw [if_pos rfl]
      constructor
      · rintro (e | e)
        · cases e; rfl
        · exact absurd (mem_keys_of_mem e) hn.1
      · intro e
        cases e
        exact Or.inl rfl
    · rw [if_neg h, ← ih hn.2]
      constructor
      · rintro (e | e)
        · cases e; exact absurd rfl h
        · exact e
      · exact fun e => Or.inr e

/-! The representation invariant `keysDistinct` holds of a new limiter and is
kept by every operation, so it holds of every limiter the program can reach. -/

theorem keysDistinct_new (ratePerMinute : Int) :
    keysDistinct (NewRateLimiter ratePerMinute).visitors :=
  List.nodup_nil

theorem keys_mapStore (m : List (String × visitor)) (ip : String) (v : visitor) :
    (mapStore m ip v).map Prod.fst = m.map Prod.fst := by
  induction m with
  | nil => rfl
  | cons e m ih =>
    obtain ⟨k, w⟩ := e
    rw [mapStore_cons, List.map_cons, List.map_cons, ih]
    by_cases h : k = ip
    · rw [if_pos h]
    · rw [if_neg h]

theorem not_mem_keys_of_mapGet_none (m : List (String × visitor)) (ip : String)
    (h : mapGet m ip = none) : ip ∉ m.map Prod.fst := by
  induction m with
  | nil => exact List.not_mem_nil ip
  | cons e m ih =>
    obtain ⟨k, w⟩ := e
    rw [mapGet_cons] at h
    by_cases hk : k = ip
    · rw [if_pos hk] at h
      cases h
    · rw [if_neg hk] at h
      intro hm
      rcases List.mem_cons.mp hm with e | e
      · exact hk e.symm
      · exact ih h e

theorem keysDistinct_admissionCheck (rl : RateLimiter) (ip : String) (tGet tAllow : Int)
    (hk : keysDistinct rl.visitors) : keysDistinct (admissionCheck rl ip tGet tAllow).2.visitors := by
  rw [admissionCheck_eq]
  cases h : mapGet rl.visitors ip with
  | some v =>
    rw [getVisitor_some tGet h]
    show ((mapStore rl.visitors ip _).map Prod.fst).Nodup
    rw [keys_mapStore]
    exact hk
  | none =>
    rw [getVisitor_none tGet h]
    show ((mapStore (mapInsert rl.visitors ip _) ip _).map Prod.fst).Nodup
    rw [keys_mapStore]
    exact List.nodup_cons.mpr ⟨not_mem_keys_of_mapGet_none _ _ h, hk⟩

theorem keysDistinct_mapDelete (m : List (String × visitor)) (k : String)
    (hk : keysDistinct m) : keysDistinct (mapDelete m k) :=
  List.Nodup.sublist (List.Sublist.map Prod.fst (List.filter_sublist m)) hk

theorem keysDistinct_cleanupTick (rl : RateLimiter) (now : Int)
    (hk : keysDistinct rl.visitors) : keysDistinct (cleanupTick rl now).visitors := by
  have key : ∀ (es m : List (String × visitor)), keysDistinct m →
      keysDistinct (es.foldl
        (fun m e => if now - e.2.lastVisit > rl.cleanup then mapDelete m e.1 else m) m) := by
    intro es
    induction es with
    | nil => intro m hm; exact hm
    | cons e es ih =>
      intro m hm
      rw [List.foldl_cons]
      apply ih
      by_cases hs : now - e.2.lastVisit > rl.cleanup
      · rw [if_pos hs]; exact keysDistinct_mapDelete m e.1 hm
      · rw [if_neg hs]; exact hm
  exact key rl.visitors rl.visitors hk

/-- C10: one sweep at instant `now` removes exactly the identities idle for
longer than the cleanup interval (`now - lastVisit > cleanup`) and keeps every
other identity with its visitor unchanged; rate and interval are untouched, and
the interval of a limiter built by `NewRateLimiter` is five minutes. -/
theorem c10_sweep_removes_exactly_idle (rl : RateLimiter) (now : Int)
    (hk : keysDistinct rl.visitors) (ip : String) :
    mapGet (cleanupTick rl now).visitors ip =
        (match mapGet rl.visitors ip with
          | some v => if now - v.lastVisit > rl.cleanup then none else some v
          | none => none) ∧
      (cleanupTick rl now).rate = rl.rate ∧ (cleanupTick rl now).cleanup = rl.cleanup ∧
      ∀ ratePerMinute : Int, (NewRateLimiter ratePerMinute).cleanup = 300 * Second := by
  refine ⟨?_, rfl, rfl, fun _ => rfl⟩
  show mapGet (rl.visitors.foldl
      (fun m e => if now - e.2.lastVisit > rl.cleanup then mapDelete m e.1 else m)
      rl.visitors) ip = _
  rw [mapGet_sweep]
  cases hg : mapGet rl.visitors ip with
  | none => simp
  | some v =>
    have hmem : (ip, v) ∈ rl.visitors := (mem_iff_mapGet _ hk ip v).mpr hg
    by_cases hs : now - v.lastVisit > rl.cleanup
    · rw [if_pos ⟨(ip, v), hmem, rfl, hs⟩]
      simp only [if_pos hs]
    · rw [if_neg]
      · simp only [if_neg hs]
      · rintro ⟨⟨k, w⟩, he, hkey, hstale⟩
        have hkey' : k = ip := hkey
        subst hkey'
        have hw : mapGet rl.visitors k = some w := (mem_iff_mapGet _ hk k w).mp he
        rw [hg] at hw
        cases hw
        exact hs hstale

/-- Witness of C10: of three visitors, the one idle for more than five minutes at
the time of the sweep goes, the two others stay as they were. -/
theorem c10_sweep_removes_exactly_idle_witness :
    mapGet (cleanupTick
        { visitors := [("a", ⟨3, 0⟩), ("b", ⟨0, 100 * Second⟩), ("c", ⟨7, 400 * Second⟩)],
          rate := 10, cleanup := 5 * Minute } (400 * Second)).visitors "a" = none :=
  (c10_sweep_removes_exactly_idle
    { visitors := [("a", ⟨3, 0⟩), ("b", ⟨0, 100 * Second⟩), ("c", ⟨7, 400 * Second⟩)],
      rate := 10, cleanup := 5 * Minute } (400 * Second) (by decide) "a").1

end middleware

namespace middleware

/-! ## Claim C11: the middleware -/

theorem Limit_eq (rl : RateLimiter) (r : Request) (tGet tAllow : Int) :
    Limit rl r tGet tAllow =
      (if !(admissionCheck rl (getClientIP r) tGet tAllow).1 then
          [Effect.httpError "Rate limit exceeded. Please try again later." StatusTooManyRequests]
        else [Effect.next r],
       (admissionCheck rl (getClientIP r) tGet tAllow).2) := by
  rw [admissionCheck_eq]
  simp only [Limit]
  split <;> rfl

/-- C11: the handler returned by `Limit` leaves the limiter as the admission check
for the client identity of the request leaves it; when that check succeeds its
only effect is one invocation of the wrapped handler on the request; when it
fails the wrapped handler is not invoked and the only effect is `http.Error`
with the fixed message and status 429. -/
theorem c11_limit_invokes_next_iff_admitted (rl : RateLimiter) (r : Request)
    (tGet tAllow : Int) :
    (Limit rl r tGet tAllow).2 = (admissionCheck rl (getClientIP r) tGet tAllow).2 ∧
    ((admissionCheck rl (getClientIP r) tGet tAllow).1 = true →
      (Limit rl r tGet tAllow).1 = [Effect.next r]) ∧
    ((admissionCheck rl (getClientIP r) tGet tAllow).1 = false →
      (Limit rl r tGet tAllow).1 =
          [Effect.httpError "Rate limit exceeded. Please try again later." 429] ∧
        Effect.next r ∉ (Limit rl r tGet tAllow).1) := by
  rw [Limit_eq]
  refine ⟨rfl, fun h => ?_, fun h => ?_⟩
  · simp only [h, Bool.not_true, Bool.false_eq_true, if_false]
  · simp only [h, Bool.not_false, if_true]
    exact ⟨rfl, by simp⟩

end middleware

namespace url

/-! ## Auxiliary lemmas: `url.Parse` on a well-formed URL -/

theorem isAlphanum_ranges {c : Char} (h : c.isAlphanum = true) :
    ('a' ≤ c ∧ c ≤ 'z') ∨ ('A' ≤ c ∧ c ≤ 'Z') ∨ ('0' ≤ c ∧ c ≤ '9') := by
  simp only [Char.isAlphanum, Char.isAlpha, Char.isUpper, Char.isLower, Char.isDigit,
    Bool.or_eq_true, Bool.and_eq_true, decide_eq_true_eq] at h
  rcases h with (⟨h1, h2⟩ | ⟨h1, h2⟩) | ⟨h1, h2⟩
  · exact Or.inr (Or.inl ⟨h1, h2⟩)
  · exact Or.inl ⟨h1, h2⟩
  · exact Or.inr (Or.inr ⟨h1, h2⟩)

theorem toNat_of_ranges {c : Char}
    (h : ('a' ≤ c ∧ c ≤ 'z') ∨ ('A' ≤ c ∧ c ≤ 'Z') ∨ ('0' ≤ c ∧ c ≤ '9')) :
    48 ≤ c.toNat ∧ c.toNat ≤ 122 := by
  have key : ∀ a b : Char, a ≤ b → a.toNat ≤ b.toNat := fun a b hab => hab
  rcases h with ⟨h1, h2⟩ | ⟨h1, h2⟩ | ⟨h1, h2⟩
  · have := key _ _ h1; have := key _ _ h2
    simp only [show ('a' : Char).toNat = 97 from rfl, show ('z' : Char).toNat = 122 from rfl] at *
    omega
  · have := key _ _ h1; have := key _ _ h2
    simp only [show ('A' : Char).toNat = 65 from rfl, show ('Z' : Char).toNat = 90 from rfl] at *
    omega
  · have := key _ _ h1; have := key _ _ h2
    simp only [show ('0' : Char).toNat = 48 from rfl, show ('9' : Char).toNat = 57 from rfl] at *
    omega

theorem hostChar_facts {c : Char} (h : c.isAlphanum = true ∨ c = '.' ∨ c = '-') :
    (c ≠ '/' ∧ c ≠ ':' ∧ c ≠ '@' ∧ c ≠ '[' ∧ c ≠ '%' ∧ c ≠ '#' ∧ c ≠ '?') ∧
      shouldEscapeHost c = false ∧ ¬ (c.toNat < 0x20 ∨ c.toNat = 0x7f) := by
  rcases h with h | h | h
  · refine ⟨⟨?_, ?_, ?_, ?_, ?_, ?_, ?_⟩, ?_, ?_⟩
    iterate 7
      · intro e
        rw [e] at h
        exact absurd h (by decide)
    · have hr := isAlphanum_ranges h
      unfold shouldEscapeHost
      rw [if_pos]
      rcases hr with h1 | h1 | h1
      · exact Or.inl h1
      · exact Or.inr (Or.inl h1)
      · exact Or.inr (Or.inr h1)
    · have := toNat_of_ranges (isAlphanum_ranges h)
      omega
  · subst h
    exact ⟨by decide, by decide, by decide⟩
  · subst h
    exact ⟨by decide, by decide, by decide⟩

theorem pathChar_facts {c : Char}
    (h : c.isAlphanum = true ∨ c = '.' ∨ c = '-' ∨ c = '_' ∨ c = '/') :
    (c ≠ '%' ∧ c ≠ '#' ∧ c ≠ '?') ∧ ¬ (c.toNat < 0x20 ∨ c.toNat = 0x7f) := by
  rcases h with h | h | h | h | h
  · refine ⟨⟨?_, ?_, ?_⟩, ?_⟩
    iterate 3
      · intro e
        rw [e] at h
        exact absurd h (by decide)
    · have := toNat_of_ranges (isAlphanum_ranges h)
      omega
  all_goals
    subst h
    exact ⟨by decide, by decide⟩

theorem Cut_of_not_mem {s : List Char} {sep : Char} (h : sep ∉ s) : Cut s sep = (s, [], false) := by
  have hd : s.dropWhile (fun c => decide (c ≠ sep)) = [] := by
    rw [List.dropWhile_eq_nil_iff]
    intro x hx
    simp only [decide_eq_true_eq]
    exact fun e => h (e ▸ hx)
  simp only [Cut, hd]

theorem Index_of_not_mem {s : List Char} {sep : Char} (h : sep ∉ s) : Index s sep = none := by
  simp only [Index, if_neg h]

theorem LastIndex_of_not_mem {s : List Char} {sep : Char} (h : sep ∉ s) :
    LastIndex s sep = none := by
  simp only [LastIndex, if_neg h]

theorem takeWhile_ne_append {a : List Char} {sep : Char} (rest : List Char) (h : sep ∉ a) :
    (a ++ sep :: rest).takeWhile (fun c => decide (c ≠ sep)) = a := by
  induction a with
  | nil => simp
  | cons c cs ih =>
    have hc : c ≠ sep := fun e => h (e ▸ List.mem_cons_self c cs)
    have hcs : sep ∉ cs := fun e => h (List.mem_cons_of_mem c e)
    simp only [List.cons_append, List.takeWhile_cons, hc, ne_eq, not_false_eq_true,
      decide_True, if_true, ih hcs]

theorem Index_append {a : List Char} {sep : Char} (rest : List Char) (h : sep ∉ a) :
    Index (a ++ sep :: rest) sep = some a.length := by
  have hm : sep ∈ a ++ sep :: rest := by simp
  simp only [Index, if_pos hm, takeWhile_ne_append rest h]

theorem unescapeOk_host (H : List Char)
    (h : ∀ c ∈ H, c.isAlphanum = true ∨ c = '.' ∨ c = '-') :
    unescapeOk encoding.encodeHost H = true := by
  induction H with
  | nil => rfl
  | cons c cs ih =>
    obtain ⟨⟨_, _, _, _, h5, _, _⟩, hs, _⟩ := hostChar_facts (h c (List.mem_cons_self c cs))
    unfold unescapeOk
    simp only [if_neg h5, hs, Bool.false_eq_true, and_false, if_false]
    exact ih (fun x hx => h x (List.mem_cons_of_mem c hx))

theorem unescapeOk_path (P : List Char) (h : '%' ∉ P) :
    unescapeOk encoding.encodePath P = true := by
  induction P with
  | nil => rfl
  | cons c cs ih =>
    have hc : c ≠ '%' := fun e => h (e ▸ List.mem_cons_self c cs)
    have hm : ¬ (encoding.encodePath = encoding.encodeHost ∨
        encoding.encodePath = encoding.encodeZone) := by decide
    unfold unescapeOk
    simp only [if_neg hc, hm, false_and, if_false]
    exact ih (fun e => h (List.mem_cons_of_mem c e))

/-- The authority of a well-formed URL is its host. -/
theorem parseAuthority_host (decode : List Char → List Char) (H : List Char)
    (h : ∀ c ∈ H, c.isAlphanum = true ∨ c = '.' ∨ c = '-') :
    parseAuthority decode H = some H := by
  have hat : '@' ∉ H := fun e => (hostChar_facts (h _ e)).1.2.2.1 rfl
  have hcolon : ':' ∉ H := fun e => (hostChar_facts (h _ e)).1.2.1 rfl
  have hpct : '%' ∉ H := fun e => (hostChar_facts (h _ e)).1.2.2.2.2.1 rfl
  have hbr : ¬ H.head? = some '[' := by
    intro e
    have : '[' ∈ H := List.mem_of_mem_head? e
    exact (hostChar_facts (h _ this)).1.2.2.2.1 rfl
  simp only [parseAuthority, LastIndex_of_not_mem hat, parseHost, if_neg hbr,
    LastIndex_of_not_mem hcolon, unescape, unescapeOk_host H h, if_true, if_neg hpct]

theorem getScheme_http (rest : List Char) :
    getScheme ("http".data ++ ':' :: rest) = some ("http".data, rest) := by
  simp [getScheme, getSchemeLoop]

theorem getScheme_https (rest : List Char) :
    getScheme ("https".data ++ ':' :: rest) = some ("https".data, rest) := by
  simp [getScheme, getSchemeLoop]

/-- `parse` on a well-formed URL: the scheme, then `://`, a host of letters,
digits, dots and hyphens, and a path that is empty or starts with a slash. -/
theorem parse_well_formed (decode : List Char → List Char) (S H P : List Char)
    (hS : S = "http".data ∨ S = "https".data)
    (hH : ∀ c ∈ H, c.isAlphanum = true ∨ c = '.' ∨ c = '-')
    (hPshape : P = [] ∨ P.head? = some '/')
    (hP : ∀ c ∈ P, c.isAlphanum = true ∨ c = '.' ∨ c = '-' ∨ c = '_' ∨ c = '/') :
    parse decode (S ++ ':' :: '/' :: '/' :: (H ++ P))
      = some { Scheme := String.mk S, Host := String.mk H } := by
  have hSchars : ∀ c ∈ S, c.isAlphanum = true := by
    rcases hS with e | e <;> rw [e] <;> decide
  have hrestq : '?' ∉ '/' :: '/' :: (H ++ P) := by
    intro e
    rcases List.mem_cons.mp e with e | e
    · exact absurd e (by decide)
    rcases List.mem_cons.mp e with e | e
    · exact absurd e (by decide)
    rcases List.mem_append.mp e with e | e
    · exact (hostChar_facts (hH _ e)).1.2.2.2.2.2.2 rfl
    · exact (pathChar_facts (hP _ e)).1.2.2 rfl
  have hctl : stringContainsCTLByte (S ++ ':' :: '/' :: '/' :: (H ++ P)) = false := by
    unfold stringContainsCTLByte
    rw [List.any_eq_false]
    intro c hc
    simp only [decide_eq_true_eq]
    rcases List.mem_append.mp hc with e | e
    · have := toNat_of_ranges (isAlphanum_ranges (hSchars c e))
      omega
    rcases List.mem_cons.mp e with e | e
    · rw [e]; decide
    rcases List.mem_cons.mp e with e | e
    · rw [e]; decide
    rcases List.mem_cons.mp e with e | e
    · rw [e]; decide
    rcases List.mem_append.mp e with e | e
    · exact (hostChar_facts (hH _ e)).2.2
    · exact (pathChar_facts (hP _ e)).2
  have hstar : ¬ S ++ ':' :: '/' :: '/' :: (H ++ P) = ['*'] := by
    rcases hS with e | e <;> rw [e] <;> intro e2 <;> cases e2
  have hsch : getScheme (S ++ ':' :: '/' :: '/' :: (H ++ P))
      = some (S, '/' :: '/' :: (H ++ P)) := by
    rcases hS with e | e <;> rw [e]
    · exact getScheme_http _
    · exact getScheme_https _
  have hlow : S.map Char.toLower = S := by
    rcases hS with e | e <;> rw [e] <;> decide
  have hSne : S ≠ [] := by
    rcases hS with e | e <;> rw [e] <;> decide
  have hlast : ¬ (('/' :: '/' :: (H ++ P)).getLast? = some '?' ∧
      ('/' :: '/' :: (H ++ P)).count '?' = 1) := by
    intro e
    exact hrestq (List.mem_of_getLast?_eq_some e.1)
  have hslashH : '/' ∉ H := fun e => (hostChar_facts (hH _ e)).1.1 rfl
  have hpctP : '%' ∉ P := fun e => (pathChar_facts (hP _ e)).1.1 rfl
  unfold parse
  rw [hctl]
  simp only [Bool.false_eq_true, if_false, if_neg hstar, hsch, hlow, if_neg hlast,
    Cut_of_not_mem hrestq]
  have h1 : ¬ (('/' :: '/' :: (H ++ P)).head? ≠ some '/' ∧ S ≠ []) := by
    intro e
    exact e.1 rfl
  have h2 : ¬ (('/' :: '/' :: (H ++ P)).head? ≠ some '/' ∧
      ':' ∈ (Cut ('/' :: '/' :: (H ++ P)) '/').1) := by
    intro e
    exact e.1 rfl
  have h3 : (S ≠ [] ∨ ('/' :: '/' :: (H ++ P)).take 3 ≠ ['/', '/', '/']) ∧
      ('/' :: '/' :: (H ++ P)).take 2 = ['/', '/'] := ⟨Or.inl hSne, rfl⟩
  rw [if_neg h1, if_neg h2, if_pos h3]
  have hdrop : ('/' :: '/' :: (H ++ P)).drop 2 = H ++ P := rfl
  rw [hdrop]
  rcases hPshape with e | e
  · subst e
    rw [List.append_nil, Index_of_not_mem hslashH]
    simp only [parseAuthority_host decode H hH, unescape, unescapeOk_path [] hpctP, if_true]
  · cases P with
    | nil => simp at e
    | cons x P' =>
      simp only [List.head?_cons, Option.some.injEq] at e
      subst e
      rw [Index_append P' hslashH]
      simp only [List.take_left', List.drop_left', parseAuthority_host decode H hH, unescape,
        unescapeOk_path _ hpctP, if_true]

/-- `url.Parse` on a well-formed URL returns the scheme and the host. -/
theorem Parse_well_formed (decode : List Char → List Char) (scheme h p : String)
    (hscheme : scheme = "http" ∨ scheme = "https")
    (hhostChars : ∀ c ∈ h.data, c.isAlphanum = true ∨ c = '.' ∨ c = '-')
    (hpathShape : p = "" ∨ p.data.head? = some '/')
    (hpathChars : ∀ c ∈ p.data, c.isAlphanum = true ∨ c = '.' ∨ c = '-' ∨ c = '_' ∨ c = '/') :
    Parse decode (scheme ++ "://" ++ h ++ p) = some { Scheme := scheme, Host := h } := by
  have hS : scheme.data = "http".data ∨ scheme.data = "https".data := by
    rcases hscheme with e | e <;> rw [e]
    · exact Or.inl rfl
    · exact Or.inr rfl
  have hPshape : p.data = [] ∨ p.data.head? = some '/' := by
    rcases hpathShape with e | e
    · left; rw [e]
    · exact Or.inr e
  have hdata : (scheme ++ "://" ++ h ++ p).data
      = scheme.data ++ ':' :: '/' :: '/' :: (h.data ++ p.data) := by
    simp only [String.data_append, List.append_assoc]
    rfl
  have hhash : '#' ∉ scheme.data ++ ':' :: '/' :: '/' :: (h.data ++ p.data) := by
    intro e
    rcases List.mem_append.mp e with e | e
    · rcases hS with e2 | e2 <;> rw [e2] at e <;> revert e <;> decide
    rcases List.mem_cons.mp e with e | e
    · exact absurd e (by decide)
    rcases List.mem_cons.mp e with e | e
    · exact absurd e (by decide)
    rcases List.mem_cons.mp e with e | e
    · exact absurd e (by decide)
    rcases List.mem_append.mp e with e | e
    · exact (hostChar_facts (hhostChars _ e)).1.2.2.2.2.2.1 rfl
    · exact (pathChar_facts (hpathChars _ e)).1.2.1 rfl
  unfold Parse
  rw [hdata, Cut_of_not_mem hhash]
  simp only [parse_well_formed decode _ _ _ hS hhostChars hPshape hpathChars, if_true]

end url

namespace validator

/-! ## Claims C19 and C20: URL validation -/

theorem schemeAllowed_new (maxURLLength : Int) (scheme : String) :
    schemeAllowed (NewURLValidator maxURLLength).allowedSchemes scheme = true ↔
      scheme = "http" ∨ scheme = "https" := by
  simp only [NewURLValidator, schemeAllowed]
  by_cases h1 : "http" = scheme
  · simp [h1.symm]
  · by_cases h2 : "https" = scheme
    · simp [h2.symm]
    · simp only [if_neg h1, if_neg h2, Bool.false_eq_true, false_iff, not_or]
      exact ⟨fun e => h1 e.symm, fun e => h2 e.symm⟩

/-- The outcome of `ValidateURL`, check by check, in the order of the source. -/
theorem ValidateURL_eq (Parse : String → Option URL) (maxURLLength : Int) (rawURL : String) :
    ValidateURL Parse (NewURLValidator maxURLLength) rawURL =
      if rawURL = "" then some errors.ErrEmptyURL
      else if (rawURL.utf8ByteSize : Int) > maxURLLength then
        some (errors.GoError.validation { Field := "url", Message := "URL is too long" })
      else match Parse rawURL with
        | none =>
          some (errors.GoError.validation { Field := "url", Message := "invalid URL format" })
        | some u =>
          if ¬ (u.Scheme = "http" ∨ u.Scheme = "https") then
            some (errors.GoError.validation
              { Field := "url", Message := "URL scheme must be http or https" })
          else if u.Host = "" then
            some (errors.GoError.validation
              { Field := "url", Message := "URL must have a host" })
          else none := by
  unfold ValidateURL
  by_cases h1 : rawURL = ""
  · simp only [if_pos h1]
  · simp only [if_neg h1]
    by_cases h2 : (rawURL.utf8ByteSize : Int) > maxURLLength
    · have h2' : (rawURL.utf8ByteSize : Int) > (NewURLValidator maxURLLength).maxURLLength := h2
      simp only [if_pos h2, if_pos h2']
    · have h2' : ¬ (rawURL.utf8ByteSize : Int) > (NewURLValidator maxURLLength).maxURLLength := h2
      simp only [if_neg h2, if_neg h2']
      cases hp : Parse rawURL with
      | none => rfl
      | some u =>
        by_cases h3 : u.Scheme = "http" ∨ u.Scheme = "https"
        · have h3' := (schemeAllowed_new maxURLLength u.Scheme).mpr h3
          simp only [h3', Bool.not_true, Bool.false_eq_true, if_false, h3, not_true_eq_false]
        · have h3' : schemeAllowed (NewURLValidator maxURLLength).allowedSchemes u.Scheme
              = false := by
            cases hb : schemeAllowed (NewURLValidator maxURLLength).allowedSchemes u.Scheme
            · rfl
            · exact absurd ((schemeAllowed_new maxURLLength u.Scheme).mp hb) h3
          simp only [h3', Bool.not_false, if_true, h3, not_false_eq_true]

theorem append_ne_empty_of_left {a : String} (b : String) (h : a ≠ "") : a ++ b ≠ "" := by
  intro e
  apply h
  have h1 : (a ++ b).data = [] := by rw [e]
  rw [String.data_append] at h1
  exact String.ext (List.append_eq_nil.mp h1).1

/-- C19: a URL `scheme://host path` with scheme http or https, a non-empty host
of letters, digits, dots and hyphens and a path that is empty or a sequence of
slash-led segments of letters, digits, dots, hyphens and underscores, at most
`maxURLLength` bytes long: `url.Parse` returns that scheme and that host, and
`ValidateURL` returns nil.  And whatever `url.Parse` does, an input for which
`ValidateURL` returns nil is non-empty, at most `maxURLLength` bytes long,
parsed, of scheme http or https and with a non-empty host. -/
theorem c19_accepts_well_formed_urls (decode : List Char → List Char) (maxURLLength : Int)
    (scheme h p : String)
    (hscheme : scheme = "http" ∨ scheme = "https")
    (hhost : h ≠ "")
    (hhostChars : ∀ c ∈ h.data, c.isAlphanum = true ∨ c = '.' ∨ c = '-')
    (hpathShape : p = "" ∨ p.data.head? = some '/')
    (hpathChars : ∀ c ∈ p.data, c.isAlphanum = true ∨ c = '.' ∨ c = '-' ∨ c = '_' ∨ c = '/')
    (hlen : ((scheme ++ "://" ++ h ++ p).utf8ByteSize : Int) ≤ maxURLLength) :
    url.Parse decode (scheme ++ "://" ++ h ++ p) = some { Scheme := scheme, Host := h } ∧
    ValidateURL (url.Parse decode) (NewURLValidator maxURLLength) (scheme ++ "://" ++ h ++ p)
      = none ∧
    ∀ (Parse : String → Option URL) (rawURL : String),
      ValidateURL Parse (NewURLValidator maxURLLength) rawURL = none →
      rawURL ≠ "" ∧ (rawURL.utf8ByteSize : Int) ≤ maxURLLength ∧
        ∃ v : URL, Parse rawURL = some v ∧ (v.Scheme = "http" ∨ v.Scheme = "https") ∧
          v.Host ≠ "" := by
  have hparse := url.Parse_well_formed decode scheme h p hscheme hhostChars hpathShape hpathChars
  refine ⟨hparse, ?_, ?_⟩
  · have hne : scheme ++ "://" ++ h ++ p ≠ "" := by
      have hs : scheme ≠ "" := by
        rcases hscheme with e | e <;> rw [e] <;> decide
      exact append_ne_empty_of_left _ (append_ne_empty_of_left _ (append_ne_empty_of_left _ hs))
    rw [ValidateURL_eq, if_neg hne, if_neg (not_lt.mpr hlen), hparse]
    simp only [hscheme, not_true_eq_false, if_false, if_neg hhost]
  · intro Parse rawURL hnil
    rw [ValidateURL_eq] at hnil
    by_cases h1 : rawURL = ""
    · rw [if_pos h1] at hnil; cases hnil
    · rw [if_neg h1] at hnil
      by_cases h2 : (rawURL.utf8ByteSize : Int) > maxURLLength
      · rw [if_pos h2] at hnil; cases hnil
      · rw [if_neg h2] at hnil
        cases hp : Parse rawURL with
        | none => rw [hp] at hnil; cases hnil
        | some v =>
          rw [hp] at hnil
          by_cases h3 : v.Scheme = "http" ∨ v.Scheme = "https"
          · by_cases h4 : v.Host = ""
            · simp only [h3, not_true_eq_false, if_false, if_pos h4] at hnil
              cases hnil
            · exact ⟨h1, not_lt.mp h2, v, rfl, h3, h4⟩
          · simp only [h3, not_false_eq_true, if_true] at hnil
            cases hnil

/-- Witness of C19: the first URL of the repository's test, limit 2048. -/
theorem c19_accepts_well_formed_urls_witness :
    url.Parse id ("http" ++ "://" ++ "example.com" ++ "/rss")
        = some { Scheme := "http", Host := "example.com" } ∧
      ValidateURL (url.Parse id) (NewURLValidator 2048)
        ("http" ++ "://" ++ "example.com" ++ "/rss") = none :=
  ⟨(c19_accepts_well_formed_urls id 2048 "http" "example.com" "/rss"
      (Or.inl rfl) (by decide) (by decide) (by decide) (by decide) (by decide)).1,
    (c19_accepts_well_formed_urls id 2048 "http" "example.com" "/rss"
      (Or.inl rfl) (by decide) (by decide) (by decide) (by decide) (by decide)).2.1⟩

/-- C20: `ValidateURL` reports the first failing check in the order: empty input
(`ErrEmptyURL`, "URL cannot be empty"), more than `maxURLLength` bytes ("URL is
too long"; exactly `maxURLLength` bytes pass this check), `url.Parse` fails
("invalid URL format"), scheme other than http and https ("URL scheme must be
http or https"), empty host ("URL must have a host"); otherwise it returns nil.
The five messages are pairwise distinct. -/
theorem c20_first_failing_check (Parse : String → Option URL) (maxURLLength : Int)
    (rawURL : String) :
    (rawURL = "" →
      ValidateURL Parse (NewURLValidator maxURLLength) rawURL
        = some (errors.GoError.sentinel "URL cannot be empty")) ∧
    (rawURL ≠ "" → (rawURL.utf8ByteSize : Int) > maxURLLength →
      ValidateURL Parse (NewURLValidator maxURLLength) rawURL
        = some (errors.GoError.validation { Field := "url", Message := "URL is too long" })) ∧
    (rawURL ≠ "" → (rawURL.utf8ByteSize : Int) ≤ maxURLLength → Parse rawURL = none →
      ValidateURL Parse (NewURLValidator maxURLLength) rawURL
        = some (errors.GoError.validation
            { Field := "url", Message := "invalid URL format" })) ∧
    (∀ u : URL, rawURL ≠ "" → (rawURL.utf8ByteSize : Int) ≤ maxURLLength →
      Parse rawURL = some u → ¬ (u.Scheme = "http" ∨ u.Scheme = "https") →
      ValidateURL Parse (NewURLValidator maxURLLength) rawURL
        = some (errors.GoError.validation
            { Field := "url", Message := "URL scheme must be http or https" })) ∧
    (∀ u : URL, rawURL ≠ "" → (rawURL.utf8ByteSize : Int) ≤ maxURLLength →
      Parse rawURL = some u → (u.Scheme = "http" ∨ u.Scheme = "https") → u.Host = "" →
      ValidateURL Parse (NewURLValidator maxURLLength) rawURL
        = some (errors.GoError.validation
            { Field := "url", Message := "URL must have a host" })) ∧
    (∀ u : URL, rawURL ≠ "" → (rawURL.utf8ByteSize : Int) ≤ maxURLLength →
      Parse rawURL = some u → (u.Scheme = "http" ∨ u.Scheme = "https") → u.Host ≠ "" →
      ValidateURL Parse (NewURLValidator maxURLLength) rawURL = none) ∧
    errors.ErrEmptyURL = errors.GoError.sentinel "URL cannot be empty" ∧
    ["URL cannot be empty", "URL is too long", "invalid URL format",
      "URL scheme must be http or https", "URL must have a host"].Nodup := by
  rw [ValidateURL_eq]
  refine ⟨fun h1 => ?_, fun h1 h2 => ?_, fun h1 h2 h3 => ?_, fun u h1 h2 h3 h4 => ?_,
    fun u h1 h2 h3 h4 h5 => ?_, fun u h1 h2 h3 h4 h5 => ?_, rfl, by decide⟩
  · rw [if_pos h1]; rfl
  · rw [if_neg h1, if_pos h2]
  · rw [if_neg h1, if_neg (not_lt.mpr h2), h3]
  · rw [if_neg h1, if_neg (not_lt.mpr h2), h3]
    simp only [h4, not_false_eq_true, if_true]
  · rw [if_neg h1, if_neg (not_lt.mpr h2), h3]
    simp only [h4, not_true_eq_false, if_false, if_pos h5]
  · rw [if_neg h1, if_neg (not_lt.mpr h2), h3]
    simp only [h4, not_true_eq_false, if_false, if_neg h5]

end validator

namespace regexp

/-! ## Auxiliary lemmas: the scan of `ReplaceAllString` -/

theorem replaceLoop_skip (re : Regexp) (repl : List Char) (l : List Char) :
    ∀ k : Nat, replaceLoop re repl k l = replaceLoop re repl 0 (l.drop k) := by
  induction l with
  | nil => intro k; cases k <;> rfl
  | cons c cs ih =>
    intro k
    cases k with
    | zero => rfl
    | succ k =>
      show replaceLoop re repl k cs = _
      rw [ih k]
      rfl

theorem replaceLoop_none (re : Regexp) (repl : List Char) {c : Char} {cs : List Char}
    (h : re.matchAt (c :: cs) = none) :
    replaceLoop re repl 0 (c :: cs) = c :: replaceLoop re repl 0 cs := by
  simp only [replaceLoop, h]

theorem replaceLoop_some (re : Regexp) (repl : List Char) {pre rest : List Char}
    (hpre : pre ≠ []) (h : re.matchAt (pre ++ rest) = some rest) :
    replaceLoop re repl 0 (pre ++ rest) = repl ++ replaceLoop re repl 0 rest := by
  cases pre with
  | nil => exact absurd rfl hpre
  | cons c pre =>
    have h1 : re.matchAt (c :: (pre ++ rest)) = some rest := h
    have h2 : (c :: (pre ++ rest)).length - rest.length - 1 = pre.length := by
      simp only [List.length_cons, List.length_append]
      omega
    show replaceLoop re repl 0 (c :: (pre ++ rest)) = _
    simp only [replaceLoop, h1]
    rw [h2, replaceLoop_skip, List.drop_left]

theorem replaceLoop_pass {re : Regexp} {ch : Char} (hre : StartsWith re ch) (repl : List Char)
    (a rest : List Char) (ha : ch ∉ a) :
    replaceLoop re repl 0 (a ++ rest) = a ++ replaceLoop re repl 0 rest := by
  induction a with
  | nil => rfl
  | cons c cs ih =>
    have hc : c ≠ ch := fun e => ha (e ▸ List.mem_cons_self c cs)
    have hcs : ch ∉ cs := fun e => ha (List.mem_cons_of_mem c e)
    show replaceLoop re repl 0 (c :: (cs ++ rest)) = c :: (cs ++ replaceLoop re repl 0 rest)
    rw [replaceLoop_none re repl (hre c (cs ++ rest) hc), ih hcs]

theorem replaceLoop_id {re : Regexp} {ch : Char} (hre : StartsWith re ch) (repl : List Char)
    (a : List Char) (ha : ch ∉ a) : replaceLoop re repl 0 a = a := by
  have h := replaceLoop_pass hre repl a [] ha
  rw [List.append_nil] at h
  rw [h]
  simp [replaceLoop]

theorem mem_replaceLoop (re : Regexp) (repl : List Char) (x : Char) (l : List Char) :
    ∀ k : Nat, x ∈ replaceLoop re repl k l → x ∈ l ∨ x ∈ repl := by
  induction l with
  | nil => intro k h; cases k <;> simp [replaceLoop] at h
  | cons c cs ih =>
    intro k h
    cases k with
    | succ k =>
      rcases ih k h with h1 | h1
      · exact Or.inl (List.mem_cons_of_mem c h1)
      · exact Or.inr h1
    | zero =>
      cases hm : re.matchAt (c :: cs) with
      | none =>
        rw [replaceLoop_none re repl hm] at h
        rcases List.mem_cons.mp h with h1 | h1
        · exact Or.inl (h1 ▸ List.mem_cons_self c cs)
        · rcases ih 0 h1 with h2 | h2
          · exact Or.inl (List.mem_cons_of_mem c h2)
          · exact Or.inr h2
      | some rest =>
        simp only [replaceLoop, hm] at h
        rcases List.mem_append.mp h with h1 | h1
        · exact Or.inr h1
        · rcases ih _ h1 with h2 | h2
          · exact Or.inl (List.mem_cons_of_mem c h2)
          · exact Or.inr h2

end regexp

namespace strings

/-! ## Auxiliary lemmas: `TrimSpace` -/

theorem rdropWhile_append (p : Char → Bool) (l : List Char) :
    List.rdropWhile p l ++ (List.takeWhile p l.reverse).reverse = l := by
  rw [List.rdropWhile, ← List.reverse_append, List.takeWhile_append_dropWhile,
    List.reverse_reverse]

/-- The trimmed text is a segment of the text. -/
theorem trim_segment (l : List Char) :
    ∃ pre suf : List Char,
      l = pre ++ List.rdropWhile unicode.IsSpace (List.dropWhile unicode.IsSpace l) ++ suf := by
  refine ⟨List.takeWhile unicode.IsSpace l,
    (List.takeWhile unicode.IsSpace (List.dropWhile unicode.IsSpace l).reverse).reverse, ?_⟩
  rw [List.append_assoc, rdropWhile_append, List.takeWhile_append_dropWhile]

theorem trim_head (l : List Char) (c : Char)
    (h : (List.rdropWhile unicode.IsSpace (List.dropWhile unicode.IsSpace l)).head? = some c) :
    unicode.IsSpace c = false := by
  have h1 := rdropWhile_append unicode.IsSpace (List.dropWhile unicode.IsSpace l)
  have h2 := List.head?_dropWhile_not unicode.IsSpace l
  cases ht : List.rdropWhile unicode.IsSpace (List.dropWhile unicode.IsSpace l) with
  | nil => rw [ht] at h; cases h
  | cons x t =>
    rw [ht] at h h1
    cases h
    rw [← h1] at h2
    exact h2

theorem trim_last (l : List Char) (c : Char)
    (h : (List.rdropWhile unicode.IsSpace (List.dropWhile unicode.IsSpace l)).getLast?
      = some c) : unicode.IsSpace c = false := by
  have hne : List.rdropWhile unicode.IsSpace (List.dropWhile unicode.IsSpace l) ≠ [] := by
    intro e
    rw [e] at h
    cases h
  have h1 := List.rdropWhile_last_not unicode.IsSpace (List.dropWhile unicode.IsSpace l) hne
  rw [List.getLast?_eq_getLast _ hne] at h
  cases h
  simpa using h1

end strings

namespace utils

/-! ## Auxiliary lemmas: the stages of `StripHTML` -/

theorem StripHTML_data (T : html.EntityTables) (s : HTMLSanitizer) (htmlStr : String) :
    (StripHTML T s htmlStr).data =
      if htmlStr = "" then [] else afterUnescape s (html.unescapeLoop T 0 htmlStr.data) := by
  by_cases h : htmlStr = ""
  · simp only [StripHTML, if_pos h]
  · simp only [StripHTML, if_neg h]
    rfl

theorem replaceLoop_nil (re : regexp.Regexp) (repl : List Char) (k : Nat) :
    regexp.replaceLoop re repl k [] = [] := by
  cases k <;> rfl

theorem multiLine_startsWith : regexp.StartsWith NewHTMLSanitizer.multiLineRegex '\n' := by
  intro c cs hc
  show (match c :: cs with
    | '\n' :: '\n' :: '\n' :: cs => some (cs.dropWhile (fun c => c = '\n'))
    | _ => none) = none
  split
  · rename_i h
    exact absurd (List.cons.inj h).1 hc
  · rfl

theorem multiLine_no_match (cs : List Char) (h : ∀ t, cs ≠ '\n' :: '\n' :: t) :
    NewHTMLSanitizer.multiLineRegex.matchAt ('\n' :: cs) = none := by
  show (match '\n' :: cs with
    | '\n' :: '\n' :: '\n' :: cs => some (cs.dropWhile (fun c => c = '\n'))
    | _ => none) = none
  split
  · rename_i t heq
    exact absurd (List.cons.inj heq).2 (h t)
  · rfl

theorem dropWhile_newline_head (t u : List Char) :
    t.dropWhile (fun c => decide (c = '\n')) ≠ '\n' :: u := by
  induction t with
  | nil => simp
  | cons x t ih =>
    by_cases hx : x = '\n'
    · rw [List.dropWhile_cons_of_pos (by simpa using hx)]
      exact ih
    · rw [List.dropWhile_cons_of_neg (by simpa using hx)]
      intro e
      exact hx (List.cons.inj e).1

theorem multiLine_match (t : List Char) :
    regexp.replaceLoop NewHTMLSanitizer.multiLineRegex ['\n', '\n'] 0
        ('\n' :: '\n' :: '\n' :: t) =
      '\n' :: '\n' :: regexp.replaceLoop NewHTMLSanitizer.multiLineRegex ['\n', '\n'] 0
        (t.dropWhile (fun c => decide (c = '\n'))) := by
  have h := @regexp.replaceLoop_some NewHTMLSanitizer.multiLineRegex ['\n', '\n']
    ('\n' :: '\n' :: '\n' :: t.takeWhile (fun c => decide (c = '\n')))
    (t.dropWhile (fun c => decide (c = '\n'))) (by simp)
    (by
      show some (( t.takeWhile (fun c => decide (c = '\n')) ++
        t.dropWhile (fun c => decide (c = '\n'))).dropWhile (fun c => decide (c = '\n'))) = _
      rw [List.takeWhile_append_dropWhile])
  simp only [List.cons_append, List.takeWhile_append_dropWhile] at h
  exact h

theorem hasTripleNewline_cons (c : Char) (l : List Char) :
    HasTripleNewline (c :: l) ↔
      (∃ post, c :: l = '\n' :: '\n' :: '\n' :: post) ∨ HasTripleNewline l := by
  constructor
  · rintro ⟨pre, post, h⟩
    cases pre with
    | nil => exact Or.inl ⟨post, h⟩
    | cons x pre => exact Or.inr ⟨pre, post, (List.cons.inj h).2⟩
  · rintro (⟨post, h⟩ | ⟨pre, post, h⟩)
    · exact ⟨[], post, h⟩
    · exact ⟨c :: pre, post, by rw [h]; rfl⟩

/-- The newline stage leaves no three consecutive newlines, and does not add
newlines at the start of the text. -/
theorem multiLine_spec (n : Nat) :
    ∀ l : List Char, l.length ≤ n →
      ¬ HasTripleNewline (regexp.replaceLoop NewHTMLSanitizer.multiLineRegex ['\n', '\n'] 0 l) ∧
      ((∀ t, l ≠ '\n' :: t) →
        ∀ t, regexp.replaceLoop NewHTMLSanitizer.multiLineRegex ['\n', '\n'] 0 l ≠ '\n' :: t) ∧
      ((∀ t, l ≠ '\n' :: '\n' :: t) →
        ∀ t, regexp.replaceLoop NewHTMLSanitizer.multiLineRegex ['\n', '\n'] 0 l
          ≠ '\n' :: '\n' :: t) := by
  induction n with
  | zero =>
    intro l hl
    have hnil : l = [] := List.eq_nil_of_length_eq_zero (Nat.le_zero.mp hl)
    subst hnil
    rw [replaceLoop_nil]
    refine ⟨?_, fun _ t => by simp, fun _ t => by simp⟩
    rintro ⟨pre, post, h⟩
    simp at h
  | succ n ih =>
    intro l hl
    cases l with
    | nil =>
      rw [replaceLoop_nil]
      refine ⟨?_, fun _ t => by simp, fun _ t => by simp⟩
      rintro ⟨pre, post, h⟩
      simp at h
    | cons c cs =>
      have hcs : cs.length ≤ n := by simpa using hl
      by_cases hc : c = '\n'
      · subst hc
        by_cases hm : ∃ t, cs = '\n' :: '\n' :: t
        · obtain ⟨t, rfl⟩ := hm
          rw [multiLine_match]
          have hr : (t.dropWhile (fun c => decide (c = '\n'))).length ≤ n := by
            have h1 := List.Sublist.length_le (List.dropWhile_sublist
              (fun c => decide (c = '\n')) (l := t))
            simp only [List.length_cons] at hcs
            omega
          obtain ⟨i1, i2, _⟩ := ih _ hr
          have i2' := i2 (dropWhile_newline_head t)
          refine ⟨?_, fun h => absurd rfl (h _), fun h => absurd rfl (h _)⟩
          rw [hasTripleNewline_cons, hasTripleNewline_cons]
          rintro (⟨post, h⟩ | ⟨post, h⟩ | h)
          · exact i2' post (List.cons.inj (List.cons.inj h).2).2
          · exact i2' _ (List.cons.inj h).2
          · exact i1 h
        · have hm' : ∀ t, cs ≠ '\n' :: '\n' :: t := fun t e => hm ⟨t, e⟩
          rw [regexp.replaceLoop_none _ _ (multiLine_no_match cs hm')]
          obtain ⟨i1, i2, i3⟩ := ih cs hcs
          refine ⟨?_, fun h => absurd rfl (h _), fun h t e => ?_⟩
          · rw [hasTripleNewline_cons]
            rintro (⟨post, h⟩ | h)
            · exact i3 hm' post (List.cons.inj h).2
            · exact i1 h
          · have hcs1 : ∀ u, cs ≠ '\n' :: u := fun u e1 => h u (by rw [e1])
            exact i2 hcs1 _ (List.cons.inj e).2
      · rw [regexp.replaceLoop_none _ _ (multiLine_startsWith c cs hc)]
        obtain ⟨i1, _, _⟩ := ih cs hcs
        refine ⟨?_, fun _ t e => hc (List.cons.inj e).1, fun _ t e => hc (List.cons.inj e).1⟩
        rw [hasTripleNewline_cons]
        rintro (⟨post, h⟩ | h)
        · exact hc (List.cons.inj h).1
        · exact i1 h

theorem hasTripleNewline_segment {l t : List Char} (a b : List Char) (h : l = a ++ t ++ b)
    (ht : HasTripleNewline t) : HasTripleNewline l := by
  obtain ⟨pre, post, e⟩ := ht
  refine ⟨a ++ pre, post ++ b, ?_⟩
  rw [h, e]
  simp

/-! ## Claim C18 -/

/-- C18: for every input, the result of `StripHTML` holds no three consecutive
newlines, and neither its first nor its last rune is white space. -/
theorem c18_no_triple_newline_and_trimmed (T : html.EntityTables) (htmlStr : String) :
    ¬ HasTripleNewline (StripHTML T NewHTMLSanitizer htmlStr).data ∧
    (∀ c, (StripHTML T NewHTMLSanitizer htmlStr).data.head? = some c →
      unicode.IsSpace c = false) ∧
    (∀ c, (StripHTML T NewHTMLSanitizer htmlStr).data.getLast? = some c →
      unicode.IsSpace c = false) := by
  rw [StripHTML_data]
  by_cases h : htmlStr = ""
  · rw [if_pos h]
    refine ⟨?_, fun c hc => (by cases hc), fun c hc => (by cases hc)⟩
    rintro ⟨pre, post, e⟩
    simp at e
  · rw [if_neg h]
    refine ⟨fun ht => ?_, fun c hc => strings.trim_head _ c hc,
      fun c hc => strings.trim_last _ c hc⟩
    obtain ⟨a, b, e⟩ := strings.trim_segment
      (regexp.replaceLoop NewHTMLSanitizer.multiLineRegex ['\n', '\n'] 0
        (regexp.replaceLoop NewHTMLSanitizer.tagRegex [] 0
          (regexp.replaceLoop NewHTMLSanitizer.blockRegex ['\n'] 0
            (regexp.replaceLoop NewHTMLSanitizer.brRegex ['\n'] 0
              (regexp.replaceLoop NewHTMLSanitizer.styleRegex [] 0
                (regexp.replaceLoop NewHTMLSanitizer.scriptRegex [] 0
                  (html.unescapeLoop T 0 htmlStr.data)))))))
    exact (multiLine_spec _ _ (Nat.le_refl _)).1 (hasTripleNewline_segment a b e ht)


/-! ## Claim C14: no tag is left -/

theorem tagFree_nil : TagFree [] := by
  intro pre rest h
  simp at h

theorem tagFree_cons (c : Char) (l : List Char) :
    TagFree (c :: l) ↔ (c = '<' → l.head? = some '>' ∨ '>' ∉ l) ∧ TagFree l := by
  constructor
  · intro h
    refine ⟨fun hc => h [] l (by rw [hc]; rfl), fun pre rest e => h (c :: pre) rest ?_⟩
    rw [e]; rfl
  · rintro ⟨h1, h2⟩ pre rest e
    cases pre with
    | nil =>
      have e1 := List.cons.inj e
      rw [← e1.2]
      exact h1 e1.1
    | cons x pre => exact h2 pre rest (List.cons.inj e).2

theorem afterGt_none (l : List Char) (h : regexp.afterGt l = none) : '>' ∉ l := by
  induction l with
  | nil => exact List.not_mem_nil _
  | cons c cs ih =>
    by_cases hc : c = '>'
    · simp [regexp.afterGt, hc] at h
    · simp only [regexp.afterGt, if_neg hc] at h
      intro hm
      rcases List.mem_cons.mp hm with e | e
      · exact hc e.symm
      · exact ih h e

theorem tag_startsWith : regexp.StartsWith NewHTMLSanitizer.tagRegex '<' := by
  intro c cs hc
  show (match c :: cs with
    | '<' :: c :: cs => if c = '>' then none else regexp.afterGt (c :: cs)
    | _ => none) = none
  split
  · rename_i h
    exact absurd (List.cons.inj h).1 hc
  · rfl

theorem tag_no_match (cs : List Char)
    (h : NewHTMLSanitizer.tagRegex.matchAt ('<' :: cs) = none) :
    cs.head? = some '>' ∨ '>' ∉ cs := by
  cases cs with
  | nil => exact Or.inr (List.not_mem_nil _)
  | cons c cs =>
    by_cases hc : c = '>'
    · exact Or.inl (by rw [hc]; rfl)
    · have h1 : (if c = '>' then none else regexp.afterGt (c :: cs)) = none := h
      rw [if_neg hc] at h1
      exact Or.inr (afterGt_none _ h1)

theorem tag_stage_tagFree (l : List Char) :
    ∀ k : Nat, TagFree (regexp.replaceLoop NewHTMLSanitizer.tagRegex [] k l) := by
  induction l with
  | nil => intro k; rw [replaceLoop_nil]; exact tagFree_nil
  | cons c cs ih =>
    intro k
    cases k with
    | succ k => exact ih k
    | zero =>
      cases hm : NewHTMLSanitizer.tagRegex.matchAt (c :: cs) with
      | some rest =>
        simp only [regexp.replaceLoop, hm, List.nil_append]
        exact ih _
      | none =>
        rw [regexp.replaceLoop_none _ _ hm, tagFree_cons]
        refine ⟨fun hc => ?_, ih 0⟩
        subst hc
        rcases tag_no_match cs hm with h1 | h1
        · cases cs with
          | nil => cases h1
          | cons d ds =>
            have hd : d = '>' := by simpa using h1
            subst hd
            rw [regexp.replaceLoop_none _ _ (tag_startsWith '>' ds (by decide))]
            exact Or.inl rfl
        · refine Or.inr (fun hmem => ?_)
          rcases regexp.mem_replaceLoop _ _ _ _ _ hmem with h2 | h2
          · exact h1 h2
          · cases h2

theorem multiLine_stage_tagFree (l : List Char) :
    ∀ k : Nat, TagFree l →
      TagFree (regexp.replaceLoop NewHTMLSanitizer.multiLineRegex ['\n', '\n'] k l) := by
  induction l with
  | nil => intro k _; rw [replaceLoop_nil]; exact tagFree_nil
  | cons c cs ih =>
    intro k h
    have hcs : TagFree cs := ((tagFree_cons c cs).mp h).2
    cases k with
    | succ k => exact ih k hcs
    | zero =>
      cases hm : NewHTMLSanitizer.multiLineRegex.matchAt (c :: cs) with
      | some rest =>
        simp only [regexp.replaceLoop, hm, List.cons_append, List.nil_append]
        rw [tagFree_cons, tagFree_cons]
        exact ⟨fun e => absurd e (by decide), fun e => absurd e (by decide), ih _ hcs⟩
      | none =>
        rw [regexp.replaceLoop_none _ _ hm, tagFree_cons]
        refine ⟨fun hc => ?_, ih 0 hcs⟩
        rcases ((tagFree_cons c cs).mp h).1 hc with h1 | h1
        · cases cs with
          | nil => cases h1
          | cons d ds =>
            have hd : d = '>' := by simpa using h1
            subst hd
            rw [regexp.replaceLoop_none _ _ (multiLine_startsWith '>' ds (by decide))]
            exact Or.inl rfl
        · refine Or.inr (fun hmem => ?_)
          rcases regexp.mem_replaceLoop _ _ _ _ _ hmem with h2 | h2
          · exact h1 h2
          · simp at h2

theorem tagFree_segment {l t : List Char} (a b : List Char) (h : l = a ++ t ++ b)
    (hl : TagFree l) : TagFree t := by
  intro pre rest e
  have h1 : l = (a ++ pre) ++ '<' :: (rest ++ b) := by
    rw [h, e]; simp
  rcases hl _ _ h1 with h2 | h2
  · cases rest with
    | nil => exact Or.inr (List.not_mem_nil _)
    | cons x rest => exact Or.inl h2
  · exact Or.inr (fun hm => h2 (List.mem_append_left b hm))

theorem not_hasTag_of_tagFree {l : List Char} (h : TagFree l) : ¬ HasTag l := by
  rintro ⟨pre, mid, post, e, hne, hgt⟩
  rcases h pre (mid ++ '>' :: post) e with h1 | h1
  · cases mid with
    | nil => exact hne rfl
    | cons x mid =>
      have hx : x = '>' := by simpa using h1
      exact hgt (hx ▸ List.mem_cons_self x mid)
  · exact h1 (List.mem_append_right mid (List.mem_cons_self '>' post))

/-- C14: for every input, the result of `StripHTML` holds no tag, that is no `<`
followed by one or more runes other than `>` and then a `>`. -/
theorem c14_result_has_no_tag (T : html.EntityTables) (htmlStr : String) :
    ¬ HasTag (StripHTML T NewHTMLSanitizer htmlStr).data := by
  rw [StripHTML_data]
  by_cases h : htmlStr = ""
  · rw [if_pos h]
    exact not_hasTag_of_tagFree tagFree_nil
  · rw [if_neg h]
    apply not_hasTag_of_tagFree
    obtain ⟨a, b, e⟩ := strings.trim_segment
      (regexp.replaceLoop NewHTMLSanitizer.multiLineRegex ['\n', '\n'] 0
        (regexp.replaceLoop NewHTMLSanitizer.tagRegex [] 0
          (regexp.replaceLoop NewHTMLSanitizer.blockRegex ['\n'] 0
            (regexp.replaceLoop NewHTMLSanitizer.brRegex ['\n'] 0
              (regexp.replaceLoop NewHTMLSanitizer.styleRegex [] 0
                (regexp.replaceLoop NewHTMLSanitizer.scriptRegex [] 0
                  (html.unescapeLoop T 0 htmlStr.data)))))))
    exact tagFree_segment a b e (multiLine_stage_tagFree _ 0 (tag_stage_tagFree _ 0))

end utils

namespace html

/-! ## Auxiliary lemmas: `UnescapeString` -/

theorem unescapeLoop_nil (T : EntityTables) (k : Nat) : unescapeLoop T k [] = [] := by
  cases k <;> rfl

theorem unescapeLoop_skip (T : EntityTables) (l : List Char) :
    ∀ k : Nat, unescapeLoop T k l = unescapeLoop T 0 (l.drop k) := by
  induction l with
  | nil => intro k; cases k <;> rfl
  | cons c cs ih =>
    intro k
    cases k with
    | zero => rfl
    | succ k =>
      show unescapeLoop T k cs = _
      rw [ih k]
      rfl

/-- Text without ampersand is copied. -/
theorem unescapeLoop_pass (T : EntityTables) (a rest : List Char) (ha : '&' ∉ a) :
    unescapeLoop T 0 (a ++ rest) = a ++ unescapeLoop T 0 rest := by
  induction a with
  | nil => rfl
  | cons c cs ih =>
    have hc : c ≠ '&' := fun e => ha (e ▸ List.mem_cons_self c cs)
    have hcs : '&' ∉ cs := fun e => ha (List.mem_cons_of_mem c e)
    show unescapeLoop T 0 (c :: (cs ++ rest)) = c :: (cs ++ unescapeLoop T 0 rest)
    simp only [unescapeLoop, if_neg hc]
    rw [ih hcs]

theorem unescapeLoop_id (T : EntityTables) (a : List Char) (ha : '&' ∉ a) :
    unescapeLoop T 0 a = a := by
  have h := unescapeLoop_pass T a [] ha
  rw [List.append_nil, unescapeLoop_nil, List.append_nil] at h
  exact h

end html

namespace utils

/-! ## Auxiliary lemmas: the expressions of `NewHTMLSanitizer` -/

theorem foldEq_lt (c : Char) : regexp.foldEq '<' c = decide (c = '<') := by
  have h1 : ('<' : Char).toUpper = '<' := by decide
  have h2 : ('<' : Char).toLower = '<' := by decide
  simp [regexp.foldEq, h1, h2]

theorem litFold_lt_none (ps : List Char) {c : Char} (cs : List Char) (hc : c ≠ '<') :
    regexp.litFold ('<' :: ps) (c :: cs) = none := by
  simp [regexp.litFold, foldEq_lt, hc]

theorem script_startsWith : regexp.StartsWith NewHTMLSanitizer.scriptRegex '<' := by
  intro c cs hc
  show (regexp.litFold ['<', 's', 'c', 'r', 'i', 'p', 't'] (c :: cs)).bind _ = none
  rw [litFold_lt_none _ cs hc]
  rfl

theorem style_startsWith : regexp.StartsWith NewHTMLSanitizer.styleRegex '<' := by
  intro c cs hc
  show (regexp.litFold ['<', 's', 't', 'y', 'l', 'e'] (c :: cs)).bind _ = none
  rw [litFold_lt_none _ cs hc]
  rfl

theorem br_startsWith : regexp.StartsWith NewHTMLSanitizer.brRegex '<' := by
  intro c cs hc
  show (regexp.litFold ['<', 'b', 'r'] (c :: cs)).bind _ = none
  rw [litFold_lt_none _ cs hc]
  rfl

theorem block_startsWith : regexp.StartsWith NewHTMLSanitizer.blockRegex '<' := by
  intro c cs hc
  show (match c :: cs with
    | '<' :: '/' :: r =>
      (regexp.blockNameThenGt r).orElse fun _ => regexp.blockNameThenGt ('/' :: r)
    | '<' :: r => regexp.blockNameThenGt r
    | _ => none) = none
  split
  · rename_i h
    exact absurd (List.cons.inj h).1 hc
  · rename_i h
    exact absurd (List.cons.inj h).1 hc
  · rfl

/-- On a text without `<` the five tag stages change nothing. -/
theorem afterUnescape_of_no_lt (l : List Char) (h : '<' ∉ l) :
    afterUnescape NewHTMLSanitizer l =
      List.rdropWhile unicode.IsSpace (List.dropWhile unicode.IsSpace
        (regexp.replaceLoop NewHTMLSanitizer.multiLineRegex ['\n', '\n'] 0 l)) := by
  unfold afterUnescape
  rw [regexp.replaceLoop_id script_startsWith _ l h, regexp.replaceLoop_id style_startsWith _ l h,
    regexp.replaceLoop_id br_startsWith _ l h, regexp.replaceLoop_id block_startsWith _ l h,
    regexp.replaceLoop_id tag_startsWith _ l h]

theorem multiLine_id (l : List Char) (h : ¬ HasTripleNewline l) :
    regexp.replaceLoop NewHTMLSanitizer.multiLineRegex ['\n', '\n'] 0 l = l := by
  induction l with
  | nil => rfl
  | cons c cs ih =>
    have h1 := (not_congr (hasTripleNewline_cons c cs)).mp h
    have hcs : ¬ HasTripleNewline cs := fun e => h1 (Or.inr e)
    by_cases hc : c = '\n'
    · subst hc
      rw [regexp.replaceLoop_none _ _ (multiLine_no_match cs
        (fun t e => h1 (Or.inl ⟨t, by rw [e]⟩))), ih hcs]
    · rw [regexp.replaceLoop_none _ _ (multiLine_startsWith c cs hc), ih hcs]

/-! ## Claim C12: plain text -/

/-- The result on a text without `<` and `&`, for every table of entities. -/
theorem StripHTML_plain (T : html.EntityTables) (s : String) (hlt : '<' ∉ s.data)
    (hamp : '&' ∉ s.data) :
    StripHTML T NewHTMLSanitizer s =
      strings.TrimSpace (regexp.ReplaceAllString NewHTMLSanitizer.multiLineRegex s "\n\n") := by
  apply String.ext
  rw [StripHTML_data]
  by_cases h : s = ""
  · rw [if_pos h, h]
    rfl
  · rw [if_neg h, html.unescapeLoop_id T _ hamp, afterUnescape_of_no_lt _ hlt]
    rfl

/-- C12, the claim fails: the plain text "a\n\n\nb" holds none of `<`, `>`, `&`
and no white space at its ends, yet `StripHTML` does not return it: the three
newlines become two, whatever the table of entities. -/
theorem c12_newline_runs_are_collapsed :
    ('<' ∉ "a\n\n\nb".data ∧ '>' ∉ "a\n\n\nb".data ∧ '&' ∉ "a\n\n\nb".data) ∧
    ¬ ∃ T : html.EntityTables,
      StripHTML T NewHTMLSanitizer "a\n\n\nb" = strings.TrimSpace "a\n\n\nb" := by
  refine ⟨by decide, ?_⟩
  rintro ⟨T, h⟩
  rw [StripHTML_plain T _ (by decide) (by decide)] at h
  revert h
  decide

/-- C12 as amended: on a text with none of `<`, `>`, `&`, `StripHTML` returns the
text with every run of three or more newlines cut to two and then trimmed; this
is the trimmed text when it has no three consecutive newlines, in particular
for "" and for "Hello, World!". -/
theorem c12_plain_text_collapsed_and_trimmed (T : html.EntityTables) (s : String)
    (hlt : '<' ∉ s.data) (_hgt : '>' ∉ s.data) (hamp : '&' ∉ s.data) :
    StripHTML T NewHTMLSanitizer s =
      strings.TrimSpace
        (regexp.ReplaceAllString NewHTMLSanitizer.multiLineRegex s "\n\n") ∧
    (¬ HasTripleNewline s.data → StripHTML T NewHTMLSanitizer s = strings.TrimSpace s) ∧
    StripHTML T NewHTMLSanitizer "" = "" ∧
    StripHTML T NewHTMLSanitizer "Hello, World!" = "Hello, World!" := by
  refine ⟨StripHTML_plain T s hlt hamp, fun h3 => ?_, rfl, ?_⟩
  · rw [StripHTML_plain T s hlt hamp]
    apply String.ext
    show List.rdropWhile unicode.IsSpace (List.dropWhile unicode.IsSpace
      (regexp.replaceLoop NewHTMLSanitizer.multiLineRegex ['\n', '\n'] 0 s.data)) = _
    rw [multiLine_id _ h3]
    rfl
  · rw [StripHTML_plain T _ (by decide) (by decide)]
    decide

/-- Witness of the amended C12: text with white space at both ends and a run of
four newlines. -/
theorem c12_plain_text_collapsed_and_trimmed_witness :
    StripHTML html.xmlEntities NewHTMLSanitizer " a\n\n\n\nb\t" = "a\n\nb" :=
  (c12_plain_text_collapsed_and_trimmed html.xmlEntities " a\n\n\n\nb\t"
    (by decide) (by decide) (by decide)).1.trans (by decide)

end utils

namespace regexp

theorem replaceLoop_along (re : Regexp) (repl : List Char) (seg rest : List Char)
    (h : FailsAlong re seg) :
    replaceLoop re repl 0 (seg ++ rest) = seg ++ replaceLoop re repl 0 rest := by
  induction seg with
  | nil => rfl
  | cons c cs ih =>
    show replaceLoop re repl 0 (c :: (cs ++ rest)) = c :: (cs ++ replaceLoop re repl 0 rest)
    rw [replaceLoop_none re repl (h.1 rest), ih h.2]

end regexp

namespace utils

/-! ## Claim C16: line breaks -/

theorem plainWord_not_mem {l : List Char} (h : PlainWord l) :
    '<' ∉ l ∧ '>' ∉ l ∧ '&' ∉ l ∧ '\n' ∉ l :=
  ⟨fun e => (h _ e).1 rfl, fun e => (h _ e).2.1 rfl, fun e => (h _ e).2.2.1 rfl,
    fun e => absurd (h _ e).2.2.2 (by decide)⟩

theorem brSpellings_facts (br : String) (h : br ∈ brSpellings) :
    '&' ∉ br.data ∧ regexp.FailsAlong NewHTMLSanitizer.scriptRegex br.data ∧
      regexp.FailsAlong NewHTMLSanitizer.styleRegex br.data ∧
      (∀ rest, NewHTMLSanitizer.brRegex.matchAt (br.data ++ rest) = some rest) ∧
      br.data ≠ [] := by
  simp only [brSpellings, List.mem_cons, List.mem_singleton, List.not_mem_nil, or_false] at h
  rcases h with rfl | rfl | rfl | rfl | rfl | rfl | rfl | rfl | rfl | rfl | rfl | rfl <;>
    exact ⟨by decide, by
      simp only [regexp.FailsAlong]
      repeat (first | exact trivial | refine ⟨fun _ => rfl, ?_⟩), by
      simp only [regexp.FailsAlong]
      repeat (first | exact trivial | refine ⟨fun _ => rfl, ?_⟩),
      fun _ => rfl, by decide⟩

/-- Trimming keeps a text whose first and last runes are not white space. -/
theorem trim_keep (a0 : Char) (A M B' : List Char) (y : Char)
    (ha : unicode.IsSpace a0 = false) (hy : unicode.IsSpace y = false) :
    List.rdropWhile unicode.IsSpace
        (List.dropWhile unicode.IsSpace ((a0 :: A) ++ (M ++ (B' ++ [y]))))
      = (a0 :: A) ++ (M ++ (B' ++ [y])) := by
  rw [List.cons_append, List.dropWhile_cons_of_neg (by simp [ha])]
  have h : a0 :: (A ++ (M ++ (B' ++ [y]))) = (a0 :: (A ++ (M ++ B'))) ++ [y] := by simp
  rw [h, List.rdropWhile_concat_neg _ _ _ (by simp [hy])]

theorem plainWord_shape {l : List Char} (h : PlainWord l) (hne : l ≠ []) :
    (∃ a0 A, l = a0 :: A ∧ unicode.IsSpace a0 = false ∧ a0 ≠ '\n') ∧
      ∃ B' y, l = B' ++ [y] ∧ unicode.IsSpace y = false := by
  constructor
  · cases l with
    | nil => exact absurd rfl hne
    | cons a0 A =>
      have h0 := h a0 (List.mem_cons_self a0 A)
      refine ⟨a0, A, rfl, h0.2.2.2, fun e => ?_⟩
      rw [e] at h0
      exact absurd h0.2.2.2 (by decide)
  · rcases List.eq_nil_or_concat l with e | ⟨B', y, e⟩
    · exact absurd e hne
    · rw [List.concat_eq_append] at e
      refine ⟨B', y, e, (h y ?_).2.2.2⟩
      rw [e]
      exact List.mem_append_right B' (List.mem_singleton_self y)

theorem not_two_newlines_of_head {l : List Char} {a0 : Char} {A : List Char}
    (h : l = a0 :: A) (ha : a0 ≠ '\n') (rest : List Char) :
    ∀ t, l ++ rest ≠ '\n' :: '\n' :: t := by
  intro t e
  rw [h] at e
  exact ha (List.cons.inj e).1

/-- The stages after decoding, on `a br b`. -/
theorem afterUnescape_br (A R B : List Char) (hA : PlainWord A) (hB : PlainWord B)
    (hAne : A ≠ []) (hBne : B ≠ [])
    (hs : regexp.FailsAlong NewHTMLSanitizer.scriptRegex R)
    (hst : regexp.FailsAlong NewHTMLSanitizer.styleRegex R)
    (hbr : ∀ rest, NewHTMLSanitizer.brRegex.matchAt (R ++ rest) = some rest)
    (hRne : R ≠ []) :
    afterUnescape NewHTMLSanitizer (A ++ (R ++ B)) = A ++ '\n' :: B := by
  obtain ⟨hA1, _, _, hA4⟩ := plainWord_not_mem hA
  obtain ⟨hB1, _, _, hB4⟩ := plainWord_not_mem hB
  obtain ⟨⟨a0, A', eA, ha0, _⟩, _⟩ := plainWord_shape hA hAne
  obtain ⟨⟨b0, B0, eB, _, hb0⟩, ⟨B', y, eB', hy⟩⟩ := plainWord_shape hB hBne
  have h1 : regexp.replaceLoop NewHTMLSanitizer.scriptRegex [] 0 (A ++ (R ++ B))
      = A ++ (R ++ B) := by
    rw [regexp.replaceLoop_pass script_startsWith _ _ _ hA1, regexp.replaceLoop_along _ _ _ _ hs,
      regexp.replaceLoop_id script_startsWith _ _ hB1]
  have h2 : regexp.replaceLoop NewHTMLSanitizer.styleRegex [] 0 (A ++ (R ++ B))
      = A ++ (R ++ B) := by
    rw [regexp.replaceLoop_pass style_startsWith _ _ _ hA1, regexp.replaceLoop_along _ _ _ _ hst,
      regexp.replaceLoop_id style_startsWith _ _ hB1]
  have h3 : regexp.replaceLoop NewHTMLSanitizer.brRegex ['\n'] 0 (A ++ (R ++ B))
      = A ++ '\n' :: B := by
    rw [regexp.replaceLoop_pass br_startsWith _ _ _ hA1,
      regexp.replaceLoop_some _ _ hRne (hbr B), regexp.replaceLoop_id br_startsWith _ _ hB1]
    rfl
  have hlt : '<' ∉ A ++ '\n' :: B := by
    intro e
    rcases List.mem_append.mp e with e | e
    · exact hA1 e
    · rcases List.mem_cons.mp e with e | e
      · exact absurd e (by decide)
      · exact hB1 e
  have h4 : regexp.replaceLoop NewHTMLSanitizer.blockRegex ['\n'] 0 (A ++ '\n' :: B)
      = A ++ '\n' :: B := regexp.replaceLoop_id block_startsWith _ _ hlt
  have h5 : regexp.replaceLoop NewHTMLSanitizer.tagRegex [] 0 (A ++ '\n' :: B)
      = A ++ '\n' :: B := regexp.replaceLoop_id tag_startsWith _ _ hlt
  have h6 : regexp.replaceLoop NewHTMLSanitizer.multiLineRegex ['\n', '\n'] 0 (A ++ '\n' :: B)
      = A ++ '\n' :: B := by
    rw [regexp.replaceLoop_pass multiLine_startsWith _ _ _ hA4,
      regexp.replaceLoop_none _ _ (multiLine_no_match B (by
        have := not_two_newlines_of_head eB hb0 []
        simpa using this)),
      regexp.replaceLoop_id multiLine_startsWith _ _ hB4]
  unfold afterUnescape
  rw [h1, h2, h3, h4, h5, h6, eA, eB']
  exact trim_keep a0 A' ['\n'] B' y ha0 hy

/-- The stages after decoding, on `<p> a br b </p>`. -/
theorem afterUnescape_p_br (A R B : List Char) (hA : PlainWord A) (hB : PlainWord B)
    (hAne : A ≠ []) (hBne : B ≠ [])
    (hs : regexp.FailsAlong NewHTMLSanitizer.scriptRegex R)
    (hst : regexp.FailsAlong NewHTMLSanitizer.styleRegex R)
    (hbr : ∀ rest, NewHTMLSanitizer.brRegex.matchAt (R ++ rest) = some rest)
    (hRne : R ≠ []) :
    afterUnescape NewHTMLSanitizer
        (['<', 'p', '>'] ++ (A ++ (R ++ (B ++ ['<', '/', 'p', '>']))))
      = A ++ '\n' :: B := by
  obtain ⟨hA1, _, _, hA4⟩ := plainWord_not_mem hA
  obtain ⟨hB1, _, _, hB4⟩ := plainWord_not_mem hB
  obtain ⟨⟨a0, A', eA, ha0, ha0n⟩, _⟩ := plainWord_shape hA hAne
  obtain ⟨⟨b0, B0, eB, _, hb0⟩, ⟨B', y, eB', hy⟩⟩ := plainWord_shape hB hBne
  have fs1 : regexp.FailsAlong NewHTMLSanitizer.scriptRegex ['<', 'p', '>'] := by
    simp only [regexp.FailsAlong]
    repeat (first | exact trivial | refine ⟨fun _ => rfl, ?_⟩)
  have fs2 : regexp.FailsAlong NewHTMLSanitizer.scriptRegex ['<', '/', 'p', '>'] := by
    simp only [regexp.FailsAlong]
    repeat (first | exact trivial | refine ⟨fun _ => rfl, ?_⟩)
  have ft1 : regexp.FailsAlong NewHTMLSanitizer.styleRegex ['<', 'p', '>'] := by
    simp only [regexp.FailsAlong]
    repeat (first | exact trivial | refine ⟨fun _ => rfl, ?_⟩)
  have ft2 : regexp.FailsAlong NewHTMLSanitizer.styleRegex ['<', '/', 'p', '>'] := by
    simp only [regexp.FailsAlong]
    repeat (first | exact trivial | refine ⟨fun _ => rfl, ?_⟩)
  have fb1 : regexp.FailsAlong NewHTMLSanitizer.brRegex ['<', 'p', '>'] := by
    simp only [regexp.FailsAlong]
    repeat (first | exact trivial | refine ⟨fun _ => rfl, ?_⟩)
  have fb2 : regexp.FailsAlong NewHTMLSanitizer.brRegex ['<', '/', 'p', '>'] := by
    simp only [regexp.FailsAlong]
    repeat (first | exact trivial | refine ⟨fun _ => rfl, ?_⟩)
  have h1 : regexp.replaceLoop NewHTMLSanitizer.scriptRegex [] 0
        (['<', 'p', '>'] ++ (A ++ (R ++ (B ++ ['<', '/', 'p', '>']))))
      = ['<', 'p', '>'] ++ (A ++ (R ++ (B ++ ['<', '/', 'p', '>']))) := by
    rw [regexp.replaceLoop_along _ _ _ _ fs1, regexp.replaceLoop_pass script_startsWith _ _ _ hA1,
      regexp.replaceLoop_along _ _ _ _ hs, regexp.replaceLoop_pass script_startsWith _ _ _ hB1]
    have h := regexp.replaceLoop_along NewHTMLSanitizer.scriptRegex [] _ [] fs2
    rw [List.append_nil, replaceLoop_nil, List.append_nil] at h
    rw [h]
  have h2 : regexp.replaceLoop NewHTMLSanitizer.styleRegex [] 0
        (['<', 'p', '>'] ++ (A ++ (R ++ (B ++ ['<', '/', 'p', '>']))))
      = ['<', 'p', '>'] ++ (A ++ (R ++ (B ++ ['<', '/', 'p', '>']))) := by
    rw [regexp.replaceLoop_along _ _ _ _ ft1, regexp.replaceLoop_pass style_startsWith _ _ _ hA1,
      regexp.replaceLoop_along _ _ _ _ hst, regexp.replaceLoop_pass style_startsWith _ _ _ hB1]
    have h := regexp.replaceLoop_along NewHTMLSanitizer.styleRegex [] _ [] ft2
    rw [List.append_nil, replaceLoop_nil, List.append_nil] at h
    rw [h]
  have h3 : regexp.replaceLoop NewHTMLSanitizer.brRegex ['\n'] 0
        (['<', 'p', '>'] ++ (A ++ (R ++ (B ++ ['<', '/', 'p', '>']))))
      = ['<', 'p', '>'] ++ (A ++ ('\n' :: (B ++ ['<', '/', 'p', '>']))) := by
    rw [regexp.replaceLoop_along _ _ _ _ fb1, regexp.replaceLoop_pass br_startsWith _ _ _ hA1,
      regexp.replaceLoop_some _ _ hRne (hbr _), regexp.replaceLoop_pass br_startsWith _ _ _ hB1]
    have h := regexp.replaceLoop_along NewHTMLSanitizer.brRegex ['\n'] _ [] fb2
    rw [List.append_nil, replaceLoop_nil, List.append_nil] at h
    rw [h]
    rfl
  have h4 : regexp.replaceLoop NewHTMLSanitizer.blockRegex ['\n'] 0
        (['<', 'p', '>'] ++ (A ++ ('\n' :: (B ++ ['<', '/', 'p', '>']))))
      = '\n' :: (A ++ ('\n' :: (B ++ ['\n']))) := by
    rw [regexp.replaceLoop_some _ _ (by decide) (rfl :
        NewHTMLSanitizer.blockRegex.matchAt
          (['<', 'p', '>'] ++ (A ++ ('\n' :: (B ++ ['<', '/', 'p', '>']))))
          = some (A ++ ('\n' :: (B ++ ['<', '/', 'p', '>'])))),
      regexp.replaceLoop_pass block_startsWith _ _ _ hA1,
      regexp.replaceLoop_none _ _ (block_startsWith '\n' _ (by decide)),
      regexp.replaceLoop_pass block_startsWith _ _ _ hB1]
    have h := @regexp.replaceLoop_some NewHTMLSanitizer.blockRegex ['\n']
      ['<', '/', 'p', '>'] [] (by decide) rfl
    rw [List.append_nil, replaceLoop_nil] at h
    rw [h]
    rfl
  have hlt : '<' ∉ '\n' :: (A ++ ('\n' :: (B ++ ['\n']))) := by
    simp only [List.mem_cons, List.mem_append, List.mem_singleton, not_or]
    exact ⟨by decide, hA1, by decide, hB1, by decide, List.not_mem_nil _⟩
  have h5 : regexp.replaceLoop NewHTMLSanitizer.tagRegex [] 0
        ('\n' :: (A ++ ('\n' :: (B ++ ['\n']))))
      = '\n' :: (A ++ ('\n' :: (B ++ ['\n']))) := regexp.replaceLoop_id tag_startsWith _ _ hlt
  have h6 : regexp.replaceLoop NewHTMLSanitizer.multiLineRegex ['\n', '\n'] 0
        ('\n' :: (A ++ ('\n' :: (B ++ ['\n']))))
      = '\n' :: (A ++ ('\n' :: (B ++ ['\n']))) := by
    rw [regexp.replaceLoop_none _ _ (multiLine_no_match _ (not_two_newlines_of_head eA ha0n _)),
      regexp.replaceLoop_pass multiLine_startsWith _ _ _ hA4,
      regexp.replaceLoop_none _ _ (multiLine_no_match _ (not_two_newlines_of_head eB hb0 _)),
      regexp.replaceLoop_pass multiLine_startsWith _ _ _ hB4,
      regexp.replaceLoop_none _ _ (multiLine_no_match [] (by simp)), replaceLoop_nil]
  unfold afterUnescape
  rw [h1, h2, h3, h4, h5, h6, List.dropWhile_cons_of_pos (by decide)]
  have e1 : A ++ '\n' :: (B ++ ['\n']) = (A ++ '\n' :: B) ++ ['\n'] := by simp
  rw [eA, List.cons_append, List.dropWhile_cons_of_neg (by simp [ha0]), ← List.cons_append,
    ← eA, e1, List.rdropWhile_concat_pos _ _ _ (by decide), eB']
  have e2 : A ++ '\n' :: (B' ++ [y]) = (A ++ '\n' :: B') ++ [y] := by simp
  rw [e2, List.rdropWhile_concat_neg _ _ _ (by simp [hy])]

/-- C16: with `a` and `b` non-empty and free of `<`, `>`, `&` and white space, and
`br` any spelling of the line-break element, `StripHTML` turns `a br b`, and
likewise `<p> a br b </p>`, into `a`, one newline, `b`. -/
theorem c16_line_break_is_one_newline (T : html.EntityTables) (a b br : String)
    (ha : PlainWord a.data) (hb : PlainWord b.data) (hane : a ≠ "") (hbne : b ≠ "")
    (hbr : br ∈ brSpellings) :
    StripHTML T NewHTMLSanitizer (a ++ br ++ b) = a ++ "\n" ++ b ∧
    StripHTML T NewHTMLSanitizer ("<p>" ++ a ++ br ++ b ++ "</p>") = a ++ "\n" ++ b := by
  obtain ⟨f1, f2, f3, f4, f5⟩ := brSpellings_facts br hbr
  have hA : a.data ≠ [] := fun e => hane (String.ext e)
  have hB : b.data ≠ [] := fun e => hbne (String.ext e)
  obtain ⟨_, _, hA3, _⟩ := plainWord_not_mem ha
  obtain ⟨_, _, hB3, _⟩ := plainWord_not_mem hb
  constructor
  · apply String.ext
    have hne : a ++ br ++ b ≠ "" := by
      intro e
      have h1 : (a ++ br ++ b).data = [] := by rw [e]
      simp only [String.data_append, List.append_eq_nil] at h1
      exact hA h1.1.1
    have hamp : '&' ∉ (a ++ br ++ b).data := by
      simp only [String.data_append, List.mem_append, not_or]
      exact ⟨⟨hA3, f1⟩, hB3⟩
    rw [StripHTML_data, if_neg hne, html.unescapeLoop_id T _ hamp]
    simp only [String.data_append, List.append_assoc]
    rw [afterUnescape_br _ _ _ ha hb hA hB f2 f3 f4 f5]
    rfl
  · apply String.ext
    have hne : "<p>" ++ a ++ br ++ b ++ "</p>" ≠ "" := by
      intro e
      have h1 : ("<p>" ++ a ++ br ++ b ++ "</p>").data = [] := by rw [e]
      simp only [String.data_append, List.append_eq_nil] at h1
      exact absurd h1.2 (by decide)
    have hamp : '&' ∉ ("<p>" ++ a ++ br ++ b ++ "</p>").data := by
      simp only [String.data_append, List.mem_append, not_or]
      exact ⟨⟨⟨⟨by decide, hA3⟩, f1⟩, hB3⟩, by decide⟩
    rw [StripHTML_data, if_neg hne, html.unescapeLoop_id T _ hamp]
    simp only [String.data_append, List.append_assoc]
    rw [afterUnescape_p_br _ _ _ ha hb hA hB f2 f3 f4 f5]
    rfl

/-- Witness of C16: the test of the repository, and the same text without `<p>`. -/
theorem c16_line_break_is_one_newline_witness :
    StripHTML html.xmlEntities NewHTMLSanitizer ("Line" ++ "<br/>" ++ "break")
        = "Line" ++ "\n" ++ "break" ∧
      StripHTML html.xmlEntities NewHTMLSanitizer
          ("<p>" ++ "Line" ++ "<br/>" ++ "break" ++ "</p>")
        = "Line" ++ "\n" ++ "break" :=
  c16_line_break_is_one_newline html.xmlEntities "Line" "break" "<br/>"
    (by decide) (by decide) (by decide) (by decide) (by decide)

end utils

namespace html

/-! ## Auxiliary lemmas: named entities -/

theorem nameLoop_alnum (nm rest : List Char) (h : ∀ c ∈ nm, c.isAlphanum = true) :
    ∀ i : Nat, nameLoop (nm ++ ';' :: rest) i = i + nm.length + 1 := by
  induction nm with
  | nil =>
    intro i
    have h1 : (';' : Char).isAlphanum = false := by decide
    simp [nameLoop, h1]
  | cons c cs ih =>
    intro i
    have hc : c.isAlphanum = true := h c (List.mem_cons_self c cs)
    have hcs : ∀ d ∈ cs, d.isAlphanum = true := fun d hd => h d (List.mem_cons_of_mem c hd)
    show nameLoop (c :: (cs ++ ';' :: rest)) i = _
    simp only [nameLoop, hc, if_true]
    rw [ih hcs]
    simp only [List.length_cons]
    omega

theorem byteLen_two_le (c d : Char) (rest : List Char) :
    2 ≤ middleware.byteLen (c :: d :: rest) := by
  have h1 := middleware.utf8Size_pos c
  have h2 := middleware.utf8Size_pos d
  simp only [middleware.byteLen]
  omega

/-- A reference `&name;` whose name is in the table `entity` is decoded to the
rune of the table; all of it is consumed. -/
theorem unescapeEntity_named (T : EntityTables) (nm rest : List Char) (x : Char)
    (hne : nm ≠ []) (h : ∀ c ∈ nm, c.isAlphanum = true)
    (hx : T.entity (String.mk (nm ++ [';'])) = some x) :
    unescapeEntity T ('&' :: (nm ++ ';' :: rest)) = ([x], nm.length + 2) := by
  cases nm with
  | nil => exact absurd rfl hne
  | cons n0 nm' =>
    have hn0 : n0.isAlphanum = true := h n0 (List.mem_cons_self n0 nm')
    have hhash : n0 ≠ '#' := by
      intro e
      rw [e] at hn0
      exact absurd hn0 (by decide)
    have hlen : ¬ middleware.byteLen ('&' :: ((n0 :: nm') ++ ';' :: rest)) ≤ 1 := by
      have := byteLen_two_le '&' n0 (nm' ++ ';' :: rest)
      simp only [List.cons_append]
      omega
    have hloop : nameLoop ((n0 :: nm') ++ ';' :: rest) 1 = (n0 :: nm').length + 2 := by
      rw [nameLoop_alnum _ _ h]
      omega
    have hname : (('&' :: ((n0 :: nm') ++ ';' :: rest)).take ((n0 :: nm').length + 2)).drop 1
        = (n0 :: nm') ++ [';'] := by
      rw [List.take_succ_cons, List.drop_one, List.tail_cons, List.take_append]
      rfl
    unfold unescapeEntity
    rw [if_neg hlen]
    have hhead : ¬ (('&' :: ((n0 :: nm') ++ ';' :: rest)).tail.head? = some '#') := by
      simp only [List.tail_cons, List.cons_append, List.head?_cons, Option.some.injEq]
      exact hhash
    rw [if_neg hhead]
    simp only [List.tail_cons]
    rw [hloop, hname]
    have hl : ¬ ((n0 :: nm') ++ [';']).length = 0 := by simp
    rw [if_neg hl, hx]

theorem unescapeLoop_named (T : EntityTables) (nm rest : List Char) (x : Char)
    (hne : nm ≠ []) (h : ∀ c ∈ nm, c.isAlphanum = true)
    (hx : T.entity (String.mk (nm ++ [';'])) = some x) :
    unescapeLoop T 0 ('&' :: (nm ++ ';' :: rest)) = x :: unescapeLoop T 0 rest := by
  have h1 := unescapeEntity_named T nm rest x hne h hx
  have h2 : unescapeLoop T 0 ('&' :: (nm ++ ';' :: rest)) =
      (unescapeEntity T ('&' :: (nm ++ ';' :: rest))).1 ++
        unescapeLoop T ((unescapeEntity T ('&' :: (nm ++ ';' :: rest))).2 - 1)
          (nm ++ ';' :: rest) := by
    simp only [unescapeLoop, if_true]
  rw [h2, h1, unescapeLoop_skip]
  have h3 : (nm ++ ';' :: rest).drop (nm.length + 2 - 1) = rest := by
    have : nm.length + 2 - 1 = nm.length + 1 := by omega
    rw [this, List.drop_append]
    rfl
  rw [h3]
  rfl

end html

namespace utils

/-! ## Claim C17: entities are decoded before tags are stripped -/

/-- The result depends on the input through its decoded text only. -/
theorem StripHTML_congr (T T' : html.EntityTables) (s s' : String) (hs : s ≠ "")
    (hs' : s' ≠ "") (h : html.unescapeLoop T 0 s.data = html.unescapeLoop T' 0 s'.data) :
    StripHTML T NewHTMLSanitizer s = StripHTML T' NewHTMLSanitizer s' := by
  apply String.ext
  rw [StripHTML_data, StripHTML_data, if_neg hs, if_neg hs', h]

theorem alnum_not_amp {l : List Char} (h : ∀ c ∈ l, c.isAlphanum = true) : '&' ∉ l := by
  intro e
  exact absurd (h _ e) (by decide)

theorem unescape_lt_gt (T : html.EntityTables) (A N : List Char)
    (hlt : T.entity "lt;" = some '<') (hgt : T.entity "gt;" = some '>')
    (hA : '&' ∉ A) (hN : '&' ∉ N) :
    html.unescapeLoop T 0 (A ++ (['&', 'l', 't', ';'] ++ (N ++ ['&', 'g', 't', ';'])))
      = A ++ ('<' :: (N ++ ['>'])) := by
  rw [html.unescapeLoop_pass T _ _ hA]
  have h1 := html.unescapeLoop_named T ['l', 't'] (N ++ ['&', 'g', 't', ';']) '<'
    (by decide) (by decide) hlt
  have h2 := html.unescapeLoop_named T ['g', 't'] [] '>' (by decide) (by decide) hgt
  have h1' : html.unescapeLoop T 0 (['&', 'l', 't', ';'] ++ (N ++ ['&', 'g', 't', ';']))
      = '<' :: html.unescapeLoop T 0 (N ++ ['&', 'g', 't', ';']) := h1
  have h2' : html.unescapeLoop T 0 ['&', 'g', 't', ';'] = '>' :: html.unescapeLoop T 0 [] := h2
  rw [h1', html.unescapeLoop_pass T _ _ hN, h2', html.unescapeLoop_nil]

/-- C17: with Go's entries for `lt;`, `gt;` and `amp;` in the table, a tag written
with `&lt;` and `&gt;` after a text free of `<`, `>`, `&` gives the result of the
same tag written with `<` and `>`; and "Hello &amp; goodbye &lt;tag&gt;" gives
"Hello & goodbye". -/
theorem c17_encoded_markup_is_markup (T : html.EntityTables) (a n : String)
    (hlt : T.entity "lt;" = some '<') (hgt : T.entity "gt;" = some '>')
    (hamp : T.entity "amp;" = some '&')
    (ha : ∀ c ∈ a.data, c ≠ '<' ∧ c ≠ '>' ∧ c ≠ '&')
    (hn : ∀ c ∈ n.data, c.isAlpha = true) :
    StripHTML T NewHTMLSanitizer (a ++ "&lt;" ++ n ++ "&gt;")
        = StripHTML T NewHTMLSanitizer (a ++ "<" ++ n ++ ">") ∧
      StripHTML T NewHTMLSanitizer "Hello &amp; goodbye &lt;tag&gt;" = "Hello & goodbye" := by
  have hA : '&' ∉ a.data := fun e => (ha _ e).2.2 rfl
  have hN : '&' ∉ n.data := by
    intro e
    exact absurd (hn _ e) (by decide)
  constructor
  · have hne1 : a ++ "&lt;" ++ n ++ "&gt;" ≠ "" := by
      intro e
      have h1 : (a ++ "&lt;" ++ n ++ "&gt;").data = [] := by rw [e]
      simp only [String.data_append, List.append_eq_nil] at h1
      exact absurd h1.2 (by decide)
    have hne2 : a ++ "<" ++ n ++ ">" ≠ "" := by
      intro e
      have h1 : (a ++ "<" ++ n ++ ">").data = [] := by rw [e]
      simp only [String.data_append, List.append_eq_nil] at h1
      exact absurd h1.2 (by decide)
    apply StripHTML_congr T T _ _ hne1 hne2
    have e1 : (a ++ "&lt;" ++ n ++ "&gt;").data
        = a.data ++ (['&', 'l', 't', ';'] ++ (n.data ++ ['&', 'g', 't', ';'])) := by
      simp only [String.data_append, List.append_assoc]
    have e2 : (a ++ "<" ++ n ++ ">").data = a.data ++ ('<' :: (n.data ++ ['>'])) := by
      simp only [String.data_append, List.append_assoc]
      rfl
    rw [e1, e2, unescape_lt_gt T _ _ hlt hgt hA hN]
    refine (html.unescapeLoop_id T _ ?_).symm
    simp only [List.mem_append, List.mem_cons, List.mem_singleton, not_or]
    exact ⟨hA, by decide, hN, by decide, List.not_mem_nil _⟩
  · have h1 : html.unescapeLoop T 0 "Hello &amp; goodbye &lt;tag&gt;".data
        = html.unescapeLoop html.xmlEntities 0 "Hello &amp; goodbye &lt;tag&gt;".data := by
      have h2 : html.unescapeLoop T 0
          ("Hello ".data ++ ('&' :: (['a', 'm', 'p'] ++ ';' ::
            (" goodbye ".data ++ (['&', 'l', 't', ';'] ++ ("tag".data ++ ['&', 'g', 't', ';']))))))
          = "Hello & goodbye <tag>".data := by
        rw [html.unescapeLoop_pass T _ _ (by decide),
          html.unescapeLoop_named T ['a', 'm', 'p'] _ '&' (by decide) (by decide) hamp,
          unescape_lt_gt T _ _ hlt hgt (by decide) (by decide)]
        rfl
      exact h2.trans (by decide)
    rw [StripHTML_congr T html.xmlEntities _ _ (by decide) (by decide) h1]
    decide

/-- Witness of C17: the table of the XML entities, text "x" and tag name "b". -/
theorem c17_encoded_markup_is_markup_witness :
    StripHTML html.xmlEntities NewHTMLSanitizer ("x" ++ "&lt;" ++ "b" ++ "&gt;")
      = StripHTML html.xmlEntities NewHTMLSanitizer ("x" ++ "<" ++ "b" ++ ">") :=
  (c17_encoded_markup_is_markup html.xmlEntities "x" "b" rfl rfl rfl
    (by decide) (by decide)).1

end utils

namespace html

/-! ## Auxiliary lemmas: decoding is local before a `<` -/

theorem numLoop_append_lt (hex : Bool) (l rest : List Char) :
    ∀ (x : Int) (i : Nat), numLoop hex (l ++ '<' :: rest) x i = numLoop hex l x i ∧
      (numLoop hex l x i).2 ≤ i + l.length := by
  induction l with
  | nil =>
    intro x i
    have h1 : ¬ ('0' ≤ '<' ∧ '<' ≤ '9') := by decide
    have h2 : ¬ ('a' ≤ '<' ∧ '<' ≤ 'f') := by decide
    have h3 : ¬ ('A' ≤ '<' ∧ '<' ≤ 'F') := by decide
    have h4 : ('<' : Char) ≠ ';' := by decide
    cases hex <;>
      simp [numLoop, h1, h2, h3, h4]
  | cons c cs ih =>
    intro x i
    simp only [List.cons_append, numLoop, List.length_cons]
    split_ifs <;>
      first
        | (refine ⟨(ih _ _).1, ?_⟩; have := (ih (wrapInt32 (16 * x + (c.toNat : Int) - ('0'.toNat : Int))) (i + 1)).2; omega)
        | (refine ⟨(ih _ _).1, ?_⟩; have := (ih (wrapInt32 (16 * x + (c.toNat : Int) - ('a'.toNat : Int) + 10)) (i + 1)).2; omega)
        | (refine ⟨(ih _ _).1, ?_⟩; have := (ih (wrapInt32 (16 * x + (c.toNat : Int) - ('A'.toNat : Int) + 10)) (i + 1)).2; omega)
        | (refine ⟨(ih _ _).1, ?_⟩; have := (ih (wrapInt32 (10 * x + (c.toNat : Int) - ('0'.toNat : Int))) (i + 1)).2; omega)
        | (refine ⟨rfl, ?_⟩; simp only []; omega)

theorem nameLoop_append_lt (l rest : List Char) :
    ∀ i : Nat, nameLoop (l ++ '<' :: rest) i = nameLoop l i ∧ nameLoop l i ≤ i + l.length := by
  induction l with
  | nil =>
    intro i
    have h1 : ('<' : Char).isAlphanum = false := by decide
    have h4 : ('<' : Char) ≠ ';' := by decide
    simp [nameLoop, h1, h4]
  | cons c cs ih =>
    intro i
    simp only [List.cons_append, nameLoop, List.length_cons]
    split_ifs
    · refine ⟨(ih _).1, ?_⟩
      have := (ih (i + 1)).2
      omega
    · exact ⟨rfl, by omega⟩
    · exact ⟨rfl, by omega⟩

theorem legacyLoop_le (T : EntityTables) (nm : List Char) :
    ∀ (j : Nat) (x : Char) (n : Nat), legacyLoop T nm j = some (x, n) → n ≤ j + 1 := by
  intro j
  induction j with
  | zero => intro x n h; simp [legacyLoop] at h
  | succ j ih =>
    intro x n h
    simp only [legacyLoop] at h
    split_ifs at h with h1
    · split at h
      · cases h; omega
      · have := ih x n h; omega

theorem byteLen_pos_of_ne_nil {l : List Char} (h : l ≠ []) : 0 < middleware.byteLen l := by
  cases l with
  | nil => exact absurd rfl h
  | cons c cs =>
    have := Char.utf8Size_pos c
    simp only [middleware.byteLen]
    omega

theorem byteLen_append (a b : List Char) :
    middleware.byteLen (a ++ b) = middleware.byteLen a + middleware.byteLen b := by
  induction a with
  | nil => simp [middleware.byteLen]
  | cons c cs ih =>
    show c.utf8Size + middleware.byteLen (cs ++ b)
      = c.utf8Size + middleware.byteLen cs + middleware.byteLen b
    rw [ih]
    omega

/-- The numeric branch of `unescapeEntity`, given what it reads of the text. -/
theorem unescapeEntity_num (T : EntityTables) (s : List Char) (hex : Bool)
    (h1 : ¬ middleware.byteLen s ≤ 1)
    (h2 : s.tail.head? = some '#') (h3 : ¬ middleware.byteLen s ≤ 3)
    (hhex : decide (s.tail.tail.head? = some 'x' ∨ s.tail.tail.head? = some 'X') = hex) :
    unescapeEntity T s =
      if (numLoop hex (if hex then s.drop 3 else s.drop 2) 0 (if hex then 3 else 2)).2 ≤ 3 then
        (s.take 1, 1)
      else if 0x80 ≤ (numLoop hex (if hex then s.drop 3 else s.drop 2) 0 (if hex then 3 else 2)).1
          ∧ (numLoop hex (if hex then s.drop 3 else s.drop 2) 0 (if hex then 3 else 2)).1 ≤ 0x9F then
        ([Char.ofNat (replacementTable.getD
          ((numLoop hex (if hex then s.drop 3 else s.drop 2) 0 (if hex then 3 else 2)).1
            - 0x80).toNat 0)],
          (numLoop hex (if hex then s.drop 3 else s.drop 2) 0 (if hex then 3 else 2)).2)
      else if (numLoop hex (if hex then s.drop 3 else s.drop 2) 0 (if hex then 3 else 2)).1 = 0 ∨
          (0xD800 ≤ (numLoop hex (if hex then s.drop 3 else s.drop 2) 0 (if hex then 3 else 2)).1
            ∧ (numLoop hex (if hex then s.drop 3 else s.drop 2) 0 (if hex then 3 else 2)).1
              ≤ 0xDFFF) ∨
          (numLoop hex (if hex then s.drop 3 else s.drop 2) 0 (if hex then 3 else 2)).1
            > 0x10FFFF then
        ([Char.ofNat 0xFFFD],
          (numLoop hex (if hex then s.drop 3 else s.drop 2) 0 (if hex then 3 else 2)).2)
      else
        ([encodeRune (numLoop hex (if hex then s.drop 3 else s.drop 2) 0 (if hex then 3 else 2)).1],
          (numLoop hex (if hex then s.drop 3 else s.drop 2) 0 (if hex then 3 else 2)).2) := by
  subst hhex
  simp only [unescapeEntity, if_neg h1, if_pos h2, if_neg h3]

/-- A numeric reference that consumes at most three runes is no reference. -/
theorem unescapeEntity_num_short (T : EntityTables) (s : List Char) (hex : Bool)
    (h1 : ¬ middleware.byteLen s ≤ 1)
    (h2 : s.tail.head? = some '#') (h3 : ¬ middleware.byteLen s ≤ 3)
    (hhex : decide (s.tail.tail.head? = some 'x' ∨ s.tail.tail.head? = some 'X') = hex)
    (hi : (numLoop hex (if hex then s.drop 3 else s.drop 2) 0 (if hex then 3 else 2)).2 ≤ 3) :
    unescapeEntity T s = (s.take 1, 1) := by
  rw [unescapeEntity_num T s hex h1 h2 h3 hhex, if_pos hi]

/-- The named branch of `unescapeEntity`, given what it reads of the text. -/
theorem unescapeEntity_name (T : EntityTables) (s : List Char) (i : Nat)
    (h1 : ¬ middleware.byteLen s ≤ 1) (h2 : ¬ s.tail.head? = some '#')
    (hi : nameLoop s.tail 1 = i) :
    unescapeEntity T s =
      if ((s.take i).drop 1).length = 0 then (s.take i, i)
      else
        match T.entity (String.mk ((s.take i).drop 1)) with
        | some x => ([x], i)
        | none =>
          match T.entity2 (String.mk ((s.take i).drop 1)) with
          | some (x0, x1) => ([x0, x1], i)
          | none =>
            match legacyLoop T ((s.take i).drop 1)
                (min (((s.take i).drop 1).length - 1) longestEntityWithoutSemicolon) with
            | some (x, n) => ([x], n)
            | none => (s.take i, i) := by
  subst hi
  simp only [unescapeEntity, if_neg h1, if_neg h2]

theorem utf8Size_amp : ('&' : Char).utf8Size = 1 := by decide
theorem utf8Size_hash : ('#' : Char).utf8Size = 1 := by decide
theorem utf8Size_lt : ('<' : Char).utf8Size = 1 := by decide

theorem unescapeEntity_append_lt (T : EntityTables) (a rest : List Char) :
    unescapeEntity T (('&' :: a) ++ '<' :: rest) = unescapeEntity T ('&' :: a) ∧
      (unescapeEntity T ('&' :: a)).2 ≤ a.length + 1 := by
  have hlt1 : ¬ ('0' ≤ '<' ∧ '<' ≤ '9') := by decide
  have hlt4 : ('<' : Char) ≠ ';' := by decide
  have hlta : ('<' : Char).isAlphanum = false := by decide
  have hxa : ¬ ('a' ≤ '<' ∧ '<' ≤ 'f') := by decide
  have hxb : ¬ ('A' ≤ '<' ∧ '<' ≤ 'F') := by decide
  have e1 := utf8Size_amp
  have e2 := utf8Size_hash
  have e3 := utf8Size_lt
  cases a with
  | nil =>
    have hr : unescapeEntity T ['&'] = (['&'], 1) := by
      have hb : middleware.byteLen ['&'] ≤ 1 := by decide
      simp only [unescapeEntity, if_pos hb]
      rfl
    have hl : unescapeEntity T ('&' :: '<' :: rest) = (['&'], 1) := by
      have hb : ¬ middleware.byteLen ('&' :: '<' :: rest) ≤ 1 := by
        simp only [middleware.byteLen]
        omega
      have hh : ¬ ('&' :: '<' :: rest).tail.head? = some '#' := by
        simp only [List.tail_cons, List.head?_cons, Option.some.injEq]
        decide
      have hn : nameLoop ('<' :: rest) 1 = 1 := by
        simp only [nameLoop, hlta, Bool.false_eq_true, if_false, if_neg hlt4]
      simp only [unescapeEntity, if_neg hb, if_neg hh, List.tail_cons, hn]
      rfl
    show unescapeEntity T ('&' :: '<' :: rest) = unescapeEntity T ['&'] ∧ _
    rw [hl, hr]
    exact ⟨rfl, by simp⟩
  | cons c cs =>
    have hb1 : ¬ middleware.byteLen ('&' :: c :: cs) ≤ 1 := by
      simp only [middleware.byteLen]
      have := Char.utf8Size_pos c
      omega
    have hb1' : ¬ middleware.byteLen (('&' :: c :: cs) ++ '<' :: rest) ≤ 1 := by
      rw [byteLen_append]
      omega
    by_cases hc : c = '#'
    · subst hc
      have h2 : ('&' :: '#' :: cs).tail.head? = some '#' := rfl
      have h2' : (('&' :: '#' :: cs) ++ '<' :: rest).tail.head? = some '#' := rfl
      by_cases hb3 : middleware.byteLen ('&' :: '#' :: cs) ≤ 3
      · -- the text alone is too short for a numeric reference
        have hr : unescapeEntity T ('&' :: '#' :: cs) = (['&'], 1) := by
          simp only [unescapeEntity, if_neg hb1, if_pos h2, if_pos hb3]
          rfl
        rw [hr]
        refine ⟨?_, by simp⟩
        by_cases hb3' : middleware.byteLen (('&' :: '#' :: cs) ++ '<' :: rest) ≤ 3
        · simp only [unescapeEntity, if_neg hb1', if_pos h2', if_pos hb3']
          rfl
        · cases cs with
          | nil =>
            exact unescapeEntity_num_short T _ false hb1' h2' hb3'
              (by simp only [List.cons_append, List.nil_append, List.tail_cons,
                    List.head?_cons, Option.some.injEq]; decide)
              (by simp [numLoop, hlt1, hlt4])
          | cons d ds =>
            have hds : ds = [] := by
              by_contra hds
              have := byteLen_pos_of_ne_nil hds
              have := Char.utf8Size_pos d
              simp only [middleware.byteLen] at hb3
              omega
            subst hds
            by_cases hx : d = 'x' ∨ d = 'X'
            · exact unescapeEntity_num_short T _ true hb1' h2' hb3'
                (by simp only [List.cons_append, List.tail_cons, List.head?_cons,
                      Option.some.injEq, decide_eq_true_eq]; exact hx)
                (by simp [numLoop, hlt1, hlt4, hxa, hxb])
            · have hfalse : decide ((('&' :: '#' :: [d]) ++ '<' :: rest).tail.tail.head? = some 'x'
                  ∨ (('&' :: '#' :: [d]) ++ '<' :: rest).tail.tail.head? = some 'X') = false := by
                simp only [List.cons_append, List.tail_cons, List.head?_cons,
                  Option.some.injEq, decide_eq_false_iff_not]
                exact hx
              refine unescapeEntity_num_short T _ false hb1' h2' hb3' hfalse ?_
              by_cases hdig : '0' ≤ d ∧ d ≤ '9'
              · simp [numLoop, hdig, hlt1, hlt4]
              · by_cases hsemi : d = ';'
                · simp [numLoop, hdig, hsemi]
                · simp [numLoop, hdig, hsemi]
      · have hb3'' : ¬ middleware.byteLen (('&' :: '#' :: cs) ++ '<' :: rest) ≤ 3 := by
          rw [byteLen_append]
          omega
        cases cs with
        | nil => exact absurd (by decide) hb3
        | cons d ds =>
          generalize hhex : (decide (('&' :: '#' :: d :: ds).tail.tail.head? = some 'x' ∨
            ('&' :: '#' :: d :: ds).tail.tail.head? = some 'X')) = hex
          have hhex' : (decide ((('&' :: '#' :: d :: ds) ++ '<' :: rest).tail.tail.head? = some 'x' ∨
            (('&' :: '#' :: d :: ds) ++ '<' :: rest).tail.tail.head? = some 'X')) = hex := hhex
          rw [unescapeEntity_num T _ hex hb1' h2' hb3'' hhex',
            unescapeEntity_num T _ hex hb1 h2 hb3 hhex]
          have htake : (('&' :: '#' :: d :: ds) ++ '<' :: rest).take 1
              = ('&' :: '#' :: d :: ds).take 1 := rfl
          rw [htake]
          cases hex with
          | false =>
            simp only [Bool.false_eq_true, if_false]
            have hdrop : (('&' :: '#' :: d :: ds) ++ '<' :: rest).drop 2
                = (d :: ds) ++ '<' :: rest := rfl
            have hdrop' : ('&' :: '#' :: d :: ds).drop 2 = d :: ds := rfl
            rw [hdrop, hdrop']
            obtain ⟨n1, n2⟩ := numLoop_append_lt false (d :: ds) rest 0 2
            rw [n1]
            refine ⟨rfl, ?_⟩
            simp only [List.length_cons] at n2 ⊢
            split_ifs <;> simp only [] <;> omega
          | true =>
            simp only [if_true]
            have hdrop : (('&' :: '#' :: d :: ds) ++ '<' :: rest).drop 3
                = ds ++ '<' :: rest := rfl
            have hdrop' : ('&' :: '#' :: d :: ds).drop 3 = ds := rfl
            rw [hdrop, hdrop']
            obtain ⟨n1, n2⟩ := numLoop_append_lt true ds rest 0 3
            rw [n1]
            refine ⟨rfl, ?_⟩
            simp only [List.length_cons] at n2 ⊢
            split_ifs <;> simp only [] <;> omega
    · -- a named reference
      have h2 : ¬ ('&' :: c :: cs).tail.head? = some '#' := by
        simp only [List.tail_cons, List.head?_cons, Option.some.injEq]
        exact hc
      have h2' : ¬ (('&' :: c :: cs) ++ '<' :: rest).tail.head? = some '#' := h2
      have hname := nameLoop_append_lt (c :: cs) rest 1
      have htail : (('&' :: c :: cs) ++ '<' :: rest).tail = (c :: cs) ++ '<' :: rest := rfl
      have htake : (('&' :: c :: cs) ++ '<' :: rest).take (nameLoop (c :: cs) 1)
          = ('&' :: c :: cs).take (nameLoop (c :: cs) 1) := by
        apply List.take_append_of_le_length
        have := hname.2
        simp only [List.length_cons] at this ⊢
        omega
      have hn' : nameLoop (('&' :: c :: cs) ++ '<' :: rest).tail 1 = nameLoop (c :: cs) 1 :=
        hname.1
      have hl : unescapeEntity T (('&' :: c :: cs) ++ '<' :: rest)
          = unescapeEntity T ('&' :: c :: cs) := by
        rw [unescapeEntity_name T _ _ hb1' h2' hn', unescapeEntity_name T _ _ hb1 h2 rfl, htake]
        rfl
      refine ⟨hl, ?_⟩
      have hi := hname.2
      rw [unescapeEntity_name T _ _ hb1 h2 rfl]
      generalize hI : nameLoop ('&' :: c :: cs).tail 1 = i
      have hI' : nameLoop (c :: cs) 1 = i := hI
      rw [hI'] at hi
      have hlen : (List.drop 1 (List.take i ('&' :: c :: cs))).length ≤ i - 1 := by
        simp only [List.length_drop, List.length_take]
        omega
      simp only [List.length_cons] at hi ⊢
      split_ifs
      · simp only []; omega
      · split
        · simp only []; omega
        · split
          · simp only []; omega
          · split
            · rename_i x n hleg
              have := legacyLoop_le T _ _ x n hleg
              simp only [longestEntityWithoutSemicolon] at this
              simp only []
              omega
            · simp only []; omega

/-- Decoding is local before a `<`: the text before it is decoded as it would be
on its own, and the decoding starts afresh after it. -/
theorem unescapeLoop_append_lt (T : EntityTables) (rest : List Char) (a : List Char) :
    ∀ k : Nat, k ≤ a.length →
      unescapeLoop T k (a ++ '<' :: rest) = unescapeLoop T k a ++ '<' :: unescapeLoop T 0 rest := by
  induction a with
  | nil =>
    intro k hk
    have : k = 0 := by simpa using hk
    subst this
    have h : ('<' : Char) ≠ '&' := by decide
    simp only [List.nil_append, unescapeLoop, if_neg h]
  | cons c cs ih =>
    intro k hk
    cases k with
    | succ k =>
      simp only [List.cons_append, unescapeLoop]
      exact ih k (by simpa using hk)
    | zero =>
      by_cases hc : c = '&'
      · subst hc
        obtain ⟨h1, h2⟩ := unescapeEntity_append_lt T cs rest
        have h1' : unescapeEntity T ('&' :: (cs ++ '<' :: rest)) = unescapeEntity T ('&' :: cs) := h1
        show unescapeLoop T 0 ('&' :: (cs ++ '<' :: rest)) = _
        simp only [unescapeLoop, if_true, h1']
        rw [ih ((unescapeEntity T ('&' :: cs)).2 - 1) (by omega), List.append_assoc]
      · show unescapeLoop T 0 (c :: (cs ++ '<' :: rest)) = _
        simp only [unescapeLoop, if_neg hc]
        rw [ih 0 (Nat.zero_le _)]
        rfl

end html

namespace utils

/-! ## Claim C13: script elements -/

theorem afterLit_cons_none {pat : List Char} {c : Char} {cs : List Char}
    (h : regexp.afterLit pat (c :: cs) = none) :
    regexp.litFold pat (c :: cs) = none ∧ regexp.afterLit pat cs = none := by
  cases hl : regexp.litFold pat (c :: cs) with
  | some r => simp [regexp.afterLit, hl] at h
  | none =>
    simp only [regexp.afterLit, hl] at h
    exact ⟨rfl, h⟩

/-- Where `</script` does not start, `</script>` does not start either, even when
the closing tag follows the text. -/
theorem litFold_close_none (l U : List Char) (hl : l ≠ [])
    (h : regexp.litFold ['<', '/', 's', 'c', 'r', 'i', 'p', 't'] l = none) :
    regexp.litFold ['<', '/', 's', 'c', 'r', 'i', 'p', 't', '>']
      (l ++ (['<', '/', 's', 'c', 'r', 'i', 'p', 't', '>'] ++ U)) = none := by
  have f1 : regexp.foldEq '/' '<' = false := by decide
  have f2 : regexp.foldEq 's' '<' = false := by decide
  have f3 : regexp.foldEq 'c' '<' = false := by decide
  have f4 : regexp.foldEq 'r' '<' = false := by decide
  have f5 : regexp.foldEq 'i' '<' = false := by decide
  have f6 : regexp.foldEq 'p' '<' = false := by decide
  have f7 : regexp.foldEq 't' '<' = false := by decide
  rcases l with _ | ⟨c1, _ | ⟨c2, _ | ⟨c3, _ | ⟨c4, _ | ⟨c5, _ | ⟨c6, _ | ⟨c7, _ | ⟨c8, l'⟩⟩⟩⟩⟩⟩⟩⟩
  · exact absurd rfl hl
  · simp [regexp.litFold, f1]
  · simp [regexp.litFold, f2]
  · simp [regexp.litFold, f3]
  · simp [regexp.litFold, f4]
  · simp [regexp.litFold, f5]
  · simp [regexp.litFold, f6]
  · simp [regexp.litFold, f7]
  · simp only [regexp.litFold, List.cons_append] at h ⊢
    split_ifs at h ⊢ <;> rfl

/-- In a body without `</script`, followed by the closing tag, the first closing
tag is the one that follows the body. -/
theorem afterLit_close (C U : List Char)
    (h : regexp.afterLit ['<', '/', 's', 'c', 'r', 'i', 'p', 't'] C = none) :
    regexp.afterLit ['<', '/', 's', 'c', 'r', 'i', 'p', 't', '>']
      (C ++ (['<', '/', 's', 'c', 'r', 'i', 'p', 't', '>'] ++ U)) = some U := by
  induction C with
  | nil => rfl
  | cons x C' ih =>
    obtain ⟨h1, h2⟩ := afterLit_cons_none h
    have h3 := litFold_close_none (x :: C') U (by simp) h1
    show regexp.afterLit _ (x :: (C' ++ (['<', '/', 's', 'c', 'r', 'i', 'p', 't', '>'] ++ U)))
      = some U
    have h3' : regexp.litFold ['<', '/', 's', 'c', 'r', 'i', 'p', 't', '>']
        (x :: (C' ++ (['<', '/', 's', 'c', 'r', 'i', 'p', 't', '>'] ++ U))) = none := h3
    simp only [regexp.afterLit, h3']
    exact ih h2

theorem script_match (C U : List Char)
    (h : regexp.afterLit ['<', '/', 's', 'c', 'r', 'i', 'p', 't'] C = none) :
    NewHTMLSanitizer.scriptRegex.matchAt
        ((['<', 's', 'c', 'r', 'i', 'p', 't', '>'] ++
          (C ++ ['<', '/', 's', 'c', 'r', 'i', 'p', 't', '>'])) ++ U)
      = some U := by
  have e : (['<', 's', 'c', 'r', 'i', 'p', 't', '>'] ++
      (C ++ ['<', '/', 's', 'c', 'r', 'i', 'p', 't', '>'])) ++ U
      = '<' :: 's' :: 'c' :: 'r' :: 'i' :: 'p' :: 't' :: '>' ::
        (C ++ (['<', '/', 's', 'c', 'r', 'i', 'p', 't', '>'] ++ U)) := by simp
  rw [e]
  show (regexp.afterLit ['<', '/', 's', 'c', 'r', 'i', 'p', 't', '>']
    (C ++ (['<', '/', 's', 'c', 'r', 'i', 'p', 't', '>'] ++ U))) = some U
  exact afterLit_close C U h

theorem afterUnescape_congr (l l' : List Char)
    (h : regexp.replaceLoop NewHTMLSanitizer.scriptRegex [] 0 l
      = regexp.replaceLoop NewHTMLSanitizer.scriptRegex [] 0 l') :
    afterUnescape NewHTMLSanitizer l = afterUnescape NewHTMLSanitizer l' := by
  unfold afterUnescape
  rw [h]

/-- C13, the claim fails: the body "&lt;/script&gt;x" holds no `</script`, yet it
is not removed whole.  Entities are decoded first, the decoded body closes the
element early, and "x" stays: the result is "xClean", not "Clean". -/
theorem c13_encoded_closing_tag_ends_script :
    regexp.afterLit "</script".data "&lt;/script&gt;x".data = none ∧
    ¬ ∃ T : html.EntityTables, T.entity "lt;" = some '<' ∧ T.entity "gt;" = some '>' ∧
      StripHTML T NewHTMLSanitizer ("<script>" ++ "&lt;/script&gt;x" ++ "</script>" ++ "Clean")
        = StripHTML T NewHTMLSanitizer "Clean" := by
  refine ⟨by decide, ?_⟩
  rintro ⟨T, hlt, hgt, h⟩
  have h1 : html.unescapeLoop T 0
      ("<script>" ++ "&lt;/script&gt;x" ++ "</script>" ++ "Clean").data
      = html.unescapeLoop html.xmlEntities 0
        ("<script>" ++ "&lt;/script&gt;x" ++ "</script>" ++ "Clean").data := by
    have h2 : html.unescapeLoop T 0
        ("<script>".data ++ (['&', 'l', 't', ';'] ++ ("/script".data ++ ['&', 'g', 't', ';']))
          ++ "x</script>Clean".data)
        = "<script></script>x</script>Clean".data := by
      have h3 := html.unescapeLoop_named T ['l', 't']
        ("/script".data ++ (['&', 'g', 't', ';'] ++ "x</script>Clean".data)) '<'
        (by decide) (by decide) hlt
      have h4 := html.unescapeLoop_named T ['g', 't'] "x</script>Clean".data '>'
        (by decide) (by decide) hgt
      have h3' : html.unescapeLoop T 0 (['&', 'l', 't', ';'] ++
          ("/script".data ++ (['&', 'g', 't', ';'] ++ "x</script>Clean".data)))
          = '<' :: html.unescapeLoop T 0
            ("/script".data ++ (['&', 'g', 't', ';'] ++ "x</script>Clean".data)) := h3
      have h4' : html.unescapeLoop T 0 (['&', 'g', 't', ';'] ++ "x</script>Clean".data)
          = '>' :: html.unescapeLoop T 0 "x</script>Clean".data := h4
      simp only [List.append_assoc]
      rw [html.unescapeLoop_pass T _ _ (by decide), h3',
        html.unescapeLoop_pass T _ _ (by decide), h4',
        html.unescapeLoop_id T _ (by decide)]
      rfl
    exact h2.trans (by decide)
  rw [StripHTML_congr T html.xmlEntities _ _ (by decide) (by decide) h1,
    StripHTML_plain T "Clean" (by decide) (by decide)] at h
  revert h
  decide

/-- A script element whose decoded body holds no `</script` is removed with its
body. -/
theorem script_element_removed (T : html.EntityTables) (c t : String)
    (hclose : regexp.afterLit "</script".data (html.UnescapeString T c).data = none) :
    StripHTML T NewHTMLSanitizer ("<script>" ++ c ++ "</script>" ++ t)
      = StripHTML T NewHTMLSanitizer t := by
  apply String.ext
  have hne : "<script>" ++ c ++ "</script>" ++ t ≠ "" := by
    intro e
    have h1 : ("<script>" ++ c ++ "</script>" ++ t).data = [] := by rw [e]
    simp only [String.data_append, List.append_eq_nil] at h1
    exact absurd h1.1.1.1 (by decide)
  have e1 : ("<script>" ++ c ++ "</script>" ++ t).data
      = ['<', 's', 'c', 'r', 'i', 'p', 't', '>'] ++
          (c.data ++ '<' :: (['/', 's', 'c', 'r', 'i', 'p', 't', '>'] ++ t.data)) := by
    simp only [String.data_append, List.append_assoc]
    rfl
  have e2 : html.unescapeLoop T 0 (['<', 's', 'c', 'r', 'i', 'p', 't', '>'] ++
        (c.data ++ '<' :: (['/', 's', 'c', 'r', 'i', 'p', 't', '>'] ++ t.data)))
      = (['<', 's', 'c', 'r', 'i', 'p', 't', '>'] ++
          (html.unescapeLoop T 0 c.data ++ ['<', '/', 's', 'c', 'r', 'i', 'p', 't', '>']))
        ++ html.unescapeLoop T 0 t.data := by
    rw [html.unescapeLoop_pass T _ _ (by decide),
      html.unescapeLoop_append_lt T _ c.data 0 (Nat.zero_le _),
      html.unescapeLoop_pass T _ _ (by decide)]
    simp only [List.append_assoc, List.cons_append, List.nil_append]
  rw [StripHTML_data, StripHTML_data, if_neg hne, e1, e2]
  have hs := @regexp.replaceLoop_some NewHTMLSanitizer.scriptRegex []
    (['<', 's', 'c', 'r', 'i', 'p', 't', '>'] ++
      (html.unescapeLoop T 0 c.data ++ ['<', '/', 's', 'c', 'r', 'i', 'p', 't', '>']))
    (html.unescapeLoop T 0 t.data) (by simp) (script_match _ _ hclose)
  rw [List.nil_append] at hs
  rw [afterUnescape_congr _ _ hs]
  by_cases ht : t = ""
  · rw [if_pos ht, ht]
    rfl
  · rw [if_neg ht]

/-- C13 as amended: a script element whose body, once its character entities are
decoded, holds no `</script` (letter case ignored, the long s counting as s) is
removed with its body: `StripHTML` of the element followed by `t` is `StripHTML`
of `t`; and the element of the repository's test, followed by "Clean", gives
"Clean". -/
theorem c13_script_element_removed (T : html.EntityTables) (c t : String)
    (hclose : regexp.afterLit "</script".data (html.UnescapeString T c).data = none) :
    StripHTML T NewHTMLSanitizer ("<script>" ++ c ++ "</script>" ++ t)
        = StripHTML T NewHTMLSanitizer t ∧
      StripHTML T NewHTMLSanitizer "<script>alert('x')</script>Clean" = "Clean" := by
  refine ⟨script_element_removed T c t hclose, ?_⟩
  have h1 : (html.UnescapeString T "alert('x')").data = "alert('x')".data :=
    html.unescapeLoop_id T _ (by decide)
  have h2 := script_element_removed T "alert('x')" "Clean" (by rw [h1]; decide)
  have h3 : "<script>" ++ "alert('x')" ++ "</script>" ++ "Clean"
      = "<script>alert('x')</script>Clean" := by decide
  rw [h3] at h2
  rw [h2, StripHTML_plain T "Clean" (by decide) (by decide)]
  decide

/-- Witness of the amended C13: the body holds ampersands, which decode to
themselves, and no closing tag. -/
theorem c13_script_element_removed_witness :
    StripHTML html.xmlEntities NewHTMLSanitizer
        ("<script>" ++ "if(a&&b)\x7bx()\x7d" ++ "</script>" ++ "Clean")
        = StripHTML html.xmlEntities NewHTMLSanitizer "Clean" ∧
      StripHTML html.xmlEntities NewHTMLSanitizer "<script>alert('x')</script>Clean"
        = "Clean" :=
  c13_script_element_removed html.xmlEntities "if(a&&b)\x7bx()\x7d" "Clean" (by decide)

end utils

namespace utils

/-! ## Claim C15: tags other than the block-level ones -/

theorem litFold_mem (pat : List Char) :
    ∀ (l r : List Char), regexp.litFold pat l = some r → ∀ x ∈ r, x ∈ l := by
  induction pat with
  | nil =>
    intro l r h x hx
    simp only [regexp.litFold, Option.some.injEq] at h
    exact h ▸ hx
  | cons p ps ih =>
    intro l r h x hx
    cases l with
    | nil => simp [regexp.litFold] at h
    | cons c cs =>
      by_cases hf : regexp.foldEq p c = true
      · simp only [regexp.litFold, hf, if_true] at h
        exact List.mem_cons_of_mem c (ih cs r h x hx)
      · simp [regexp.litFold, hf] at h

theorem afterGt_mem (l : List Char) :
    ∀ r : List Char, regexp.afterGt l = some r → ∀ x ∈ r, x ∈ l := by
  induction l with
  | nil => intro r h; simp [regexp.afterGt] at h
  | cons c cs ih =>
    intro r h x hx
    by_cases hc : c = '>'
    · simp only [regexp.afterGt, if_pos hc, Option.some.injEq] at h
      exact List.mem_cons_of_mem c (h ▸ hx)
    · simp only [regexp.afterGt, if_neg hc] at h
      exact List.mem_cons_of_mem c (ih r h x hx)

theorem afterLit_none_of_no_lt (ps l : List Char) (h : '<' ∉ l) :
    regexp.afterLit ('<' :: ps) l = none := by
  induction l with
  | nil => rfl
  | cons c cs ih =>
    have hc : c ≠ '<' := fun e => h (e ▸ List.mem_cons_self c cs)
    have hcs : '<' ∉ cs := fun e => h (List.mem_cons_of_mem c e)
    simp only [regexp.afterLit, litFold_lt_none ps cs hc]
    exact ih hcs

/-- An opening literal, `[^>]*>`, then a lazy run up to a closing literal that
starts with `<`: no match on a text with no `<` after its first rune. -/
theorem element_none_of_no_lt (opening closing : List Char) (c : Char) (tl : List Char)
    (h : '<' ∉ tl) :
    (regexp.litFold opening (c :: tl)).bind
      (fun r => (regexp.afterGt r).bind (regexp.afterLit ('<' :: closing))) = none := by
  cases opening with
  | nil =>
    have : regexp.litFold [] (c :: tl) = some (c :: tl) := rfl
    rw [this]
    show (regexp.afterGt (c :: tl)).bind _ = none
    cases h2 : regexp.afterGt (c :: tl) with
    | none => rfl
    | some r' =>
      have hr' : '<' ∉ r' := by
        intro e
        have := afterGt_mem _ _ h2 _ e
        rcases List.mem_cons.mp this with e1 | e1
        · by_cases hc : c = '>'
          · simp only [regexp.afterGt, if_pos hc, Option.some.injEq] at h2
            exact h (h2 ▸ e)
          · simp only [regexp.afterGt, if_neg hc] at h2
            exact h (afterGt_mem _ _ h2 _ e)
        · exact h e1
      exact afterLit_none_of_no_lt closing r' hr'
  | cons p ps =>
    cases h1 : regexp.litFold (p :: ps) (c :: tl) with
    | none => rfl
    | some r =>
      have hr : '<' ∉ r := by
        intro e
        by_cases hf : regexp.foldEq p c = true
        · simp only [regexp.litFold, hf, if_true] at h1
          exact h (litFold_mem ps tl r h1 _ e)
        · simp [regexp.litFold, hf] at h1
      show (regexp.afterGt r).bind _ = none
      cases h2 : regexp.afterGt r with
      | none => rfl
      | some r' =>
        exact afterLit_none_of_no_lt closing r' (fun e => hr (afterGt_mem _ _ h2 _ e))

theorem script_none_of_no_lt (c : Char) (tl : List Char) (h : '<' ∉ tl) :
    NewHTMLSanitizer.scriptRegex.matchAt (c :: tl) = none :=
  element_none_of_no_lt ['<', 's', 'c', 'r', 'i', 'p', 't']
    ['/', 's', 'c', 'r', 'i', 'p', 't', '>'] c tl h

theorem style_none_of_no_lt (c : Char) (tl : List Char) (h : '<' ∉ tl) :
    NewHTMLSanitizer.styleRegex.matchAt (c :: tl) = none :=
  element_none_of_no_lt ['<', 's', 't', 'y', 'l', 'e'] ['/', 's', 't', 'y', 'l', 'e', '>'] c tl h

theorem alnum_facts {z : Char} (h : z.isAlphanum = true) :
    regexp.perlSpace z = false ∧ z ≠ '/' ∧ z ≠ '>' ∧ z ≠ '<' ∧ z ≠ '&' := by
  refine ⟨?_, ?_, ?_, ?_, ?_⟩
  · cases hp : regexp.perlSpace z with
    | false => rfl
    | true =>
      simp only [regexp.perlSpace, Bool.or_eq_true, decide_eq_true_eq] at hp
      rcases hp with (((e | e) | e) | e) | e <;> rw [e] at h <;> exact absurd h (by decide)
  all_goals
    intro e
    rw [e] at h
    exact absurd h (by decide)

theorem foldEq_b {x : Char} (h : regexp.foldEq 'b' x = true) : x.toLower = 'b' := by
  have hu : ('b' : Char).toUpper = 'B' := by decide
  have hl : ('b' : Char).toLower = 'b' := by decide
  simp only [regexp.foldEq, hu, hl, Bool.or_eq_true, decide_eq_true_eq, Bool.and_eq_true] at h
  rcases h with (((e | e) | e) | ⟨e, _⟩) | ⟨e, _⟩
  · rw [e]; decide
  · rw [e]; decide
  · rw [e]; decide
  · rcases e with e | e <;> exact absurd e (by decide)
  · rcases e with e | e <;> exact absurd e (by decide)

theorem foldEq_r {x : Char} (h : regexp.foldEq 'r' x = true) : x.toLower = 'r' := by
  have hu : ('r' : Char).toUpper = 'R' := by decide
  have hl : ('r' : Char).toLower = 'r' := by decide
  simp only [regexp.foldEq, hu, hl, Bool.or_eq_true, decide_eq_true_eq, Bool.and_eq_true] at h
  rcases h with (((e | e) | e) | ⟨e, _⟩) | ⟨e, _⟩
  · rw [e]; decide
  · rw [e]; decide
  · rw [e]; decide
  · rcases e with e | e <;> exact absurd e (by decide)
  · rcases e with e | e <;> exact absurd e (by decide)

/-- The line-break expression does not match a tag `<n>` whose name is of
letters and digits and is not `br`. -/
theorem br_none (N B : List Char) (hN : ∀ c ∈ N, c.isAlphanum = true)
    (hbr : N.map Char.toLower ≠ ['b', 'r']) :
    NewHTMLSanitizer.brRegex.matchAt ('<' :: (N ++ '>' :: B)) = none := by
  show (regexp.litFold ['<', 'b', 'r'] ('<' :: (N ++ '>' :: B))).bind _ = none
  have f0 : regexp.foldEq '<' '<' = true := by decide
  have f1 : regexp.foldEq 'b' '>' = false := by decide
  have f2 : regexp.foldEq 'r' '>' = false := by decide
  rcases N with _ | ⟨x, _ | ⟨y, N2⟩⟩
  · simp [regexp.litFold, f0, f1]
  · by_cases hx : regexp.foldEq 'b' x = true <;> simp [regexp.litFold, f0, f2, hx]
  · by_cases hx : regexp.foldEq 'b' x = true
    · by_cases hy : regexp.foldEq 'r' y = true
      · have hl : regexp.litFold ['<', 'b', 'r'] ('<' :: (x :: y :: N2 ++ '>' :: B))
            = some (N2 ++ '>' :: B) := by
          simp [regexp.litFold, f0, hx, hy]
        rw [hl]
        cases N2 with
        | nil =>
          exfalso
          apply hbr
          simp [foldEq_b hx, foldEq_r hy]
        | cons z N3 =>
          have hz := alnum_facts (hN z (by simp))
          show (match (z :: (N3 ++ '>' :: B)).dropWhile regexp.perlSpace with
            | '/' :: '>' :: rest => some rest
            | '>' :: rest => some rest
            | _ => none) = none
          rw [List.dropWhile_cons_of_neg (by simp [hz.1])]
          split
          · rename_i heq
            exact absurd (List.cons.inj heq).1 hz.2.1
          · rename_i heq
            exact absurd (List.cons.inj heq).1 hz.2.2.1
          · rfl
      · simp [regexp.litFold, f0, hx, hy]
    · simp [regexp.litFold, f0, hx]

theorem litFold_extend_none (pat : List Char) (c : Char) (rest : List Char)
    (hc : ∀ p ∈ pat, regexp.foldEq p c = false) :
    ∀ n : List Char, regexp.litFold pat n = none →
      regexp.litFold pat (n ++ c :: rest) = none := by
  induction pat with
  | nil => intro n h; simp [regexp.litFold] at h
  | cons p ps ih =>
    intro n h
    cases n with
    | nil => simp [regexp.litFold, hc p (List.mem_cons_self p ps)]
    | cons x n' =>
      by_cases hf : regexp.foldEq p x = true
      · simp only [regexp.litFold, hf, if_true, List.cons_append] at h ⊢
        exact ih (fun q hq => hc q (List.mem_cons_of_mem p hq)) n' h
      · simp [regexp.litFold, hf]

theorem litHeading_extend_none (n rest : List Char) (h : regexp.litHeading n = none) :
    regexp.litHeading (n ++ '>' :: rest) = none := by
  have f1 : regexp.foldEq 'h' '>' = false := by decide
  have f2 : ¬ (('1' : Char) ≤ '>' ∧ ('>' : Char) ≤ '6') := by decide
  rcases n with _ | ⟨x, _ | ⟨y, n2⟩⟩
  · simp [regexp.litHeading, regexp.litFold, f1]
  · by_cases hx : regexp.foldEq 'h' x = true <;>
      simp [regexp.litHeading, regexp.litFold, hx, f2]
  · by_cases hx : regexp.foldEq 'h' x = true
    · by_cases hy : ('1' : Char) ≤ y ∧ y ≤ '6'
      · simp [regexp.litHeading, regexp.litFold, hx, hy] at h
      · simp [regexp.litHeading, regexp.litFold, hx, hy]
    · simp [regexp.litHeading, regexp.litFold, hx]

/-- The block expression does not match a tag `<n>` whose name is of letters and
digits and begins with none of its alternatives. -/
theorem block_none (N B : List Char) (hNne : N ≠ []) (hN : ∀ c ∈ N, c.isAlphanum = true)
    (hblock : ∀ alt ∈ regexp.blockNames, alt N = none) :
    NewHTMLSanitizer.blockRegex.matchAt ('<' :: (N ++ '>' :: B)) = none := by
  have hall : regexp.blockNameThenGt (N ++ '>' :: B) = none := by
    have h1 := litFold_extend_none ['p'] '>' B (by decide) N
      (hblock _ (by simp [regexp.blockNames]))
    have h2 := litFold_extend_none ['d', 'i', 'v'] '>' B (by decide) N
      (hblock _ (by simp [regexp.blockNames]))
    have h3 := litHeading_extend_none N B (hblock _ (by simp [regexp.blockNames]))
    have h4 := litFold_extend_none ['u', 'l'] '>' B (by decide) N
      (hblock _ (by simp [regexp.blockNames]))
    have h5 := litFold_extend_none ['o', 'l'] '>' B (by decide) N
      (hblock _ (by simp [regexp.blockNames]))
    have h6 := litFold_extend_none ['l', 'i'] '>' B (by decide) N
      (hblock _ (by simp [regexp.blockNames]))
    simp [regexp.blockNameThenGt, regexp.blockNames, List.findSome?, h1, h2, h3, h4, h5, h6]
  cases N with
  | nil => exact absurd rfl hNne
  | cons n0 N' =>
    have hn0 := alnum_facts (hN n0 (List.mem_cons_self n0 N'))
    show (match '<' :: (n0 :: N' ++ '>' :: B) with
      | '<' :: '/' :: r =>
        (regexp.blockNameThenGt r).orElse fun _ => regexp.blockNameThenGt ('/' :: r)
      | '<' :: r => regexp.blockNameThenGt r
      | _ => none) = none
    split
    · rename_i heq
      exact absurd (List.cons.inj (List.cons.inj heq).2).1 hn0.2.1
    · rename_i heq
      rw [← (List.cons.inj heq).2]
      exact hall
    · rfl

theorem afterGt_split (N B : List Char) (h : '>' ∉ N) :
    regexp.afterGt (N ++ '>' :: B) = some B := by
  induction N with
  | nil => simp [regexp.afterGt]
  | cons c cs ih =>
    have hc : c ≠ '>' := fun e => h (e ▸ List.mem_cons_self c cs)
    have hcs : '>' ∉ cs := fun e => h (List.mem_cons_of_mem c e)
    simp only [List.cons_append, regexp.afterGt, if_neg hc]
    exact ih hcs

theorem tag_match (N B : List Char) (hNne : N ≠ []) (h : '>' ∉ N) :
    NewHTMLSanitizer.tagRegex.matchAt (('<' :: (N ++ ['>'])) ++ B) = some B := by
  cases N with
  | nil => exact absurd rfl hNne
  | cons n0 N' =>
    have hn0 : n0 ≠ '>' := fun e => h (e ▸ List.mem_cons_self n0 N')
    have e : ('<' :: ((n0 :: N') ++ ['>'])) ++ B = '<' :: n0 :: (N' ++ '>' :: B) := by simp
    rw [e]
    show (if n0 = '>' then none else regexp.afterGt (n0 :: (N' ++ '>' :: B))) = some B
    rw [if_neg hn0]
    exact afterGt_split (n0 :: N') B h

/-- The stages after decoding, on `a <n> b`. -/
theorem afterUnescape_tag (A N B : List Char) (hA : PlainWord A) (hB : PlainWord B)
    (hAne : A ≠ []) (hBne : B ≠ []) (hNne : N ≠ []) (hN : ∀ c ∈ N, c.isAlphanum = true)
    (hblock : ∀ alt ∈ regexp.blockNames, alt N = none)
    (hbr : N.map Char.toLower ≠ ['b', 'r']) :
    afterUnescape NewHTMLSanitizer (A ++ ('<' :: (N ++ '>' :: B))) = A ++ B := by
  obtain ⟨hA1, _, _, hA4⟩ := plainWord_not_mem hA
  obtain ⟨hB1, _, _, hB4⟩ := plainWord_not_mem hB
  obtain ⟨⟨a0, A', eA, ha0, _⟩, _⟩ := plainWord_shape hA hAne
  obtain ⟨_, ⟨B', y, eB', hy⟩⟩ := plainWord_shape hB hBne
  have hN1 : '<' ∉ N := fun e => (alnum_facts (hN _ e)).2.2.2.1 rfl
  have hN2 : '>' ∉ N := fun e => (alnum_facts (hN _ e)).2.2.1 rfl
  have htl : '<' ∉ N ++ '>' :: B := by
    simp only [List.mem_append, List.mem_cons, not_or]
    exact ⟨hN1, by decide, hB1⟩
  have h1 : regexp.replaceLoop NewHTMLSanitizer.scriptRegex [] 0 (A ++ ('<' :: (N ++ '>' :: B)))
      = A ++ ('<' :: (N ++ '>' :: B)) := by
    rw [regexp.replaceLoop_pass script_startsWith _ _ _ hA1,
      regexp.replaceLoop_none _ _ (script_none_of_no_lt _ _ htl),
      regexp.replaceLoop_id script_startsWith _ _ htl]
  have h2 : regexp.replaceLoop NewHTMLSanitizer.styleRegex [] 0 (A ++ ('<' :: (N ++ '>' :: B)))
      = A ++ ('<' :: (N ++ '>' :: B)) := by
    rw [regexp.replaceLoop_pass style_startsWith _ _ _ hA1,
      regexp.replaceLoop_none _ _ (style_none_of_no_lt _ _ htl),
      regexp.replaceLoop_id style_startsWith _ _ htl]
  have h3 : regexp.replaceLoop NewHTMLSanitizer.brRegex ['\n'] 0
        (A ++ ('<' :: (N ++ '>' :: B)))
      = A ++ ('<' :: (N ++ '>' :: B)) := by
    rw [regexp.replaceLoop_pass br_startsWith _ _ _ hA1,
      regexp.replaceLoop_none _ _ (br_none N B hN hbr),
      regexp.replaceLoop_id br_startsWith _ _ htl]
  have h4 : regexp.replaceLoop NewHTMLSanitizer.blockRegex ['\n'] 0
        (A ++ ('<' :: (N ++ '>' :: B)))
      = A ++ ('<' :: (N ++ '>' :: B)) := by
    rw [regexp.replaceLoop_pass block_startsWith _ _ _ hA1,
      regexp.replaceLoop_none _ _ (block_none N B hNne hN hblock),
      regexp.replaceLoop_id block_startsWith _ _ htl]
  have h5 : regexp.replaceLoop NewHTMLSanitizer.tagRegex [] 0 (A ++ ('<' :: (N ++ '>' :: B)))
      = A ++ B := by
    have e : A ++ ('<' :: (N ++ '>' :: B)) = A ++ (('<' :: (N ++ ['>'])) ++ B) := by simp
    rw [e, regexp.replaceLoop_pass tag_startsWith _ _ _ hA1,
      regexp.replaceLoop_some _ _ (by simp) (tag_match N B hNne hN2),
      regexp.replaceLoop_id tag_startsWith _ _ hB1]
    rfl
  have hnl : '\n' ∉ A ++ B := by
    simp only [List.mem_append, not_or]
    exact ⟨hA4, hB4⟩
  have h6 : regexp.replaceLoop NewHTMLSanitizer.multiLineRegex ['\n', '\n'] 0 (A ++ B)
      = A ++ B := regexp.replaceLoop_id multiLine_startsWith _ _ hnl
  unfold afterUnescape
  rw [h1, h2, h3, h4, h5, h6, eA, eB']
  have h7 := trim_keep a0 A' [] B' y ha0 hy
  simp only [List.nil_append] at h7
  exact h7

theorem litFold_extend_some (pat : List Char) (rest : List Char) :
    ∀ n r : List Char, regexp.litFold pat n = some r →
      regexp.litFold pat (n ++ rest) = some (r ++ rest) := by
  induction pat with
  | nil =>
    intro n r h
    simp only [regexp.litFold, Option.some.injEq] at h ⊢
    rw [h]
  | cons p ps ih =>
    intro n r h
    cases n with
    | nil => simp [regexp.litFold] at h
    | cons x n' =>
      by_cases hf : regexp.foldEq p x = true
      · simp only [regexp.litFold, hf, if_true, List.cons_append] at h ⊢
        exact ih n' r h
      · simp [regexp.litFold, hf] at h

theorem litHeading_extend_some (n r rest : List Char) (h : regexp.litHeading n = some r) :
    regexp.litHeading (n ++ rest) = some (r ++ rest) := by
  rcases n with _ | ⟨x, _ | ⟨y, n2⟩⟩
  · simp [regexp.litHeading, regexp.litFold] at h
  · by_cases hx : regexp.foldEq 'h' x = true <;>
      simp [regexp.litHeading, regexp.litFold, hx] at h
  · by_cases hx : regexp.foldEq 'h' x = true
    · by_cases hy : ('1' : Char) ≤ y ∧ y ≤ '6'
      · simp only [regexp.litHeading, regexp.litFold, hx, if_true, hy, and_self,
          Option.some.injEq] at h
        subst h
        show (match regexp.litFold ['h'] (x :: y :: (n2 ++ rest)) with
          | some (c :: cs) => if '1' ≤ c ∧ c ≤ '6' then some cs else none
          | _ => none) = some (n2 ++ rest)
        simp only [regexp.litFold, hx, if_true]
        rw [if_pos hy]
      · simp [regexp.litHeading, regexp.litFold, hx, hy] at h
    · simp [regexp.litHeading, regexp.litFold, hx] at h

theorem litHeading_mem (l r : List Char) (h : regexp.litHeading l = some r) :
    ∀ x ∈ r, x ∈ l := by
  rcases l with _ | ⟨x, _ | ⟨y, n2⟩⟩
  · simp [regexp.litHeading, regexp.litFold] at h
  · by_cases hx : regexp.foldEq 'h' x = true <;>
      simp [regexp.litHeading, regexp.litFold, hx] at h
  · by_cases hx : regexp.foldEq 'h' x = true
    · by_cases hy : ('1' : Char) ≤ y ∧ y ≤ '6'
      · simp only [regexp.litHeading, regexp.litFold, hx, if_true, hy, and_self,
          Option.some.injEq] at h
        intro z hz
        rw [← h] at hz
        exact List.mem_cons_of_mem _ (List.mem_cons_of_mem _ hz)
      · simp [regexp.litHeading, regexp.litFold, hx, hy] at h
    · simp [regexp.litHeading, regexp.litFold, hx] at h

/-- An alternative of the block expression, then `[^>]*>`, on a name without `>`
followed by `>`: it matches up to that `>` when the name begins with the
alternative, and not at all otherwise. -/
theorem litFold_thenGt (pat N B : List Char) (hpat : ∀ p ∈ pat, regexp.foldEq p '>' = false)
    (hpne : pat ≠ []) (hN : '>' ∉ N) :
    (regexp.litFold pat (N ++ '>' :: B)).bind regexp.afterGt
      = (regexp.litFold pat N).bind fun _ => some B := by
  cases h : regexp.litFold pat N with
  | none =>
    cases pat with
    | nil => exact absurd rfl hpne
    | cons p ps => rw [litFold_extend_none (p :: ps) '>' B hpat N h]; rfl
  | some r =>
    rw [litFold_extend_some pat _ N r h]
    show regexp.afterGt (r ++ '>' :: B) = some B
    exact afterGt_split r B (fun e => hN (litFold_mem pat N r h _ e))

theorem litHeading_thenGt (N B : List Char) (hN : '>' ∉ N) :
    (regexp.litHeading (N ++ '>' :: B)).bind regexp.afterGt
      = (regexp.litHeading N).bind fun _ => some B := by
  cases h : regexp.litHeading N with
  | none => rw [litHeading_extend_none N B h]; rfl
  | some r =>
    rw [litHeading_extend_some N r _ h]
    show regexp.afterGt (r ++ '>' :: B) = some B
    exact afterGt_split r B (fun e => hN (litHeading_mem N r h _ e))

/-- The block expression matches a tag `<n>` whose name is of letters and digits
and begins with one of its alternatives, up to the `>` that ends the tag. -/
theorem block_match (N B : List Char) (hN : ∀ c ∈ N, c.isAlphanum = true)
    (hblock : ∃ alt ∈ regexp.blockNames, alt N ≠ none) :
    NewHTMLSanitizer.blockRegex.matchAt (('<' :: (N ++ ['>'])) ++ B) = some B := by
  have hN2 : '>' ∉ N := fun e => (alnum_facts (hN _ e)).2.2.1 rfl
  have hall : regexp.blockNameThenGt (N ++ '>' :: B) = some B := by
    have h1 := litFold_thenGt ['p'] N B (by decide) (by simp) hN2
    have h2 := litFold_thenGt ['d', 'i', 'v'] N B (by decide) (by simp) hN2
    have h3 := litHeading_thenGt N B hN2
    have h4 := litFold_thenGt ['u', 'l'] N B (by decide) (by simp) hN2
    have h5 := litFold_thenGt ['o', 'l'] N B (by decide) (by simp) hN2
    have h6 := litFold_thenGt ['l', 'i'] N B (by decide) (by simp) hN2
    obtain ⟨alt, halt, hsome⟩ := hblock
    simp only [regexp.blockNames, List.mem_cons, List.mem_singleton, List.not_mem_nil,
      or_false] at halt
    simp only [regexp.blockNameThenGt, regexp.blockNames, List.findSome?, h1, h2, h3, h4, h5, h6]
    cases e1 : regexp.litFold ['p'] N <;> cases e2 : regexp.litFold ['d', 'i', 'v'] N <;>
      cases e3 : regexp.litHeading N <;> cases e4 : regexp.litFold ['u', 'l'] N <;>
      cases e5 : regexp.litFold ['o', 'l'] N <;> cases e6 : regexp.litFold ['l', 'i'] N <;>
      first
        | rfl
        | (exfalso
           rcases halt with rfl | rfl | rfl | rfl | rfl | rfl <;> contradiction)
  cases N with
  | nil =>
    exfalso
    obtain ⟨alt, halt, hsome⟩ := hblock
    simp only [regexp.blockNames, List.mem_cons, List.mem_singleton, List.not_mem_nil,
      or_false] at halt
    rcases halt with rfl | rfl | rfl | rfl | rfl | rfl <;> exact hsome rfl
  | cons n0 N' =>
    have hn0 := alnum_facts (hN n0 (List.mem_cons_self n0 N'))
    have e : ('<' :: ((n0 :: N') ++ ['>'])) ++ B = '<' :: (n0 :: N' ++ '>' :: B) := by simp
    rw [e]
    show (match '<' :: (n0 :: N' ++ '>' :: B) with
      | '<' :: '/' :: r =>
        (regexp.blockNameThenGt r).orElse fun _ => regexp.blockNameThenGt ('/' :: r)
      | '<' :: r => regexp.blockNameThenGt r
      | _ => none) = some B
    split
    · rename_i heq
      exact absurd (List.cons.inj (List.cons.inj heq).2).1 hn0.2.1
    · rename_i heq
      rw [← (List.cons.inj heq).2]
      exact hall
    · rename_i h1 h2
      exact absurd rfl (h2 _)

theorem foldEq_not_b (q x : Char)
    (hq : q = 'p' ∨ q = 'd' ∨ q = 'h' ∨ q = 'u' ∨ q = 'o' ∨ q = 'l')
    (h : regexp.foldEq q x = true) : x.toLower ≠ 'b' := by
  rcases hq with rfl | rfl | rfl | rfl | rfl | rfl <;>
    (simp only [regexp.foldEq, Bool.or_eq_true, decide_eq_true_eq, Bool.and_eq_true] at h
     rcases h with (((e | e) | e) | ⟨e, _⟩) | ⟨e, _⟩
     · rw [e]; decide
     · rw [e]; decide
     · rw [e]; decide
     · rcases e with e | e <;> exact absurd e (by decide)
     · rcases e with e | e <;> exact absurd e (by decide))

/-- A name that begins with an alternative of the block expression is not `br`. -/
theorem block_name_not_br (N : List Char) (hblock : ∃ alt ∈ regexp.blockNames, alt N ≠ none) :
    N.map Char.toLower ≠ ['b', 'r'] := by
  intro hbr
  obtain ⟨alt, halt, hsome⟩ := hblock
  cases N with
  | nil => simp at hbr
  | cons x N' =>
    have hx : x.toLower = 'b' := by
      simp only [List.map_cons, List.cons.injEq] at hbr
      exact hbr.1
    simp only [regexp.blockNames, List.mem_cons, List.mem_singleton, List.not_mem_nil,
      or_false] at halt
    have key : ∀ (q : Char) (ps : List Char),
        (q = 'p' ∨ q = 'd' ∨ q = 'h' ∨ q = 'u' ∨ q = 'o' ∨ q = 'l') →
        regexp.litFold (q :: ps) (x :: N') ≠ none → False := by
      intro q ps hq hne
      by_cases hf : regexp.foldEq q x = true
      · exact foldEq_not_b q x hq hf hx
      · apply hne
        simp [regexp.litFold, hf]
    rcases halt with rfl | rfl | rfl | rfl | rfl | rfl
    · exact key 'p' [] (by simp) hsome
    · exact key 'd' ['i', 'v'] (by simp) hsome
    · apply key 'h' [] (by simp)
      intro hnone
      apply hsome
      simp only [regexp.litHeading, hnone]
    · exact key 'u' ['l'] (by simp) hsome
    · exact key 'o' ['l'] (by simp) hsome
    · exact key 'l' ['i'] (by simp) hsome

/-- The stages after decoding, on `a <n> b` for a name that begins with a
block-level name. -/
theorem afterUnescape_block_tag (A N B : List Char) (hA : PlainWord A) (hB : PlainWord B)
    (hAne : A ≠ []) (hBne : B ≠ []) (hN : ∀ c ∈ N, c.isAlphanum = true)
    (hblock : ∃ alt ∈ regexp.blockNames, alt N ≠ none) :
    afterUnescape NewHTMLSanitizer (A ++ ('<' :: (N ++ '>' :: B))) = A ++ '\n' :: B := by
  obtain ⟨hA1, _, _, hA4⟩ := plainWord_not_mem hA
  obtain ⟨hB1, _, _, hB4⟩ := plainWord_not_mem hB
  obtain ⟨⟨a0, A', eA, ha0, _⟩, _⟩ := plainWord_shape hA hAne
  obtain ⟨⟨b0, B0, eB, _, hb0⟩, ⟨B', y, eB', hy⟩⟩ := plainWord_shape hB hBne
  have hN1 : '<' ∉ N := fun e => (alnum_facts (hN _ e)).2.2.2.1 rfl
  have htl : '<' ∉ N ++ '>' :: B := by
    simp only [List.mem_append, List.mem_cons, not_or]
    exact ⟨hN1, by decide, hB1⟩
  have h1 : regexp.replaceLoop NewHTMLSanitizer.scriptRegex [] 0 (A ++ ('<' :: (N ++ '>' :: B)))
      = A ++ ('<' :: (N ++ '>' :: B)) := by
    rw [regexp.replaceLoop_pass script_startsWith _ _ _ hA1,
      regexp.replaceLoop_none _ _ (script_none_of_no_lt _ _ htl),
      regexp.replaceLoop_id script_startsWith _ _ htl]
  have h2 : regexp.replaceLoop NewHTMLSanitizer.styleRegex [] 0 (A ++ ('<' :: (N ++ '>' :: B)))
      = A ++ ('<' :: (N ++ '>' :: B)) := by
    rw [regexp.replaceLoop_pass style_startsWith _ _ _ hA1,
      regexp.replaceLoop_none _ _ (style_none_of_no_lt _ _ htl),
      regexp.replaceLoop_id style_startsWith _ _ htl]
  have h3 : regexp.replaceLoop NewHTMLSanitizer.brRegex ['\n'] 0
        (A ++ ('<' :: (N ++ '>' :: B)))
      = A ++ ('<' :: (N ++ '>' :: B)) := by
    rw [regexp.replaceLoop_pass br_startsWith _ _ _ hA1,
      regexp.replaceLoop_none _ _ (br_none N B hN (block_name_not_br N hblock)),
      regexp.replaceLoop_id br_startsWith _ _ htl]
  have h4 : regexp.replaceLoop NewHTMLSanitizer.blockRegex ['\n'] 0
        (A ++ ('<' :: (N ++ '>' :: B)))
      = A ++ '\n' :: B := by
    have e : A ++ ('<' :: (N ++ '>' :: B)) = A ++ (('<' :: (N ++ ['>'])) ++ B) := by simp
    rw [e, regexp.replaceLoop_pass block_startsWith _ _ _ hA1,
      regexp.replaceLoop_some _ _ (by simp) (block_match N B hN hblock),
      regexp.replaceLoop_id block_startsWith _ _ hB1]
    rfl
  have hlt : '<' ∉ A ++ '\n' :: B := by
    intro e
    rcases List.mem_append.mp e with e | e
    · exact hA1 e
    · rcases List.mem_cons.mp e with e | e
      · exact absurd e (by decide)
      · exact hB1 e
  have h5 : regexp.replaceLoop NewHTMLSanitizer.tagRegex [] 0 (A ++ '\n' :: B)
      = A ++ '\n' :: B := regexp.replaceLoop_id tag_startsWith _ _ hlt
  have h6 : regexp.replaceLoop NewHTMLSanitizer.multiLineRegex ['\n', '\n'] 0 (A ++ '\n' :: B)
      = A ++ '\n' :: B := by
    rw [regexp.replaceLoop_pass multiLine_startsWith _ _ _ hA4,
      regexp.replaceLoop_none _ _ (multiLine_no_match B (by
        have := not_two_newlines_of_head eB hb0 []
        simpa using this)),
      regexp.replaceLoop_id multiLine_startsWith _ _ hB4]
  unfold afterUnescape
  rw [h1, h2, h3, h4, h5, h6, eA, eB']
  exact trim_keep a0 A' ['\n'] B' y ha0 hy

/-- For a text without `&` the table of entities does not matter. -/
theorem StripHTML_table_free (T T' : html.EntityTables) (s : String) (h : '&' ∉ s.data) :
    StripHTML T NewHTMLSanitizer s = StripHTML T' NewHTMLSanitizer s := by
  apply String.ext
  rw [StripHTML_data, StripHTML_data, html.unescapeLoop_id T _ h, html.unescapeLoop_id T' _ h]

/-- C15, the claim fails: `pre` is a name of letters that is none of p, div,
h1 to h6, ul, ol, li, br, script, style, yet `a<pre>b` becomes `a`, newline, `b`:
the block expression matches every tag whose name begins with one of its names. -/
theorem c15_name_beginning_with_block_name :
    (∀ c ∈ "pre".data, c.isAlphanum = true) ∧
    "pre".data.map Char.toLower ∉ namedTags.map String.data ∧
    PlainWord "a".data ∧ PlainWord "b".data ∧
    ¬ ∃ T : html.EntityTables,
      StripHTML T NewHTMLSanitizer ("a" ++ "<" ++ "pre" ++ ">" ++ "b") = "a" ++ "b" := by
  refine ⟨by decide, by decide, by decide, by decide, ?_⟩
  rintro ⟨T, h⟩
  rw [StripHTML_table_free T html.xmlEntities _ (by decide)] at h
  revert h
  decide

/-- A tag `<n>` whose name is non-empty, of ASCII letters and digits, begins with
none of p, div, h1 to h6, ul, ol, li (letter case ignored) and is not br, is
stripped without a newline: between non-empty texts `a` and `b` free of `<`,
`>`, `&` and white space, the result is `a` followed by `b`. -/
theorem other_tags_stripped (T : html.EntityTables) (a n b : String)
    (ha : PlainWord a.data) (hb : PlainWord b.data) (hane : a ≠ "") (hbne : b ≠ "")
    (hnne : n ≠ "") (hn : ∀ c ∈ n.data, c.isAlphanum = true)
    (hblock : ∀ alt ∈ regexp.blockNames, alt n.data = none)
    (hbr : n.data.map Char.toLower ≠ ['b', 'r']) :
    StripHTML T NewHTMLSanitizer (a ++ "<" ++ n ++ ">" ++ b) = a ++ b := by
  have hA : a.data ≠ [] := fun e => hane (String.ext e)
  have hB : b.data ≠ [] := fun e => hbne (String.ext e)
  have hN : n.data ≠ [] := fun e => hnne (String.ext e)
  obtain ⟨_, _, hA3, _⟩ := plainWord_not_mem ha
  obtain ⟨_, _, hB3, _⟩ := plainWord_not_mem hb
  apply String.ext
  have hne : a ++ "<" ++ n ++ ">" ++ b ≠ "" := by
    intro e
    have h1 : (a ++ "<" ++ n ++ ">" ++ b).data = [] := by rw [e]
    simp only [String.data_append, List.append_eq_nil] at h1
    exact hA h1.1.1.1.1
  have hamp : '&' ∉ (a ++ "<" ++ n ++ ">" ++ b).data := by
    simp only [String.data_append, List.mem_append, not_or]
    exact ⟨⟨⟨⟨hA3, by decide⟩, alnum_not_amp hn⟩, by decide⟩, hB3⟩
  rw [StripHTML_data, if_neg hne, html.unescapeLoop_id T _ hamp]
  have e : (a ++ "<" ++ n ++ ">" ++ b).data = a.data ++ ('<' :: (n.data ++ '>' :: b.data)) := by
    simp only [String.data_append, List.append_assoc]
    rfl
  rw [e, afterUnescape_tag _ _ _ ha hb hA hB hN hn hblock hbr]
  rfl

/-- A tag `<n>` whose name is of ASCII letters and digits and begins with one of
p, div, h1 to h6, ul, ol, li (letter case ignored) becomes a newline: between
non-empty texts `a` and `b` free of `<`, `>`, `&` and white space, the result is
`a`, a newline, `b`. -/
theorem block_tags_newline (T : html.EntityTables) (a n b : String)
    (ha : PlainWord a.data) (hb : PlainWord b.data) (hane : a ≠ "") (hbne : b ≠ "")
    (hn : ∀ c ∈ n.data, c.isAlphanum = true)
    (hblock : ∃ alt ∈ regexp.blockNames, alt n.data ≠ none) :
    StripHTML T NewHTMLSanitizer (a ++ "<" ++ n ++ ">" ++ b) = a ++ "\n" ++ b := by
  have hA : a.data ≠ [] := fun e => hane (String.ext e)
  have hB : b.data ≠ [] := fun e => hbne (String.ext e)
  obtain ⟨_, _, hA3, _⟩ := plainWord_not_mem ha
  obtain ⟨_, _, hB3, _⟩ := plainWord_not_mem hb
  apply String.ext
  have hne : a ++ "<" ++ n ++ ">" ++ b ≠ "" := by
    intro e
    have h1 : (a ++ "<" ++ n ++ ">" ++ b).data = [] := by rw [e]
    simp only [String.data_append, List.append_eq_nil] at h1
    exact hA h1.1.1.1.1
  have hamp : '&' ∉ (a ++ "<" ++ n ++ ">" ++ b).data := by
    simp only [String.data_append, List.mem_append, not_or]
    exact ⟨⟨⟨⟨hA3, by decide⟩, alnum_not_amp hn⟩, by decide⟩, hB3⟩
  rw [StripHTML_data, if_neg hne, html.unescapeLoop_id T _ hamp]
  have e : (a ++ "<" ++ n ++ ">" ++ b).data = a.data ++ ('<' :: (n.data ++ '>' :: b.data)) := by
    simp only [String.data_append, List.append_assoc]
    rfl
  rw [e, afterUnescape_block_tag _ _ _ ha hb hA hB hn hblock]
  simp only [String.data_append, List.append_assoc]
  rfl

/-- C15 as amended: between non-empty texts `a` and `b` free of `<`, `>`, `&` and
white space, a tag `<n>` whose name is non-empty and of ASCII letters and digits
becomes a newline when the name begins with one of p, div, h1 to h6, ul, ol, li
(letter case ignored), and is stripped without a newline when it begins with
none of them and is not br. -/
theorem c15_tag_newline_by_name (T : html.EntityTables) (a n b : String)
    (ha : PlainWord a.data) (hb : PlainWord b.data) (hane : a ≠ "") (hbne : b ≠ "")
    (hnne : n ≠ "") (hn : ∀ c ∈ n.data, c.isAlphanum = true) :
    ((∃ alt ∈ regexp.blockNames, alt n.data ≠ none) →
      StripHTML T NewHTMLSanitizer (a ++ "<" ++ n ++ ">" ++ b) = a ++ "\n" ++ b) ∧
    ((∀ alt ∈ regexp.blockNames, alt n.data = none) →
      n.data.map Char.toLower ≠ ['b', 'r'] →
      StripHTML T NewHTMLSanitizer (a ++ "<" ++ n ++ ">" ++ b) = a ++ b) :=
  ⟨fun hblock => block_tags_newline T a n b ha hb hane hbne hn hblock,
    fun hblock hbr => other_tags_stripped T a n b ha hb hane hbne hnne hn hblock hbr⟩

/-- Witness of the amended C15: the tag `<span>` of the repository's test is
stripped, and the tag `<pre>` becomes a newline. -/
theorem c15_tag_newline_by_name_witness :
    StripHTML html.xmlEntities NewHTMLSanitizer ("Nested" ++ "<" ++ "span" ++ ">" ++ "content")
        = "Nested" ++ "content" ∧
      StripHTML html.xmlEntities NewHTMLSanitizer ("a" ++ "<" ++ "pre" ++ ">" ++ "b")
        = "a" ++ "\n" ++ "b" :=
  ⟨(c15_tag_newline_by_name html.xmlEntities "Nested" "span" "content"
      (by decide) (by decide) (by decide) (by decide) (by decide) (by decide)).2
      (by
        intro alt h
        simp only [regexp.blockNames, List.mem_cons, List.mem_singleton, List.not_mem_nil,
          or_false] at h
        rcases h with rfl | rfl | rfl | rfl | rfl | rfl <;> rfl)
      (by decide),
    (c15_tag_newline_by_name html.xmlEntities "a" "pre" "b"
      (by decide) (by decide) (by decide) (by decide) (by decide) (by decide)).1
      ⟨regexp.litFold ['p'], by simp [regexp.blockNames], by decide⟩⟩

end utils

namespace validator

/-! ## Claim C21: the errors of `ValidateURL` -/

/-- C21, the claim fails: for the empty input `ValidateURL` returns the sentinel
`ErrEmptyURL`, which is no `ValidationError` and carries no field. -/
theorem c21_empty_input_gives_sentinel :
    ¬ ∀ (Parse : String → Option URL) (v : URLValidator) (rawURL : String) (e : errors.GoError),
        ValidateURL Parse v rawURL = some e →
          ∃ ve : errors.ValidationError, e = errors.GoError.validation ve ∧ ve.Field = "url" := by
  intro h
  obtain ⟨ve, hve, _⟩ :=
    h (fun _ => none) (NewURLValidator 2048) "" (errors.GoError.sentinel "URL cannot be empty") rfl
  cases hve

/-- C21 as amended: every error that `ValidateURL` returns for a non-empty input
is a `ValidationError` whose `Field` is "url"; for the empty input, and only for
it, the error is the sentinel `ErrEmptyURL`. -/
theorem c21_failures_are_field_tagged (Parse : String → Option URL) (v : URLValidator)
    (rawURL : String) (e : errors.GoError) (h : ValidateURL Parse v rawURL = some e) :
    (rawURL = "" ∧ e = errors.ErrEmptyURL) ∨
      (rawURL ≠ "" ∧ ∃ ve : errors.ValidationError,
        e = errors.GoError.validation ve ∧ ve.Field = "url") := by
  unfold ValidateURL at h
  by_cases h1 : rawURL = ""
  · rw [if_pos h1] at h
    exact Or.inl ⟨h1, (Option.some.inj h).symm⟩
  · rw [if_neg h1] at h
    refine Or.inr ⟨h1, ?_⟩
    by_cases h2 : (rawURL.utf8ByteSize : Int) > v.maxURLLength
    · rw [if_pos h2] at h
      exact ⟨_, (Option.some.inj h).symm, rfl⟩
    · rw [if_neg h2] at h
      cases hp : Parse rawURL with
      | none =>
        rw [hp] at h
        exact ⟨_, (Option.some.inj h).symm, rfl⟩
      | some u =>
        rw [hp] at h
        by_cases h3 : (!(schemeAllowed v.allowedSchemes u.Scheme)) = true
        · simp only [if_pos h3] at h
          exact ⟨_, (Option.some.inj h).symm, rfl⟩
        · simp only [if_neg h3] at h
          by_cases h4 : u.Host = ""
          · rw [if_pos h4] at h
            exact ⟨_, (Option.some.inj h).symm, rfl⟩
          · rw [if_neg h4] at h
            cases h

/-- Witness of the amended C21: an ftp URL is rejected with a field-tagged error. -/
theorem c21_failures_are_field_tagged_witness :
    ("ftp://example.com" = "" ∧
        errors.GoError.validation ⟨"url", "URL scheme must be http or https"⟩
          = errors.ErrEmptyURL) ∨
      ("ftp://example.com" ≠ "" ∧ ∃ ve : errors.ValidationError,
        errors.GoError.validation ⟨"url", "URL scheme must be http or https"⟩
          = errors.GoError.validation ve ∧ ve.Field = "url") :=
  c21_failures_are_field_tagged (fun _ => some ⟨"ftp", "example.com"⟩) (NewURLValidator 2048)
    "ftp://example.com" _ (by decide)

end validator

namespace validator

/-! ## Claim C22: `SanitizeInput` -/

theorem SanitizeInput_data (v : URLValidator) (input : String) :
    (SanitizeInput v input).data =
      List.rdropWhile unicode.IsSpace (List.dropWhile unicode.IsSpace
        (regexp.replaceLoop inputTagExpr [] 0 input.data)) := rfl

theorem inputTag_startsWith : regexp.StartsWith inputTagExpr '<' := by
  intro c cs hc
  show (match c :: cs with
    | '<' :: r => regexp.afterGt r
    | _ => none) = none
  split
  · rename_i h
    exact absurd (List.cons.inj h).1 hc
  · rfl

theorem noTagOpen_nil : NoTagOpen [] := by
  intro pre rest e
  simp at e

theorem noTagOpen_cons {c : Char} {l : List Char} (hc : c = '<' → '>' ∉ l) (hl : NoTagOpen l) :
    NoTagOpen (c :: l) := by
  intro pre rest e
  cases pre with
  | nil =>
    obtain ⟨e1, e2⟩ := List.cons.inj e
    exact e2 ▸ hc e1
  | cons x pre =>
    exact hl pre rest (List.cons.inj e).2

theorem noTagOpen_tail {c : Char} {l : List Char} (h : NoTagOpen (c :: l)) : NoTagOpen l :=
  fun pre rest e => h (c :: pre) rest (by rw [e]; rfl)

theorem noTagOpen_segment {l t : List Char} (a b : List Char) (h : l = a ++ t ++ b)
    (hl : NoTagOpen l) : NoTagOpen t := by
  intro pre rest e
  have h1 : l = (a ++ pre) ++ '<' :: (rest ++ b) := by
    rw [h, e]; simp
  exact fun hm => hl _ _ h1 (List.mem_append_left b hm)

theorem inputTag_stage_noTagOpen (l : List Char) :
    ∀ k : Nat, NoTagOpen (regexp.replaceLoop inputTagExpr [] k l) := by
  induction l with
  | nil => intro k; cases k <;> exact noTagOpen_nil
  | cons c cs ih =>
    intro k
    cases k with
    | succ k => exact ih k
    | zero =>
      cases hm : inputTagExpr.matchAt (c :: cs) with
      | none =>
        rw [regexp.replaceLoop_none _ _ hm]
        refine noTagOpen_cons (fun hc => ?_) (ih 0)
        subst hc
        have h1 : regexp.afterGt cs = none := hm
        intro hmem
        rcases regexp.mem_replaceLoop _ _ _ _ _ hmem with h2 | h2
        · exact utils.afterGt_none cs h1 h2
        · cases h2
      | some rest =>
        simp only [regexp.replaceLoop, hm, List.nil_append]
        exact ih _

/-- A text none of whose `<` is followed by `>` goes through the scan unchanged. -/
theorem inputTag_stage_id (l : List Char) (h : NoTagOpen l) :
    regexp.replaceLoop inputTagExpr [] 0 l = l := by
  induction l with
  | nil => rfl
  | cons c cs ih =>
    have hm : inputTagExpr.matchAt (c :: cs) = none := by
      by_cases hc : c = '<'
      · subst hc
        show regexp.afterGt cs = none
        cases hg : regexp.afterGt cs with
        | none => rfl
        | some r =>
          exfalso
          have : ∀ (l r : List Char), regexp.afterGt l = some r → '>' ∈ l := by
            intro l
            induction l with
            | nil => intro r hr; simp [regexp.afterGt] at hr
            | cons x xs ihx =>
              intro r hr
              by_cases hx : x = '>'
              · exact hx ▸ List.mem_cons_self _ _
              · simp only [regexp.afterGt, if_neg hx] at hr
                exact List.mem_cons_of_mem _ (ihx r hr)
          exact h [] cs rfl (this cs r hg)
      · exact inputTag_startsWith c cs hc
    rw [regexp.replaceLoop_none _ _ hm, ih (noTagOpen_tail h)]

theorem inputTag_stage_withTags (pieces : List (List Char × List Char)) (last : List Char)
    (hp : ∀ p ∈ pieces, '<' ∉ p.1 ∧ '>' ∉ p.2) (hlast : NoTagOpen last) :
    regexp.replaceLoop inputTagExpr [] 0 (withTags pieces last) = textBetween pieces last := by
  induction pieces with
  | nil => exact inputTag_stage_id last hlast
  | cons p ps ih =>
    obtain ⟨t, b⟩ := p
    obtain ⟨ht, hb⟩ := hp (t, b) (List.mem_cons_self _ _)
    have ih1 := ih (fun q hq => hp q (List.mem_cons_of_mem _ hq))
    show regexp.replaceLoop inputTagExpr [] 0 (t ++ '<' :: (b ++ '>' :: withTags ps last))
      = t ++ textBetween ps last
    rw [regexp.replaceLoop_pass inputTag_startsWith [] t _ ht]
    have hm : inputTagExpr.matchAt (('<' :: (b ++ ['>'])) ++ withTags ps last)
        = some (withTags ps last) := by
      show regexp.afterGt ((b ++ ['>']) ++ withTags ps last) = some (withTags ps last)
      rw [List.append_assoc]
      exact utils.afterGt_split b _ hb
    have hs := regexp.replaceLoop_some inputTagExpr [] (List.cons_ne_nil _ _) hm
    have e : '<' :: (b ++ '>' :: withTags ps last) = ('<' :: (b ++ ['>'])) ++ withTags ps last := by
      simp
    rw [e, hs, ih1, List.nil_append]

/-- Every text has the shape `t1 <b1> ... tn <bn> last`. -/
theorem withTags_exists (l : List Char) :
    ∃ (pieces : List (List Char × List Char)) (last : List Char),
      (∀ p ∈ pieces, '<' ∉ p.1 ∧ '>' ∉ p.2) ∧ NoTagOpen last ∧ l = withTags pieces last := by
  suffices hs : ∀ (n : Nat) (l : List Char), l.length ≤ n →
      ∃ (pieces : List (List Char × List Char)) (last : List Char),
        (∀ p ∈ pieces, '<' ∉ p.1 ∧ '>' ∉ p.2) ∧ NoTagOpen last ∧ l = withTags pieces last from
    hs l.length l (Nat.le_refl _)
  intro n
  induction n with
  | zero =>
    intro l h
    have hl : l = [] := List.eq_nil_of_length_eq_zero (Nat.le_zero.mp h)
    exact ⟨[], [], fun p hp => (by cases hp), noTagOpen_nil, hl⟩
  | succ n ih =>
    intro l h
    rcases middleware.split_at_first '<' l with hno | ⟨t, r, rfl, ht⟩
    · refine ⟨[], l, fun p hp => (by cases hp), ?_, rfl⟩
      intro pre rest e
      exact absurd (e ▸ List.mem_append_right pre (List.mem_cons_self _ _)) hno
    · rcases middleware.split_at_first '>' r with hno | ⟨b, r', rfl, hb⟩
      · refine ⟨[], t ++ '<' :: r, fun p hp => (by cases hp), ?_, rfl⟩
        intro pre rest e hmem
        -- the `<` found lies in `t` (impossible) or in `'<' :: r`
        rcases List.append_eq_append_iff.mp e with ⟨a, e1, e2⟩ | ⟨a, e1, e2⟩
        · cases a with
          | nil =>
            simp only [List.nil_append] at e2
            obtain ⟨-, e3⟩ := List.cons.inj e2
            exact hno (e3 ▸ hmem)
          | cons x a =>
            obtain ⟨-, e3⟩ := List.cons.inj e2
            exact hno (e3 ▸ List.mem_append_right a (List.mem_cons_of_mem _ hmem))
        · cases a with
          | nil =>
            simp only [List.nil_append] at e2
            obtain ⟨-, e3⟩ := List.cons.inj e2
            exact hno (e3 ▸ hmem)
          | cons x a =>
            obtain ⟨e3, -⟩ := List.cons.inj e2
            exact ht (e1 ▸ List.mem_append_right pre (e3 ▸ List.mem_cons_self _ _))
      · have hlen : r'.length ≤ n := by
          simp only [List.length_append, List.length_cons] at h
          omega
        obtain ⟨ps, last, hps, hlast, e⟩ := ih r' hlen
        refine ⟨(t, b) :: ps, last, ?_, hlast, ?_⟩
        · intro p hp
          rcases List.mem_cons.mp hp with e1 | e1
          · rw [e1]; exact ⟨ht, hb⟩
          · exact hps p e1
        · show t ++ '<' :: (b ++ '>' :: r') = t ++ '<' :: (b ++ '>' :: withTags ps last)
          rw [← e]

/-- C22: for every input, the result of `SanitizeInput` holds no `<` that is
followed later by a `>`, and neither its first nor its last rune is white space;
the input has the shape `t1 <b1> ... tn <bn> last` (no `<` in the `ti`, no `>`
in the `bi`, no `<` of `last` followed by a `>`) and the result is the text
`t1 ... tn last`, trimmed; and "<b>bold</b> and <i>italic</i>" gives
"bold and italic". -/
theorem c22_sanitize_input_removes_tags (v : URLValidator) (input : String) :
    NoTagOpen (SanitizeInput v input).data ∧
    (∀ c, (SanitizeInput v input).data.head? = some c → unicode.IsSpace c = false) ∧
    (∀ c, (SanitizeInput v input).data.getLast? = some c → unicode.IsSpace c = false) ∧
    (∃ (pieces : List (List Char × List Char)) (last : List Char),
      (∀ p ∈ pieces, '<' ∉ p.1 ∧ '>' ∉ p.2) ∧ NoTagOpen last ∧
      input.data = withTags pieces last ∧
        SanitizeInput v input = strings.TrimSpace (String.mk (textBetween pieces last))) ∧
    SanitizeInput v "<b>bold</b> and <i>italic</i>" = "bold and italic" := by
  refine ⟨?_, fun c hc => strings.trim_head _ c hc, fun c hc => strings.trim_last _ c hc,
    ?_, (by decide : SanitizeInput (NewURLValidator 0) "<b>bold</b> and <i>italic</i>"
      = "bold and italic")⟩
  · rw [SanitizeInput_data]
    obtain ⟨a, b, e⟩ := strings.trim_segment (regexp.replaceLoop inputTagExpr [] 0 input.data)
    exact noTagOpen_segment a b e (inputTag_stage_noTagOpen _ 0)
  · obtain ⟨pieces, last, hp, hlast, e⟩ := withTags_exists input.data
    refine ⟨pieces, last, hp, hlast, e, ?_⟩
    apply String.ext
    rw [SanitizeInput_data, e, inputTag_stage_withTags pieces last hp hlast]
    rfl

end validator

namespace models

/-! ## Claims C23 and C24: the first image of an item -/

theorem takeBytes_isInitial (l : List Char) : ∀ n : Nat, middleware.takeBytes l n <+: l := by
  induction l with
  | nil => intro n; exact List.prefix_refl _
  | cons c cs ih =>
    intro n
    by_cases h : n < c.utf8Size
    · simp only [middleware.takeBytes, if_pos h]
      exact List.nil_prefix
    · simp only [middleware.takeBytes, if_neg h]
      exact (List.prefix_cons_inj c).mpr (ih _)

theorem takeBytes_zero (l : List Char) : middleware.takeBytes l 0 = [] := by
  cases l with
  | nil => rfl
  | cons c cs =>
    have h : 0 < c.utf8Size := Char.utf8Size_pos c
    simp only [middleware.takeBytes, if_pos h]

/-- The test `mc.Type[:6] == "image/"` holds exactly for the texts that start
with "image/". -/
theorem sliceTo_six_eq_iff (s : String) :
    middleware.sliceTo s 6 = "image/" ↔ startsWith s "image/" := by
  constructor
  · intro h
    have h1 : middleware.takeBytes s.data 6 = "image/".data := congrArg String.data h
    show "image/".data <+: s.data
    rw [← h1]
    exact takeBytes_isInitial _ _
  · rintro ⟨rest, e⟩
    apply String.ext
    show middleware.takeBytes s.data 6 = "image/".data
    rw [← e]
    show middleware.takeBytes ('i' :: 'm' :: 'a' :: 'g' :: 'e' :: '/' :: rest) 6 = _
    simp only [middleware.takeBytes]
    have h0 := takeBytes_zero rest
    simp +decide [h0]

/-- What `IsImage` computes: the medium is "image", or the type starts with
"image/" and is more than six bytes long. -/
theorem IsImage_iff (mc : MediaContent) :
    mc.IsImage = true ↔
      mc.Medium = "image" ∨ (startsWith mc.Type_ "image/" ∧ 6 < mc.Type_.utf8ByteSize) := by
  unfold MediaContent.IsImage
  by_cases h1 : mc.Medium = "image"
  · simp only [if_pos h1, true_iff]
    exact Or.inl h1
  · simp only [if_neg h1]
    by_cases h2 : mc.Type_ ≠ "" ∧ mc.Type_.utf8ByteSize > 6 ∧
        middleware.sliceTo mc.Type_ 6 = "image/"
    · simp only [if_pos h2, true_iff]
      exact Or.inr ⟨(sliceTo_six_eq_iff _).mp h2.2.2, h2.2.1⟩
    · simp only [if_neg h2, Bool.false_eq_true, false_iff, not_or]
      refine ⟨h1, fun h3 => h2 ⟨?_, h3.2, (sliceTo_six_eq_iff _).mpr h3.1⟩⟩
      intro e
      rw [e] at h3
      exact absurd h3.2 (by decide)

/-- C23, the claim fails on the code: the type "image/" starts with "image/",
yet `IsImage` answers false for it, because the length test of the source is
`len(mc.Type) > 6`. -/
theorem c23_bare_image_type_rejected :
    ¬ ∀ mc : MediaContent,
        mc.IsImage = true ↔ (mc.Medium = "image" ∨ startsWith mc.Type_ "image/") := by
  intro h
  have h1 := h ⟨"https://example.com/a", "image/", ""⟩
  revert h1
  decide

theorem firstImageURL_split (pre : List MediaContent) (m : MediaContent)
    (post : List MediaContent) (hpre : ∀ x ∈ pre, x.IsImage = false) (hm : m.IsImage = true) :
    firstImageURL (pre ++ m :: post) = m.URL := by
  induction pre with
  | nil => simp only [List.nil_append, firstImageURL, hm, if_true]
  | cons x xs ih =>
    have hx : x.IsImage = false := hpre x (List.mem_cons_self _ _)
    simp only [List.cons_append, firstImageURL, hx, Bool.false_eq_true, if_false]
    exact ih (fun y hy => hpre y (List.mem_cons_of_mem _ hy))

theorem firstImageURL_none (l : List MediaContent) (h : ∀ x ∈ l, x.IsImage = false) :
    firstImageURL l = "" := by
  induction l with
  | nil => rfl
  | cons x xs ih =>
    have hx : x.IsImage = false := h x (List.mem_cons_self _ _)
    simp only [firstImageURL, hx, Bool.false_eq_true, if_false]
    exact ih (fun y hy => h y (List.mem_cons_of_mem _ hy))

/-- What `GetImageURL` computes: the URL of the first media entry, in the order
of `MediaContent`, for which `IsImage` answers true (the entries before it, for
which it answers false, are skipped), and the empty string when `IsImage`
answers true for no entry, in particular when `MediaContent` is empty. -/
theorem GetImageURL_first_IsImage (item : Item) :
    (∀ (pre : List MediaContent) (m : MediaContent) (post : List MediaContent),
      item.MediaContent = pre ++ m :: post → (∀ x ∈ pre, x.IsImage = false) →
        m.IsImage = true → item.GetImageURL = m.URL) ∧
    ((∀ x ∈ item.MediaContent, x.IsImage = false) → item.GetImageURL = "") ∧
    (item.MediaContent = [] → item.GetImageURL = "") := by
  refine ⟨?_, ?_, ?_⟩
  · intro pre m post e hpre hm
    show firstImageURL item.MediaContent = m.URL
    rw [e]
    exact firstImageURL_split pre m post hpre hm
  · intro h
    exact firstImageURL_none _ h
  · intro e
    show firstImageURL item.MediaContent = ""
    rw [e]
    rfl

/-- C24, evaluation at the failing input: an item whose first media entry has
the type "image/" and whose second has the medium "image".  The first entry is
an image (its type starts with "image/"), yet `GetImageURL` skips it and returns
the URL of the second; for the item with the first entry alone it returns the
empty string. -/
theorem c24_bare_image_type_skipped :
    startsWith
        ({ URL := "https://example.com/a.png", Type_ := "image/", Medium := "" } :
          MediaContent).Type_ "image/" ∧
    Item.GetImageURL
        { Title := "", Link := "", Description := "", PubDate := "", ContentEncoded := "",
          MediaContent :=
            [{ URL := "https://example.com/a.png", Type_ := "image/", Medium := "" },
             { URL := "https://example.com/b.png", Type_ := "", Medium := "image" }] }
      = "https://example.com/b.png" ∧
    Item.GetImageURL
        { Title := "", Link := "", Description := "", PubDate := "", ContentEncoded := "",
          MediaContent :=
            [{ URL := "https://example.com/a.png", Type_ := "image/", Medium := "" }] }
      = "" := by
  decide

end models

namespace services

/-! ## Auxiliary lemmas: the buffered writer reports its sticky error -/

theorem Flush_reports {σ : Type} (W : ioWriter σ) (b : bufioWriter σ) :
    (bufioWriter.Flush W b).1 = (bufioWriter.Flush W b).2.err := by
  unfold bufioWriter.Flush
  cases he : b.err with
  | some e => simp only [he]
  | none =>
    simp only
    by_cases h0 : b.buf.length = 0
    · simp only [if_pos h0, he]
    · simp only [if_neg h0]
      rcases hw : W.Write b.wr b.buf with ⟨res, st⟩
      cases res with
      | ok => simp only [he]
      | failed n err => simp only

theorem WriteByte_reports {σ : Type} (W : ioWriter σ) (b : bufioWriter σ) (c : Nat) :
    (bufioWriter.WriteByte W b c).1 = (bufioWriter.WriteByte W b c).2.err := by
  unfold bufioWriter.WriteByte
  cases he : b.err with
  | some e => simp only [he]
  | none =>
    simp only
    by_cases h0 : b.Available ≤ 0
    · simp only [if_pos h0]
      have hf := Flush_reports W b
      rcases hfl : bufioWriter.Flush W b with ⟨e1, b1⟩
      rw [hfl] at hf
      cases e1 with
      | some e => simp only
      | none => simp only; exact hf
    · simp only [if_neg h0, he]

theorem WriteString_reports {σ : Type} (W : ioWriter σ) (b : bufioWriter σ) (s : List Nat) :
    (bufioWriter.WriteString W b s).1 = (bufioWriter.WriteString W b s).2.err := by
  unfold bufioWriter.WriteString
  rcases hl : bufioWriter.writeStringLoop W (s.length + 2) b s with ⟨b1, s1⟩
  simp only
  cases he : b1.err with
  | some e => simp only [he]
  | none => simp only [he]

/-! ## Auxiliary lemmas: the loop of `WriteString` ends within its bound -/

theorem Flush_buf_of_no_error {σ : Type} (W : ioWriter σ) (b : bufioWriter σ)
    (h : (bufioWriter.Flush W b).2.err = none) : (bufioWriter.Flush W b).2.buf = [] := by
  unfold bufioWriter.Flush at h ⊢
  cases he : b.err with
  | some e =>
    simp only [he] at h
    cases h
  | none =>
    simp only [he] at h ⊢
    by_cases h0 : b.buf.length = 0
    · simp only [if_pos h0]
      exact List.eq_nil_of_length_eq_zero h0
    · simp only [if_neg h0] at h ⊢
      rcases hw : W.Write b.wr b.buf with ⟨res, st⟩
      rw [hw] at h
      cases res with
      | ok => rfl
      | failed n err => cases h

/-- With the bound `len(s) + 2` of `WriteString` the loop is left by its own
test: on return, `len(s) > b.Available() && b.err == nil` is false. -/
theorem writeStringLoop_exit {σ : Type} (W : ioWriter σ) :
    ∀ (k : Nat) (b : bufioWriter σ) (s : List Nat),
      (¬ (s.length > b.Available ∧ b.err = none) ∨
        s.length + (if b.buf.length = 0 then 0 else 1) < k) →
      ¬ ((bufioWriter.writeStringLoop W k b s).2.length
            > (bufioWriter.writeStringLoop W k b s).1.Available ∧
          (bufioWriter.writeStringLoop W k b s).1.err = none) := by
  intro k
  induction k with
  | zero =>
    intro b s h
    rcases h with h | h
    · exact h
    · exact absurd h (Nat.not_lt_zero _)
  | succ k ih =>
    intro b s h
    unfold bufioWriter.writeStringLoop
    by_cases hc : s.length > b.Available ∧ b.err = none
    · simp only [if_pos hc]
      have hm : s.length + (if b.buf.length = 0 then 0 else 1) < k + 1 := by
        rcases h with h | h
        · exact absurd hc h
        · exact h
      cases hs : (if b.buf.length = 0 then W.WriteString else none) with
      | some writeString =>
        simp only
        rcases hw : writeString b.wr s with ⟨res, st⟩
        cases res with
        | ok =>
          simp only
          apply ih
          left
          intro hx
          exact absurd hx.1 (Nat.not_lt_zero _)
        | failed n err =>
          simp only
          apply ih
          left
          intro hx
          cases hx.2
      | none =>
        simp only
        apply ih
        by_cases he1 : (bufioWriter.Flush W { b with buf := b.buf ++ s.take b.Available }).2.err
            = none
        · right
          have hb1 := Flush_buf_of_no_error W _ he1
          rw [hb1]
          simp only [List.length_nil, if_true, Nat.add_zero, List.length_drop]
          by_cases h0 : b.buf.length = 0
          · rw [if_pos h0] at hm
            have ha : b.Available = defaultBufSize := by
              unfold bufioWriter.Available
              rw [h0]
              rfl
            have hgt := hc.1
            rw [ha] at hgt ⊢
            have : defaultBufSize = 4096 := rfl
            omega
          · rw [if_neg h0] at hm
            omega
        · left
          intro hx
          exact he1 hx.2
    · simp only [if_neg hc]
      exact hc

theorem Flush_bounded {σ : Type} (W : ioWriter σ) (b : bufioWriter σ)
    (hb : b.buf.length ≤ defaultBufSize) :
    (bufioWriter.Flush W b).2.buf.length ≤ defaultBufSize := by
  unfold bufioWriter.Flush
  cases he : b.err with
  | some e => exact hb
  | none =>
    simp only
    by_cases h0 : b.buf.length = 0
    · simp only [if_pos h0]
      exact hb
    · simp only [if_neg h0]
      rcases hw : W.Write b.wr b.buf with ⟨res, st⟩
      cases res with
      | ok => exact Nat.zero_le _
      | failed n err =>
        simp only [List.length_drop]
        omega

theorem WriteByte_bounded {σ : Type} (W : ioWriter σ) (b : bufioWriter σ) (c : Nat)
    (hb : b.buf.length ≤ defaultBufSize) :
    (bufioWriter.WriteByte W b c).2.buf.length ≤ defaultBufSize := by
  unfold bufioWriter.WriteByte
  cases he : b.err with
  | some e => exact hb
  | none =>
    simp only
    by_cases h0 : b.Available ≤ 0
    · simp only [if_pos h0]
      have hf := Flush_bounded W b hb
      have hr := Flush_reports W b
      have hn := Flush_buf_of_no_error W b
      rcases hfl : bufioWriter.Flush W b with ⟨e1, b1⟩
      rw [hfl] at hf hr hn
      cases e1 with
      | some e => exact hf
      | none =>
        simp only at hr hn ⊢
        rw [hn hr.symm]
        exact Nat.le_of_ble_eq_true rfl
    · simp only [if_neg h0, List.length_append, List.length_singleton]
      unfold bufioWriter.Available at h0
      omega

theorem writeStringLoop_bounded {σ : Type} (W : ioWriter σ) :
    ∀ (k : Nat) (b : bufioWriter σ) (s : List Nat), b.buf.length ≤ defaultBufSize →
      (bufioWriter.writeStringLoop W k b s).1.buf.length ≤ defaultBufSize := by
  intro k
  induction k with
  | zero => intro b s hb; exact hb
  | succ k ih =>
    intro b s hb
    unfold bufioWriter.writeStringLoop
    by_cases hc : s.length > b.Available ∧ b.err = none
    · simp only [if_pos hc]
      cases hs : (if b.buf.length = 0 then W.WriteString else none) with
      | some writeString =>
        simp only
        rcases hw : writeString b.wr s with ⟨res, st⟩
        cases res with
        | ok => exact ih _ _ hb
        | failed n err => exact ih _ _ hb
      | none =>
        simp only
        apply ih
        apply Flush_bounded
        simp only [List.length_append, List.length_take]
        unfold bufioWriter.Available
        omega
    · simp only [if_neg hc]
      exact hb

/-- The buffer never holds more than its 4096 bytes. -/
theorem WriteString_bounded {σ : Type} (W : ioWriter σ) (b : bufioWriter σ) (s : List Nat)
    (hb : b.buf.length ≤ defaultBufSize) :
    (bufioWriter.WriteString W b s).2.buf.length ≤ defaultBufSize := by
  unfold bufioWriter.WriteString
  have h1 := writeStringLoop_bounded W (s.length + 2) b s hb
  have h2 := writeStringLoop_exit W (s.length + 2) b s (Or.inr (by split <;> omega))
  rcases hl : bufioWriter.writeStringLoop W (s.length + 2) b s with ⟨b1, s1⟩
  rw [hl] at h1 h2
  simp only at h1 h2 ⊢
  cases he : b1.err with
  | some e => exact h1
  | none =>
    simp only [List.length_append]
    have h3 : ¬ s1.length > b1.Available := fun hx => h2 ⟨hx, he⟩
    unfold bufioWriter.Available at h3
    omega

theorem andThen_reports {σ : Type} (r : Option errors.GoError × bufioWriter σ)
    (k : bufioWriter σ → Option errors.GoError × bufioWriter σ)
    (hr : r.1 = r.2.err) (hk : ∀ b, b.err = none → (k b).1 = (k b).2.err) :
    (andThen r k).1 = (andThen r k).2.err := by
  obtain ⟨e, b⟩ := r
  cases e with
  | some e => exact hr
  | none => exact hk b hr.symm

theorem someCallFailed_append_ok (calls : List (List Nat × WriteResult)) (p : List Nat) :
    someCallFailed (calls ++ [(p, WriteResult.ok)]) ↔ someCallFailed calls := by
  constructor
  · rintro ⟨call, hm, hc⟩
    rcases List.mem_append.mp hm with h | h
    · exact ⟨call, h, hc⟩
    · rw [List.mem_singleton] at h
      rw [h] at hc
      exact absurd rfl hc
  · rintro ⟨call, hm, hc⟩
    exact ⟨call, List.mem_append_left _ hm, hc⟩

theorem someCallFailed_append_failed (calls : List (List Nat × WriteResult)) (p : List Nat)
    (n : Nat) (err : errors.GoError) :
    someCallFailed (calls ++ [(p, WriteResult.failed n err)]) :=
  ⟨(p, WriteResult.failed n err), List.mem_append_right _ (List.mem_singleton.mpr rfl),
    fun h => by cases h⟩

theorem sticky_of_eq {σ : Type} {b b1 : bufioWriter σ} (he : b1.err = b.err)
    (hc : b1.calls = b.calls) (hb : b.sticky) : b1.sticky := by
  unfold bufioWriter.sticky at hb ⊢
  rw [he, hc]
  exact hb

theorem Flush_sticky {σ : Type} (W : ioWriter σ) (b : bufioWriter σ) (hb : b.sticky) :
    (bufioWriter.Flush W b).2.sticky := by
  unfold bufioWriter.Flush
  cases he : b.err with
  | some e => simp only [he]; exact hb
  | none =>
    simp only
    by_cases h0 : b.buf.length = 0
    · simp only [if_pos h0]; exact hb
    · simp only [if_neg h0]
      rcases hw : W.Write b.wr b.buf with ⟨res, st⟩
      cases res with
      | ok =>
        simp only
        unfold bufioWriter.sticky at hb ⊢
        simp only [someCallFailed_append_ok]
        rw [he] at hb
        exact hb
      | failed n err =>
        simp only
        unfold bufioWriter.sticky
        simp only [ne_eq, reduceCtorEq, not_false_eq_true, true_iff]
        exact someCallFailed_append_failed _ _ _ _

theorem WriteByte_sticky {σ : Type} (W : ioWriter σ) (b : bufioWriter σ) (c : Nat)
    (hb : b.sticky) : (bufioWriter.WriteByte W b c).2.sticky := by
  unfold bufioWriter.WriteByte
  cases he : b.err with
  | some e => simp only [he]; exact hb
  | none =>
    simp only
    by_cases h0 : b.Available ≤ 0
    · simp only [if_pos h0]
      have hf := Flush_sticky W b hb
      rcases hfl : bufioWriter.Flush W b with ⟨e1, b1⟩
      rw [hfl] at hf
      cases e1 with
      | some e => exact hf
      | none => exact hf
    · simp only [if_neg h0]
      exact sticky_of_eq he.symm rfl hb

theorem writeStringLoop_sticky {σ : Type} (W : ioWriter σ) :
    ∀ (k : Nat) (b : bufioWriter σ) (s : List Nat), b.sticky →
      (bufioWriter.writeStringLoop W k b s).1.sticky := by
  intro k
  induction k with
  | zero => intro b s hb; exact hb
  | succ k ih =>
    intro b s hb
    unfold bufioWriter.writeStringLoop
    by_cases hc : s.length > b.Available ∧ b.err = none
    · simp only [if_pos hc]
      cases hs : (if b.buf.length = 0 then W.WriteString else none) with
      | some writeString =>
        simp only
        rcases hw : writeString b.wr s with ⟨res, st⟩
        cases res with
        | ok =>
          simp only
          apply ih
          unfold bufioWriter.sticky at hb ⊢
          simp only [someCallFailed_append_ok]
          exact hb
        | failed n err =>
          simp only
          apply ih
          unfold bufioWriter.sticky
          simp only [ne_eq, reduceCtorEq, not_false_eq_true, true_iff]
          exact someCallFailed_append_failed _ _ _ _
      | none =>
        simp only
        apply ih
        apply Flush_sticky
        exact hb
    · simp only [if_neg hc]
      exact hb

theorem WriteString_sticky {σ : Type} (W : ioWriter σ) (b : bufioWriter σ) (s : List Nat)
    (hb : b.sticky) : (bufioWriter.WriteString W b s).2.sticky := by
  unfold bufioWriter.WriteString
  have hl := writeStringLoop_sticky W (s.length + 2) b s hb
  rcases hloop : bufioWriter.writeStringLoop W (s.length + 2) b s with ⟨b1, s1⟩
  rw [hloop] at hl
  simp only
  cases he : b1.err with
  | some e => exact hl
  | none => exact sticky_of_eq he.symm rfl hl

theorem andThen_sticky {σ : Type} (r : Option errors.GoError × bufioWriter σ)
    (k : bufioWriter σ → Option errors.GoError × bufioWriter σ)
    (hr : r.2.sticky) (hk : ∀ b, b.sticky → (k b).2.sticky) : (andThen r k).2.sticky := by
  obtain ⟨e, b⟩ := r
  cases e with
  | some e => exact hr
  | none => exact hk b hr

/-! ## Auxiliary lemmas: `csv.Writer.Write` and `Export` report the sticky error -/

theorem andThen_sound {σ : Type} (r : Option errors.GoError × bufioWriter σ)
    (k : bufioWriter σ → Option errors.GoError × bufioWriter σ)
    (hr : r.1 = r.2.err ∧ r.2.sticky)
    (hk : ∀ b, b.err = none → b.sticky → (k b).1 = (k b).2.err ∧ (k b).2.sticky) :
    (andThen r k).1 = (andThen r k).2.err ∧ (andThen r k).2.sticky := by
  obtain ⟨e, b⟩ := r
  cases e with
  | some e => exact hr
  | none => exact hk b hr.1.symm hr.2

theorem WriteByte_sound {σ : Type} (W : ioWriter σ) (b : bufioWriter σ) (c : Nat)
    (hb : b.sticky) :
    (bufioWriter.WriteByte W b c).1 = (bufioWriter.WriteByte W b c).2.err ∧
      (bufioWriter.WriteByte W b c).2.sticky :=
  ⟨WriteByte_reports W b c, WriteByte_sticky W b c hb⟩

theorem WriteString_sound {σ : Type} (W : ioWriter σ) (b : bufioWriter σ) (s : List Nat)
    (hb : b.sticky) :
    (bufioWriter.WriteString W b s).1 = (bufioWriter.WriteString W b s).2.err ∧
      (bufioWriter.WriteString W b s).2.sticky :=
  ⟨WriteString_reports W b s, WriteString_sticky W b s hb⟩

theorem quotedLoop_sound {σ : Type} (W : ioWriter σ) :
    ∀ (cs piece : List Char) (b : bufioWriter σ), b.err = none → b.sticky →
      (quotedLoop W piece cs b).1 = (quotedLoop W piece cs b).2.err ∧
        (quotedLoop W piece cs b).2.sticky := by
  intro cs
  induction cs with
  | nil =>
    intro piece b he hb
    unfold quotedLoop
    by_cases hp : piece = []
    · simp only [if_pos hp]
      exact ⟨he.symm, hb⟩
    · simp only [if_neg hp]
      exact WriteString_sound W b _ hb
  | cons c cs ih =>
    intro piece b he hb
    unfold quotedLoop
    by_cases hc : c = '"' ∨ c = '\r' ∨ c = '\n'
    · simp only [if_pos hc]
      refine andThen_sound _ _ (WriteString_sound W b _ hb) (fun b1 h1 hs1 =>
        andThen_sound _ _ ?_ (fun b2 h2 hs2 => ih [] b2 h2 hs2))
      by_cases hq : c = '"'
      · simp only [if_pos hq]; exact WriteString_sound W b1 _ hs1
      · simp only [if_neg hq]; exact WriteByte_sound W b1 _ hs1
    · simp only [if_neg hc]
      exact ih _ b he hb

theorem writeField_sound {σ : Type} (W : ioWriter σ) (b : bufioWriter σ) (n : Nat)
    (field : String) (he : b.err = none) (hb : b.sticky) :
    (writeField W b n field).1 = (writeField W b n field).2.err ∧
      (writeField W b n field).2.sticky := by
  unfold writeField
  refine andThen_sound _ _ ?_ (fun b1 h1 hs1 => ?_)
  · by_cases hn : n > 0
    · simp only [if_pos hn]; exact WriteByte_sound W b _ hb
    · simp only [if_neg hn]; exact ⟨he.symm, hb⟩
  · by_cases hq : (!fieldNeedsQuotes field) = true
    · simp only [if_pos hq]; exact WriteString_sound W b1 _ hs1
    · simp only [if_neg hq]
      exact andThen_sound _ _ (WriteByte_sound W b1 _ hs1) (fun b2 h2 hs2 =>
        andThen_sound _ _ (quotedLoop_sound W _ _ b2 h2 hs2) (fun b3 _ hs3 =>
          WriteByte_sound W b3 _ hs3))

theorem writeFields_sound {σ : Type} (W : ioWriter σ) :
    ∀ (record : List String) (n : Nat) (b : bufioWriter σ), b.err = none → b.sticky →
      (writeFields W n record b).1 = (writeFields W n record b).2.err ∧
        (writeFields W n record b).2.sticky := by
  intro record
  induction record with
  | nil => intro n b he hb; exact ⟨he.symm, hb⟩
  | cons field rest ih =>
    intro n b he hb
    unfold writeFields
    exact andThen_sound _ _ (writeField_sound W b n field he hb) (fun b1 h1 hs1 =>
      ih (n + 1) b1 h1 hs1)

theorem csvWrite_sound {σ : Type} (W : ioWriter σ) (w : csvWriter σ) (record : List String)
    (he : w.w.err = none) (hb : w.w.sticky) :
    (w.Write W record).1 = (w.Write W record).2.w.err ∧ (w.Write W record).2.w.sticky := by
  have h := andThen_sound (writeFields W 0 record w.w) (fun b => bufioWriter.WriteByte W b 10)
    (writeFields_sound W record 0 w.w he hb) (fun b1 _ hs1 => WriteByte_sound W b1 _ hs1)
  unfold csvWriter.Write
  exact h

theorem exportRows_sound {σ : Type} (W : ioWriter σ) (T : html.EntityTables) (e : CSVExporter)
    (sanitizeHTML : Bool) :
    ∀ (items : List models.Item) (writer : csvWriter σ), writer.w.err = none →
      writer.w.sticky →
      (exportRows W T e sanitizeHTML items writer).1
          = (exportRows W T e sanitizeHTML items writer).2.w.err ∧
        (exportRows W T e sanitizeHTML items writer).2.w.sticky := by
  intro items
  induction items with
  | nil => intro writer he hb; exact ⟨he.symm, hb⟩
  | cons item rest ih =>
    intro writer he hb
    unfold exportRows
    have h := csvWrite_sound W writer (itemRecord T e sanitizeHTML item) he hb
    rcases hw : writer.Write W (itemRecord T e sanitizeHTML item) with ⟨err, writer1⟩
    rw [hw] at h
    cases err with
    | some err => exact h
    | none => exact ih writer1 h.1.symm h.2

theorem sticky_new {σ : Type} (w : σ) : (csvNewWriter w).w.sticky := by
  unfold bufioWriter.sticky csvNewWriter someCallFailed
  simp

/-- What `Export` returns is the sticky error of the buffered writer at the
`return`, and that error is set exactly when a call on the underlying writer
has failed by then. -/
theorem exportBody_sound {σ : Type} (W : ioWriter σ) (T : html.EntityTables) (e : CSVExporter)
    (w : σ) (rss : models.RSS) (sanitizeHTML : Bool) :
    (exportBody W T e w rss sanitizeHTML).1 = (exportBody W T e w rss sanitizeHTML).2.w.err ∧
      (exportBody W T e w rss sanitizeHTML).2.w.sticky := by
  unfold exportBody
  simp only
  have h := csvWrite_sound W (csvNewWriter w)
    ["Title", "Link", "Description", "PubDate", "ImageURL", "Content"] rfl (sticky_new w)
  rcases hw : (csvNewWriter w).Write W
    ["Title", "Link", "Description", "PubDate", "ImageURL", "Content"] with ⟨err, writer1⟩
  rw [hw] at h
  cases err with
  | some err => exact h
  | none =>
    simp only
    have hf : (writer1.Flush W).w.sticky := Flush_sticky W writer1.w h.2
    cases he2 : (writer1.Flush W).Error with
    | some err => exact ⟨he2.symm, hf⟩
    | none => exact exportRows_sound W T e sanitizeHTML _ _ he2 hf

/-- `Export` returns a non-nil error exactly when a call on the underlying writer
made before the `return` has failed. -/
theorem Export_error_iff {σ : Type} (W : ioWriter σ) (T : html.EntityTables) (e : CSVExporter)
    (w : σ) (rss : models.RSS) (sanitizeHTML : Bool) :
    (Export W T e w rss sanitizeHTML).1 ≠ none ↔
      someCallFailed (exportBody W T e w rss sanitizeHTML).2.w.calls := by
  have h := exportBody_sound W T e w rss sanitizeHTML
  have h1 : (Export W T e w rss sanitizeHTML).1 = (exportBody W T e w rss sanitizeHTML).1 := by
    unfold Export
    rcases exportBody W T e w rss sanitizeHTML with ⟨err, writer⟩
    rfl
  rw [h1, h.1]
  exact h.2

/-! ## Auxiliary lemmas: what reaches a writer that never fails -/

theorem accepted_append (a b : List (List Nat × WriteResult)) :
    accepted (a ++ b) = accepted a ++ accepted b := by
  induction a with
  | nil => rfl
  | cons c cs ih =>
    obtain ⟨p, res⟩ := c
    cases res with
    | ok => simp only [List.cons_append, accepted, List.append_eq, ih, List.append_assoc]
    | failed n err =>
      simp only [List.cons_append, accepted, List.append_eq, ih, List.append_assoc]

theorem Flush_never {σ : Type} {W : ioWriter σ} (hW : neverFails W) (b : bufioWriter σ)
    (he : b.err = none) :
    (bufioWriter.Flush W b).1 = none ∧ (bufioWriter.Flush W b).2.err = none ∧
      (bufioWriter.Flush W b).2.buf = [] ∧ (bufioWriter.Flush W b).2.written = b.written := by
  unfold bufioWriter.Flush
  simp only [he]
  by_cases h0 : b.buf.length = 0
  · simp only [if_pos h0, true_and]
    exact ⟨he, List.eq_nil_of_length_eq_zero h0, trivial⟩
  · simp only [if_neg h0]
    have h1 := hW.1 b.wr b.buf
    rcases hw : W.Write b.wr b.buf with ⟨res, st⟩
    rw [hw] at h1
    simp only at h1
    subst h1
    simp only [bufioWriter.written, accepted_append, accepted, List.append_nil, and_self]

theorem WriteByte_never {σ : Type} {W : ioWriter σ} (hW : neverFails W) (b : bufioWriter σ)
    (c : Nat) (he : b.err = none) :
    (bufioWriter.WriteByte W b c).1 = none ∧ (bufioWriter.WriteByte W b c).2.err = none ∧
      (bufioWriter.WriteByte W b c).2.written = b.written ++ [c] := by
  unfold bufioWriter.WriteByte
  simp only [he]
  by_cases h0 : b.Available ≤ 0
  · simp only [if_pos h0]
    obtain ⟨h1, h2, h3, h4⟩ := Flush_never hW b he
    rcases hfl : bufioWriter.Flush W b with ⟨e1, b1⟩
    rw [hfl] at h1 h2 h3 h4
    simp only at h1 h2 h3 h4
    subst h1
    simp only [true_and]
    refine ⟨h2, ?_⟩
    simp only [bufioWriter.written] at h4 ⊢
    rw [← h4, List.append_assoc]
  · simp only [if_neg h0, true_and]
    simp only [bufioWriter.written, List.append_assoc]

theorem writeStringLoop_never {σ : Type} {W : ioWriter σ} (hW : neverFails W) :
    ∀ (k : Nat) (b : bufioWriter σ) (s : List Nat), b.err = none →
      (bufioWriter.writeStringLoop W k b s).1.err = none ∧
        (bufioWriter.writeStringLoop W k b s).1.written
            ++ (bufioWriter.writeStringLoop W k b s).2 = b.written ++ s := by
  intro k
  induction k with
  | zero => intro b s he; exact ⟨he, rfl⟩
  | succ k ih =>
    intro b s he
    unfold bufioWriter.writeStringLoop
    by_cases hc : s.length > b.Available ∧ b.err = none
    · simp only [if_pos hc]
      cases hs : (if b.buf.length = 0 then W.WriteString else none) with
      | some writeString =>
        simp only
        have hbuf : b.buf.length = 0 := by
          by_contra hne
          rw [if_neg hne] at hs
          cases hs
        rw [if_pos hbuf] at hs
        have h1 := hW.2 writeString hs b.wr s
        rcases hw : writeString b.wr s with ⟨res, st⟩
        rw [hw] at h1
        simp only at h1
        subst h1
        simp only
        obtain ⟨i1, i2⟩ := ih { b with wr := st, calls := b.calls ++ [(s, WriteResult.ok)] } [] he
        refine ⟨i1, ?_⟩
        rw [i2]
        simp only [bufioWriter.written, accepted_append, accepted, List.append_nil,
          List.eq_nil_of_length_eq_zero hbuf]
      | none =>
        simp only
        have he1 : ({ b with buf := b.buf ++ s.take b.Available } : bufioWriter σ).err = none := he
        obtain ⟨-, h2, -, h4⟩ := Flush_never hW _ he1
        obtain ⟨i1, i2⟩ := ih _ (s.drop b.Available) h2
        refine ⟨i1, ?_⟩
        rw [i2, h4]
        simp only [bufioWriter.written, List.append_assoc, List.take_append_drop]
    · simp only [if_neg hc, and_true]
      exact he

theorem WriteString_never {σ : Type} {W : ioWriter σ} (hW : neverFails W) (b : bufioWriter σ)
    (s : List Nat) (he : b.err = none) :
    (bufioWriter.WriteString W b s).1 = none ∧ (bufioWriter.WriteString W b s).2.err = none ∧
      (bufioWriter.WriteString W b s).2.written = b.written ++ s := by
  unfold bufioWriter.WriteString
  obtain ⟨h1, h2⟩ := writeStringLoop_never hW (s.length + 2) b s he
  rcases hl : bufioWriter.writeStringLoop W (s.length + 2) b s with ⟨b1, s1⟩
  rw [hl] at h1 h2
  simp only at h1 h2
  simp only [h1, true_and]
  rw [← h2]
  simp only [bufioWriter.written, List.append_assoc]

theorem andThen_never {σ : Type} (r : Option errors.GoError × bufioWriter σ)
    (k : bufioWriter σ → Option errors.GoError × bufioWriter σ) (t1 t2 : List Nat)
    (hr : r.1 = none ∧ r.2.err = none ∧ r.2.written = t1)
    (hk : ∀ b, b.err = none → b.written = t1 →
      (k b).1 = none ∧ (k b).2.err = none ∧ (k b).2.written = t2) :
    (andThen r k).1 = none ∧ (andThen r k).2.err = none ∧ (andThen r k).2.written = t2 := by
  obtain ⟨e, b⟩ := r
  obtain ⟨h1, h2, h3⟩ := hr
  simp only at h1
  subst h1
  exact hk b h2 h3

theorem bytesOf_append (a b : List Char) : bytesOf (a ++ b) = bytesOf a ++ bytesOf b := by
  simp only [bytesOf, List.flatMap_append]

theorem quotedLoop_never {σ : Type} {W : ioWriter σ} (hW : neverFails W) :
    ∀ (cs piece : List Char) (b : bufioWriter σ), b.err = none →
      (quotedLoop W piece cs b).1 = none ∧ (quotedLoop W piece cs b).2.err = none ∧
        (quotedLoop W piece cs b).2.written = b.written ++
          bytesOf (piece ++ cs.flatMap fun c => if c = '"' then ['"', '"'] else [c]) := by
  intro cs
  induction cs with
  | nil =>
    intro piece b he
    unfold quotedLoop
    by_cases hp : piece = []
    · subst hp
      rw [if_pos rfl]
      exact ⟨rfl, he, by simp [bytesOf]⟩
    · simp only [if_neg hp, List.flatMap_nil, List.append_nil]
      exact WriteString_never hW b _ he
  | cons c cs ih =>
    intro piece b he
    unfold quotedLoop
    by_cases hc : c = '"' ∨ c = '\r' ∨ c = '\n'
    · simp only [if_pos hc]
      refine andThen_never _ _ (b.written ++ bytesOf piece) _ (WriteString_never hW b _ he)
        (fun b1 h1 hw1 => andThen_never _ _
          (b.written ++ bytesOf piece ++ bytesOf (if c = '"' then ['"', '"'] else [c])) _ ?_
          (fun b2 h2 hw2 => ?_))
      · by_cases hq : c = '"'
        · simp only [if_pos hq]
          have h := WriteString_never hW b1 [34, 34] h1
          rw [hw1] at h
          exact h
        · simp only [if_neg hq]
          have h := WriteByte_never hW b1 c.toNat h1
          rw [hw1] at h
          have hb : bytesOf [c] = [c.toNat] := by
            rcases hc with e | e | e
            · exact absurd e hq
            · subst e; rfl
            · subst e; rfl
          rw [hb]
          exact h
      · obtain ⟨i1, i2, i3⟩ := ih [] b2 h2
        refine ⟨i1, i2, ?_⟩
        rw [i3, hw2]
        simp only [List.nil_append, List.flatMap_cons, bytesOf_append, List.append_assoc]
    · simp only [if_neg hc]
      obtain ⟨i1, i2, i3⟩ := ih (piece ++ [c]) b he
      refine ⟨i1, i2, ?_⟩
      rw [i3]
      have hq : c ≠ '"' := fun e => hc (Or.inl e)
      simp only [List.flatMap_cons, if_neg hq, List.append_assoc, List.singleton_append]

theorem writeField_never {σ : Type} {W : ioWriter σ} (hW : neverFails W) (b : bufioWriter σ)
    (n : Nat) (field : String) (he : b.err = none) :
    (writeField W b n field).1 = none ∧ (writeField W b n field).2.err = none ∧
      (writeField W b n field).2.written = b.written ++
        bytesOf ((if n > 0 then [','] else []) ++ fieldText field) := by
  unfold writeField
  refine andThen_never _ _ (b.written ++ bytesOf (if n > 0 then [','] else [])) _ ?_
    (fun b1 h1 hw1 => ?_)
  · by_cases hn : n > 0
    · simp only [if_pos hn]
      exact WriteByte_never hW b 44 he
    · simp only [if_neg hn, true_and]
      exact ⟨he, by simp [bytesOf]⟩
  · rw [bytesOf_append, ← List.append_assoc, ← hw1]
    unfold fieldText
    by_cases hq : fieldNeedsQuotes field = true
    · simp only [hq, Bool.not_true, Bool.false_eq_true, if_false, if_true]
      refine andThen_never _ _ (b1.written ++ [34]) _ (WriteByte_never hW b1 34 h1)
        (fun b2 h2 hw2 => andThen_never _ _
          (b1.written ++ [34] ++ bytesOf
            (field.data.flatMap fun c => if c = '"' then ['"', '"'] else [c])) _ ?_
          (fun b3 h3 hw3 => ?_))
      · have h := quotedLoop_never hW field.data [] b2 h2
        rw [hw2, List.nil_append] at h
        exact h
      · have h := WriteByte_never hW b3 34 h3
        rw [hw3] at h
        obtain ⟨i1, i2, i3⟩ := h
        refine ⟨i1, i2, ?_⟩
        rw [i3]
        have e1 : bytesOf ['"'] = [34] := rfl
        simp only [List.cons_append, List.append_assoc]
        rw [show ('"' :: ((field.data.flatMap fun c => if c = '"' then ['"', '"'] else [c])
            ++ ['"'])) = ['"'] ++ ((field.data.flatMap fun c =>
              if c = '"' then ['"', '"'] else [c]) ++ ['"']) from rfl,
          bytesOf_append, bytesOf_append, e1]
        simp only [List.singleton_append, List.cons_append, List.nil_append, List.append_assoc]
    · have hq1 : fieldNeedsQuotes field = false := by
        cases hf : fieldNeedsQuotes field
        · rfl
        · exact absurd hf hq
      simp only [hq1, Bool.not_false, if_true, Bool.false_eq_true, if_false]
      exact WriteString_never hW b1 _ h1

theorem writeFields_never {σ : Type} {W : ioWriter σ} (hW : neverFails W) :
    ∀ (record : List String) (n : Nat) (b : bufioWriter σ), b.err = none →
      (writeFields W (n + 1) record b).1 = none ∧
        (writeFields W (n + 1) record b).2.err = none ∧
        (writeFields W (n + 1) record b).2.written = b.written ++
          bytesOf (record.flatMap fun g => ',' :: fieldText g) := by
  intro record
  induction record with
  | nil =>
    intro n b he
    refine ⟨rfl, he, ?_⟩
    simp [writeFields, bytesOf]
  | cons field rest ih =>
    intro n b he
    unfold writeFields
    refine andThen_never _ _ (b.written ++ bytesOf (',' :: fieldText field)) _ ?_
      (fun b1 h1 hw1 => ?_)
    · have h := writeField_never hW b (n + 1) field he
      simp only [gt_iff_lt, Nat.zero_lt_succ, if_true, List.singleton_append] at h
      exact h
    · obtain ⟨i1, i2, i3⟩ := ih (n + 1) b1 h1
      refine ⟨i1, i2, ?_⟩
      rw [i3, hw1]
      simp only [List.flatMap_cons, bytesOf_append, List.append_assoc]

theorem csvWrite_never {σ : Type} {W : ioWriter σ} (hW : neverFails W) (w : csvWriter σ)
    (record : List String) (he : w.w.err = none) :
    (w.Write W record).1 = none ∧ (w.Write W record).2.w.err = none ∧
      (w.Write W record).2.w.written = w.w.written ++ bytesOf (recordText record) := by
  have h : (andThen (writeFields W 0 record w.w) (fun b => bufioWriter.WriteByte W b 10)).1 = none ∧
      (andThen (writeFields W 0 record w.w) (fun b => bufioWriter.WriteByte W b 10)).2.err = none ∧
      (andThen (writeFields W 0 record w.w) (fun b => bufioWriter.WriteByte W b 10)).2.written
        = w.w.written ++ bytesOf (recordText record) := by
    cases record with
    | nil =>
      refine andThen_never _ _ w.w.written _ ⟨rfl, he, rfl⟩ (fun b1 h1 hw1 => ?_)
      have h := WriteByte_never hW b1 10 h1
      rw [hw1] at h
      exact h
    | cons field rest =>
      refine andThen_never _ _
        (w.w.written ++ bytesOf (fieldText field ++ rest.flatMap fun g => ',' :: fieldText g)) _
        ?_ (fun b1 h1 hw1 => ?_)
      · unfold writeFields
        refine andThen_never _ _ (w.w.written ++ bytesOf (fieldText field)) _ ?_
          (fun b1 h1 hw1 => ?_)
        · have h := writeField_never hW w.w 0 field he
          simp only [gt_iff_lt, Nat.lt_irrefl, if_false, List.nil_append] at h
          exact h
        · obtain ⟨i1, i2, i3⟩ := writeFields_never hW rest 0 b1 h1
          refine ⟨i1, i2, ?_⟩
          rw [i3, hw1, bytesOf_append, List.append_assoc]
      · have h := WriteByte_never hW b1 10 h1
        rw [hw1] at h
        obtain ⟨i1, i2, i3⟩ := h
        refine ⟨i1, i2, ?_⟩
        rw [i3]
        simp only [recordText, bytesOf_append, List.append_assoc]
        rfl
  unfold csvWriter.Write
  exact h

theorem exportRows_never {σ : Type} {W : ioWriter σ} (hW : neverFails W)
    (T : html.EntityTables) (e : CSVExporter) (sanitizeHTML : Bool) :
    ∀ (items : List models.Item) (writer : csvWriter σ), writer.w.err = none →
      (exportRows W T e sanitizeHTML items writer).1 = none ∧
        (exportRows W T e sanitizeHTML items writer).2.w.err = none ∧
        (exportRows W T e sanitizeHTML items writer).2.w.written = writer.w.written ++
          bytesOf (items.flatMap fun item => recordText (itemRecord T e sanitizeHTML item)) := by
  intro items
  induction items with
  | nil =>
    intro writer he
    refine ⟨rfl, he, ?_⟩
    simp [exportRows, bytesOf]
  | cons item rest ih =>
    intro writer he
    unfold exportRows
    obtain ⟨h1, h2, h3⟩ := csvWrite_never hW writer (itemRecord T e sanitizeHTML item) he
    rcases hw : writer.Write W (itemRecord T e sanitizeHTML item) with ⟨err, writer1⟩
    rw [hw] at h1 h2 h3
    simp only at h1 h2 h3
    subst h1
    simp only
    obtain ⟨i1, i2, i3⟩ := ih writer1 h2
    refine ⟨i1, i2, ?_⟩
    rw [i3, h3]
    simp only [List.flatMap_cons, bytesOf_append, List.append_assoc]

/-- On a writer that never fails `Export` returns nil, leaves nothing in the
buffer, and the writer has taken the text of the header record followed by the
texts of the records of the items, in order. -/
theorem Export_never {σ : Type} {W : ioWriter σ} (hW : neverFails W) (T : html.EntityTables)
    (e : CSVExporter) (w : σ) (rss : models.RSS) (sanitizeHTML : Bool) :
    (Export W T e w rss sanitizeHTML).1 = none ∧
      (Export W T e w rss sanitizeHTML).2.w.buf = [] ∧
      accepted (Export W T e w rss sanitizeHTML).2.w.calls =
        bytesOf (recordText ["Title", "Link", "Description", "PubDate", "ImageURL", "Content"]
          ++ rss.Channel.Items.flatMap fun item =>
            recordText (itemRecord T e sanitizeHTML item)) := by
  have hbody : (exportBody W T e w rss sanitizeHTML).1 = none ∧
      (exportBody W T e w rss sanitizeHTML).2.w.err = none ∧
      (exportBody W T e w rss sanitizeHTML).2.w.written =
        bytesOf (recordText ["Title", "Link", "Description", "PubDate", "ImageURL", "Content"]
          ++ rss.Channel.Items.flatMap fun item =>
            recordText (itemRecord T e sanitizeHTML item)) := by
    unfold exportBody
    simp only
    obtain ⟨h1, h2, h3⟩ := csvWrite_never hW (csvNewWriter w)
      ["Title", "Link", "Description", "PubDate", "ImageURL", "Content"] rfl
    rcases hw : (csvNewWriter w).Write W
      ["Title", "Link", "Description", "PubDate", "ImageURL", "Content"] with ⟨err, writer1⟩
    rw [hw] at h1 h2 h3
    simp only at h1 h2 h3
    subst h1
    simp only
    obtain ⟨-, f2, -, f4⟩ := Flush_never hW writer1.w h2
    have he2 : (writer1.Flush W).Error = none := f2
    rw [he2]
    simp only
    obtain ⟨i1, i2, i3⟩ := exportRows_never hW T e sanitizeHTML rss.Channel.Items
      (writer1.Flush W) f2
    refine ⟨i1, i2, ?_⟩
    rw [i3]
    have f4' : (writer1.Flush W).w.written = writer1.w.written := f4
    rw [f4', h3, bytesOf_append]
    rfl
  unfold Export
  rcases hb : exportBody W T e w rss sanitizeHTML with ⟨err, writer⟩
  rw [hb] at hbody
  obtain ⟨h1, h2, h3⟩ := hbody
  simp only at h1 h2 h3
  obtain ⟨-, -, f3, f4⟩ := Flush_never hW writer.w h2
  refine ⟨h1, f3, ?_⟩
  have f4' : accepted (writer.Flush W).w.calls ++ (writer.Flush W).w.buf = writer.w.written := f4
  have f3' : (writer.Flush W).w.buf = [] := f3
  rw [f3', List.append_nil] at f4'
  show accepted (writer.Flush W).w.calls = _
  rw [f4', h3]

/-! ## Auxiliary lemmas: the records in the text -/

theorem recordEnds_quote (q : Bool) (cs : List Char) :
    recordEnds q ('"' :: cs) = recordEnds (!q) cs := by
  simp only [recordEnds, if_true]

theorem recordEnds_inside (c : Char) (cs : List Char) (h : c ≠ '"') :
    recordEnds true (c :: cs) = recordEnds true cs := by
  simp only [recordEnds, if_neg h, Bool.true_eq_false, and_false, if_false]

theorem recordEnds_outside (c : Char) (cs : List Char) (h : c ≠ '"') (hn : c ≠ '\n') :
    recordEnds false (c :: cs) = recordEnds false cs := by
  simp only [recordEnds, if_neg h, hn, false_and, if_false]

theorem recordEnds_newline (cs : List Char) :
    recordEnds false ('\n' :: cs) = 1 + recordEnds false cs := by
  have hc : ('\n' : Char) ≠ '"' := by decide
  simp only [recordEnds, if_neg hc, true_and, if_true]

theorem recordEnds_quoted (cs rest : List Char) :
    recordEnds true ((cs.flatMap fun c => if c = '"' then ['"', '"'] else [c]) ++ rest)
      = recordEnds true rest := by
  induction cs with
  | nil => rfl
  | cons c cs ih =>
    rw [List.flatMap_cons, List.append_assoc]
    by_cases hq : c = '"'
    · rw [if_pos hq]
      show recordEnds true ('"' :: '"' :: _) = _
      rw [recordEnds_quote, recordEnds_quote]
      exact ih
    · rw [if_neg hq]
      show recordEnds true (c :: _) = _
      rw [recordEnds_inside c _ hq]
      exact ih

theorem recordEnds_plain (l rest : List Char) (h : ∀ c ∈ l, c ≠ '"' ∧ c ≠ '\n') :
    recordEnds false (l ++ rest) = recordEnds false rest := by
  induction l with
  | nil => rfl
  | cons c cs ih =>
    obtain ⟨h1, h2⟩ := h c (List.mem_cons_self _ _)
    show recordEnds false (c :: (cs ++ rest)) = _
    rw [recordEnds_outside c _ h1 h2]
    exact ih (fun x hx => h x (List.mem_cons_of_mem _ hx))

theorem plain_of_not_needsQuotes (field : String) (h : fieldNeedsQuotes field = false) :
    ∀ c ∈ field.data, c ≠ '"' ∧ c ≠ '\n' := by
  intro c hc
  unfold fieldNeedsQuotes at h
  by_cases h1 : field = ""
  · rw [h1] at hc
    cases hc
  · rw [if_neg h1] at h
    by_cases h2 : field = "\\."
    · rw [if_pos h2] at h
      cases h
    · rw [if_neg h2] at h
      by_cases h3 : field.data.any (fun c => c = '\n' || c = '\r' || c = '"' || c = ',') = true
      · rw [if_pos h3] at h
        cases h
      · have h4 : ¬ (c = '\n' ∨ c = '\r' ∨ c = '"' ∨ c = ',') := by
          intro hx
          apply h3
          rw [List.any_eq_true]
          refine ⟨c, hc, ?_⟩
          simp only [Bool.or_eq_true, decide_eq_true_eq]
          tauto
        exact ⟨fun e => h4 (Or.inr (Or.inr (Or.inl e))), fun e => h4 (Or.inl e)⟩

theorem recordEnds_field (field : String) (rest : List Char) :
    recordEnds false (fieldText field ++ rest) = recordEnds false rest := by
  unfold fieldText
  cases hq : fieldNeedsQuotes field with
  | false =>
    simp only [Bool.false_eq_true, if_false]
    exact recordEnds_plain _ _ (plain_of_not_needsQuotes field hq)
  | true =>
    simp only [if_true]
    show recordEnds false ('"' :: (((field.data.flatMap fun c =>
      if c = '"' then ['"', '"'] else [c]) ++ ['"']) ++ rest)) = _
    rw [recordEnds_quote, List.append_assoc]
    show recordEnds true _ = _
    rw [recordEnds_quoted]
    show recordEnds true ('"' :: rest) = _
    rw [recordEnds_quote]
    rfl

theorem recordEnds_fields (fields : List String) (rest : List Char) :
    recordEnds false ((fields.flatMap fun g => ',' :: fieldText g) ++ rest)
      = recordEnds false rest := by
  induction fields with
  | nil => rfl
  | cons g gs ih =>
    rw [List.flatMap_cons, List.append_assoc]
    show recordEnds false (',' :: (fieldText g ++ _)) = _
    rw [recordEnds_outside ',' _ (by decide) (by decide), recordEnds_field]
    exact ih

theorem recordEnds_record (record : List String) (rest : List Char) :
    recordEnds false (recordText record ++ rest) = 1 + recordEnds false rest := by
  unfold recordText
  cases record with
  | nil => exact recordEnds_newline rest
  | cons field fields =>
    simp only [List.append_assoc]
    rw [recordEnds_field, recordEnds_fields]
    exact recordEnds_newline rest

theorem recordEnds_records (records : List (List String)) :
    recordEnds false (records.flatMap recordText) = records.length := by
  induction records with
  | nil => rfl
  | cons r rs ih =>
    simp only [List.flatMap_cons, List.length_cons]
    rw [recordEnds_record, ih]
    omega

theorem neverFails_bytesBuffer : neverFails bytesBuffer :=
  ⟨fun _ _ => rfl, fun _ h _ _ => by cases h; rfl⟩

/-! ## Claims C25, C26 and C27: `Export` -/

/-- C25: for every feed with N items and either value of the sanitize flag, on a
writer that never fails `Export` returns nil and the writer has taken, with
nothing left in the buffer, the texts of N+1 records: first the header record
["Title", "Link", "Description", "PubDate", "ImageURL", "Content"], then one
record of six fields per item, in the order of the items; a reader of CSV finds
N+1 record ends in that text; with no item the output is the header alone. -/
theorem c25_header_then_one_record_per_item {σ : Type} (W : ioWriter σ) (hW : neverFails W)
    (T : html.EntityTables) (w : σ) (rss : models.RSS) (sanitizeHTML : Bool) :
    (Export W T NewCSVExporter w rss sanitizeHTML).1 = none ∧
    (Export W T NewCSVExporter w rss sanitizeHTML).2.w.buf = [] ∧
    accepted (Export W T NewCSVExporter w rss sanitizeHTML).2.w.calls =
      bytesOf ((["Title", "Link", "Description", "PubDate", "ImageURL", "Content"] ::
        rss.Channel.Items.map (itemRecord T NewCSVExporter sanitizeHTML)).flatMap recordText) ∧
    (["Title", "Link", "Description", "PubDate", "ImageURL", "Content"] ::
        rss.Channel.Items.map (itemRecord T NewCSVExporter sanitizeHTML)).length
      = rss.Channel.Items.length + 1 ∧
    (∀ record ∈ rss.Channel.Items.map (itemRecord T NewCSVExporter sanitizeHTML),
      record.length = 6) ∧
    recordEnds false ((["Title", "Link", "Description", "PubDate", "ImageURL", "Content"] ::
        rss.Channel.Items.map (itemRecord T NewCSVExporter sanitizeHTML)).flatMap recordText)
      = rss.Channel.Items.length + 1 ∧
    (rss.Channel.Items = [] →
      accepted (Export W T NewCSVExporter w rss sanitizeHTML).2.w.calls =
        bytesOf "Title,Link,Description,PubDate,ImageURL,Content\n".data) := by
  obtain ⟨h1, h2, h3⟩ := Export_never hW T NewCSVExporter w rss sanitizeHTML
  have hflat : (["Title", "Link", "Description", "PubDate", "ImageURL", "Content"] ::
        rss.Channel.Items.map (itemRecord T NewCSVExporter sanitizeHTML)).flatMap recordText
      = recordText ["Title", "Link", "Description", "PubDate", "ImageURL", "Content"]
          ++ rss.Channel.Items.flatMap fun item =>
            recordText (itemRecord T NewCSVExporter sanitizeHTML item) := by
    rw [List.flatMap_cons, List.flatMap_map]
  refine ⟨h1, h2, ?_, ?_, ?_, ?_, ?_⟩
  · rw [h3, hflat]
  · simp only [List.length_cons, List.length_map]
  · intro record hr
    obtain ⟨item, -, rfl⟩ := List.mem_map.mp hr
    rfl
  · rw [recordEnds_records]
    simp only [List.length_cons, List.length_map]
  · intro hnil
    rw [h3, hnil, List.flatMap_nil, List.append_nil]
    decide

/-- Witness of C25: the feed of three items of the repository's test, written to
a `bytes.Buffer`. -/
theorem c25_header_then_one_record_per_item_witness :
    accepted (Export bytesBuffer html.xmlEntities NewCSVExporter []
        ⟨⟨[⟨"Item 1", "https://example.com/1", "", "", "", []⟩,
            ⟨"Item 2", "https://example.com/2", "", "", "", []⟩,
            ⟨"Item 3", "https://example.com/3", "", "", "", []⟩]⟩⟩ false).2.w.calls =
      bytesOf ((["Title", "Link", "Description", "PubDate", "ImageURL", "Content"] ::
        [⟨"Item 1", "https://example.com/1", "", "", "", []⟩,
          ⟨"Item 2", "https://example.com/2", "", "", "", []⟩,
          ⟨"Item 3", "https://example.com/3", "", "", "", []⟩].map
            (itemRecord html.xmlEntities NewCSVExporter false)).flatMap recordText) :=
  (c25_header_then_one_record_per_item bytesBuffer neverFails_bytesBuffer html.xmlEntities []
    ⟨⟨[⟨"Item 1", "https://example.com/1", "", "", "", []⟩,
        ⟨"Item 2", "https://example.com/2", "", "", "", []⟩,
        ⟨"Item 3", "https://example.com/3", "", "", "", []⟩]⟩⟩ false).2.2.1

/-- C26: the record that `Export` builds for an item is
[Title, Link, D, PubDate, GetImageURL(item), K], where D and K are the item's
Description and ContentEncoded as they are when sanitize is false, and their
images under `StripHTML` when it is true; on a writer that never fails the text
of that record is what the writer takes for the item, after the texts of the
header and of the items before it and before those of the items after it. -/
theorem c26_record_of_item {σ : Type} (W : ioWriter σ) (hW : neverFails W)
    (T : html.EntityTables) (w : σ) (pre post : List models.Item) (item : models.Item)
    (sanitizeHTML : Bool) :
    itemRecord T NewCSVExporter false item =
      [item.Title, item.Link, item.Description, item.PubDate, item.GetImageURL,
        item.ContentEncoded] ∧
    itemRecord T NewCSVExporter true item =
      [item.Title, item.Link, utils.StripHTML T utils.NewHTMLSanitizer item.Description,
        item.PubDate, item.GetImageURL,
        utils.StripHTML T utils.NewHTMLSanitizer item.ContentEncoded] ∧
    accepted (Export W T NewCSVExporter w ⟨⟨pre ++ item :: post⟩⟩ sanitizeHTML).2.w.calls =
      bytesOf (recordText ["Title", "Link", "Description", "PubDate", "ImageURL", "Content"]
          ++ pre.flatMap fun x => recordText (itemRecord T NewCSVExporter sanitizeHTML x))
        ++ bytesOf (recordText
          [item.Title, item.Link,
            if sanitizeHTML then utils.StripHTML T utils.NewHTMLSanitizer item.Description
            else item.Description,
            item.PubDate, item.GetImageURL,
            if sanitizeHTML then utils.StripHTML T utils.NewHTMLSanitizer item.ContentEncoded
            else item.ContentEncoded])
        ++ bytesOf (post.flatMap fun x =>
            recordText (itemRecord T NewCSVExporter sanitizeHTML x)) := by
  refine ⟨rfl, rfl, ?_⟩
  obtain ⟨-, -, h3⟩ := Export_never hW T NewCSVExporter w ⟨⟨pre ++ item :: post⟩⟩ sanitizeHTML
  rw [h3]
  simp only [List.flatMap_append, List.flatMap_cons, bytesOf_append, List.append_assoc]
  rfl

/-- Witness of C26: an item with markup in its description and content, exported
with sanitize = true to a `bytes.Buffer`. -/
theorem c26_record_of_item_witness :
    itemRecord html.xmlEntities NewCSVExporter true
        ⟨"Item 1", "https://example.com/1", "<p>Description 1</p>", "Mon, 02 Jan 2006",
          "<div>Content 1</div>", [⟨"https://example.com/image.jpg", "image/jpeg", ""⟩]⟩ =
      ["Item 1", "https://example.com/1",
        utils.StripHTML html.xmlEntities utils.NewHTMLSanitizer "<p>Description 1</p>",
        "Mon, 02 Jan 2006",
        models.Item.GetImageURL
          ⟨"Item 1", "https://example.com/1", "<p>Description 1</p>", "Mon, 02 Jan 2006",
            "<div>Content 1</div>", [⟨"https://example.com/image.jpg", "image/jpeg", ""⟩]⟩,
        utils.StripHTML html.xmlEntities utils.NewHTMLSanitizer "<div>Content 1</div>"] :=
  (c26_record_of_item bytesBuffer neverFails_bytesBuffer html.xmlEntities [] [] []
    ⟨"Item 1", "https://example.com/1", "<p>Description 1</p>", "Mon, 02 Jan 2006",
      "<div>Content 1</div>", [⟨"https://example.com/image.jpg", "image/jpeg", ""⟩]⟩ true).2.1

set_option maxRecDepth 100000 in
/-- C27, the claim fails on the code: the feed of the repository's test (one item
titled "Item 1") exported to the test's `failingWriter` with `failAfter = 1`.
The header is flushed by the first write; the record of the item stays in the
buffer until the deferred `writer.Flush()`, whose write fails when the returned
value is already fixed: `Export` returns nil although a write has failed. -/
theorem c27_failure_of_last_flush_is_dropped :
    ¬ ∀ (W : ioWriter Nat) (w : Nat) (rss : models.RSS) (sanitizeHTML : Bool),
        someCallFailed (Export W html.xmlEntities NewCSVExporter w rss sanitizeHTML).2.w.calls →
          (Export W html.xmlEntities NewCSVExporter w rss sanitizeHTML).1 ≠ none := by
  intro h
  have h1 := h (failingWriter 1) 0 ⟨⟨[testItem]⟩⟩ false
  revert h1
  decide

end services

namespace services

/-! ## Claim C30: the empty feed -/

/-- C30: when the request is made, the response has status 200 and its body is
read and parses into a feed with zero items, `FetchRSS` returns no feed and the
error `ErrNoRSSItems`; when instead the body fails to parse with error `perr`,
`FetchRSS` returns no feed and the error "failed to parse RSS XML: " wrapping
`perr`, a different error value with a different message; and whatever the
network and the decoder do, a call that returns a nil error returns a feed with
at least one item. -/
theorem c30_empty_feed_is_an_error (out : Outside) (f : RSSFetcher) (url : String)
    (resp : Response) (body : List Nat)
    (hreq : out.NewRequestWithContext url = none)
    (hdo : out.Do url [("User-Agent", f.userAgent),
        ("Accept", "application/rss+xml, application/xml, text/xml, */*")] = Except.ok resp)
    (hstatus : resp.StatusCode = 200)
    (hbody : resp.Body = Except.ok body) :
    (∀ rss : models.RSS, out.Unmarshal body = Except.ok rss → rss.Channel.Items = [] →
      FetchRSS out f url = (none, some errors.ErrNoRSSItems)) ∧
    (∀ perr : errors.GoError, out.Unmarshal body = Except.error perr →
      FetchRSS out f url
          = (none, some (errors.GoError.wrapped "failed to parse RSS XML: " perr)) ∧
        errors.GoError.wrapped "failed to parse RSS XML: " perr ≠ errors.ErrNoRSSItems ∧
        (errors.GoError.wrapped "failed to parse RSS XML: " perr).Error
          ≠ errors.ErrNoRSSItems.Error) ∧
    (∀ (out1 : Outside) (f1 : RSSFetcher) (url1 : String),
      (FetchRSS out1 f1 url1).2 = none →
        ∃ rss : models.RSS, (FetchRSS out1 f1 url1).1 = some rss ∧ rss.Channel.Items ≠ []) := by
  have hst : ¬ resp.StatusCode ≠ StatusOK := by
    rw [hstatus]
    decide
  refine ⟨?_, ?_, ?_⟩
  · intro rss hrss hitems
    unfold FetchRSS
    simp only [hreq, hdo, if_neg hst, hbody, hrss, hitems, List.length_nil, if_true]
  · intro perr hperr
    refine ⟨?_, ?_, ?_⟩
    · unfold FetchRSS
      simp only [hreq, hdo, if_neg hst, hbody, hperr]
    · intro h
      cases h
    · intro h
      have h1 : ("failed to parse RSS XML: " ++ perr.Error).data
          = "no items found in RSS feed".data := congrArg String.data h
      rw [String.data_append] at h1
      have h2 : some 'f' = some 'n' := congrArg List.head? h1
      exact absurd h2 (by decide)
  · intro out1 f1 url1 h
    unfold FetchRSS at h ⊢
    cases h1 : out1.NewRequestWithContext url1 with
    | some err => simp only [h1] at h; cases h
    | none =>
      simp only [h1] at h ⊢
      cases h2 : out1.Do url1 [("User-Agent", f1.userAgent),
          ("Accept", "application/rss+xml, application/xml, text/xml, */*")] with
      | error err => simp only [h2] at h; cases h
      | ok resp1 =>
        simp only [h2] at h ⊢
        by_cases h3 : resp1.StatusCode ≠ StatusOK
        · simp only [if_pos h3] at h; cases h
        · simp only [if_neg h3] at h ⊢
          cases h4 : resp1.Body with
          | error err => simp only [h4] at h; cases h
          | ok body1 =>
            simp only [h4] at h ⊢
            cases h5 : out1.Unmarshal body1 with
            | error err => simp only [h5] at h; cases h
            | ok rss =>
              simp only [h5] at h ⊢
              by_cases h6 : rss.Channel.Items.length = 0
              · simp only [if_pos h6] at h; cases h
              · simp only [if_neg h6]
                exact ⟨rss, rfl, fun e => h6 (by rw [e]; rfl)⟩

/-- Witness of C30: a server that answers 200 with a body that decodes to a feed
without items. -/
theorem c30_empty_feed_is_an_error_witness :
    FetchRSS
        { NewRequestWithContext := fun _ => none,
          Do := fun _ _ => Except.ok ⟨200, "200 OK", Except.ok [60, 114, 115, 115, 47, 62]⟩,
          Unmarshal := fun _ => Except.ok ⟨⟨[]⟩⟩ }
        (NewRSSFetcher 30000000000 "RSS-to-CSV/1.0") "https://example.com/feed.xml"
      = (none, some errors.ErrNoRSSItems) :=
  (c30_empty_feed_is_an_error
    { NewRequestWithContext := fun _ => none,
      Do := fun _ _ => Except.ok ⟨200, "200 OK", Except.ok [60, 114, 115, 115, 47, 62]⟩,
      Unmarshal := fun _ => Except.ok ⟨⟨[]⟩⟩ }
    (NewRSSFetcher 30000000000 "RSS-to-CSV/1.0") "https://example.com/feed.xml"
    ⟨200, "200 OK", Except.ok [60, 114, 115, 115, 47, 62]⟩ [60, 114, 115, 115, 47, 62]
    rfl rfl rfl rfl).1 ⟨⟨[]⟩⟩ rfl rfl

end services

namespace handlers

/-! ## Claim C29: validation and admission in the export route -/

theorem exportRoute_eq {σ : Type} (Parse : String → Option validator.URL)
    (out : services.Outside) (T : html.EntityTables) (W : services.ioWriter σ) (h : Handler)
    (rl : middleware.RateLimiter) (w : σ) (r : Request) (tGet tAllow : Int) :
    exportRoute Parse out T W h rl w r tGet tAllow =
      if (middleware.admissionCheck rl (middleware.getClientIP r.toRequest) tGet tAllow).1 then
        ((HandleExport Parse out T W h w r).1, (HandleExport Parse out T W h w r).2,
          (middleware.admissionCheck rl (middleware.getClientIP r.toRequest) tGet tAllow).2)
      else
        ([Effect.httpError "Rate limit exceeded. Please try again later." 429],
          (W.Write w (services.bytesOf
            "Rate limit exceeded. Please try again later.\n".data)).2,
          (middleware.admissionCheck rl (middleware.getClientIP r.toRequest) tGet tAllow).2) := by
  unfold exportRoute
  rw [middleware.Limit_eq]
  cases hc : (middleware.admissionCheck rl (middleware.getClientIP r.toRequest) tGet tAllow).1
  · simp only [Bool.not_false, if_true, List.foldl_cons, List.foldl_nil, List.nil_append,
      Bool.false_eq_true, if_false]
    rfl
  · simp only [Bool.not_true, Bool.false_eq_true, if_false, List.foldl_cons, List.foldl_nil,
      List.nil_append, if_true]

/-- C29, the claim fails: the route is `rateLimiter.Limit(handler.HandleExport)`,
so the admission check runs before the url parameter is looked at.  A client
with five tokens that sends the url "ftp://x" is answered 400, and its bucket
holds four tokens afterwards (with an empty bucket the answer would be 429). -/
theorem c29_invalid_url_costs_a_token :
    ¬ ∀ (Parse : String → Option validator.URL) (rl : middleware.RateLimiter) (r : Request)
        (tGet tAllow : Int) (err : errors.GoError),
        validator.ValidateURL Parse defaultHandler.validator
            (validator.SanitizeInput defaultHandler.validator r.queryURL) = some err →
          (exportRoute Parse noNetwork html.xmlEntities services.bytesBuffer defaultHandler
              rl [] r tGet tAllow).1
            = [Effect.httpError ("Invalid URL: " ++ err.Error) 400] ∧
          middleware.mapGet
              (exportRoute Parse noNetwork html.xmlEntities services.bytesBuffer defaultHandler
                rl [] r tGet tAllow).2.2.visitors (middleware.getClientIP r.toRequest)
            = middleware.mapGet rl.visitors (middleware.getClientIP r.toRequest) := by
  intro h
  have h1 := (h (fun _ => none) ⟨[("192.168.1.1", ⟨5, 0⟩)], 60, 5 * middleware.Minute⟩
    ⟨⟨"", "", "192.168.1.1:1234"⟩, "ftp://x", ""⟩ 0 0
    (errors.GoError.validation ⟨"url", "invalid URL format"⟩) (by decide)).2
  revert h1
  decide

/-- C29 as amended: in the handling of an export request the admission check of
the rate limiter runs first, and the limiter is left as that check leaves it.
For a request whose sanitized url parameter fails validation with error `err`:
when the check rejects, the response is the 429 error (`http.Error` with the
rate limit message, which it writes to the body) and the url parameter is never
looked at; when the check admits, the response is the 400 validation error
(`http.Error` with "Invalid URL: " followed by the message of `err`, which it
writes to the body), and the token taken by the check stays taken. -/
theorem c29_validation_after_admission {σ : Type} (Parse : String → Option validator.URL)
    (out : services.Outside) (T : html.EntityTables) (W : services.ioWriter σ) (h : Handler)
    (rl : middleware.RateLimiter) (w : σ) (r : Request) (tGet tAllow : Int)
    (err : errors.GoError)
    (hinvalid : validator.ValidateURL Parse h.validator
      (validator.SanitizeInput h.validator r.queryURL) = some err) :
    (exportRoute Parse out T W h rl w r tGet tAllow).2.2
      = (middleware.admissionCheck rl (middleware.getClientIP r.toRequest) tGet tAllow).2 ∧
    ((middleware.admissionCheck rl (middleware.getClientIP r.toRequest) tGet tAllow).1 = false →
      (exportRoute Parse out T W h rl w r tGet tAllow).1
          = [Effect.httpError "Rate limit exceeded. Please try again later." 429] ∧
        (exportRoute Parse out T W h rl w r tGet tAllow).2.1
          = (W.Write w (services.bytesOf
              "Rate limit exceeded. Please try again later.\n".data)).2) ∧
    ((middleware.admissionCheck rl (middleware.getClientIP r.toRequest) tGet tAllow).1 = true →
      (exportRoute Parse out T W h rl w r tGet tAllow).1
          = [Effect.httpError ("Invalid URL: " ++ err.Error) 400] ∧
        (exportRoute Parse out T W h rl w r tGet tAllow).2.1
          = (W.Write w (services.bytesOf ("Invalid URL: " ++ err.Error ++ "\n").data)).2) := by
  have hh : HandleExport Parse out T W h w r
      = ([Effect.httpError ("Invalid URL: " ++ err.Error) 400],
          (W.Write w (services.bytesOf ("Invalid URL: " ++ err.Error ++ "\n").data)).2) := by
    unfold HandleExport
    simp only [hinvalid]
    rfl
  rw [exportRoute_eq]
  refine ⟨?_, ?_, ?_⟩
  · split <;> rfl
  · intro hc
    simp only [hc, Bool.false_eq_true, if_false, and_self]
  · intro hc
    simp only [hc, if_true, hh, and_self]

/-- Witness of the amended C29: a new client sends an empty url parameter; the
answer is 400, its body is the message and a line feed, and the new bucket has
59 of its 60 tokens left. -/
theorem c29_validation_after_admission_witness :
    (exportRoute (fun _ => none) noNetwork html.xmlEntities services.bytesBuffer defaultHandler
        (middleware.NewRateLimiter 60) [] ⟨⟨"", "", "192.168.1.1:1234"⟩, "", ""⟩ 0 0).1
      = [Effect.httpError ("Invalid URL: " ++ errors.ErrEmptyURL.Error) 400] ∧
    (exportRoute (fun _ => none) noNetwork html.xmlEntities services.bytesBuffer defaultHandler
        (middleware.NewRateLimiter 60) [] ⟨⟨"", "", "192.168.1.1:1234"⟩, "", ""⟩ 0 0).2.1
      = services.bytesOf "Invalid URL: URL cannot be empty\n".data ∧
    (exportRoute (fun _ => none) noNetwork html.xmlEntities services.bytesBuffer defaultHandler
        (middleware.NewRateLimiter 60) [] ⟨⟨"", "", "192.168.1.1:1234"⟩, "", ""⟩ 0 0).2.2
      = ⟨[("192.168.1.1", ⟨59, 0⟩)], 60, 5 * middleware.Minute⟩ :=
  ⟨((c29_validation_after_admission (fun _ => none) noNetwork html.xmlEntities
      services.bytesBuffer defaultHandler (middleware.NewRateLimiter 60) []
      ⟨⟨"", "", "192.168.1.1:1234"⟩, "", ""⟩ 0 0 errors.ErrEmptyURL (by decide)).2.2
      (by decide)).1,
    by decide, by decide⟩

end handlers

namespace concurrent

/-! ## Claim C28: the sweep and concurrent admission checks -/

set_option maxRecDepth 1000000 in
/-- C28, evaluation at the failing input: a limiter of capacity 60 made at
instant 0, one call at instant 0, and calls at instant 600 s while the sweep
runs (the run `sweepRace`, of which every step can be taken).  With two calls at
instant 600 s: the sweep deletes the entry between the `getVisitor` and the
`allowRequest` of goroutine 1, goroutine 2 makes a second visitor, both calls
return true, each after taking a token of its own visitor, and the visitor left
in the map holds 59 tokens.  With 61 calls at instant 600 s, during which the
clock does not advance: all 61 return true, with capacity 60.  When every check
and every sweep is one step, 61 checks at instant 600 s admit 60 calls, whether
the sweep has deleted the entry before them or not. -/
theorem c28_sweep_splits_bucket :
    (exec (start 60 0 3) (sweepRace 2)).map (fun s => (s.entry, s.heap))
      = some (some 1,
          [{ tokens := 59, lastVisit := 600000000000, mu := none },
           { tokens := 59, lastVisit := 600000000000, mu := none }]) ∧
    (exec (start 60 0 3) (sweepRace 2)).map
        (fun s => s.threads.map fun t => (t.v, t.now, t.result))
      = some [(0, 0, true), (0, 600000000000, true), (1, 600000000000, true)] ∧
    (exec (start 60 0 62) (sweepRace 61)).map
        (fun s => (s.clock, admittedAt s 600000000000))
      = some (600000000000, 61) ∧
    (middleware.checkRun (middleware.NewRateLimiter 60) "192.168.1.1"
        ((0, 0) :: List.replicate 61 (600000000000, 600000000000))).1
      = List.replicate 61 true ++ [false] ∧
    (middleware.checkRun
        (middleware.cleanupTick
          (middleware.checkRun (middleware.NewRateLimiter 60) "192.168.1.1" [(0, 0)]).2
          600000000000)
        "192.168.1.1" (List.replicate 61 (600000000000, 600000000000))).1
      = List.replicate 60 true ++ [false] := by
  refine ⟨?_, ?_, ?_, ?_, ?_⟩
  · decide
  · decide
  · decide
  · decide
  · decide

end concurrent

namespace errors

/-! ## Claim C31: the message of a `FetchError` -/

/-- The error value `&FetchError{URL, StatusCode, Err}` with a cause that is not
nil has the message of the struct. -/
theorem GoError.Error_fetch (URL : String) (StatusCode : Int) (Err : GoError) :
    (GoError.fetch URL StatusCode Err).Error
      = FetchError.Error { URL := URL, StatusCode := StatusCode, Err := some Err } := by
  simp only [GoError.Error, FetchError.Error, formatError]

theorem toString_of_pos {n : Int} (h : 0 < n) : toString n = decimal n.toNat := by
  cases n with
  | ofNat m => rfl
  | negSucc m =>
    have := Int.negSucc_lt_zero m
    omega

/-- C31: the message of a `FetchError` with a positive status code is
`failed to fetch RSS from `, the URL, ` (status: `, the decimal digits of the
status code, `): ` and the cause as `%v` prints it (the text of its `Error()`,
`<nil>` when it is nil); with a status code that is zero or negative the part in
brackets is left out; and `Unwrap` returns the field `Err`. -/
theorem c31_fetch_error_message (e : FetchError) :
    (e.StatusCode > 0 →
      e.Error = "failed to fetch RSS from " ++ e.URL ++ " (status: "
        ++ decimal e.StatusCode.toNat ++ "): " ++ formatError e.Err) ∧
    (e.StatusCode ≤ 0 →
      e.Error = "failed to fetch RSS from " ++ e.URL ++ ": " ++ formatError e.Err) ∧
    e.Unwrap = e.Err := by
  refine ⟨fun h => ?_, fun h => ?_, rfl⟩
  · simp only [FetchError.Error, if_pos h, toString_of_pos h]
  · simp only [FetchError.Error, if_neg (not_lt.mpr h)]

/-- Witness of C31: the two cases of `TestFetchError` and the case of
`TestFetchError_Unwrap`. -/
theorem c31_fetch_error_message_witness :
    FetchError.Error ⟨"https://example.com/feed", 404, some (GoError.sentinel "not found")⟩
      = "failed to fetch RSS from https://example.com/feed (status: 404): not found" ∧
    FetchError.Error ⟨"https://example.com/feed", 0,
        some (GoError.sentinel "connection timeout")⟩
      = "failed to fetch RSS from https://example.com/feed: connection timeout" ∧
    FetchError.Unwrap ⟨"https://example.com", 0, some (GoError.sentinel "inner error")⟩
      = some (GoError.sentinel "inner error") :=
  ⟨((c31_fetch_error_message
        ⟨"https://example.com/feed", 404, some (GoError.sentinel "not found")⟩).1
      (by decide)).trans (by decide),
    ((c31_fetch_error_message
        ⟨"https://example.com/feed", 0, some (GoError.sentinel "connection timeout")⟩).2.1
      (by decide)).trans (by decide),
    (c31_fetch_error_message
      ⟨"https://example.com", 0, some (GoError.sentinel "inner error")⟩).2.2⟩

end errors

namespace middleware

/-! ## Claims C32 and C33: bounds on the admissions and on the tokens -/

/-- Go's `Sub` keeps the comparison with a cleanup interval below the longest
`time.Duration`: for two readings of the clock (int64), the saturated difference
exceeds the interval exactly when the difference does. -/
theorem Sub_gt_iff {t u c : Int} (ht0 : -9223372036854775808 ≤ t) (ht1 : t < 9223372036854775808)
    (hu0 : -9223372036854775808 ≤ u) (hu1 : u < 9223372036854775808)
    (hc0 : minDuration ≤ c) (hc : c < maxDuration) :
    Sub t u > c ↔ t - u > c := by
  simp only [Sub, wrapInt64, maxDuration, minDuration] at hc0 hc ⊢
  split_ifs <;> omega

theorem admissionCheck_rate (rl : RateLimiter) (ip : String) (tGet tAllow : Int) :
    (admissionCheck rl ip tGet tAllow).2.rate = rl.rate := by
  rw [admissionCheck_eq]
  cases h : mapGet rl.visitors ip with
  | some v => rw [getVisitor_some tGet h]
  | none => rw [getVisitor_none tGet h]

/-- A call of `allowRequest` keeps the count of tokens between zero and any bound
that is at least 60 and to which the seconds of the longest `time.Duration` can
be added in Go's `int`. -/
theorem allowRequest_bounds {v : visitor} (now : Int) {M : Int} (hM : 60 ≤ M)
    (hM2 : M + 9223372036 < 9223372036854775808)
    (h0 : 0 ≤ v.tokens) (h1 : v.tokens ≤ M) :
    0 ≤ (allowRequest v now).2.tokens ∧ (allowRequest v now).2.tokens ≤ M := by
  have hr : 0 ≤ (refill v now).tokens ∧ (refill v now).tokens ≤ M := by
    rw [refill_eq]
    split
    · rename_i hk
      have hle := wholeSeconds_le (Sub_range now v.lastVisit).2
      have hw := wrapInt64_of_range (x := v.tokens + wholeSeconds (Sub now v.lastVisit))
        (by omega) (by omega)
      show 0 ≤ min 60 (wrapInt64 (v.tokens + wholeSeconds (Sub now v.lastVisit))) ∧
        min 60 (wrapInt64 (v.tokens + wholeSeconds (Sub now v.lastVisit))) ≤ M
      rw [hw]
      omega
    · exact ⟨h0, h1⟩
  by_cases hp : 0 < (refill v now).tokens
  · rw [allowRequest_of_refill_pos hp]
    show 0 ≤ (refill v now).tokens - 1 ∧ (refill v now).tokens - 1 ≤ M
    omega
  · rw [allowRequest_of_refill_nonpos hp]
    exact hr

/-- One admission check keeps every bucket of the limiter between zero and the
larger of the rate and 60. -/
theorem admissionCheck_bounds {rl : RateLimiter} (a : String) (tGet tAllow : Int)
    (hC : 0 ≤ rl.rate) (hC2 : rl.rate + 9223372036 < 9223372036854775808)
    (h : ∀ (b : String) (v : visitor), mapGet rl.visitors b = some v →
      0 ≤ v.tokens ∧ v.tokens ≤ max rl.rate 60) :
    ∀ (b : String) (v : visitor),
      mapGet (admissionCheck rl a tGet tAllow).2.visitors b = some v →
        0 ≤ v.tokens ∧ v.tokens ≤ max rl.rate 60 := by
  have hM2 : max rl.rate 60 + 9223372036 < 9223372036854775808 := by omega
  intro b v hb
  by_cases hab : a = b
  · subst hab
    cases hg : mapGet rl.visitors a with
    | some w =>
      rw [(admissionCheck_present tGet tAllow hg).2] at hb
      cases hb
      obtain ⟨h0, h1⟩ := h a w hg
      exact allowRequest_bounds tAllow (le_max_right _ _) hM2 h0 h1
    | none =>
      rw [(admissionCheck_fresh tGet tAllow hg).2] at hb
      cases hb
      exact allowRequest_bounds tAllow (le_max_right _ _) hM2 hC (le_max_left _ _)
  · rw [(admissionCheck_frame rl hab tGet tAllow).1] at hb
    exact h b v hb

theorem checks_bounds (run : List (String × Int × Int)) :
    ∀ rl : RateLimiter, 0 ≤ rl.rate → rl.rate + 9223372036 < 9223372036854775808 →
      (∀ (b : String) (v : visitor), mapGet rl.visitors b = some v →
        0 ≤ v.tokens ∧ v.tokens ≤ max rl.rate 60) →
      (checks rl run).rate = rl.rate ∧
        ∀ (b : String) (v : visitor), mapGet (checks rl run).visitors b = some v →
          0 ≤ v.tokens ∧ v.tokens ≤ max rl.rate 60 := by
  induction run with
  | nil => intro rl _ _ h; exact ⟨rfl, h⟩
  | cons p run ih =>
    intro rl hC hC2 h
    obtain ⟨a, tGet, tAllow⟩ := p
    have hr := admissionCheck_rate rl a tGet tAllow
    have h1 := admissionCheck_bounds a tGet tAllow hC hC2 h
    rw [← hr] at h1 hC hC2
    have h2 := ih (admissionCheck rl a tGet tAllow).2 hC hC2 h1
    rw [hr] at h2
    exact h2

/-- C33, the claim at the capacity `MaxInt64`: the limiter made by
`NewRateLimiter(MaxInt64)`, checked at instant 0 and again two seconds later,
holds a bucket of `-2^63` tokens, the sum of `2^63 - 2` tokens and 2 seconds in
Go's `int`.  The same happens at the capacity `MaxInt64 - 9223372035`, one more
than the bound of the amended claim, when the first check reads the clock in
`allowRequest` 9223372036 seconds after it made the bucket. -/
theorem c33_capacity_overflows :
    (0 : Int) ≤ 9223372036854775807 ∧
    mapGet (checks (NewRateLimiter 9223372036854775807)
        [("192.168.1.1", 0, 0), ("192.168.1.1", 2 * Second, 2 * Second)]).visitors
        "192.168.1.1" = some { tokens := -9223372036854775808, lastVisit := 2 * Second } ∧
    ¬ ((0 : Int) ≤ -9223372036854775808) ∧
    mapGet (checks (NewRateLimiter (9223372036854775807 - 9223372035))
        [("192.168.1.1", 0, 9223372036 * Second)]).visitors
        "192.168.1.1"
      = some { tokens := -9223372036854775808, lastVisit := 9223372036 * Second } := by
  decide

/-- C33, amended: in a limiter made by `NewRateLimiter(C)` with
`0 ≤ C ≤ MaxInt64 - 9223372036` (the seconds of the longest `time.Duration` can
be added to `C` in Go's `int`), after any run of admission checks, for any
identities and at any instants (non-decreasing or not), every bucket holds at
least zero tokens and at most the larger of `C` and 60; and a refill, whatever
the bucket and the capacity, leaves at most 60 tokens. -/
theorem c33_tokens_bounded (C : Int) (run : List (String × Int × Int)) (ip : String)
    (v : visitor) (hC : 0 ≤ C) (hC2 : C ≤ 9223372036854775807 - 9223372036)
    (h : mapGet (checks (NewRateLimiter C) run).visitors ip = some v) :
    (0 ≤ v.tokens ∧ v.tokens ≤ max C 60) ∧
      ∀ (w : visitor) (now : Int), 0 < wholeSeconds (Sub now w.lastVisit) →
        (refill w now).tokens ≤ 60 := by
  refine ⟨(checks_bounds run (NewRateLimiter C) hC
    (by show C + 9223372036 < 9223372036854775808; omega)
    (fun b w hb => by cases hb)).2 ip v h, ?_⟩
  intro w now hk
  rw [refill_eq, if_pos hk]
  exact min_le_left _ _

/-- Witness of C33: a limiter of rate 10 checked at instant 0 and again 100
seconds later holds a bucket of 59 tokens: its refill stopped at 60, not at the
rate. -/
theorem c33_tokens_bounded_witness :
    mapGet (checks (NewRateLimiter 10)
        [("192.168.1.1", 0, 0), ("192.168.1.1", 100 * Second, 100 * Second)]).visitors
        "192.168.1.1" = some { tokens := 59, lastVisit := 100 * Second } ∧
    ((0 : Int) ≤ 59 ∧ (59 : Int) ≤ max 10 60) :=
  ⟨by decide,
    (c33_tokens_bounded 10
      [("192.168.1.1", 0, 0), ("192.168.1.1", 100 * Second, 100 * Second)] "192.168.1.1"
      { tokens := 59, lastVisit := 100 * Second } (by decide) (by decide) (by decide)).1⟩

end middleware

namespace strings

/-! ## Auxiliary lemmas: a trimmed text is trimmed to itself -/

theorem dropWhile_of_head (p : Char → Bool) (l : List Char)
    (h : ∀ c, l.head? = some c → p c = false) : l.dropWhile p = l := by
  cases l with
  | nil => rfl
  | cons c cs =>
    have hc : p c = false := h c rfl
    rw [List.dropWhile_cons_of_neg (by rw [hc]; decide)]

theorem rdropWhile_of_last (p : Char → Bool) (l : List Char)
    (h : ∀ c, l.getLast? = some c → p c = false) : l.rdropWhile p = l := by
  rcases List.eq_nil_or_concat l with rfl | ⟨init, c, rfl⟩
  · rfl
  · have hc : p c = false := h c (by simp)
    rw [List.concat_eq_append, List.rdropWhile_concat_neg]
    rw [hc]
    decide

/-- `TrimSpace` leaves a text with no white space at its ends as it is. -/
theorem trim_of_trimmed (l : List Char)
    (hh : ∀ c, l.head? = some c → unicode.IsSpace c = false)
    (hl : ∀ c, l.getLast? = some c → unicode.IsSpace c = false) :
    List.rdropWhile unicode.IsSpace (List.dropWhile unicode.IsSpace l) = l := by
  rw [dropWhile_of_head _ l hh, rdropWhile_of_last _ l hl]

end strings

namespace utils

/-! ## Claim C34: `StripHTML` on its own result -/

theorem afterGt_gt_mem (l : List Char) :
    ∀ r : List Char, regexp.afterGt l = some r → '>' ∈ l := by
  induction l with
  | nil => intro r hr; simp [regexp.afterGt] at hr
  | cons x xs ih =>
    intro r hr
    by_cases hx : x = '>'
    · exact hx ▸ List.mem_cons_self _ _
    · simp only [regexp.afterGt, if_neg hx] at hr
      exact List.mem_cons_of_mem _ (ih r hr)

/-- A literal under `(?i)` whose first rune does not fold to `>`: the text it
matches does not begin with `>`, and what follows the match is part of the text. -/
theorem litFold_head (p : Char) (ps : List Char) (hp : regexp.foldEq p '>' = false)
    (x r : List Char) (h : regexp.litFold (p :: ps) x = some r) :
    x.head? ≠ some '>' ∧ ∀ z ∈ r, z ∈ x := by
  refine ⟨?_, litFold_mem (p :: ps) x r h⟩
  cases x with
  | nil => simp
  | cons y ys =>
    intro e
    have hy : y = '>' := by simpa using e
    subst hy
    simp [regexp.litFold, hp] at h

/-- An expression made of `<`, a literal under `(?i)` and a rest that needs a
`>` matches only where a tag starts. -/
theorem literal_opensTag (p : Char) (ps : List Char) (hp : regexp.foldEq p '>' = false)
    (k : List Char → Option (List Char))
    (hk : ∀ r rest : List Char, k r = some rest → '>' ∈ r) :
    regexp.OpensTag { matchAt := fun l => (regexp.litFold ('<' :: p :: ps) l).bind k } := by
  intro c cs rest h
  have h0 : (regexp.litFold ('<' :: p :: ps) (c :: cs)).bind k = some rest := h
  by_cases hc : c = '<'
  · subst hc
    cases h1 : regexp.litFold ('<' :: p :: ps) ('<' :: cs) with
    | none => rw [h1] at h0; cases h0
    | some r =>
      rw [h1] at h0
      have h2 : regexp.litFold (p :: ps) cs = some r := by
        simpa [regexp.litFold, foldEq_lt] using h1
      obtain ⟨h3, h4⟩ := litFold_head p ps hp cs r h2
      exact ⟨rfl, h3, h4 _ (hk r rest h0)⟩
  · rw [litFold_lt_none _ cs hc] at h0
    cases h0

theorem script_opensTag : regexp.OpensTag NewHTMLSanitizer.scriptRegex :=
  literal_opensTag 's' ['c', 'r', 'i', 'p', 't'] (by decide) _ (by
    intro r rest h
    cases hg : regexp.afterGt r with
    | none => rw [hg] at h; cases h
    | some r1 => exact afterGt_gt_mem r r1 hg)

theorem style_opensTag : regexp.OpensTag NewHTMLSanitizer.styleRegex :=
  literal_opensTag 's' ['t', 'y', 'l', 'e'] (by decide) _ (by
    intro r rest h
    cases hg : regexp.afterGt r with
    | none => rw [hg] at h; cases h
    | some r1 => exact afterGt_gt_mem r r1 hg)

theorem br_opensTag : regexp.OpensTag NewHTMLSanitizer.brRegex :=
  literal_opensTag 'b' ['r'] (by decide) _ (by
    intro r rest h
    have hsub : ∀ z ∈ r.dropWhile regexp.perlSpace, z ∈ r :=
      fun z hz => (List.dropWhile_sublist _).subset hz
    split at h
    · rename_i rest1 heq
      exact hsub _ (by rw [heq]; simp)
    · rename_i rest1 heq
      exact hsub _ (by rw [heq]; simp)
    · cases h)

theorem litHeading_head (x r : List Char) (h : regexp.litHeading x = some r) :
    x.head? ≠ some '>' ∧ ∀ z ∈ r, z ∈ x := by
  unfold regexp.litHeading at h
  cases h1 : regexp.litFold ['h'] x with
  | none => rw [h1] at h; cases h
  | some r1 =>
    rw [h1] at h
    obtain ⟨h2, h3⟩ := litFold_head 'h' [] (by decide) x r1 h1
    refine ⟨h2, ?_⟩
    cases r1 with
    | nil => cases h
    | cons c cs =>
      simp only at h
      split at h
      · cases h
        exact fun z hz => h3 z (List.mem_cons_of_mem c hz)
      · cases h

theorem blockNameThenGt_head (x rest : List Char)
    (h : regexp.blockNameThenGt x = some rest) : x.head? ≠ some '>' ∧ '>' ∈ x := by
  unfold regexp.blockNameThenGt at h
  obtain ⟨alt, halt, h1⟩ := List.exists_of_findSome?_eq_some h
  have key : ∀ r : List Char, alt x = some r → x.head? ≠ some '>' ∧ ∀ z ∈ r, z ∈ x := by
    intro r hr
    simp only [regexp.blockNames, List.mem_cons, List.mem_singleton, List.not_mem_nil,
      or_false] at halt
    rcases halt with e | e | e | e | e | e <;> subst e
    · exact litFold_head 'p' [] (by decide) x r hr
    · exact litFold_head 'd' ['i', 'v'] (by decide) x r hr
    · exact litHeading_head x r hr
    · exact litFold_head 'u' ['l'] (by decide) x r hr
    · exact litFold_head 'o' ['l'] (by decide) x r hr
    · exact litFold_head 'l' ['i'] (by decide) x r hr
  cases h2 : alt x with
  | none => rw [h2] at h1; cases h1
  | some r =>
    rw [h2] at h1
    obtain ⟨h3, h4⟩ := key r h2
    exact ⟨h3, h4 _ (afterGt_gt_mem r rest h1)⟩

theorem block_opensTag : regexp.OpensTag NewHTMLSanitizer.blockRegex := by
  intro c cs rest h
  have h0 : (match c :: cs with
    | '<' :: '/' :: r =>
      (regexp.blockNameThenGt r).orElse fun _ => regexp.blockNameThenGt ('/' :: r)
    | '<' :: r => regexp.blockNameThenGt r
    | _ => none) = some rest := h
  split at h0
  · rename_i r heq
    obtain ⟨e1, e2⟩ := List.cons.inj heq
    subst e1
    subst e2
    refine ⟨rfl, by simp, ?_⟩
    cases h1 : regexp.blockNameThenGt r with
    | some r1 => exact List.mem_cons_of_mem _ (blockNameThenGt_head r r1 h1).2
    | none =>
      rw [h1] at h0
      exact (blockNameThenGt_head _ rest h0).2
  · rename_i r _ heq
    obtain ⟨e1, e2⟩ := List.cons.inj heq
    subst e1
    subst e2
    obtain ⟨h1, h2⟩ := blockNameThenGt_head cs rest h0
    exact ⟨rfl, h1, h2⟩
  · cases h0

theorem tag_opensTag : regexp.OpensTag NewHTMLSanitizer.tagRegex := by
  intro c cs rest h
  have h0 : (match c :: cs with
    | '<' :: c :: cs => if c = '>' then none else regexp.afterGt (c :: cs)
    | _ => none) = some rest := h
  split at h0
  · rename_i d ds heq
    obtain ⟨e1, e2⟩ := List.cons.inj heq
    subst e1
    subst e2
    by_cases hd : d = '>'
    · rw [if_pos hd] at h0
      cases h0
    · rw [if_neg hd] at h0
      exact ⟨rfl, by simpa using hd, afterGt_gt_mem _ rest h0⟩
  · cases h0

/-- An expression that matches only where a tag starts leaves a text without
tags as it is. -/
theorem replaceLoop_tagFree {re : regexp.Regexp} (hre : regexp.OpensTag re) (repl : List Char)
    (l : List Char) (hl : TagFree l) : regexp.replaceLoop re repl 0 l = l := by
  induction l with
  | nil => rfl
  | cons c cs ih =>
    obtain ⟨h1, h2⟩ := (tagFree_cons c cs).mp hl
    have hm : re.matchAt (c :: cs) = none := by
      cases hm : re.matchAt (c :: cs) with
      | none => rfl
      | some rest =>
        obtain ⟨e1, e2, e3⟩ := hre c cs rest hm
        rcases h1 e1 with h3 | h3
        · exact absurd h3 e2
        · exact absurd e3 h3
    rw [regexp.replaceLoop_none _ _ hm, ih h2]

/-- The stages after the decoding leave no tag, for every text. -/
theorem afterUnescape_tagFree (l : List Char) : TagFree (afterUnescape NewHTMLSanitizer l) := by
  unfold afterUnescape
  obtain ⟨a, b, e⟩ := strings.trim_segment
    (regexp.replaceLoop NewHTMLSanitizer.multiLineRegex ['\n', '\n'] 0
      (regexp.replaceLoop NewHTMLSanitizer.tagRegex [] 0
        (regexp.replaceLoop NewHTMLSanitizer.blockRegex ['\n'] 0
          (regexp.replaceLoop NewHTMLSanitizer.brRegex ['\n'] 0
            (regexp.replaceLoop NewHTMLSanitizer.styleRegex [] 0
              (regexp.replaceLoop NewHTMLSanitizer.scriptRegex [] 0 l))))))
  exact tagFree_segment a b e (multiLine_stage_tagFree _ 0 (tag_stage_tagFree _ 0))

/-- The stages after the decoding leave no three newlines in a row, for every
text. -/
theorem afterUnescape_no_triple (l : List Char) :
    ¬ HasTripleNewline (afterUnescape NewHTMLSanitizer l) := by
  unfold afterUnescape
  intro ht
  obtain ⟨a, b, e⟩ := strings.trim_segment
    (regexp.replaceLoop NewHTMLSanitizer.multiLineRegex ['\n', '\n'] 0
      (regexp.replaceLoop NewHTMLSanitizer.tagRegex [] 0
        (regexp.replaceLoop NewHTMLSanitizer.blockRegex ['\n'] 0
          (regexp.replaceLoop NewHTMLSanitizer.brRegex ['\n'] 0
            (regexp.replaceLoop NewHTMLSanitizer.styleRegex [] 0
              (regexp.replaceLoop NewHTMLSanitizer.scriptRegex [] 0 l))))))
  exact (multiLine_spec _ _ (Nat.le_refl _)).1 (hasTripleNewline_segment a b e ht)

/-- The stages after the decoding change nothing in a text that has no tag, no
three newlines in a row and no white space at its ends. -/
theorem afterUnescape_fixed (l : List Char) (h1 : TagFree l) (h2 : ¬ HasTripleNewline l)
    (h3 : ∀ c, l.head? = some c → unicode.IsSpace c = false)
    (h4 : ∀ c, l.getLast? = some c → unicode.IsSpace c = false) :
    afterUnescape NewHTMLSanitizer l = l := by
  unfold afterUnescape
  rw [replaceLoop_tagFree script_opensTag _ l h1, replaceLoop_tagFree style_opensTag _ l h1,
    replaceLoop_tagFree br_opensTag _ l h1, replaceLoop_tagFree block_opensTag _ l h1,
    replaceLoop_tagFree tag_opensTag _ l h1, multiLine_id l h2]
  exact strings.trim_of_trimmed l h3 h4

/-- C34: for every input and every table of entities, if the result of
`StripHTML` holds no `&` then `StripHTML` applied to that result returns it. -/
theorem c34_result_without_ampersand_is_fixed (T : html.EntityTables) (htmlStr : String)
    (h : '&' ∉ (StripHTML T NewHTMLSanitizer htmlStr).data) :
    StripHTML T NewHTMLSanitizer (StripHTML T NewHTMLSanitizer htmlStr)
      = StripHTML T NewHTMLSanitizer htmlStr := by
  apply String.ext
  rw [StripHTML_data T NewHTMLSanitizer (StripHTML T NewHTMLSanitizer htmlStr)]
  by_cases ho : StripHTML T NewHTMLSanitizer htmlStr = ""
  · rw [if_pos ho, ho]
  · rw [if_neg ho, html.unescapeLoop_id T _ h]
    have hd := StripHTML_data T NewHTMLSanitizer htmlStr
    by_cases hs : htmlStr = ""
    · rw [if_pos hs] at hd
      exact absurd (String.ext hd) ho
    · rw [if_neg hs] at hd
      rw [hd]
      exact afterUnescape_fixed _ (afterUnescape_tagFree _) (afterUnescape_no_triple _)
        (fun c hc => strings.trim_head _ c hc) (fun c hc => strings.trim_last _ c hc)

/-- Witness of C34: the result "Hello world" of a text with tags holds no `&`
and is returned by a second pass. -/
theorem c34_result_without_ampersand_is_fixed_witness :
    '&' ∉ (StripHTML html.xmlEntities NewHTMLSanitizer "<p>Hello <b>world</b></p>").data ∧
    StripHTML html.xmlEntities NewHTMLSanitizer "<p>Hello <b>world</b></p>" = "Hello world" ∧
    StripHTML html.xmlEntities NewHTMLSanitizer
        (StripHTML html.xmlEntities NewHTMLSanitizer "<p>Hello <b>world</b></p>")
      = StripHTML html.xmlEntities NewHTMLSanitizer "<p>Hello <b>world</b></p>" :=
  ⟨by decide, by decide,
    c34_result_without_ampersand_is_fixed html.xmlEntities "<p>Hello <b>world</b></p>"
      (by decide)⟩

/-- Without the condition of C34 a second pass goes on: the result "&lt;b&gt;"
of the doubly encoded "&amp;lt;b&amp;gt;" is decoded to a tag and removed. -/
theorem StripHTML_twice_decodes :
    StripHTML html.xmlEntities NewHTMLSanitizer "&amp;lt;b&amp;gt;" = "&lt;b&gt;" ∧
    StripHTML html.xmlEntities NewHTMLSanitizer "&lt;b&gt;" = "" := by
  decide

end utils

namespace validator

/-! ## Claim C35: `SanitizeInput` twice -/

/-- C35: for every input, `SanitizeInput` applied to its own result returns that
result. -/
theorem c35_sanitize_input_idempotent (v : URLValidator) (input : String) :
    SanitizeInput v (SanitizeInput v input) = SanitizeInput v input := by
  apply String.ext
  have h1 : NoTagOpen (SanitizeInput v input).data := by
    rw [SanitizeInput_data]
    obtain ⟨a, b, e⟩ := strings.trim_segment (regexp.replaceLoop inputTagExpr [] 0 input.data)
    exact noTagOpen_segment a b e (inputTag_stage_noTagOpen _ 0)
  rw [SanitizeInput_data v (SanitizeInput v input), inputTag_stage_id _ h1]
  exact strings.trim_of_trimmed _ (fun c hc => strings.trim_head _ c hc)
    (fun c hc => strings.trim_last _ c hc)

end validator
